import Mathlib

/-!
# Connectivity derivation of a hexahedral mesh (`Hexmesh`)

A shallow embedding of `meshes/hexmesh/hexmesh.cpp`: the raw topology
(`verts`, `cells`), the edge deriver and cell-cell adjacency
(`update_interior_adjacency`), the boundary extractor
(`update_surface_adjacency`) and the queries they use.

Conventions of the embedding
* `std::vector` is a `List`; `v.at(i)` is `vec_at`, which fails with
  `Fault.out_of_range` exactly when `i` is not a valid index.
* `assert(c)` fails with `Fault.assertion_failed` when `c` is false.
* `std::map` is an association list kept in increasing key order, so that
  iterating it visits the keys in sorted order; `std::set` is used by the code
  only through membership tests and insertions and is a plain list.
* Vertex, edge, face and cell ids are natural numbers (the code uses `uint`;
  no arithmetic on ids can wrap for vectors that fit in memory).
-/

namespace cinolib

/-! ## Failures -/

/-- The two ways in which a rebuild can abort: a checked access `at` outside the
vector, or a failed `assert`. -/
inductive Fault where
  | out_of_range
  | assertion_failed
  deriving DecidableEq, Repr

/-! ## Raw data and tables -/

/-- A point of space, `vec3d`, with exact coordinates. -/
structure vec3d where
  x : ℚ
  y : ℚ
  z : ℚ
  deriving DecidableEq, Repr

/-- Modelled from the spec: the static lookup tables `HEXA_EDGES[12][2]` and
`HEXA_FACES[6][4]` are declared in a header that is not among the sources. The
spec fixes their shape only (12 local edges, 6 local faces of 4 local vertices,
local vertex numbers `0..7`), so the code is embedded with the two tables as a
parameter. -/
structure HexaTables where
  HEXA_EDGES : Nat → Nat → Nat
  HEXA_FACES : Nat → Nat → Nat

/-- The mesh object: raw topology, derived entities, boundary flags and the
twelve adjacency relations. -/
structure Hexmesh where
  verts : List vec3d
  cells : List Nat
  edges : List Nat
  faces : List Nat
  v_on_srf : List Bool
  e_on_srf : List Bool
  v2v : List (List Nat)
  v2e : List (List Nat)
  v2f : List (List Nat)
  v2c : List (List Nat)
  e2f : List (List Nat)
  e2c : List (List Nat)
  f2e : List (List Nat)
  f2f : List (List Nat)
  f2c : List Nat
  c2e : List (List Nat)
  c2f : List (List Nat)
  c2c : List (List Nat)
  deriving Repr

/-- The mesh as the constructors leave it right before `init()`: raw arrays set,
every derived container empty. -/
def Hexmesh.raw (verts : List vec3d) (cells : List Nat) : Hexmesh :=
  { verts := verts, cells := cells, edges := [], faces := [],
    v_on_srf := [], e_on_srf := [],
    v2v := [], v2e := [], v2f := [], v2c := [], e2f := [], e2c := [],
    f2e := [], f2f := [], f2c := [], c2e := [], c2f := [], c2c := [] }

/-- Modelled from the spec: `verts_per_cell()` is declared in the missing class
header; a hexahedron has 8 vertices. -/
def verts_per_cell : Nat := 8

/-- Modelled from the spec: `edges_per_cell()` is declared in the missing class
header; the local-edge table has 12 entries. -/
def edges_per_cell : Nat := 12

/-- Modelled from the spec: `faces_per_cell()` is declared in the missing class
header; the local-face table has 6 entries. -/
def faces_per_cell : Nat := 6

/-- Modelled from the spec: `verts_per_face()` is declared in the missing class
header; a face is a quad. -/
def verts_per_face : Nat := 4

/-- Modelled from the spec: `num_verts()` is declared in the missing class
header; one vertex per entry of `verts`. -/
def num_verts (m : Hexmesh) : Nat := m.verts.length

/-- Modelled from the spec: `num_cells()` is declared in the missing class
header; `len(cells) == 8 * num_cells`. -/
def num_cells (m : Hexmesh) : Nat := m.cells.length / verts_per_cell

/-- Modelled from the spec: `num_edges()` is declared in the missing class
header; `len(edges) == 2 * num_edges`. -/
def num_edges (m : Hexmesh) : Nat := m.edges.length / 2

/-- Modelled from the spec: `num_faces()` is declared in the missing class
header; `len(faces) == 4 * num_faces`. -/
def num_faces (m : Hexmesh) : Nat := m.faces.length / verts_per_face

/-! ## Containers -/

/-- Checked access `v.at(i)`. -/
def vec_at {α : Type} (xs : List α) (i : Nat) : Except Fault α :=
  match xs[i]? with
  | some x => .ok x
  | none => .error .out_of_range

/-- The statement `v.at(i).push_back(x)` on a vector of vectors. -/
def push_back_at (xs : List (List Nat)) (i x : Nat) : Except Fault (List (List Nat)) :=
  if i < xs.length then .ok (xs.modify (fun l => l ++ [x]) i) else .error .out_of_range

/-- The statement `v.at(i) = x`. -/
def assign_at {α : Type} (xs : List α) (i : Nat) (x : α) : Except Fault (List α) :=
  if i < xs.length then .ok (xs.set i x) else .error .out_of_range

/-- The statement `v.resize(n, x)`: keep the first `n` entries, pad with `x`. -/
def resize {α : Type} (xs : List α) (n : Nat) (x : α) : List α :=
  xs.take n ++ List.replicate (n - xs.length) x

/-- The statement `assert(c)`. -/
def assert (c : Bool) : Except Fault Unit :=
  if c then .ok () else .error .assertion_failed

/-- Reads `xs.at(i)` for every `i` of a list of indices, left to right. -/
def vec_at_all (xs : List Nat) : List Nat → Except Fault (List Nat)
  | [] => .ok []
  | i :: is => do
    let v ← vec_at xs i
    let vs ← vec_at_all xs is
    pure (v :: vs)

/-- Modelled from the spec: `ipair` is declared in a missing header; a pair of
ids. -/
abbrev ipair : Type := Nat × Nat

/-- Modelled from the spec: `unique_pair` is declared in a missing header; the
canonical (min,max) pair of two ids. -/
def unique_pair (a b : Nat) : ipair := (min a b, max a b)

/-- The order `std::pair` keys are compared with: lexicographic. -/
def ipair_lt (a b : ipair) : Bool :=
  decide (a.1 < b.1) || (decide (a.1 = b.1) && decide (a.2 < b.2))

/-- The order `std::vector<uint>` keys are compared with: lexicographic. -/
def face_lt : List Nat → List Nat → Bool
  | [], [] => false
  | [], _ :: _ => true
  | _ :: _, [] => false
  | a :: as, b :: bs => decide (a < b) || (decide (a = b) && face_lt as bs)

/-- The test `CONTAINS(map, k)`. -/
def map_contains {K V : Type} [DecidableEq K] (m : List (K × V)) (k : K) : Bool :=
  m.any (fun kv => decide (kv.1 = k))

/-- Insertion of a key that is not in the map, at its place in key order. -/
def map_insert {K V : Type} (lt : K → K → Bool) (k : K) (v : V) : List (K × V) → List (K × V)
  | [] => [(k, v)]
  | kv :: rest => if lt k kv.1 then (k, v) :: kv :: rest else kv :: map_insert lt k v rest

/-- The statement `map.erase(k)`. -/
def map_erase {K V : Type} [DecidableEq K] (m : List (K × V)) (k : K) : List (K × V) :=
  m.filter (fun kv => !decide (kv.1 = k))

/-- The statement `map[k].push_back(x)`: `operator[]` creates an empty vector for
a new key. -/
def map_push_back {K : Type} [DecidableEq K] (lt : K → K → Bool)
    (m : List (K × List Nat)) (k : K) (x : Nat) : List (K × List Nat) :=
  if map_contains m k then
    m.map (fun kv => if kv.1 = k then (kv.1, kv.2 ++ [x]) else kv)
  else map_insert lt k [x] m

/-- The call `sort(f.begin(), f.end())` on a vector of ids. -/
def sort (f : List Nat) : List Nat := f.insertionSort (fun a b => a ≤ b)

/-! ## Queries -/

/-- `Hexmesh::cell_vert_id`. -/
def cell_vert_id (m : Hexmesh) (cid off : Nat) : Except Fault Nat :=
  let cid_ptr := cid * verts_per_cell
  vec_at m.cells (cid_ptr + off)

/-- `Hexmesh::edge_vert_id`. -/
def edge_vert_id (m : Hexmesh) (eid off : Nat) : Except Fault Nat :=
  let eid_ptr := 2 * eid
  vec_at m.edges (eid_ptr + off)

/-- `Hexmesh::face_vert_id`. -/
def face_vert_id (m : Hexmesh) (fid off : Nat) : Except Fault Nat :=
  let fid_ptr := fid * verts_per_face
  vec_at m.faces (fid_ptr + off)

/-- Modelled from the spec: `adj_c2e` is declared in the missing class header;
the accessor of the relation `c2e`. -/
def adj_c2e (m : Hexmesh) (cid : Nat) : Except Fault (List Nat) := vec_at m.c2e cid

/-- The loop of `Hexmesh::cell_contains_vert` over the local offsets still to
visit. -/
def cell_contains_vert_from (m : Hexmesh) (cid vid : Nat) : List Nat → Except Fault Bool
  | [] => .ok false
  | i :: is => do
    let v ← cell_vert_id m cid i
    if v = vid then pure true else cell_contains_vert_from m cid vid is

/-- `Hexmesh::cell_contains_vert`. -/
def cell_contains_vert (m : Hexmesh) (cid vid : Nat) : Except Fault Bool :=
  cell_contains_vert_from m cid vid (List.range verts_per_cell)

/-- The condition of `Hexmesh::cell_shared_face` for the local face `f` of
`cid0`: a short-circuit conjunction of four membership tests. -/
def face_in_cell (T : HexaTables) (m : Hexmesh) (cid0 cid1 f : Nat) : Except Fault Bool := do
  let b0 ← (do cell_contains_vert m cid1 (← cell_vert_id m cid0 (T.HEXA_FACES f 0)))
  if !b0 then pure false else
  let b1 ← (do cell_contains_vert m cid1 (← cell_vert_id m cid0 (T.HEXA_FACES f 1)))
  if !b1 then pure false else
  let b2 ← (do cell_contains_vert m cid1 (← cell_vert_id m cid0 (T.HEXA_FACES f 2)))
  if !b2 then pure false else
  cell_contains_vert m cid1 (← cell_vert_id m cid0 (T.HEXA_FACES f 3))

/-- The loop of `Hexmesh::cell_shared_face` over the local faces still to
visit. -/
def cell_shared_face_from (T : HexaTables) (m : Hexmesh) (cid0 cid1 : Nat) :
    List Nat → Except Fault Int
  | [] => .ok (-1)
  | f :: fs => do
    let b ← face_in_cell T m cid0 cid1 f
    if b then pure (f : Int) else cell_shared_face_from T m cid0 cid1 fs

/-- `Hexmesh::cell_shared_face`. -/
def cell_shared_face (T : HexaTables) (m : Hexmesh) (cid0 cid1 : Nat) : Except Fault Int :=
  cell_shared_face_from T m cid0 cid1 (List.range faces_per_cell)

/-! ## Interior adjacency -/

/-- Body of the first loop of `Hexmesh::update_interior_adjacency` for the cell
`cid`: registers the cell in `v2c` of its 8 vertices and in the entry of
`e2c_map` of each of its 12 local edges. The state is the mesh and `e2c_map`. -/
def interior_first_body (T : HexaTables) (st : Hexmesh × List (ipair × List Nat)) (cid : Nat) :
    Except Fault (Hexmesh × List (ipair × List Nat)) := do
  let m := st.1
  let cid_ptr := cid * verts_per_cell
  let vids ← vec_at_all m.cells ((List.range 8).map (fun k => cid_ptr + k))
  let v2c ← (List.range verts_per_cell).foldlM
    (fun v2c vid => push_back_at v2c (vids.getD vid 0) cid) m.v2c
  let e2c_map := (List.range edges_per_cell).foldl
    (fun mp eid =>
      let e := unique_pair (vids.getD (T.HEXA_EDGES eid 0) 0) (vids.getD (T.HEXA_EDGES eid 1) 0)
      map_push_back ipair_lt mp e cid) st.2
  pure ({ m with v2c := v2c }, e2c_map)

/-- The working state of the second loop of `update_interior_adjacency`: the
mesh, the set `cell_pairs` and the counter `fresh_id`. -/
structure EdgeLoop where
  m : Hexmesh
  cell_pairs : List ipair
  fresh_id : Nat

/-- Body of the innermost loop of `update_interior_adjacency` for the candidate
pair `cid`, `nbr` of cells incident to one edge. -/
def link_cells (T : HexaTables) (s : EdgeLoop) (cid nbr : Nat) : Except Fault EdgeLoop := do
  let sf ← cell_shared_face T s.m cid nbr
  if sf ≠ -1 then
    let p := unique_pair cid nbr
    if !(s.cell_pairs.contains p) then
      let c2c ← push_back_at s.m.c2c cid nbr
      let c2c ← push_back_at c2c nbr cid
      assert (decide ((← vec_at c2c cid).length ≤ faces_per_cell))
      assert (decide ((← vec_at c2c nbr).length ≤ faces_per_cell))
      pure { s with m := { s.m with c2c := c2c }, cell_pairs := p :: s.cell_pairs }
    else pure s
  else pure s

/-- The loop `for i` over the cells `cids` of the edge `eid`, on the cells
`cids[i..]` still to visit: `cid` is `cids.at(i)` and the inner loop
`for j = i+1 ..` runs over the cells after it. -/
def edge_cells_from (T : HexaTables) (eid : Nat) : EdgeLoop → List Nat → Except Fault EdgeLoop
  | s, [] => .ok s
  | s, cid :: rest => do
    let c2e ← push_back_at s.m.c2e cid eid
    let e2c ← push_back_at s.m.e2c eid cid
    let s1 : EdgeLoop := { s with m := { s.m with c2e := c2e, e2c := e2c } }
    let s2 ← rest.foldlM (fun s nbr => link_cells T s cid nbr) s1
    edge_cells_from T eid s2 rest

/-- Body of the second loop of `update_interior_adjacency` for one entry of
`e2c_map`. -/
def interior_second_body (T : HexaTables) (s : EdgeLoop) (e2c_it : ipair × List Nat) :
    Except Fault EdgeLoop := do
  let e := e2c_it.1
  let eid := s.fresh_id
  let vid0 := e.1
  let vid1 := e.2
  let edges := s.m.edges ++ [vid0, vid1]
  let v2v ← push_back_at s.m.v2v vid0 vid1
  let v2v ← push_back_at v2v vid1 vid0
  let v2e ← push_back_at s.m.v2e vid0 eid
  let v2e ← push_back_at v2e vid1 eid
  let cids := e2c_it.2
  edge_cells_from T eid
    { m := { s.m with edges := edges, v2v := v2v, v2e := v2e },
      cell_pairs := s.cell_pairs, fresh_id := s.fresh_id + 1 } cids

/-- `Hexmesh::update_interior_adjacency`. -/
def update_interior_adjacency (T : HexaTables) (m : Hexmesh) : Except Fault Hexmesh := do
  let m0 : Hexmesh :=
    { m with v2v := List.replicate (num_verts m) [], v2e := List.replicate (num_verts m) [],
             v2c := List.replicate (num_verts m) [], c2c := List.replicate (num_cells m) [],
             c2e := List.replicate (num_cells m) [] }
  let st ← (List.range (num_cells m0)).foldlM (interior_first_body T) (m0, [])
  let e2c_map := st.2
  let m1 : Hexmesh := { st.1 with edges := [], e2c := List.replicate e2c_map.length [] }
  let s ← e2c_map.foldlM (interior_second_body T) { m := m1, cell_pairs := [], fresh_id := 0 }
  pure s.m

/-! ## Surface adjacency -/

/-- Body of the first loop of `Hexmesh::update_surface_adjacency` for the cell
`cid`: each of the 6 local faces toggles its sorted key in `f2c_map`. -/
def surface_first_body (T : HexaTables) (m : Hexmesh) (f2c_map : List (List Nat × (Nat × Nat)))
    (cid : Nat) : Except Fault (List (List Nat × (Nat × Nat))) :=
  let cid_ptr := cid * verts_per_cell
  (List.range faces_per_cell).foldlM
    (fun mp fid => do
      let f ← vec_at_all m.cells
        [cid_ptr + T.HEXA_FACES fid 0, cid_ptr + T.HEXA_FACES fid 1,
         cid_ptr + T.HEXA_FACES fid 2, cid_ptr + T.HEXA_FACES fid 3]
      let f := sort f
      if map_contains mp f then pure (map_erase mp f)
      else pure (map_insert face_lt f (cid, fid) mp)) f2c_map

/-- The working state of the second loop of `update_surface_adjacency`: the
mesh and the counter `fresh_id`. -/
structure FaceLoop where
  m : Hexmesh
  fresh_id : Nat

/-- Body of the loop over the edges `eid` of the owning cell, for the face
`fresh_id` with vertices `vid0 .. vid3`. -/
def face_edge (vid0 vid1 vid2 vid3 : Nat) (s : FaceLoop) (eid : Nat) : Except Fault FaceLoop := do
  let eid0 ← edge_vert_id s.m eid 0
  let eid1 ← edge_vert_id s.m eid 1
  let has_0 := decide (eid0 = vid0) || decide (eid0 = vid1) || decide (eid0 = vid2) ||
    decide (eid0 = vid3)
  let has_1 := decide (eid1 = vid0) || decide (eid1 = vid1) || decide (eid1 = vid2) ||
    decide (eid1 = vid3)
  if has_0 && has_1 then
    let e2f ← push_back_at s.m.e2f eid s.fresh_id
    let f2e ← push_back_at s.m.f2e s.fresh_id eid
    pure { s with m := { s.m with e2f := e2f, f2e := f2e } }
  else pure s

/-- Body of the second loop of `update_surface_adjacency` for one surviving
entry of `f2c_map`. -/
def surface_second_body (T : HexaTables) (s : FaceLoop) (f2c_it : List Nat × (Nat × Nat)) :
    Except Fault FaceLoop := do
  let cid := f2c_it.2.1
  let f := f2c_it.2.2
  let cid_ptr := cid * verts_per_cell
  let vid0 ← vec_at s.m.cells (cid_ptr + T.HEXA_FACES f 0)
  let vid1 ← vec_at s.m.cells (cid_ptr + T.HEXA_FACES f 1)
  let vid2 ← vec_at s.m.cells (cid_ptr + T.HEXA_FACES f 2)
  let vid3 ← vec_at s.m.cells (cid_ptr + T.HEXA_FACES f 3)
  let faces := s.m.faces ++ [vid0, vid1, vid2, vid3]
  let v_on_srf ← assign_at s.m.v_on_srf vid0 true
  let v_on_srf ← assign_at v_on_srf vid1 true
  let v_on_srf ← assign_at v_on_srf vid2 true
  let v_on_srf ← assign_at v_on_srf vid3 true
  let v2f ← push_back_at s.m.v2f vid0 s.fresh_id
  let v2f ← push_back_at v2f vid1 s.fresh_id
  let v2f ← push_back_at v2f vid2 s.fresh_id
  let v2f ← push_back_at v2f vid3 s.fresh_id
  let c2f ← push_back_at s.m.c2f cid s.fresh_id
  let f2c ← assign_at s.m.f2c s.fresh_id cid
  let m1 : Hexmesh :=
    { s.m with faces := faces, v_on_srf := v_on_srf, v2f := v2f, c2f := c2f, f2c := f2c }
  let es ← adj_c2e m1 cid
  let s1 ← es.foldlM (face_edge vid0 vid1 vid2 vid3) { m := m1, fresh_id := s.fresh_id }
  pure { s1 with fresh_id := s1.fresh_id + 1 }

/-- Body of the third loop of `update_surface_adjacency` for the edge `eid`:
the faces of the edge become mutual neighbours and the edge is flagged. -/
def surface_third_body (m : Hexmesh) (eid : Nat) : Except Fault Hexmesh := do
  let fs1 ← vec_at m.e2f eid
  let f2f ← fs1.foldlM
    (fun f2f fid1 => do
      let fs2 ← vec_at m.e2f eid
      fs2.foldlM
        (fun f2f fid2 => if fid1 ≠ fid2 then push_back_at f2f fid1 fid2 else pure f2f) f2f)
    m.f2f
  let fs ← vec_at m.e2f eid
  let e_on_srf ← if !fs.isEmpty then assign_at m.e_on_srf eid true else pure m.e_on_srf
  pure { m with f2f := f2f, e_on_srf := e_on_srf }

/-- `Hexmesh::update_surface_adjacency`. -/
def update_surface_adjacency (T : HexaTables) (m : Hexmesh) : Except Fault Hexmesh := do
  let f2c_map ← (List.range (num_cells m)).foldlM (surface_first_body T m) []
  let m1 : Hexmesh :=
    { m with v2f := List.replicate (num_verts m) [], e2f := List.replicate (num_edges m) [],
             c2f := List.replicate (num_cells m) [], faces := [],
             f2c := List.replicate f2c_map.length 0, f2e := List.replicate f2c_map.length [],
             v_on_srf := resize m.v_on_srf (num_verts m) false,
             e_on_srf := resize m.e_on_srf (num_edges m) false }
  let s ← f2c_map.foldlM (surface_second_body T) { m := m1, fresh_id := 0 }
  let m2 : Hexmesh := { s.m with f2f := List.replicate (num_faces s.m) [] }
  (List.range (num_edges m2)).foldlM surface_third_body m2

/-- The connectivity part of `Hexmesh::init`: interior adjacency, then surface
adjacency. (The bounding box before them and the attribute arrays and normals
after them neither read nor write the connectivity.) -/
def init (T : HexaTables) (m : Hexmesh) : Except Fault Hexmesh := do
  let m1 ← update_interior_adjacency T m
  update_surface_adjacency T m1

/-! ## A concrete instance of the tables -/

/-- Modelled from the spec: the entries of `HEXA_EDGES` and `HEXA_FACES` are
declared in a header that is not among the sources, and the spec only speaks of
"the fixed local ordering required by the local-edge/local-face tables". This
instance is the usual numbering of a hexahedron, vertices 0..3 around the bottom
quad and 4..7 above them, with the 12 sides as edges and the 6 quads as faces.
It is used to run the code on concrete meshes only; the general theorems take
the tables as a parameter. -/
def standard_tables : HexaTables where
  HEXA_EDGES := fun e k =>
    ([[0, 1], [1, 2], [2, 3], [3, 0], [4, 5], [5, 6], [6, 7], [7, 4],
      [0, 4], [1, 5], [2, 6], [3, 7]].getD e []).getD k 0
  HEXA_FACES := fun f k =>
    ([[0, 3, 2, 1], [1, 2, 6, 5], [4, 5, 6, 7], [3, 0, 4, 7],
      [0, 1, 5, 4], [2, 3, 7, 6]].getD f []).getD k 0

/-! ## Well-formed inputs -/

/-- Vertex id stored at local offset `off` of the cell `cid` (0 outside of
`cells`). -/
def cell_vid (m : Hexmesh) (cid off : Nat) : Nat :=
  m.cells.getD (cid * verts_per_cell + off) 0

/-- Every vertex id referenced by a cell is the id of a vertex. -/
def ids_in_range (m : Hexmesh) : Prop :=
  ∀ cid < num_cells m, ∀ off < verts_per_cell, cell_vid m cid off < num_verts m

instance (m : Hexmesh) : Decidable (ids_in_range m) := by
  unfold ids_in_range; infer_instance

/-- The 8 vertex ids of every cell are pairwise distinct. -/
def cells_distinct (m : Hexmesh) : Prop :=
  ∀ cid < num_cells m, ∀ i < verts_per_cell, ∀ j < verts_per_cell,
    i ≠ j → cell_vid m cid i ≠ cell_vid m cid j

instance (m : Hexmesh) : Decidable (cells_distinct m) := by
  unfold cells_distinct; infer_instance

/-- The local-edge table only names local vertices `0..7`. -/
def HexaTables.edges_in_range (T : HexaTables) : Prop :=
  ∀ e < edges_per_cell, ∀ k < 2, T.HEXA_EDGES e k < verts_per_cell

instance (T : HexaTables) : Decidable T.edges_in_range := by
  unfold HexaTables.edges_in_range; infer_instance

/-- The local-face table only names local vertices `0..7`. -/
def HexaTables.faces_in_range (T : HexaTables) : Prop :=
  ∀ f < faces_per_cell, ∀ k < verts_per_face, T.HEXA_FACES f k < verts_per_cell

instance (T : HexaTables) : Decidable T.faces_in_range := by
  unfold HexaTables.faces_in_range; infer_instance

/-- The 4 local vertices of the local face `f`. -/
def HexaTables.face (T : HexaTables) (f : Nat) : List Nat :=
  [T.HEXA_FACES f 0, T.HEXA_FACES f 1, T.HEXA_FACES f 2, T.HEXA_FACES f 3]

/-- No two of the 6 local faces have the same local vertices. -/
def HexaTables.faces_distinct (T : HexaTables) : Prop :=
  ∀ f < faces_per_cell, ∀ g < faces_per_cell, f ≠ g → sort (T.face f) ≠ sort (T.face g)

instance (T : HexaTables) : Decidable T.faces_distinct := by
  unfold HexaTables.faces_distinct; infer_instance

/-! ## Quantities the statements speak about -/

/-- Entry `i` of a vector of vectors, empty when `i` is not an index. -/
def row (xs : List (List Nat)) (i : Nat) : List Nat := xs.getD i []

/-- The 4 vertex ids of the local face `f` of the cell `cid`, in local order. -/
def local_face_ids (T : HexaTables) (m : Hexmesh) (cid f : Nat) : List Nat :=
  [cell_vid m cid (T.HEXA_FACES f 0), cell_vid m cid (T.HEXA_FACES f 1),
   cell_vid m cid (T.HEXA_FACES f 2), cell_vid m cid (T.HEXA_FACES f 3)]

/-- The sorted key of the local face `f` of the cell `cid`. -/
def face_key (T : HexaTables) (m : Hexmesh) (cid f : Nat) : List Nat :=
  sort (local_face_ids T m cid f)

/-- Number of cells that have a local face with sorted key `k`. -/
def cells_with_face_key (T : HexaTables) (m : Hexmesh) (k : List Nat) : Nat :=
  ((List.range (num_cells m)).filter (fun cid =>
    (List.range faces_per_cell).any (fun f => decide (face_key T m cid f = k)))).length

/-- The sorted key of the derived face `fid`. -/
def derived_face_key (m : Hexmesh) (fid : Nat) : List Nat :=
  sort [m.faces.getD (fid * verts_per_face) 0, m.faces.getD (fid * verts_per_face + 1) 0,
        m.faces.getD (fid * verts_per_face + 2) 0, m.faces.getD (fid * verts_per_face + 3) 0]

/-- Number of derived faces with sorted key `k`. -/
def faces_with_key (m : Hexmesh) (k : List Nat) : Nat :=
  ((List.range (num_faces m)).filter (fun fid => decide (derived_face_key m fid = k))).length

/-! ## Pure counterparts of the loops

The value each loop computes when none of its accesses fails; the theorems
relate the code to them. -/

/-- Value of `v.at(i).push_back(x)` when `i` is an index. -/
def push_row (xs : List (List Nat)) (i x : Nat) : List (List Nat) :=
  xs.modify (fun l => l ++ [x]) i

/-- The canonical key of the local edge `eid` of the cell `cid`. -/
def edge_key (T : HexaTables) (m : Hexmesh) (cid eid : Nat) : ipair :=
  unique_pair (cell_vid m cid (T.HEXA_EDGES eid 0)) (cell_vid m cid (T.HEXA_EDGES eid 1))

/-- One probe of `f2c_map`: an absent key is inserted with its owner, a present
key is removed. -/
def toggle {K V : Type} [DecidableEq K] (lt : K → K → Bool) (mp : List (K × V)) (c : K × V) :
    List (K × V) :=
  if map_contains mp c.1 then map_erase mp c.1 else map_insert lt c.1 c.2 mp

/-- The candidate faces in the order the first surface loop visits them: the
sorted key with the owning cell and local face index. -/
def face_cands (T : HexaTables) (m : Hexmesh) : List (List Nat × (Nat × Nat)) :=
  (List.range (num_cells m)).flatMap (fun cid =>
    (List.range faces_per_cell).map (fun fid => (face_key T m cid fid, (cid, fid))))

/-- The map `f2c_map` at the end of the first surface loop. -/
def f2c_map_of (T : HexaTables) (m : Hexmesh) : List (List Nat × (Nat × Nat)) :=
  (face_cands T m).foldl (toggle face_lt) []

/-- Vertex id stored at end `off` of the edge `eid` (0 outside of `edges`). -/
def edge_vid (m : Hexmesh) (eid off : Nat) : Nat := m.edges.getD (2 * eid + off) 0

/-- Pure counterpart of `face_edge`. -/
def face_edge_pure (vid0 vid1 vid2 vid3 : Nat) (s : FaceLoop) (eid : Nat) : FaceLoop :=
  let eid0 := edge_vid s.m eid 0
  let eid1 := edge_vid s.m eid 1
  let has_0 := decide (eid0 = vid0) || decide (eid0 = vid1) || decide (eid0 = vid2) ||
    decide (eid0 = vid3)
  let has_1 := decide (eid1 = vid0) || decide (eid1 = vid1) || decide (eid1 = vid2) ||
    decide (eid1 = vid3)
  if has_0 && has_1 then
    { s with m := { s.m with e2f := push_row s.m.e2f eid s.fresh_id,
                             f2e := push_row s.m.f2e s.fresh_id eid } }
  else s

/-- The state of the second surface loop once the face of the entry `f2c_it` is
registered with its vertices and its cell, before its edges are looked for. -/
def surface_second_start (T : HexaTables) (s : FaceLoop) (f2c_it : List Nat × (Nat × Nat)) :
    FaceLoop :=
  let cid := f2c_it.2.1
  let f := f2c_it.2.2
  let vid0 := cell_vid s.m cid (T.HEXA_FACES f 0)
  let vid1 := cell_vid s.m cid (T.HEXA_FACES f 1)
  let vid2 := cell_vid s.m cid (T.HEXA_FACES f 2)
  let vid3 := cell_vid s.m cid (T.HEXA_FACES f 3)
  { m :=
      { s.m with
        faces := s.m.faces ++ [vid0, vid1, vid2, vid3],
        v_on_srf := (((s.m.v_on_srf.set vid0 true).set vid1 true).set vid2 true).set vid3 true,
        v2f := push_row (push_row (push_row (push_row s.m.v2f vid0 s.fresh_id) vid1 s.fresh_id)
          vid2 s.fresh_id) vid3 s.fresh_id,
        c2f := push_row s.m.c2f cid s.fresh_id,
        f2c := s.m.f2c.set s.fresh_id cid },
    fresh_id := s.fresh_id }

/-- Pure counterpart of `surface_second_body`. -/
def surface_second_pure (T : HexaTables) (s : FaceLoop) (f2c_it : List Nat × (Nat × Nat)) :
    FaceLoop :=
  let cid := f2c_it.2.1
  let f := f2c_it.2.2
  let s1 := (row s.m.c2e cid).foldl
    (face_edge_pure (cell_vid s.m cid (T.HEXA_FACES f 0)) (cell_vid s.m cid (T.HEXA_FACES f 1))
      (cell_vid s.m cid (T.HEXA_FACES f 2)) (cell_vid s.m cid (T.HEXA_FACES f 3)))
    (surface_second_start T s f2c_it)
  { s1 with fresh_id := s1.fresh_id + 1 }

/-- Pure counterpart of `surface_third_body`. -/
def surface_third_pure (m : Hexmesh) (eid : Nat) : Hexmesh :=
  let fs := row m.e2f eid
  { m with
    f2f := fs.foldl (fun f2f fid1 =>
      fs.foldl (fun f2f fid2 => if fid1 ≠ fid2 then push_row f2f fid1 fid2 else f2f) f2f) m.f2f,
    e_on_srf := if !fs.isEmpty then m.e_on_srf.set eid true else m.e_on_srf }

/-- The mesh right before the second surface loop. -/
def surface_start (T : HexaTables) (m : Hexmesh) : Hexmesh :=
  { m with v2f := List.replicate (num_verts m) [], e2f := List.replicate (num_edges m) [],
           c2f := List.replicate (num_cells m) [], faces := [],
           f2c := List.replicate (f2c_map_of T m).length 0,
           f2e := List.replicate (f2c_map_of T m).length [],
           v_on_srf := resize m.v_on_srf (num_verts m) false,
           e_on_srf := resize m.e_on_srf (num_edges m) false }

/-- The mesh right after the second surface loop. -/
def surface_faces (T : HexaTables) (m : Hexmesh) : Hexmesh :=
  ((f2c_map_of T m).foldl (surface_second_pure T) { m := surface_start T m, fresh_id := 0 }).m

/-- Pure counterpart of `update_surface_adjacency`. -/
def surface_pure (T : HexaTables) (m : Hexmesh) : Hexmesh :=
  let m2 : Hexmesh :=
    { surface_faces T m with f2f := List.replicate (num_faces (surface_faces T m)) [] }
  (List.range (num_edges m2)).foldl surface_third_pure m2

/-! ## Invariants of the loops -/

/-- What `update_surface_adjacency` needs from the interior adjacency: one row of
`c2e` per cell, holding ids of edges. -/
def edges_ready (m : Hexmesh) : Prop :=
  m.c2e.length = num_cells m ∧ ∀ l ∈ m.c2e, ∀ e ∈ l, e < num_edges m

/-- Invariant of the second surface loop on the mesh `m`, after `n` of the
`N` surviving faces. -/
structure SurfaceInv (m : Hexmesh) (N n : Nat) (s : FaceLoop) : Prop where
  fresh : s.fresh_id = n
  verts : s.m.verts = m.verts
  cells : s.m.cells = m.cells
  edges : s.m.edges = m.edges
  c2e : s.m.c2e = m.c2e
  e_on_srf : s.m.e_on_srf = resize m.e_on_srf (num_edges m) false
  faces : s.m.faces.length = 4 * n
  v_on_srf : s.m.v_on_srf.length = num_verts m
  v2f : s.m.v2f.length = num_verts m
  c2f : s.m.c2f.length = num_cells m
  f2c : s.m.f2c.length = N
  f2e : s.m.f2e.length = N
  e2f : s.m.e2f.length = num_edges m
  e2f_lt : ∀ l ∈ s.m.e2f, ∀ f ∈ l, f < n

/-! ## Pure counterparts of the interior loops -/

/-- Value of `cell_contains_vert` on the local offsets `l`. -/
def cell_contains_vert_pure (m : Hexmesh) (cid vid : Nat) (l : List Nat) : Bool :=
  l.any (fun i => decide (cell_vid m cid i = vid))

/-- Value of the condition of `cell_shared_face` for the local face `f`. -/
def face_in_cell_pure (T : HexaTables) (m : Hexmesh) (cid0 cid1 f : Nat) : Bool :=
  cell_contains_vert_pure m cid1 (cell_vid m cid0 (T.HEXA_FACES f 0))
      (List.range verts_per_cell) &&
    cell_contains_vert_pure m cid1 (cell_vid m cid0 (T.HEXA_FACES f 1))
      (List.range verts_per_cell) &&
    cell_contains_vert_pure m cid1 (cell_vid m cid0 (T.HEXA_FACES f 2))
      (List.range verts_per_cell) &&
    cell_contains_vert_pure m cid1 (cell_vid m cid0 (T.HEXA_FACES f 3))
      (List.range verts_per_cell)

/-- Value of `cell_shared_face` on the local faces `l`. -/
def cell_shared_face_pure (T : HexaTables) (m : Hexmesh) (cid0 cid1 : Nat) : List Nat → Int
  | [] => -1
  | f :: fs =>
    if face_in_cell_pure T m cid0 cid1 f then (f : Int)
    else cell_shared_face_pure T m cid0 cid1 fs

/-- The test the code links two cells on: some local face of `cid0` has its 4
vertex ids among the 8 vertex ids of `cid1`. -/
def face_inside (T : HexaTables) (m : Hexmesh) (cid0 cid1 : Nat) : Prop :=
  ∃ f < faces_per_cell, ∀ k < verts_per_face,
    ∃ j < verts_per_cell, cell_vid m cid1 j = cell_vid m cid0 (T.HEXA_FACES f k)

instance (T : HexaTables) (m : Hexmesh) (cid0 cid1 : Nat) : Decidable (face_inside T m cid0 cid1) := by
  unfold face_inside; infer_instance

/-- The candidate edges in the order the first interior loop visits them: the
canonical key with the cell it comes from. -/
def edge_cands (T : HexaTables) (m : Hexmesh) : List (ipair × Nat) :=
  (List.range (num_cells m)).flatMap (fun cid =>
    (List.range edges_per_cell).map (fun eid => (edge_key T m cid eid, cid)))

/-- The map `e2c_map` at the end of the first interior loop. -/
def e2c_map_of (T : HexaTables) (m : Hexmesh) : List (ipair × List Nat) :=
  (edge_cands T m).foldl (fun mp c => map_push_back ipair_lt mp c.1 c.2) []

/-- The mesh right before the second interior loop, given the relation `v2c`
built by the first one. -/
def interior_start (T : HexaTables) (m : Hexmesh) (v2c : List (List Nat)) : Hexmesh :=
  { m with v2v := List.replicate (num_verts m) [], v2e := List.replicate (num_verts m) [],
           v2c := v2c, c2c := List.replicate (num_cells m) [],
           c2e := List.replicate (num_cells m) [], edges := [],
           e2c := List.replicate (e2c_map_of T m).length [] }

/-- What the second interior loop leaves alone: between the meshes `a` and `b`
only `edges`, `v2v`, `v2e`, `e2c`, `c2e` and `c2c` differ, and the last three
keep their number of rows. -/
structure InteriorFrame (a b : Hexmesh) : Prop where
  verts : b.verts = a.verts
  cells : b.cells = a.cells
  faces : b.faces = a.faces
  v_on_srf : b.v_on_srf = a.v_on_srf
  e_on_srf : b.e_on_srf = a.e_on_srf
  v2f : b.v2f = a.v2f
  v2c : b.v2c = a.v2c
  e2f : b.e2f = a.e2f
  f2e : b.f2e = a.f2e
  f2f : b.f2f = a.f2f
  f2c : b.f2c = a.f2c
  c2f : b.c2f = a.c2f
  v2v_len : b.v2v.length = a.v2v.length
  v2e_len : b.v2e.length = a.v2e.length
  e2c_len : b.e2c.length = a.e2c.length
  c2e_len : b.c2e.length = a.c2e.length
  c2c_len : b.c2c.length = a.c2c.length

/-! ## Concrete meshes -/

/-- The mesh `update_interior_adjacency` leaves behind (the input itself when
it aborts). -/
def interior_of (T : HexaTables) (m : Hexmesh) : Hexmesh :=
  match update_interior_adjacency T m with
  | .ok m1 => m1
  | .error _ => m

/-- One unit cube: 8 vertices, one cell in the local order of the tables. -/
def single_cube : Hexmesh :=
  Hexmesh.raw
    [⟨0, 0, 0⟩, ⟨1, 0, 0⟩, ⟨1, 1, 0⟩, ⟨0, 1, 0⟩, ⟨0, 0, 1⟩, ⟨1, 0, 1⟩, ⟨1, 1, 1⟩, ⟨0, 1, 1⟩]
    [0, 1, 2, 3, 4, 5, 6, 7]

/-- Two unit cubes stacked along `z`, sharing the quad `4 5 6 7`: 12 vertices. -/
def two_cubes : Hexmesh :=
  Hexmesh.raw
    [⟨0, 0, 0⟩, ⟨1, 0, 0⟩, ⟨1, 1, 0⟩, ⟨0, 1, 0⟩, ⟨0, 0, 1⟩, ⟨1, 0, 1⟩, ⟨1, 1, 1⟩, ⟨0, 1, 1⟩,
     ⟨0, 0, 2⟩, ⟨1, 0, 2⟩, ⟨1, 1, 2⟩, ⟨0, 1, 2⟩]
    [0, 1, 2, 3, 4, 5, 6, 7, 4, 5, 6, 7, 8, 9, 10, 11]

/-- The canonical keys of all `12 * num_cells` candidate local edges. -/
def candidate_edges (T : HexaTables) (m : Hexmesh) : List ipair :=
  (edge_cands T m).map Prod.fst

/-- The two ends `(edges[2e], edges[2e+1])` of the derived edge `e`. -/
def edge_pair (m : Hexmesh) (eid : Nat) : ipair := (edge_vid m eid 0, edge_vid m eid 1)

/-- A non-manifold input of well-formed cells: the cell `0` and seven more
cells that all contain the quad `0 1 2 3` of cell `0`, each with 4 vertices of
its own (36 vertices). -/
def fan_of_cells : Hexmesh :=
  Hexmesh.raw (List.replicate 36 ⟨0, 0, 0⟩)
    [0, 1, 2, 3, 4, 5, 6, 7,
     0, 1, 2, 3, 8, 9, 10, 11,
     0, 1, 2, 3, 12, 13, 14, 15,
     0, 1, 2, 3, 16, 17, 18, 19,
     0, 1, 2, 3, 20, 21, 22, 23,
     0, 1, 2, 3, 24, 25, 26, 27,
     0, 1, 2, 3, 28, 29, 30, 31,
     0, 1, 2, 3, 32, 33, 34, 35]

/-- Two cells have a local face each with the same set of 4 vertex ids. -/
def shares_quad_face (T : HexaTables) (m : Hexmesh) (a b : Nat) : Prop :=
  ∃ f < faces_per_cell, ∃ g < faces_per_cell, face_key T m a f = face_key T m b g

instance (T : HexaTables) (m : Hexmesh) (a b : Nat) : Decidable (shares_quad_face T m a b) := by
  unfold shares_quad_face; infer_instance

/-- Two cells whose vertex sets meet in the quad `0 1 2 3` of the first, which is
not a face of the second (there `0 1 2` lie on the bottom quad and `3` above
`0`). -/
def skewed_pair : Hexmesh :=
  Hexmesh.raw (List.replicate 12 ⟨0, 0, 0⟩)
    [0, 1, 2, 3, 4, 5, 6, 7, 0, 1, 2, 8, 3, 9, 10, 11]

/-- Number of local positions of the cell `a` whose vertex id is also a vertex id
of the cell `b`. -/
def common_vids (m : Hexmesh) (a b : Nat) : Nat :=
  ((List.range verts_per_cell).filter (fun i =>
    cell_contains_vert_pure m b (cell_vid m a i) (List.range verts_per_cell))).length

/-- The 4 local vertices of every local face are pairwise distinct. -/
def HexaTables.faces_nodup (T : HexaTables) : Prop :=
  ∀ f < faces_per_cell, (T.face f).Nodup

instance (T : HexaTables) : Decidable T.faces_nodup := by
  unfold HexaTables.faces_nodup; infer_instance

/-- Every side of every local face (two cyclically consecutive local vertices)
is one of the 12 local edges. -/
def HexaTables.faces_bounded_by_edges (T : HexaTables) : Prop :=
  ∀ f < faces_per_cell, ∀ k < verts_per_face, ∃ e < edges_per_cell,
    unique_pair (T.HEXA_EDGES e 0) (T.HEXA_EDGES e 1) =
      unique_pair (T.HEXA_FACES f k) (T.HEXA_FACES f ((k + 1) % verts_per_face))

instance (T : HexaTables) : Decidable T.faces_bounded_by_edges := by
  unfold HexaTables.faces_bounded_by_edges; infer_instance

/-- Invariant of the second interior loop on the mesh `m`, after `n` of the `N`
entries of `e2c_map`: the sizes the checked accesses rely on. -/
structure InteriorInv (m : Hexmesh) (N n : Nat) (s : EdgeLoop) : Prop where
  fresh : s.fresh_id = n
  cells : s.m.cells = m.cells
  v2v : s.m.v2v.length = num_verts m
  v2e : s.m.v2e.length = num_verts m
  c2e : s.m.c2e.length = num_cells m
  c2c : s.m.c2c.length = num_cells m
  e2c : s.m.e2c.length = N

/-- A mesh whose only cell references the vertex id `8` while there are 8
vertices `0..7`. -/
def dangling_cell : Hexmesh :=
  Hexmesh.raw (List.replicate 8 ⟨0, 0, 0⟩) [0, 1, 2, 3, 4, 5, 6, 8]

/-- The sorted keys of all `6 * num_cells` candidate local faces. -/
def candidate_face_keys (T : HexaTables) (m : Hexmesh) : List (List Nat) :=
  (face_cands T m).map Prod.fst

/-- The distinct face keys that exactly `n` cells produce. -/
def keys_of_cells (T : HexaTables) (m : Hexmesh) (n : Nat) : List (List Nat) :=
  (candidate_face_keys T m).dedup.filter (fun k => decide (cells_with_face_key T m k = n))

/-- No face key is produced by more than two cells. -/
def manifold_keys (T : HexaTables) (m : Hexmesh) : Prop :=
  ∀ k ∈ candidate_face_keys T m, cells_with_face_key T m k ≤ 2

instance (T : HexaTables) (m : Hexmesh) : Decidable (manifold_keys T m) := by
  unfold manifold_keys; infer_instance

/-- The 2x2x2 grid of 8 unit cubes over 27 vertices, vertex `(i,j,k)` having the
id `i + 3 j + 9 k`, every cell in the local order of the tables. -/
def grid_2x2x2 : Hexmesh :=
  Hexmesh.raw
    [⟨0, 0, 0⟩, ⟨1, 0, 0⟩, ⟨2, 0, 0⟩, ⟨0, 1, 0⟩, ⟨1, 1, 0⟩, ⟨2, 1, 0⟩, ⟨0, 2, 0⟩, ⟨1, 2, 0⟩,
     ⟨2, 2, 0⟩, ⟨0, 0, 1⟩, ⟨1, 0, 1⟩, ⟨2, 0, 1⟩, ⟨0, 1, 1⟩, ⟨1, 1, 1⟩, ⟨2, 1, 1⟩, ⟨0, 2, 1⟩,
     ⟨1, 2, 1⟩, ⟨2, 2, 1⟩, ⟨0, 0, 2⟩, ⟨1, 0, 2⟩, ⟨2, 0, 2⟩, ⟨0, 1, 2⟩, ⟨1, 1, 2⟩, ⟨2, 1, 2⟩,
     ⟨0, 2, 2⟩, ⟨1, 2, 2⟩, ⟨2, 2, 2⟩]
    [0, 1, 4, 3, 9, 10, 13, 12,
     1, 2, 5, 4, 10, 11, 14, 13,
     3, 4, 7, 6, 12, 13, 16, 15,
     4, 5, 8, 7, 13, 14, 17, 16,
     9, 10, 13, 12, 18, 19, 22, 21,
     10, 11, 14, 13, 19, 20, 23, 22,
     12, 13, 16, 15, 21, 22, 25, 24,
     13, 14, 17, 16, 22, 23, 26, 25]

/-! ## Bounding box -/

/-- Modelled from the spec: a coordinate of a corner of the bounding box. The
corners are `vec3d` values of the code, whose coordinates are `double`; here
they are exact, a rational or one of the two infinities `reset` needs. -/
inductive coord where
  | neg_inf
  | fin (q : ℚ)
  | pos_inf
  deriving DecidableEq, Repr

/-- The order of the coordinates: `neg_inf` below and `pos_inf` above every
number. -/
def coord.le : coord → coord → Bool
  | .neg_inf, _ => true
  | _, .pos_inf => true
  | .fin a, .fin b => decide (a ≤ b)
  | _, _ => false

/-- Modelled from the spec: the smaller of two coordinates (`std::min`). -/
def coord.min (a b : coord) : coord := if coord.le a b then a else b

/-- Modelled from the spec: the larger of two coordinates (`std::max`). -/
def coord.max (a b : coord) : coord := if coord.le a b then b else a

/-- A corner of the bounding box. -/
structure corner where
  x : coord
  y : coord
  z : coord
  deriving DecidableEq, Repr

/-- The point `v` as a corner. -/
def corner.of (v : vec3d) : corner := ⟨.fin v.x, .fin v.y, .fin v.z⟩

/-- Modelled from the spec: `mat::min` is declared in `vec_mat.h` and defined in
a file that is not among the sources; the componentwise minimum. -/
def corner.min (a b : corner) : corner := ⟨a.x.min b.x, a.y.min b.y, a.z.min b.z⟩

/-- Modelled from the spec: `mat::max` is declared in `vec_mat.h` and defined in
a file that is not among the sources; the componentwise maximum. -/
def corner.max (a b : corner) : corner := ⟨a.x.max b.x, a.y.max b.y, a.z.max b.z⟩

/-- Modelled from the spec: the class of the member `bb` is declared in a header
that is not among the sources; the two corners `min` and `max`. -/
structure Bbox where
  min : corner
  max : corner
  deriving DecidableEq, Repr

/-- Modelled from the spec: `Bbox::reset` is not among the sources; it sets `min`
to plus infinity and `max` to minus infinity in every coordinate. -/
def Bbox.reset : Bbox :=
  { min := ⟨.pos_inf, .pos_inf, .pos_inf⟩, max := ⟨.neg_inf, .neg_inf, .neg_inf⟩ }

/-- Modelled from the spec: `vert` is declared in the missing class header; the
checked read `verts.at(vid)`, like `cell_vert`. -/
def vert (m : Hexmesh) (vid : Nat) : Except Fault vec3d := vec_at m.verts vid

/-- `Hexmesh::update_bbox`: the value it leaves in the member `bb`, the only
member it writes. -/
def update_bbox (m : Hexmesh) : Except Fault Bbox :=
  (List.range (num_verts m)).foldlM
    (fun bb vid => do
      let v ← vert m vid
      pure { min := bb.min.min (corner.of v), max := bb.max.max (corner.of v) })
    Bbox.reset

/-- The box of the points `vs`, folded from the box `bb`. -/
def bbox_of (vs : List vec3d) (bb : Bbox) : Bbox :=
  vs.foldl (fun bb v => { min := bb.min.min (corner.of v), max := bb.max.max (corner.of v) }) bb

/-- The coordinate `lo` is the least and `hi` the greatest of the values `f v`
over the points `v` of `vs`, both attained. -/
def spans (f : vec3d → ℚ) (vs : List vec3d) (lo hi : ℚ) : Prop :=
  (∀ v ∈ vs, lo ≤ f v ∧ f v ≤ hi) ∧ (∃ v ∈ vs, f v = lo) ∧ (∃ v ∈ vs, f v = hi)

/-- The comparison `lt` of the keys of a map is a strict total order. -/
structure key_order {K : Type} (lt : K → K → Bool) : Prop where
  irrefl : ∀ a, lt a a = false
  trans : ∀ a b c, lt a b = true → lt b c = true → lt a c = true
  total : ∀ a b, lt a b = false → a ≠ b → lt b a = true

/-- What the surface extraction leaves alone: the raw arrays, the edges and the
relations built by the interior adjacency. -/
structure SurfaceFrame (a b : Hexmesh) : Prop where
  verts : b.verts = a.verts
  cells : b.cells = a.cells
  edges : b.edges = a.edges
  v2v : b.v2v = a.v2v
  v2e : b.v2e = a.v2e
  v2c : b.v2c = a.v2c
  e2c : b.e2c = a.e2c
  c2e : b.c2e = a.c2e
  c2c : b.c2c = a.c2c

/-- The sorted keys of the derived faces, by face id. -/
def derived_face_keys_list (m : Hexmesh) : List (List Nat) :=
  (List.range (num_faces m)).map (derived_face_key m)

/-- The two ends of every local edge are different local vertices. -/
def HexaTables.edges_proper (T : HexaTables) : Prop :=
  ∀ e < edges_per_cell, T.HEXA_EDGES e 0 ≠ T.HEXA_EDGES e 1

instance (T : HexaTables) : Decidable T.edges_proper := by
  unfold HexaTables.edges_proper; infer_instance

/-- Invariant of the second interior loop on `v2v` and `v2e`, after the entries
`pre` of `e2c_map`: position by position the row of `v2e` of a vertex `v` holds
the edge that joins `v` to the vertex in its row of `v2v`, and both ends of every
edge so far are in each other's row. -/
structure VertexInv (pre : List (ipair × List Nat)) (s : EdgeLoop) : Prop where
  fresh : s.fresh_id = pre.length
  paired : ∀ v, List.Forall₂
    (fun e w => (pre.map Prod.fst).getD e (0, 0) = unique_pair v w ∧ e < pre.length)
    (row s.m.v2e v) (row s.m.v2v v)
  linked : ∀ kv ∈ pre, kv.1.2 ∈ row s.m.v2v kv.1.1 ∧ kv.1.1 ∈ row s.m.v2v kv.1.2

/-- Vertex id stored at corner `off` of the derived face `fid` (0 outside of
`faces`). -/
def face_vid (m : Hexmesh) (fid off : Nat) : Nat := m.faces.getD (fid * verts_per_face + off) 0

/-- The 4 vertex ids of the derived face `fid`, as stored. -/
def face_vids (m : Hexmesh) (fid : Nat) : List Nat :=
  [face_vid m fid 0, face_vid m fid 1, face_vid m fid 2, face_vid m fid 3]

/-- The test of `face_edge` on the edge `eid`: both of its ends are among
`v0 .. v3`. -/
def edge_touches (edges : List Nat) (v0 v1 v2 v3 eid : Nat) : Bool :=
  let eid0 := edges.getD (2 * eid + 0) 0
  let eid1 := edges.getD (2 * eid + 1) 0
  let has_0 := decide (eid0 = v0) || decide (eid0 = v1) || decide (eid0 = v2) ||
    decide (eid0 = v3)
  let has_1 := decide (eid1 = v0) || decide (eid1 = v1) || decide (eid1 = v2) ||
    decide (eid1 = v3)
  has_0 && has_1

/-- The edges the second surface loop registers with the face of the entry `it`
of `f2c_map`: those of the owning cell that pass the test, in the order of
`c2e`. -/
def face_edges_of (T : HexaTables) (m : Hexmesh) (it : List Nat × (Nat × Nat)) : List Nat :=
  (row m.c2e it.2.1).filter
    (edge_touches m.edges (cell_vid m it.2.1 (T.HEXA_FACES it.2.2 0))
      (cell_vid m it.2.1 (T.HEXA_FACES it.2.2 1)) (cell_vid m it.2.1 (T.HEXA_FACES it.2.2 2))
      (cell_vid m it.2.1 (T.HEXA_FACES it.2.2 3)))

/-- Invariant of the second surface loop on `f2c`, `f2e` and `e2f`, after the
entries `pre` of `f2c_map`. -/
structure FaceRows (T : HexaTables) (m : Hexmesh) (pre : List (List Nat × (Nat × Nat)))
    (s : FaceLoop) : Prop where
  f2c : ∀ i < pre.length, s.m.f2c.getD i 0 = (pre.map (fun it => it.2.1)).getD i 0
  f2e : ∀ fid, row s.m.f2e fid = (pre.map (face_edges_of T m)).getD fid []
  e2f : ∀ eid fid, (row s.m.e2f eid).count fid = (row s.m.f2e fid).count eid

/-- Invariant of the linking loop on a mesh of `n` cells: `c2c` has `n` rows, the
recorded pairs are pairwise distinct canonical pairs of cells, and a row of `c2c`
has at most two entries per recorded pair. -/
structure LinkInv (n : Nat) (s : EdgeLoop) : Prop where
  cells : num_cells s.m = n
  c2c : s.m.c2c.length = n
  nodup : s.cell_pairs.Nodup
  pairs : ∀ p ∈ s.cell_pairs, p.1 ≤ p.2 ∧ p.2 < n
  rows : ∀ c, (row s.m.c2c c).length ≤ 2 * s.cell_pairs.length

/-! ## The derived arrays of the two stacked cubes -/

/-- The two stacked cubes after `update_interior_adjacency`, written out. -/
def two_cubes_interior : Hexmesh :=
  { verts := two_cubes.verts,
    cells := [0, 1, 2, 3, 4, 5, 6, 7, 4, 5, 6, 7, 8, 9, 10, 11],
    edges := [0, 1, 0, 3, 0, 4, 1, 2, 1, 5, 2, 3, 2, 6, 3, 7, 4, 5, 4, 7, 4, 8, 5, 6, 5, 9, 6, 7,
      6, 10, 7, 11, 8, 9, 8, 11, 9, 10, 10, 11],
    faces := [],
    v_on_srf := [],
    e_on_srf := [],
    v2v := [[1, 3, 4], [0, 2, 5], [1, 3, 6], [0, 2, 7], [0, 5, 7, 8], [1, 4, 6, 9],
      [2, 5, 7, 10], [3, 4, 6, 11], [4, 9, 11], [5, 8, 10], [6, 9, 11], [7, 8, 10]],
    v2e := [[0, 1, 2], [0, 3, 4], [3, 5, 6], [1, 5, 7], [2, 8, 9, 10], [4, 8, 11, 12],
      [6, 11, 13, 14], [7, 9, 13, 15], [10, 16, 17], [12, 16, 18], [14, 18, 19], [15, 17, 19]],
    v2f := [],
    v2c := [[0], [0], [0], [0], [0, 1], [0, 1], [0, 1], [0, 1], [1], [1], [1], [1]],
    e2f := [],
    e2c := [[0], [0], [0], [0], [0], [0], [0], [0], [0, 1], [0, 1], [1], [0, 1], [1], [0, 1],
      [1], [1], [1], [1], [1], [1]],
    f2e := [],
    f2f := [],
    f2c := [],
    c2e := [[0, 1, 2, 3, 4, 5, 6, 7, 8, 9, 11, 13],
      [8, 9, 10, 11, 12, 13, 14, 15, 16, 17, 18, 19]],
    c2f := [],
    c2c := [[1], [0]] }

/-- The two stacked cubes after `init`, written out. -/
def two_cubes_derived : Hexmesh :=
  { verts := two_cubes.verts,
    cells := [0, 1, 2, 3, 4, 5, 6, 7, 4, 5, 6, 7, 8, 9, 10, 11],
    edges := [0, 1, 0, 3, 0, 4, 1, 2, 1, 5, 2, 3, 2, 6, 3, 7, 4, 5, 4, 7, 4, 8, 5, 6, 5, 9, 6, 7,
      6, 10, 7, 11, 8, 9, 8, 11, 9, 10, 10, 11],
    faces := [0, 3, 2, 1, 0, 1, 5, 4, 3, 0, 4, 7, 1, 2, 6, 5, 2, 3, 7, 6, 4, 5, 9, 8, 7, 4, 8,
      11, 5, 6, 10, 9, 6, 7, 11, 10, 8, 9, 10, 11],
    v_on_srf := [true, true, true, true, true, true, true, true, true, true, true, true],
    e_on_srf := [true, true, true, true, true, true, true, true, true, true, true, true, true,
      true, true, true, true, true, true, true],
    v2v := [[1, 3, 4], [0, 2, 5], [1, 3, 6], [0, 2, 7], [0, 5, 7, 8], [1, 4, 6, 9],
      [2, 5, 7, 10], [3, 4, 6, 11], [4, 9, 11], [5, 8, 10], [6, 9, 11], [7, 8, 10]],
    v2e := [[0, 1, 2], [0, 3, 4], [3, 5, 6], [1, 5, 7], [2, 8, 9, 10], [4, 8, 11, 12],
      [6, 11, 13, 14], [7, 9, 13, 15], [10, 16, 17], [12, 16, 18], [14, 18, 19], [15, 17, 19]],
    v2f := [[0, 1, 2], [0, 1, 3], [0, 3, 4], [0, 2, 4], [1, 2, 5, 6], [1, 3, 5, 7], [3, 4, 7, 8],
      [2, 4, 6, 8], [5, 6, 9], [5, 7, 9], [7, 8, 9], [6, 8, 9]],
    v2c := [[0], [0], [0], [0], [0, 1], [0, 1], [0, 1], [0, 1], [1], [1], [1], [1]],
    e2f := [[0, 1], [0, 2], [1, 2], [0, 3], [1, 3], [0, 4], [3, 4], [2, 4], [1, 5], [2, 6],
      [5, 6], [3, 7], [5, 7], [4, 8], [7, 8], [6, 8], [5, 9], [6, 9], [7, 9], [8, 9]],
    e2c := [[0], [0], [0], [0], [0], [0], [0], [0], [0, 1], [0, 1], [1], [0, 1], [1], [0, 1],
      [1], [1], [1], [1], [1], [1]],
    f2e := [[0, 1, 3, 5], [0, 2, 4, 8], [1, 2, 7, 9], [3, 4, 6, 11], [5, 6, 7, 13],
      [8, 10, 12, 16], [9, 10, 15, 17], [11, 12, 14, 18], [13, 14, 15, 19], [16, 17, 18, 19]],
    f2f := [[1, 2, 3, 4], [0, 2, 3, 5], [0, 1, 4, 6], [0, 1, 4, 7], [0, 3, 2, 8], [1, 6, 7, 9],
      [2, 5, 8, 9], [3, 5, 8, 9], [4, 7, 6, 9], [5, 6, 7, 8]],
    f2c := [0, 0, 0, 0, 0, 1, 1, 1, 1, 1],
    c2e := [[0, 1, 2, 3, 4, 5, 6, 7, 8, 9, 11, 13],
      [8, 9, 10, 11, 12, 13, 14, 15, 16, 17, 18, 19]],
    c2f := [[0, 1, 2, 3, 4], [5, 6, 7, 8, 9]],
    c2c := [[1], [0]] }

/-- Invariant of the second surface loop on `v2f` and `c2f`, after the entries
`pre` of `f2c_map`: a face occurs in the row of `v2f` of a vertex once per corner
of the face that is this vertex, the rows of `v2f` are in non-decreasing order, a
face occurs once in the row of `c2f` of the cell of its entry and in no other, and
the rows of `c2f` hold one entry per face. -/
structure FaceIncidence (T : HexaTables) (m : Hexmesh) (pre : List (List Nat × (Nat × Nat)))
    (s : FaceLoop) : Prop where
  v2f : ∀ v fid, (row s.m.v2f v).count fid =
    ((pre.map (fun it => local_face_ids T m it.2.1 it.2.2)).getD fid []).count v
  v2f_sorted : ∀ v, (row s.m.v2f v).Sorted (fun a b => a ≤ b)
  c2f : ∀ c fid, (row s.m.c2f c).count fid =
    if fid < pre.length ∧ (pre.map (fun it => it.2.1)).getD fid 0 = c then 1 else 0
  c2f_sum : (s.m.c2f.map List.length).sum = pre.length

/-- Different local edges of the table join different pairs of local vertices. -/
def HexaTables.edges_distinct (T : HexaTables) : Prop :=
  ∀ e1 < edges_per_cell, ∀ e2 < edges_per_cell, e1 ≠ e2 →
    unique_pair (T.HEXA_EDGES e1 0) (T.HEXA_EDGES e1 1) ≠
      unique_pair (T.HEXA_EDGES e2 0) (T.HEXA_EDGES e2 1)

instance (T : HexaTables) : Decidable T.edges_distinct := by
  unfold HexaTables.edges_distinct; infer_instance

/-- Invariant of the linking loop on `c2c` and `cell_pairs`: a recorded pair joins
two different cells, and `b` occurs in the row of `c2c` of `a` once when the
canonical pair of `a` and `b` is recorded, and not at all otherwise. -/
structure PairRows (s : EdgeLoop) : Prop where
  irrefl : ∀ p ∈ s.cell_pairs, p.1 ≠ p.2
  rows : ∀ a b, (row s.m.c2c a).count b = if unique_pair a b ∈ s.cell_pairs then 1 else 0

/-- A local edge of the table with both ends on a local face is a side of this
face: it joins two cyclically consecutive local vertices of the face. -/
def HexaTables.edges_on_sides (T : HexaTables) : Prop :=
  ∀ f < faces_per_cell, ∀ e < edges_per_cell,
    (T.HEXA_EDGES e 0 ∈ T.face f ∧ T.HEXA_EDGES e 1 ∈ T.face f) →
      ∃ k < verts_per_face, unique_pair (T.HEXA_EDGES e 0) (T.HEXA_EDGES e 1) =
        unique_pair (T.HEXA_FACES f k) (T.HEXA_FACES f ((k + 1) % verts_per_face))

instance (T : HexaTables) : Decidable T.edges_on_sides := by
  unfold HexaTables.edges_on_sides; infer_instance

/-! ## Basic facts on failing computations and containers -/

@[simp] theorem ok_bind {α β : Type} (a : α) (f : α → Except Fault β) :
    (Except.ok a >>= f) = f a := rfl

@[simp] theorem error_bind {α β : Type} (e : Fault) (f : α → Except Fault β) :
    ((Except.error e : Except Fault α) >>= f) = Except.error e := rfl

@[simp] theorem pure_eq_ok {α : Type} (a : α) : (pure a : Except Fault α) = Except.ok a := rfl

theorem bind_eq_ok {α β : Type} (x : Except Fault α) (f : α → Except Fault β) (b : β) :
    (x >>= f) = Except.ok b ↔ ∃ a, x = Except.ok a ∧ f a = Except.ok b := by
  cases x with
  | error e => simp
  | ok a => simp

theorem vec_at_of_lt {α : Type} (xs : List α) (i : Nat) (d : α) (h : i < xs.length) :
    vec_at xs i = Except.ok (xs.getD i d) := by
  simp [vec_at, List.getD, List.getElem?_eq_getElem h]

theorem vec_at_eq_ok {α : Type} {xs : List α} {i : Nat} {x : α} (d : α)
    (h : vec_at xs i = Except.ok x) : i < xs.length ∧ x = xs.getD i d := by
  unfold vec_at at h
  by_cases hi : i < xs.length
  · simp [List.getElem?_eq_getElem hi] at h
    exact ⟨hi, by simp [List.getD, List.getElem?_eq_getElem hi, h]⟩
  · simp [List.getElem?_eq_none (Nat.le_of_not_lt hi)] at h

theorem push_back_at_of_lt (xs : List (List Nat)) (i x : Nat) (h : i < xs.length) :
    push_back_at xs i x = Except.ok (xs.modify (fun l => l ++ [x]) i) := by
  simp [push_back_at, h]

theorem push_back_at_eq_ok {xs ys : List (List Nat)} {i x : Nat}
    (h : push_back_at xs i x = Except.ok ys) :
    i < xs.length ∧ ys = xs.modify (fun l => l ++ [x]) i := by
  unfold push_back_at at h
  split at h
  · exact ⟨by assumption, by cases h; rfl⟩
  · cases h

theorem row_modify (xs : List (List Nat)) (f : List Nat → List Nat) (i j : Nat)
    (hi : i < xs.length) :
    row (xs.modify f i) j = if j = i then f (row xs j) else row xs j := by
  unfold row
  by_cases hj : j < xs.length
  · have hj2 : j < (xs.modify f i).length := by simpa using hj
    rw [List.getD_eq_getElem _ _ hj2, List.getD_eq_getElem _ _ hj, List.getElem_modify]
    by_cases hij : i = j
    · simp [hij]
    · have hji : ¬ j = i := fun h => hij h.symm
      simp [hij, hji]
  · have hj2 : (xs.modify f i).length ≤ j := by simpa using hj
    have hne : j ≠ i := fun h => hj (h ▸ hi)
    rw [List.getD_eq_default _ _ hj2, List.getD_eq_default _ _ (Nat.le_of_not_lt hj)]
    simp [hne]

theorem row_push {xs ys : List (List Nat)} {i x : Nat}
    (h : push_back_at xs i x = Except.ok ys) (j : Nat) :
    row ys j = if j = i then row xs j ++ [x] else row xs j := by
  obtain ⟨hi, rfl⟩ := push_back_at_eq_ok h
  exact row_modify xs _ i j hi

theorem length_push {xs ys : List (List Nat)} {i x : Nat}
    (h : push_back_at xs i x = Except.ok ys) : ys.length = xs.length := by
  obtain ⟨_, rfl⟩ := push_back_at_eq_ok h
  simp

theorem row_replicate (n i : Nat) : row (List.replicate n []) i = [] := by
  unfold row
  by_cases h : i < n
  · simp [List.getD, List.getElem?_replicate, h]
  · simp [List.getD, List.getElem?_replicate, h]

theorem row_of_le (xs : List (List Nat)) (i : Nat) (h : xs.length ≤ i) : row xs i = [] := by
  simp [row, List.getD, List.getElem?_eq_none h]

theorem assign_at_eq_ok {α : Type} {xs ys : List α} {i : Nat} {x : α}
    (h : assign_at xs i x = Except.ok ys) : i < xs.length ∧ ys = xs.set i x := by
  unfold assign_at at h
  split at h
  · exact ⟨by assumption, by cases h; rfl⟩
  · cases h

theorem assert_eq_ok {c : Bool} (h : assert c = Except.ok ()) : c = true := by
  unfold assert at h
  split at h
  · assumption
  · cases h

/-- An invariant of the state that every successful step preserves holds after a
successful loop. -/
theorem foldlM_inv {σ α : Type} (P : σ → Prop) (f : σ → α → Except Fault σ) (l : List α)
    (hstep : ∀ s x s', x ∈ l → P s → f s x = Except.ok s' → P s') :
    ∀ (s r : σ), P s → l.foldlM f s = Except.ok r → P r := by
  induction l with
  | nil => intro s r hs h; simp at h; cases h; exact hs
  | cons x xs ih =>
    intro s r hs h
    rw [List.foldlM_cons, bind_eq_ok] at h
    obtain ⟨s1, h1, h2⟩ := h
    exact ih (fun s x' s' hx => hstep s x' s' (List.mem_cons_of_mem _ hx)) s1 r
      (hstep s x s1 (List.mem_cons_self _ _) hs h1) h2

/-- An invariant that relates the state to the elements visited so far. -/
theorem foldlM_inv_pre {σ α : Type} (P : List α → σ → Prop) (f : σ → α → Except Fault σ)
    (l : List α)
    (hstep : ∀ pre x post s s', l = pre ++ x :: post → P pre s → f s x = Except.ok s' →
      P (pre ++ [x]) s') :
    ∀ (s r : σ), P [] s → l.foldlM f s = Except.ok r → P l r := by
  suffices H : ∀ (post pre : List α) (s r : σ), l = pre ++ post → P pre s →
      post.foldlM f s = Except.ok r → P l r from fun s r hs h => H l [] s r rfl hs h
  intro post
  induction post with
  | nil => intro pre s r hl hs h; simp at h; cases h; simpa [hl] using hs
  | cons x xs ih =>
    intro pre s r hl hs h
    rw [List.foldlM_cons, bind_eq_ok] at h
    obtain ⟨s1, h1, h2⟩ := h
    exact ih (pre ++ [x]) s1 r (by simp [hl]) (hstep pre x xs s s1 hl hs h1) h2

/-- A loop whose steps all succeed with the value of a pure step succeeds with
the value of the pure loop. -/
theorem foldlM_eq_foldl {σ α : Type} (P : σ → Prop) (f : σ → α → Except Fault σ)
    (g : σ → α → σ) (l : List α)
    (hstep : ∀ s x, x ∈ l → P s → f s x = Except.ok (g s x) ∧ P (g s x)) :
    ∀ s, P s → l.foldlM f s = Except.ok (l.foldl g s) ∧ P (l.foldl g s) := by
  induction l with
  | nil => intro s hs; exact ⟨rfl, hs⟩
  | cons x xs ih =>
    intro s hs
    obtain ⟨h1, h2⟩ := hstep s x (List.mem_cons_self _ _) hs
    rw [List.foldlM_cons, h1, ok_bind, List.foldl_cons]
    exact ih (fun s x' hx => hstep s x' (List.mem_cons_of_mem _ hx)) _ h2

/-! ## Facts on the association-list maps -/

theorem map_contains_iff {K V : Type} [DecidableEq K] (m : List (K × V)) (k : K) :
    map_contains m k = true ↔ k ∈ m.map Prod.fst := by
  simp only [map_contains, List.any_eq_true, decide_eq_true_eq, List.mem_map]

theorem perm_map_insert {K V : Type} (lt : K → K → Bool) (k : K) (v : V) (m : List (K × V)) :
    (map_insert lt k v m).Perm ((k, v) :: m) := by
  induction m with
  | nil => simp [map_insert]
  | cons kv rest ih =>
    unfold map_insert
    split
    · exact List.Perm.refl _
    · exact (List.Perm.cons kv ih).trans (List.Perm.swap _ _ _)

theorem mem_map_insert {K V : Type} (lt : K → K → Bool) (k : K) (v : V) (m : List (K × V))
    (x : K × V) : x ∈ map_insert lt k v m ↔ x = (k, v) ∨ x ∈ m := by
  rw [(perm_map_insert lt k v m).mem_iff]; simp

theorem keys_map_insert {K V : Type} (lt : K → K → Bool) (k : K) (v : V) (m : List (K × V)) :
    ((map_insert lt k v m).map Prod.fst).Perm (k :: m.map Prod.fst) := by
  simpa using (perm_map_insert lt k v m).map Prod.fst

theorem keys_map_erase {K V : Type} [DecidableEq K] (m : List (K × V)) (k : K) :
    (map_erase m k).map Prod.fst = (m.map Prod.fst).filter (fun k' => !decide (k' = k)) := by
  unfold map_erase
  induction m with
  | nil => rfl
  | cons kv rest ih =>
    by_cases h : kv.1 = k
    · simp [List.filter_cons, h, ih]
    · simp [List.filter_cons, h, ih]

/-! ### The parity map of the boundary extraction -/

section Toggle
variable {K V : Type} [DecidableEq K] (lt : K → K → Bool)

theorem toggle_keys_nodup (mp : List (K × V)) (c : K × V)
    (h : (mp.map Prod.fst).Nodup) : ((toggle lt mp c).map Prod.fst).Nodup := by
  unfold toggle
  split
  · rw [keys_map_erase]; exact h.filter _
  · rename_i hc
    rw [(keys_map_insert lt c.1 c.2 mp).nodup_iff, List.nodup_cons]
    refine ⟨?_, h⟩
    intro hin
    exact hc ((map_contains_iff mp c.1).2 hin)

theorem toggle_keys_count (mp : List (K × V)) (c : K × V)
    (h : (mp.map Prod.fst).Nodup) (k : K) :
    ((toggle lt mp c).map Prod.fst).count k =
      if k = c.1 then 1 - (mp.map Prod.fst).count k else (mp.map Prod.fst).count k := by
  unfold toggle
  split
  · rename_i hc
    have hin := (map_contains_iff mp c.1).1 hc
    rw [keys_map_erase]
    by_cases hk : k = c.1
    · subst hk
      rw [if_pos rfl, List.count_eq_one_of_mem h hin, List.count_eq_zero]
      simp
    · rw [if_neg hk, List.count_filter]
      simpa using hk
  · rename_i hc
    have hnin : c.1 ∉ mp.map Prod.fst := fun hin => hc ((map_contains_iff mp c.1).2 hin)
    rw [(keys_map_insert lt c.1 c.2 mp).count_eq]
    by_cases hk : k = c.1
    · subst hk
      rw [if_pos rfl, List.count_cons_self, List.count_eq_zero.2 hnin]
    · rw [if_neg hk, List.count_cons_of_ne hk]

theorem mem_toggle (mp : List (K × V)) (c x : K × V)
    (h : x ∈ toggle lt mp c) : x = c ∨ x ∈ mp := by
  unfold toggle at h
  split at h
  · right; exact (List.mem_filter.1 h).1
  · exact (mem_map_insert lt c.1 c.2 mp x).1 h

theorem toggle_all (l : List (K × V)) :
    ∀ mp : List (K × V), (mp.map Prod.fst).Nodup →
      ((l.foldl (toggle lt) mp).map Prod.fst).Nodup ∧
      (∀ k, ((l.foldl (toggle lt) mp).map Prod.fst).count k =
        ((mp.map Prod.fst).count k + (l.map Prod.fst).count k) % 2) ∧
      (∀ x ∈ l.foldl (toggle lt) mp, x ∈ l ∨ x ∈ mp) := by
  induction l with
  | nil =>
    intro mp h
    refine ⟨h, fun k => ?_, fun x hx => Or.inr hx⟩
    have := List.nodup_iff_count_le_one.1 h k
    simp only [List.foldl_nil, List.map_nil, List.count_nil, Nat.add_zero]
    omega
  | cons c cs ih =>
    intro mp h
    obtain ⟨h1, h2, h3⟩ := ih (toggle lt mp c) (toggle_keys_nodup lt mp c h)
    refine ⟨h1, fun k => ?_, fun x hx => ?_⟩
    · rw [List.foldl_cons, h2 k, toggle_keys_count lt mp c h k]
      have := List.nodup_iff_count_le_one.1 h k
      by_cases hk : k = c.1
      · subst hk
        simp only [if_pos, List.map_cons, List.count_cons_self]
        omega
      · rw [if_neg hk, List.map_cons, List.count_cons_of_ne hk]
    · rcases h3 x hx with h | h
      · exact Or.inl (List.mem_cons_of_mem _ h)
      · rcases mem_toggle lt mp c x h with h | h
        · exact Or.inl (h ▸ List.mem_cons_self _ _)
        · exact Or.inr h

/-- Counting by `count` and counting by filtering agree. -/
theorem count_eq_length_filter (k : K) (l : List K) :
    l.count k = (l.filter (fun x => decide (x = k))).length := by
  rw [List.count, List.countP_eq_length_filter]
  congr 2

/-- At the end of a run of probes from the empty map: the keys are pairwise
distinct, a key is present iff it was probed an odd number of times, and every
entry is one of the probes. -/
theorem toggle_run (l : List (K × V)) :
    ((l.foldl (toggle lt) []).map Prod.fst).Nodup ∧
    (∀ k, (((l.foldl (toggle lt) []).map Prod.fst).filter (fun x => decide (x = k))).length =
      ((l.map Prod.fst).filter (fun x => decide (x = k))).length % 2) ∧
    (∀ x ∈ l.foldl (toggle lt) [], x ∈ l) := by
  obtain ⟨h1, h2, h3⟩ := toggle_all lt l [] (by simp)
  refine ⟨h1, fun k => ?_, fun x hx => ?_⟩
  · rw [← count_eq_length_filter, ← count_eq_length_filter, h2 k]; simp
  · rcases h3 x hx with h | h
    · exact h
    · cases h

end Toggle

theorem f2c_map_keys_nodup (T : HexaTables) (m : Hexmesh) :
    ((f2c_map_of T m).map Prod.fst).Nodup :=
  (toggle_run face_lt (face_cands T m)).1

theorem f2c_map_keys_count (T : HexaTables) (m : Hexmesh) (k : List Nat) :
    (((f2c_map_of T m).map Prod.fst).filter (fun x => decide (x = k))).length =
      (((face_cands T m).map Prod.fst).filter (fun x => decide (x = k))).length % 2 :=
  (toggle_run face_lt (face_cands T m)).2.1 k

theorem mem_f2c_map (T : HexaTables) (m : Hexmesh) (x : List Nat × (Nat × Nat))
    (h : x ∈ f2c_map_of T m) : x ∈ face_cands T m :=
  (toggle_run face_lt (face_cands T m)).2.2 x h

theorem mem_face_cands (T : HexaTables) (m : Hexmesh) (x : List Nat × (Nat × Nat)) :
    x ∈ face_cands T m ↔
      x.2.1 < num_cells m ∧ x.2.2 < faces_per_cell ∧ x.1 = face_key T m x.2.1 x.2.2 := by
  unfold face_cands
  simp only [List.mem_flatMap, List.mem_range, List.mem_map]
  constructor
  · rintro ⟨cid, hc, fid, hf, rfl⟩; exact ⟨hc, hf, rfl⟩
  · rintro ⟨hc, hf, hk⟩
    exact ⟨x.2.1, hc, x.2.2, hf, by rw [← hk]⟩

/-- A loop whose steps all succeed with the value of a pure step, under an
invariant that relates the state to the elements visited so far. -/
theorem foldlM_eq_foldl_pre {σ α : Type} (P : List α → σ → Prop) (f : σ → α → Except Fault σ)
    (g : σ → α → σ) (l : List α)
    (hstep : ∀ pre x post s, l = pre ++ x :: post → P pre s →
      f s x = Except.ok (g s x) ∧ P (pre ++ [x]) (g s x)) :
    ∀ s, P [] s → l.foldlM f s = Except.ok (l.foldl g s) ∧ P l (l.foldl g s) := by
  suffices H : ∀ (post pre : List α) (s : σ), l = pre ++ post → P pre s →
      post.foldlM f s = Except.ok (post.foldl g s) ∧ P l (post.foldl g s) from
    fun s hs => H l [] s rfl hs
  intro post
  induction post with
  | nil => intro pre s hl hs; exact ⟨rfl, by simpa [hl] using hs⟩
  | cons x xs ih =>
    intro pre s hl hs
    obtain ⟨h1, h2⟩ := hstep pre x xs s hl hs
    rw [List.foldlM_cons, h1, ok_bind, List.foldl_cons]
    exact ih (pre ++ [x]) _ (by simp [hl]) h2

theorem foldl_flatMap {α β σ : Type} (f : σ → β → σ) (g : α → List β) (l : List α) :
    ∀ s, (l.flatMap g).foldl f s = l.foldl (fun s x => (g x).foldl f s) s := by
  induction l with
  | nil => intro s; rfl
  | cons x xs ih => intro s; simp [List.flatMap_cons, List.foldl_append, ih]

/-! ## Reading the cells -/

theorem cell_index_lt (m : Hexmesh) (cid off : Nat) (hc : cid < num_cells m)
    (ho : off < verts_per_cell) : cid * verts_per_cell + off < m.cells.length := by
  simp only [num_cells, verts_per_cell] at *
  omega

theorem cell_read (m : Hexmesh) (cid off : Nat) (hc : cid < num_cells m)
    (ho : off < verts_per_cell) :
    vec_at m.cells (cid * verts_per_cell + off) = Except.ok (cell_vid m cid off) :=
  vec_at_of_lt _ _ 0 (cell_index_lt m cid off hc ho)

theorem cell_vert_id_eq (m : Hexmesh) (cid off : Nat) (hc : cid < num_cells m)
    (ho : off < verts_per_cell) : cell_vert_id m cid off = Except.ok (cell_vid m cid off) :=
  cell_read m cid off hc ho

/-! ## The first surface loop -/

theorem surface_first_body_eq (T : HexaTables) (hT : T.faces_in_range) (m : Hexmesh)
    (mp : List (List Nat × (Nat × Nat))) (cid : Nat) (hc : cid < num_cells m) :
    surface_first_body T m mp cid = Except.ok
      (((List.range faces_per_cell).map (fun fid => (face_key T m cid fid, (cid, fid)))).foldl
        (toggle face_lt) mp) := by
  unfold surface_first_body
  rw [List.foldl_map]
  refine (foldlM_eq_foldl (fun _ => True) _ _ _ ?_ mp trivial).1
  intro s fid hf _
  refine ⟨?_, trivial⟩
  have hf' : fid < faces_per_cell := List.mem_range.1 hf
  have h0 := cell_read m cid _ hc (hT fid hf' 0 (by decide))
  have h1 := cell_read m cid _ hc (hT fid hf' 1 (by decide))
  have h2 := cell_read m cid _ hc (hT fid hf' 2 (by decide))
  have h3 := cell_read m cid _ hc (hT fid hf' 3 (by decide))
  simp only [vec_at_all, h0, h1, h2, h3, ok_bind, pure_eq_ok, toggle, face_key, local_face_ids]
  split <;> rfl

theorem surface_first_loop (T : HexaTables) (hT : T.faces_in_range) (m : Hexmesh) :
    (List.range (num_cells m)).foldlM (surface_first_body T m) [] =
      Except.ok (f2c_map_of T m) := by
  unfold f2c_map_of face_cands
  rw [foldl_flatMap]
  refine (foldlM_eq_foldl (fun _ => True) _ _ _ ?_ [] trivial).1
  intro s cid hc _
  exact ⟨surface_first_body_eq T hT m s cid (List.mem_range.1 hc), trivial⟩

/-! ## The second surface loop -/

theorem length_push_row (xs : List (List Nat)) (i x : Nat) :
    (push_row xs i x).length = xs.length := by
  simp [push_row]

theorem mem_push_row {xs : List (List Nat)} {i x : Nat} {l : List Nat}
    (h : l ∈ push_row xs i x) : l ∈ xs ∨ ∃ l0 ∈ xs, l = l0 ++ [x] := by
  obtain ⟨j, hj, rfl⟩ := List.mem_iff_getElem.1 h
  have hj' : j < xs.length := by simpa [push_row] using hj
  simp only [push_row, List.getElem_modify]
  split
  · exact Or.inr ⟨xs[j], List.getElem_mem _, rfl⟩
  · exact Or.inl (List.getElem_mem _)

theorem all_lt_push_row {xs : List (List Nat)} {i x n : Nat}
    (h : ∀ l ∈ xs, ∀ f ∈ l, f < n) (hx : x < n) : ∀ l ∈ push_row xs i x, ∀ f ∈ l, f < n := by
  intro l hl f hf
  rcases mem_push_row hl with h1 | ⟨l0, h0, rfl⟩
  · exact h l h1 f hf
  · rcases List.mem_append.1 hf with h2 | h2
    · exact h l0 h0 f h2
    · simp at h2; omega

theorem edge_read (m : Hexmesh) (eid off : Nat) (he : eid < num_edges m) (ho : off < 2) :
    edge_vert_id m eid off = Except.ok (edge_vid m eid off) := by
  refine vec_at_of_lt _ _ 0 ?_
  simp only [num_edges] at he
  omega

theorem face_edge_eq (v0 v1 v2 v3 : Nat) (s : FaceLoop) (eid : Nat)
    (he : eid < num_edges s.m) (h1 : eid < s.m.e2f.length) (h2 : s.fresh_id < s.m.f2e.length) :
    face_edge v0 v1 v2 v3 s eid = Except.ok (face_edge_pure v0 v1 v2 v3 s eid) := by
  unfold face_edge face_edge_pure
  simp only [edge_read s.m eid 0 he (by decide), edge_read s.m eid 1 he (by decide), ok_bind]
  split
  · simp [push_back_at_of_lt _ _ _ h1, push_back_at_of_lt _ _ _ h2, push_row]
  · rfl

theorem face_edge_pure_cases (v0 v1 v2 v3 : Nat) (s : FaceLoop) (eid : Nat) :
    face_edge_pure v0 v1 v2 v3 s eid = s ∨
    face_edge_pure v0 v1 v2 v3 s eid =
      { s with m := { s.m with e2f := push_row s.m.e2f eid s.fresh_id,
                               f2e := push_row s.m.f2e s.fresh_id eid } } := by
  unfold face_edge_pure
  dsimp only
  split
  · exact Or.inr rfl
  · exact Or.inl rfl

/-- The loop over the edges of the owning cell only touches `e2f` and `f2e`. -/
theorem face_edge_pure_frame (v0 v1 v2 v3 : Nat) (s : FaceLoop) (eid : Nat) :
    ∃ e2f f2e, face_edge_pure v0 v1 v2 v3 s eid =
        { s with m := { s.m with e2f := e2f, f2e := f2e } } ∧
      e2f.length = s.m.e2f.length ∧ f2e.length = s.m.f2e.length ∧
      (∀ n, (∀ l ∈ s.m.e2f, ∀ f ∈ l, f < n) → s.fresh_id < n → ∀ l ∈ e2f, ∀ f ∈ l, f < n) := by
  rcases face_edge_pure_cases v0 v1 v2 v3 s eid with h | h
  · exact ⟨s.m.e2f, s.m.f2e, h, rfl, rfl, fun n h _ => h⟩
  · exact ⟨_, _, h, length_push_row _ _ _, length_push_row _ _ _,
      fun n h hn => all_lt_push_row h hn⟩

theorem face_edge_fold_frame (v0 v1 v2 v3 : Nat) (es : List Nat) :
    ∀ s : FaceLoop, ∃ e2f f2e, es.foldl (face_edge_pure v0 v1 v2 v3) s =
        { s with m := { s.m with e2f := e2f, f2e := f2e } } ∧
      e2f.length = s.m.e2f.length ∧ f2e.length = s.m.f2e.length ∧
      (∀ n, (∀ l ∈ s.m.e2f, ∀ f ∈ l, f < n) → s.fresh_id < n → ∀ l ∈ e2f, ∀ f ∈ l, f < n) := by
  induction es with
  | nil => intro s; exact ⟨s.m.e2f, s.m.f2e, rfl, rfl, rfl, fun n h _ => h⟩
  | cons e es ih =>
    intro s
    obtain ⟨a, b, h1, h2, h3, h4⟩ := face_edge_pure_frame v0 v1 v2 v3 s e
    obtain ⟨a', b', h1', h2', h3', h4'⟩ := ih (face_edge_pure v0 v1 v2 v3 s e)
    rw [h1] at h1' h2' h3' h4'
    refine ⟨a', b', ?_, ?_, ?_, ?_⟩
    · rw [List.foldl_cons, h1, h1']
    · simpa [h2] using h2'
    · simpa [h3] using h3'
    · intro n h hn
      exact h4' n (h4 n h hn) hn

theorem face_edge_loop_eq (v0 v1 v2 v3 : Nat) (es : List Nat) (s : FaceLoop)
    (he : ∀ e ∈ es, e < num_edges s.m) (h1 : num_edges s.m ≤ s.m.e2f.length)
    (h2 : s.fresh_id < s.m.f2e.length) :
    es.foldlM (face_edge v0 v1 v2 v3) s =
      Except.ok (es.foldl (face_edge_pure v0 v1 v2 v3) s) := by
  refine (foldlM_eq_foldl
    (fun s' => s'.fresh_id = s.fresh_id ∧ s'.m.edges = s.m.edges ∧
      s'.m.e2f.length = s.m.e2f.length ∧ s'.m.f2e.length = s.m.f2e.length)
    _ _ es ?_ s ⟨rfl, rfl, rfl, rfl⟩).1
  intro s' e hmem ⟨q1, q2, q3, q4⟩
  have he' : e < num_edges s'.m := by
    have := he e hmem
    simpa [num_edges, q2] using this
  refine ⟨face_edge_eq v0 v1 v2 v3 s' e he' ?_ ?_, ?_⟩
  · rw [q3]; exact lt_of_lt_of_le (he e hmem) h1
  · rw [q1, q4]; exact h2
  · obtain ⟨a, b, e1, e2, e3, _⟩ := face_edge_pure_frame v0 v1 v2 v3 s' e
    rw [e1]
    exact ⟨q1, q2, by simpa [q3] using e2, by simpa [q4] using e3⟩

theorem assign_at_of_lt {α : Type} (xs : List α) (i : Nat) (x : α) (h : i < xs.length) :
    assign_at xs i x = Except.ok (xs.set i x) := by
  simp [assign_at, h]

theorem row_mem (xs : List (List Nat)) (i : Nat) (h : i < xs.length) : row xs i ∈ xs := by
  unfold row
  rw [List.getD_eq_getElem _ _ h]
  exact List.getElem_mem _

theorem surface_second_step (T : HexaTables) (hT : T.faces_in_range) (m : Hexmesh)
    (hin : ids_in_range m) (hr : edges_ready m) (N n : Nat) (s : FaceLoop)
    (it : List Nat × (Nat × Nat)) (hc : it.2.1 < num_cells m) (hf : it.2.2 < faces_per_cell)
    (hn : n < N) (inv : SurfaceInv m N n s) :
    surface_second_body T s it = Except.ok (surface_second_pure T s it) ∧
      SurfaceInv m N (n + 1) (surface_second_pure T s it) := by
  have hcs : num_cells s.m = num_cells m := by simp [num_cells, inv.cells]
  have hvid : ∀ off, cell_vid s.m it.2.1 off = cell_vid m it.2.1 off := by
    intro off; simp [cell_vid, inv.cells]
  have hc' : it.2.1 < num_cells s.m := by rw [hcs]; exact hc
  have r0 := cell_read s.m it.2.1 _ hc' (hT _ hf 0 (by decide))
  have r1 := cell_read s.m it.2.1 _ hc' (hT _ hf 1 (by decide))
  have r2 := cell_read s.m it.2.1 _ hc' (hT _ hf 2 (by decide))
  have r3 := cell_read s.m it.2.1 _ hc' (hT _ hf 3 (by decide))
  have b0 : cell_vid s.m it.2.1 (T.HEXA_FACES it.2.2 0) < num_verts m := by
    rw [hvid]; exact hin it.2.1 hc _ (hT _ hf 0 (by decide))
  have b1 : cell_vid s.m it.2.1 (T.HEXA_FACES it.2.2 1) < num_verts m := by
    rw [hvid]; exact hin it.2.1 hc _ (hT _ hf 1 (by decide))
  have b2 : cell_vid s.m it.2.1 (T.HEXA_FACES it.2.2 2) < num_verts m := by
    rw [hvid]; exact hin it.2.1 hc _ (hT _ hf 2 (by decide))
  have b3 : cell_vid s.m it.2.1 (T.HEXA_FACES it.2.2 3) < num_verts m := by
    rw [hvid]; exact hin it.2.1 hc _ (hT _ hf 3 (by decide))
  have hcl : it.2.1 < s.m.c2e.length := by rw [inv.c2e, hr.1]; exact hc
  have hrow : ∀ e ∈ row s.m.c2e it.2.1, e < num_edges m := by
    intro e he
    exact hr.2 _ (inv.c2e ▸ row_mem s.m.c2e it.2.1 hcl) e he
  have hfl : s.fresh_id < s.m.f2c.length := by rw [inv.f2c, inv.fresh]; exact hn
  refine ⟨?_, ?_⟩
  · unfold surface_second_body surface_second_pure
    simp only [r0, r1, r2, r3, ok_bind, assign_at, push_back_at, List.length_set,
      List.length_modify, inv.v_on_srf, inv.v2f, inv.c2f, hfl, b0, b1, b2, b3, hc, if_true,
      adj_c2e]
    rw [vec_at_of_lt _ _ [] hcl, ok_bind]
    rw [face_edge_loop_eq]
    · rfl
    · intro e he
      simpa [num_edges, inv.edges] using hrow e he
    · simp [num_edges, inv.edges, inv.e2f]
    · simp only [inv.f2e, inv.fresh]; exact hn
  · unfold surface_second_pure
    dsimp only
    obtain ⟨a, b, e1, e2, e3, e4⟩ := face_edge_fold_frame
      (cell_vid s.m it.2.1 (T.HEXA_FACES it.2.2 0)) (cell_vid s.m it.2.1 (T.HEXA_FACES it.2.2 1))
      (cell_vid s.m it.2.1 (T.HEXA_FACES it.2.2 2)) (cell_vid s.m it.2.1 (T.HEXA_FACES it.2.2 3))
      (row s.m.c2e it.2.1) (surface_second_start T s it)
    rw [e1]
    simp only [surface_second_start] at e2 e3 e4
    constructor
    · simp [surface_second_start, inv.fresh]
    · exact inv.verts
    · exact inv.cells
    · exact inv.edges
    · exact inv.c2e
    · exact inv.e_on_srf
    · simp [surface_second_start, inv.faces]; omega
    · simp [surface_second_start, inv.v_on_srf]
    · simp [surface_second_start, length_push_row, inv.v2f]
    · simp [surface_second_start, length_push_row, inv.c2f]
    · simp [surface_second_start, inv.f2c]
    · simpa [inv.f2e] using e3
    · simpa [inv.e2f] using e2
    · refine e4 (n + 1) ?_ ?_
      · intro l hl f hf'
        exact Nat.lt_succ_of_lt (inv.e2f_lt l hl f hf')
      · simp [inv.fresh]

theorem length_resize {α : Type} (xs : List α) (n : Nat) (x : α) : (resize xs n x).length = n := by
  simp only [resize, List.length_append, List.length_take, List.length_replicate]
  omega

theorem surface_start_inv (T : HexaTables) (m : Hexmesh) :
    SurfaceInv m (f2c_map_of T m).length 0 { m := surface_start T m, fresh_id := 0 } := by
  constructor <;> simp [surface_start, length_resize]

theorem surface_second_loop (T : HexaTables) (hT : T.faces_in_range) (m : Hexmesh)
    (hin : ids_in_range m) (hr : edges_ready m) :
    (f2c_map_of T m).foldlM (surface_second_body T) { m := surface_start T m, fresh_id := 0 } =
        Except.ok ((f2c_map_of T m).foldl (surface_second_pure T)
          { m := surface_start T m, fresh_id := 0 }) ∧
      SurfaceInv m (f2c_map_of T m).length (f2c_map_of T m).length
        ((f2c_map_of T m).foldl (surface_second_pure T)
          { m := surface_start T m, fresh_id := 0 }) := by
  refine foldlM_eq_foldl_pre
    (fun pre s => SurfaceInv m (f2c_map_of T m).length pre.length s) _ _ _ ?_ _
    (surface_start_inv T m)
  intro pre x post s hl inv
  have hx : x ∈ f2c_map_of T m := by rw [hl]; simp
  obtain ⟨hc, hf, _⟩ := (mem_face_cands T m x).1 (mem_f2c_map T m x hx)
  have hn : pre.length < (f2c_map_of T m).length := by rw [hl]; simp
  have := surface_second_step T hT m hin hr _ _ s x hc hf hn inv
  simpa using this

/-! ## The third surface loop -/

theorem f2f_inner_eq (fs : List Nat) (fid1 : Nat) (f2f : List (List Nat))
    (h : fid1 < f2f.length) :
    fs.foldlM (fun f2f fid2 => if fid1 ≠ fid2 then push_back_at f2f fid1 fid2 else pure f2f) f2f =
        Except.ok (fs.foldl
          (fun f2f fid2 => if fid1 ≠ fid2 then push_row f2f fid1 fid2 else f2f) f2f) ∧
      (fs.foldl (fun f2f fid2 => if fid1 ≠ fid2 then push_row f2f fid1 fid2 else f2f) f2f).length =
        f2f.length := by
  refine foldlM_eq_foldl (fun x => x.length = f2f.length) _ _ fs ?_ f2f rfl
  intro s fid2 _ hs
  by_cases hne : fid1 ≠ fid2
  · simp only [if_pos hne]
    exact ⟨push_back_at_of_lt _ _ _ (hs ▸ h), by rw [length_push_row]; exact hs⟩
  · simp only [if_neg hne]
    exact ⟨rfl, hs⟩

theorem f2f_outer_eq (fs0 fs : List Nat) (f2f : List (List Nat))
    (h : ∀ f ∈ fs, f < f2f.length) :
    fs.foldlM (fun f2f fid1 => fs0.foldlM
          (fun f2f fid2 => if fid1 ≠ fid2 then push_back_at f2f fid1 fid2 else pure f2f) f2f)
        f2f =
        Except.ok (fs.foldl (fun f2f fid1 => fs0.foldl
          (fun f2f fid2 => if fid1 ≠ fid2 then push_row f2f fid1 fid2 else f2f) f2f) f2f) ∧
      (fs.foldl (fun f2f fid1 => fs0.foldl
          (fun f2f fid2 => if fid1 ≠ fid2 then push_row f2f fid1 fid2 else f2f) f2f) f2f).length =
        f2f.length := by
  refine foldlM_eq_foldl (fun x => x.length = f2f.length) _ _ fs ?_ f2f rfl
  intro s fid1 hmem hs
  have := f2f_inner_eq fs0 fid1 s (hs ▸ h fid1 hmem)
  exact ⟨this.1, this.2.trans hs⟩

theorem surface_third_step (m : Hexmesh) (eid : Nat) (he : eid < m.e2f.length)
    (hf : ∀ f ∈ row m.e2f eid, f < m.f2f.length) (hs : eid < m.e_on_srf.length) :
    surface_third_body m eid = Except.ok (surface_third_pure m eid) ∧
      (surface_third_pure m eid).e2f = m.e2f ∧
      (surface_third_pure m eid).edges = m.edges ∧
      (surface_third_pure m eid).f2f.length = m.f2f.length ∧
      (surface_third_pure m eid).e_on_srf.length = m.e_on_srf.length := by
  obtain ⟨h1, h2⟩ := f2f_outer_eq (row m.e2f eid) (row m.e2f eid) m.f2f hf
  refine ⟨?_, rfl, rfl, h2, ?_⟩
  · unfold surface_third_body surface_third_pure
    rw [vec_at_of_lt _ _ [] he]
    simp only [ok_bind]
    rw [← row, h1]
    simp only [ok_bind]
    split
    · rw [assign_at_of_lt _ _ _ hs]; rfl
    · rfl
  · unfold surface_third_pure
    dsimp only
    split <;> simp

theorem update_surface_adjacency_eq (T : HexaTables) (hT : T.faces_in_range) (m : Hexmesh)
    (hin : ids_in_range m) (hr : edges_ready m) :
    update_surface_adjacency T m = Except.ok (surface_pure T m) := by
  obtain ⟨h2, inv⟩ := surface_second_loop T hT m hin hr
  unfold update_surface_adjacency
  rw [surface_first_loop T hT m]
  simp only [ok_bind]
  erw [h2]
  simp only [ok_bind]
  have hnf : num_faces (surface_faces T m) = (f2c_map_of T m).length := by
    have := inv.faces
    simp only [num_faces, verts_per_face, surface_faces] at *
    omega
  refine (foldlM_eq_foldl
    (fun x => x.e2f = (surface_faces T m).e2f ∧ x.edges = m.edges ∧
      x.f2f.length = (f2c_map_of T m).length ∧ x.e_on_srf.length = num_edges m) _ _ _ ?_ _
    ⟨rfl, inv.edges, ?_, ?_⟩).1
  · intro x eid hmem ⟨q1, q2, q3, q4⟩
    have he : eid < num_edges m := by
      have := List.mem_range.1 hmem
      simpa [num_edges, inv.edges] using this
    have hel : eid < x.e2f.length := by rw [q1]; exact (inv.e2f).symm ▸ he
    obtain ⟨t1, t2, t3, t4, t5⟩ := surface_third_step x eid hel
      (by
        intro f hf
        rw [q3]
        rw [q1] at hf
        exact inv.e2f_lt _ (row_mem _ _ ((inv.e2f).symm ▸ he)) f hf)
      (by rw [q4]; exact he)
    exact ⟨t1, t2.trans q1, t3.trans q2, t4.trans q3, t5.trans q4⟩
  · show (List.replicate (num_faces (surface_faces T m)) ([] : List Nat)).length = _
    simp [hnf]
  · show (surface_faces T m).e_on_srf.length = _
    have := inv.e_on_srf
    simp only [surface_faces]
    rw [this, length_resize]

/-! ## The shared-face test -/

theorem cell_vert_id_ok {m : Hexmesh} {cid off v : Nat}
    (h : cell_vert_id m cid off = Except.ok v) : v = cell_vid m cid off :=
  (vec_at_eq_ok 0 h).2

theorem cell_contains_vert_from_ok (m : Hexmesh) (cid vid : Nat) (l : List Nat) :
    ∀ b, cell_contains_vert_from m cid vid l = Except.ok b →
      b = cell_contains_vert_pure m cid vid l := by
  induction l with
  | nil => intro b h; cases h; rfl
  | cons i is ih =>
    intro b h
    rw [cell_contains_vert_from, bind_eq_ok] at h
    obtain ⟨v, hv, h⟩ := h
    have hv' := cell_vert_id_ok hv
    subst hv'
    by_cases hc : cell_vid m cid i = vid
    · simp only [hc, if_true, pure_eq_ok] at h
      cases h
      simp [cell_contains_vert_pure, hc]
    · simp only [hc, if_false] at h
      rw [ih b h]
      simp [cell_contains_vert_pure, hc]

theorem cell_contains_vert_ok {m : Hexmesh} {cid vid : Nat} {b : Bool}
    (h : cell_contains_vert m cid vid = Except.ok b) :
    b = cell_contains_vert_pure m cid vid (List.range verts_per_cell) :=
  cell_contains_vert_from_ok m cid vid _ b h

theorem contains_probe_ok {m : Hexmesh} {cid0 cid1 off : Nat} {b : Bool}
    (h : (do cell_contains_vert m cid1 (← cell_vert_id m cid0 off)) = Except.ok b) :
    b = cell_contains_vert_pure m cid1 (cell_vid m cid0 off) (List.range verts_per_cell) := by
  rw [bind_eq_ok] at h
  obtain ⟨v, hv, h⟩ := h
  rw [cell_vert_id_ok hv] at h
  exact cell_contains_vert_ok h

theorem face_in_cell_ok {T : HexaTables} {m : Hexmesh} {cid0 cid1 f : Nat} {b : Bool}
    (h : face_in_cell T m cid0 cid1 f = Except.ok b) : b = face_in_cell_pure T m cid0 cid1 f := by
  unfold face_in_cell at h
  rw [bind_eq_ok] at h
  obtain ⟨b0, h0, h⟩ := h
  have e0 := contains_probe_ok h0
  unfold face_in_cell_pure
  rw [← e0]
  cases b0 with
  | false => simp at h; simp [h]
  | true =>
    simp only [Bool.not_true, Bool.false_eq_true, if_false, Bool.true_and] at h ⊢
    rw [bind_eq_ok] at h
    obtain ⟨b1, h1, h⟩ := h
    rw [← contains_probe_ok h1]
    cases b1 with
    | false => simp at h; simp [h]
    | true =>
      simp only [Bool.not_true, Bool.false_eq_true, if_false, Bool.true_and] at h ⊢
      rw [bind_eq_ok] at h
      obtain ⟨b2, h2, h⟩ := h
      rw [← contains_probe_ok h2]
      cases b2 with
      | false => simp at h; simp [h]
      | true =>
        simp only [Bool.not_true, Bool.false_eq_true, if_false, Bool.true_and] at h ⊢
        exact contains_probe_ok h

theorem cell_shared_face_from_ok (T : HexaTables) (m : Hexmesh) (cid0 cid1 : Nat) (l : List Nat) :
    ∀ v, cell_shared_face_from T m cid0 cid1 l = Except.ok v →
      v = cell_shared_face_pure T m cid0 cid1 l := by
  induction l with
  | nil => intro v h; cases h; rfl
  | cons f fs ih =>
    intro v h
    rw [cell_shared_face_from, bind_eq_ok] at h
    obtain ⟨b, hb, h⟩ := h
    have hb' := face_in_cell_ok hb
    subst hb'
    unfold cell_shared_face_pure
    split
    · rename_i hc
      simp only [hc, if_true, pure_eq_ok] at h
      cases h; rfl
    · rename_i hc
      simp only [hc, Bool.false_eq_true, if_false] at h
      exact ih v h

theorem cell_shared_face_ok {T : HexaTables} {m : Hexmesh} {cid0 cid1 : Nat} {v : Int}
    (h : cell_shared_face T m cid0 cid1 = Except.ok v) :
    v = cell_shared_face_pure T m cid0 cid1 (List.range faces_per_cell) :=
  cell_shared_face_from_ok T m cid0 cid1 _ v h

theorem cell_contains_vert_pure_iff (m : Hexmesh) (cid vid : Nat) :
    cell_contains_vert_pure m cid vid (List.range verts_per_cell) = true ↔
      ∃ j < verts_per_cell, cell_vid m cid j = vid := by
  simp [cell_contains_vert_pure]

theorem face_in_cell_pure_iff (T : HexaTables) (m : Hexmesh) (cid0 cid1 f : Nat) :
    face_in_cell_pure T m cid0 cid1 f = true ↔
      ∀ k < verts_per_face, ∃ j < verts_per_cell,
        cell_vid m cid1 j = cell_vid m cid0 (T.HEXA_FACES f k) := by
  unfold face_in_cell_pure
  simp only [Bool.and_eq_true, cell_contains_vert_pure_iff, verts_per_face]
  constructor
  · rintro ⟨⟨⟨h0, h1⟩, h2⟩, h3⟩ k hk
    interval_cases k <;> assumption
  · intro h
    exact ⟨⟨⟨h 0 (by decide), h 1 (by decide)⟩, h 2 (by decide)⟩, h 3 (by decide)⟩

theorem cell_shared_face_pure_ne (T : HexaTables) (m : Hexmesh) (cid0 cid1 : Nat) (l : List Nat) :
    cell_shared_face_pure T m cid0 cid1 l ≠ -1 ↔
      ∃ f ∈ l, face_in_cell_pure T m cid0 cid1 f = true := by
  induction l with
  | nil => simp [cell_shared_face_pure]
  | cons f fs ih =>
    unfold cell_shared_face_pure
    split
    · rename_i hc
      constructor
      · intro _; exact ⟨f, List.mem_cons_self _ _, hc⟩
      · intro _; omega
    · rename_i hc
      rw [ih]
      constructor
      · rintro ⟨g, hg, h⟩; exact ⟨g, List.mem_cons_of_mem _ hg, h⟩
      · rintro ⟨g, hg, h⟩
        rcases List.mem_cons.1 hg with rfl | hg
        · exact absurd h hc
        · exact ⟨g, hg, h⟩

theorem cell_shared_face_pure_iff (T : HexaTables) (m : Hexmesh) (cid0 cid1 : Nat) :
    cell_shared_face_pure T m cid0 cid1 (List.range faces_per_cell) ≠ -1 ↔
      face_inside T m cid0 cid1 := by
  rw [cell_shared_face_pure_ne]
  unfold face_inside
  simp only [List.mem_range, face_in_cell_pure_iff]

/-! ## The second interior loop -/

theorem vec_at_row {xs : List (List Nat)} {i : Nat} {l : List Nat}
    (h : vec_at xs i = Except.ok l) : l = row xs i := (vec_at_eq_ok [] h).2

/-- What a successful run of `link_cells` did: nothing, or it linked the two
cells in both directions, recorded the pair and passed both assertions. -/
theorem link_cells_ok {T : HexaTables} {s s' : EdgeLoop} {cid nbr : Nat}
    (h : link_cells T s cid nbr = Except.ok s') :
    (s' = s ∧ (¬ face_inside T s.m cid nbr ∨ unique_pair cid nbr ∈ s.cell_pairs)) ∨
    (face_inside T s.m cid nbr ∧ unique_pair cid nbr ∉ s.cell_pairs ∧
      ∃ c1 c2, push_back_at s.m.c2c cid nbr = Except.ok c1 ∧
        push_back_at c1 nbr cid = Except.ok c2 ∧
        (row c2 cid).length ≤ faces_per_cell ∧ (row c2 nbr).length ≤ faces_per_cell ∧
        s' = { s with m := { s.m with c2c := c2 },
                      cell_pairs := unique_pair cid nbr :: s.cell_pairs }) := by
  unfold link_cells at h
  rw [bind_eq_ok] at h
  obtain ⟨sf, hsf, h⟩ := h
  have hsf' := cell_shared_face_ok hsf
  by_cases hne : sf ≠ -1
  · have hin : face_inside T s.m cid nbr := by
      rw [← cell_shared_face_pure_iff, ← hsf']; exact hne
    rw [if_pos hne] at h
    by_cases hp : unique_pair cid nbr ∈ s.cell_pairs
    · have hc : (s.cell_pairs.contains (unique_pair cid nbr)) = true := by simpa using hp
      simp only [hc, Bool.not_true, Bool.false_eq_true, if_false, pure_eq_ok] at h
      cases h
      exact Or.inl ⟨rfl, Or.inr hp⟩
    · have hc : (s.cell_pairs.contains (unique_pair cid nbr)) = false := by simpa using hp
      simp only [hc, Bool.not_false, if_true] at h
      rw [bind_eq_ok] at h
      obtain ⟨c1, h1, h⟩ := h
      rw [bind_eq_ok] at h
      obtain ⟨c2, h2, h⟩ := h
      rw [bind_eq_ok] at h
      obtain ⟨x, hx, h⟩ := h
      rw [bind_eq_ok] at h
      obtain ⟨_, ha, h⟩ := h
      rw [bind_eq_ok] at h
      obtain ⟨y, hy, h⟩ := h
      rw [bind_eq_ok] at h
      obtain ⟨_, hb, h⟩ := h
      have ha' := assert_eq_ok ha
      have hb' := assert_eq_ok hb
      rw [vec_at_row hx] at ha'
      rw [vec_at_row hy] at hb'
      simp only [pure_eq_ok] at h
      cases h
      exact Or.inr ⟨hin, hp, c1, c2, h1, h2, by simpa using ha', by simpa using hb', rfl⟩
  · have hnin : ¬ face_inside T s.m cid nbr := by
      rw [← cell_shared_face_pure_iff, ← hsf']; exact hne
    rw [if_neg hne] at h
    cases h
    exact Or.inl ⟨rfl, Or.inl hnin⟩

/-- Shape of the state after the loop over the cells of one edge: only `c2e`,
`e2c`, `c2c` and `cell_pairs` can have changed. -/
theorem link_cells_frame {T : HexaTables} {s s' : EdgeLoop} {cid nbr : Nat}
    (h : link_cells T s cid nbr = Except.ok s') :
    s' = { s with m := { s.m with c2c := s'.m.c2c }, cell_pairs := s'.cell_pairs } := by
  rcases link_cells_ok h with ⟨rfl, _⟩ | ⟨_, _, c1, c2, _, _, _, _, rfl⟩ <;> rfl

theorem edge_cells_from_cons_ok {T : HexaTables} {eid cid : Nat} {rest : List Nat}
    {s r : EdgeLoop} (h : edge_cells_from T eid s (cid :: rest) = Except.ok r) :
    ∃ c2e e2c s2, push_back_at s.m.c2e cid eid = Except.ok c2e ∧
      push_back_at s.m.e2c eid cid = Except.ok e2c ∧
      rest.foldlM (fun s nbr => link_cells T s cid nbr)
        { s with m := { s.m with c2e := c2e, e2c := e2c } } = Except.ok s2 ∧
      edge_cells_from T eid s2 rest = Except.ok r := by
  rw [edge_cells_from, bind_eq_ok] at h
  obtain ⟨c2e, h1, h⟩ := h
  rw [bind_eq_ok] at h
  obtain ⟨e2c, h2, h⟩ := h
  dsimp only at h
  rw [bind_eq_ok] at h
  obtain ⟨s2, h3, h⟩ := h
  exact ⟨c2e, e2c, s2, h1, h2, h3, h⟩

theorem interior_second_body_ok {T : HexaTables} {s r : EdgeLoop} {it : ipair × List Nat}
    (h : interior_second_body T s it = Except.ok r) :
    ∃ a1 a2 b1 b2, push_back_at s.m.v2v it.1.1 it.1.2 = Except.ok a1 ∧
      push_back_at a1 it.1.2 it.1.1 = Except.ok a2 ∧
      push_back_at s.m.v2e it.1.1 s.fresh_id = Except.ok b1 ∧
      push_back_at b1 it.1.2 s.fresh_id = Except.ok b2 ∧
      edge_cells_from T s.fresh_id
        { m := { s.m with edges := s.m.edges ++ [it.1.1, it.1.2], v2v := a2, v2e := b2 },
          cell_pairs := s.cell_pairs, fresh_id := s.fresh_id + 1 } it.2 = Except.ok r := by
  unfold interior_second_body at h
  dsimp only at h
  rw [bind_eq_ok] at h
  obtain ⟨a1, h1, h⟩ := h
  rw [bind_eq_ok] at h
  obtain ⟨a2, h2, h⟩ := h
  rw [bind_eq_ok] at h
  obtain ⟨b1, h3, h⟩ := h
  rw [bind_eq_ok] at h
  obtain ⟨b2, h4, h⟩ := h
  exact ⟨a1, a2, b1, b2, h1, h2, h3, h4, h⟩

/-- A relation between states that holds across each elementary update of the
loop over the cells of one edge holds across that loop. -/
theorem edge_cells_from_rel (T : HexaTables) (R : EdgeLoop → EdgeLoop → Prop)
    (hrefl : ∀ s, R s s) (htrans : ∀ a b c, R a b → R b c → R a c)
    (hlink : ∀ s cid nbr s', link_cells T s cid nbr = Except.ok s' → R s s')
    (hcell : ∀ (s : EdgeLoop) eid cid c2e e2c, eid + 1 = s.fresh_id →
      push_back_at s.m.c2e cid eid = Except.ok c2e →
      push_back_at s.m.e2c eid cid = Except.ok e2c →
      R s { s with m := { s.m with c2e := c2e, e2c := e2c } }) :
    ∀ (eid : Nat) (cids : List Nat) (s r : EdgeLoop), eid + 1 = s.fresh_id →
      edge_cells_from T eid s cids = Except.ok r → R s r := by
  have hfold : ∀ (cid : Nat) (rest : List Nat) (s r : EdgeLoop),
      rest.foldlM (fun s nbr => link_cells T s cid nbr) s = Except.ok r →
      R s r ∧ r.fresh_id = s.fresh_id := by
    intro cid rest
    induction rest with
    | nil => intro s r h; simp at h; cases h; exact ⟨hrefl s, rfl⟩
    | cons nbr rest ih =>
      intro s r h
      rw [List.foldlM_cons, bind_eq_ok] at h
      obtain ⟨s1, h1, h2⟩ := h
      obtain ⟨q1, q2⟩ := ih s1 r h2
      refine ⟨htrans _ _ _ (hlink s cid nbr s1 h1) q1, ?_⟩
      rw [q2, link_cells_frame h1]
  intro eid cids
  induction cids with
  | nil => intro s r _ h; simp [edge_cells_from] at h; cases h; exact hrefl s
  | cons cid rest ih =>
    intro s r hf h
    obtain ⟨c2e, e2c, s2, h1, h2, h3, h4⟩ := edge_cells_from_cons_ok h
    obtain ⟨q1, q2⟩ := hfold cid rest _ s2 h3
    exact htrans _ _ _ (hcell s eid cid c2e e2c hf h1 h2)
      (htrans _ _ _ q1 (ih s2 r (by rw [q2]; exact hf) h4))

/-- A relation between states that holds across each elementary update of the
second interior loop holds across the whole loop. -/
theorem interior_second_loop_rel (T : HexaTables) (R : EdgeLoop → EdgeLoop → Prop)
    (hrefl : ∀ s, R s s) (htrans : ∀ a b c, R a b → R b c → R a c)
    (hlink : ∀ s cid nbr s', link_cells T s cid nbr = Except.ok s' → R s s')
    (hcell : ∀ (s : EdgeLoop) eid cid c2e e2c, eid + 1 = s.fresh_id →
      push_back_at s.m.c2e cid eid = Except.ok c2e →
      push_back_at s.m.e2c eid cid = Except.ok e2c →
      R s { s with m := { s.m with c2e := c2e, e2c := e2c } })
    (hedge : ∀ (s : EdgeLoop) (it : ipair × List Nat) a1 a2 b1 b2,
      push_back_at s.m.v2v it.1.1 it.1.2 = Except.ok a1 →
      push_back_at a1 it.1.2 it.1.1 = Except.ok a2 →
      push_back_at s.m.v2e it.1.1 s.fresh_id = Except.ok b1 →
      push_back_at b1 it.1.2 s.fresh_id = Except.ok b2 →
      R s { m := { s.m with edges := s.m.edges ++ [it.1.1, it.1.2], v2v := a2, v2e := b2 },
            cell_pairs := s.cell_pairs, fresh_id := s.fresh_id + 1 }) :
    ∀ (l : List (ipair × List Nat)) (s r : EdgeLoop),
      l.foldlM (interior_second_body T) s = Except.ok r → R s r := by
  intro l
  induction l with
  | nil => intro s r h; simp at h; cases h; exact hrefl s
  | cons it l ih =>
    intro s r h
    rw [List.foldlM_cons, bind_eq_ok] at h
    obtain ⟨s1, h1, h2⟩ := h
    obtain ⟨a1, a2, b1, b2, e1, e2, e3, e4, e5⟩ := interior_second_body_ok h1
    exact htrans _ _ _ (hedge s it a1 a2 b1 b2 e1 e2 e3 e4)
      (htrans _ _ _ (edge_cells_from_rel T R hrefl htrans hlink hcell _ _ _ s1 rfl e5)
        (ih s1 r h2))

/-! ## The first interior loop -/

theorem vec_at_all_ok (xs : List Nat) (l : List Nat) :
    ∀ vs, vec_at_all xs l = Except.ok vs → vs = l.map (fun i => xs.getD i 0) := by
  induction l with
  | nil => intro vs h; cases h; rfl
  | cons i is ih =>
    intro vs h
    rw [vec_at_all, bind_eq_ok] at h
    obtain ⟨v, hv, h⟩ := h
    rw [bind_eq_ok] at h
    obtain ⟨vs', hvs, h⟩ := h
    cases h
    rw [ih vs' hvs, (vec_at_eq_ok 0 hv).2]
    rfl

theorem getD_cell_vids (m : Hexmesh) (cid off : Nat) (ho : off < verts_per_cell) :
    (((List.range 8).map (fun k => cid * verts_per_cell + k)).map
      (fun i => m.cells.getD i 0)).getD off 0 = cell_vid m cid off := by
  simp only [verts_per_cell] at ho
  interval_cases off <;> rfl

theorem interior_first_body_ok (T : HexaTables) (hT : T.edges_in_range)
    {st st' : Hexmesh × List (ipair × List Nat)} {cid : Nat}
    (h : interior_first_body T st cid = Except.ok st') :
    st'.1 = { st.1 with v2c := st'.1.v2c } ∧
    st'.2 = ((List.range edges_per_cell).map (fun eid => (edge_key T st.1 cid eid, cid))).foldl
      (fun mp c => map_push_back ipair_lt mp c.1 c.2) st.2 := by
  unfold interior_first_body at h
  dsimp only at h
  rw [bind_eq_ok] at h
  obtain ⟨vids, hv, h⟩ := h
  rw [bind_eq_ok] at h
  obtain ⟨v2c, _, h⟩ := h
  simp only [pure_eq_ok] at h
  cases h
  refine ⟨rfl, ?_⟩
  rw [List.foldl_map]
  rw [vec_at_all_ok _ _ _ hv]
  apply List.foldl_ext
  intro mp eid he
  have he' : eid < edges_per_cell := List.mem_range.1 he
  rw [getD_cell_vids _ _ _ (hT eid he' 0 (by decide)),
    getD_cell_vids _ _ _ (hT eid he' 1 (by decide))]
  rfl

theorem interior_first_loop_ok (T : HexaTables) (hT : T.edges_in_range) (m : Hexmesh)
    (st : Hexmesh × List (ipair × List Nat))
    (h : (List.range (num_cells m)).foldlM (interior_first_body T) (m, []) = Except.ok st) :
    st.1 = { m with v2c := st.1.v2c } ∧ st.2 = e2c_map_of T m := by
  have key := foldlM_inv_pre
    (fun pre (st : Hexmesh × List (ipair × List Nat)) =>
      st.1 = { m with v2c := st.1.v2c } ∧
      st.2 = (pre.flatMap (fun cid =>
        (List.range edges_per_cell).map (fun eid => (edge_key T m cid eid, cid)))).foldl
        (fun mp c => map_push_back ipair_lt mp c.1 c.2) [])
    (interior_first_body T) (List.range (num_cells m)) ?_ _ st ⟨rfl, rfl⟩ h
  · exact key
  · intro pre x post s s' _ ⟨p1, p2⟩ hs
    obtain ⟨q1, q2⟩ := interior_first_body_ok T hT hs
    refine ⟨?_, ?_⟩
    · rw [q1, p1]
    · rw [q2, p2, List.flatMap_append, List.foldl_append]
      have : edge_key T s.1 = edge_key T m := by
        funext cid eid
        rw [p1]
        rfl
      simp [this]

/-! ## The whole of `update_interior_adjacency` -/

/-- A successful `update_interior_adjacency` is a successful run of its second
loop over the map `e2c_map_of`, from the state `interior_start`. -/
theorem update_interior_adjacency_ok (T : HexaTables) (hT : T.edges_in_range) (m m1 : Hexmesh)
    (h : update_interior_adjacency T m = Except.ok m1) :
    ∃ v2c s, (e2c_map_of T m).foldlM (interior_second_body T)
        { m := interior_start T m v2c, cell_pairs := [], fresh_id := 0 } = Except.ok s ∧
      s.m = m1 := by
  unfold update_interior_adjacency at h
  dsimp only at h
  rw [bind_eq_ok] at h
  obtain ⟨st, h1, h⟩ := h
  rw [bind_eq_ok] at h
  obtain ⟨s, h2, h⟩ := h
  simp only [pure_eq_ok] at h
  cases h
  obtain ⟨q1, q2⟩ := interior_first_loop_ok T hT _ st h1
  have q2' : st.2 = e2c_map_of T m := q2
  refine ⟨st.1.v2c, s, ?_, rfl⟩
  rw [← h2, q2']
  congr 2
  rw [q1]
  rfl

theorem interior_frame_refl (a : Hexmesh) : InteriorFrame a a := by
  constructor <;> rfl

theorem interior_frame_trans {a b c : Hexmesh} (h1 : InteriorFrame a b) (h2 : InteriorFrame b c) :
    InteriorFrame a c := by
  constructor
  · exact h2.verts.trans h1.verts
  · exact h2.cells.trans h1.cells
  · exact h2.faces.trans h1.faces
  · exact h2.v_on_srf.trans h1.v_on_srf
  · exact h2.e_on_srf.trans h1.e_on_srf
  · exact h2.v2f.trans h1.v2f
  · exact h2.v2c.trans h1.v2c
  · exact h2.e2f.trans h1.e2f
  · exact h2.f2e.trans h1.f2e
  · exact h2.f2f.trans h1.f2f
  · exact h2.f2c.trans h1.f2c
  · exact h2.c2f.trans h1.c2f
  · exact h2.v2v_len.trans h1.v2v_len
  · exact h2.v2e_len.trans h1.v2e_len
  · exact h2.e2c_len.trans h1.e2c_len
  · exact h2.c2e_len.trans h1.c2e_len
  · exact h2.c2c_len.trans h1.c2c_len

theorem interior_second_loop_frame (T : HexaTables) (l : List (ipair × List Nat))
    (s r : EdgeLoop) (h : l.foldlM (interior_second_body T) s = Except.ok r) :
    InteriorFrame s.m r.m := by
  refine interior_second_loop_rel T (fun a b => InteriorFrame a.m b.m)
    (fun s => interior_frame_refl s.m) (fun a b c => interior_frame_trans) ?_ ?_ ?_ l s r h
  · intro s cid nbr s' h
    rcases link_cells_ok h with ⟨rfl, _⟩ | ⟨_, _, c1, c2, h1, h2, _, _, rfl⟩
    · exact interior_frame_refl _
    · constructor <;> first | rfl | simp [length_push h1, length_push h2]
  · intro s eid cid c2e e2c _ h1 h2
    constructor <;> first | rfl | simp [length_push h1, length_push h2]
  · intro s it a1 a2 b1 b2 h1 h2 h3 h4
    constructor <;> first | rfl | simp [length_push h1, length_push h2, length_push h3, length_push h4]

theorem interior_second_loop_edges (T : HexaTables) (l : List (ipair × List Nat))
    (s r : EdgeLoop) (h : l.foldlM (interior_second_body T) s = Except.ok r)
    (h1 : s.m.edges.length = 2 * s.fresh_id) (h2 : ∀ l ∈ s.m.c2e, ∀ e ∈ l, e < s.fresh_id) :
    r.m.edges.length = 2 * r.fresh_id ∧ ∀ l ∈ r.m.c2e, ∀ e ∈ l, e < r.fresh_id := by
  refine interior_second_loop_rel T
    (fun a b => (a.m.edges.length = 2 * a.fresh_id ∧ ∀ l ∈ a.m.c2e, ∀ e ∈ l, e < a.fresh_id) →
      (b.m.edges.length = 2 * b.fresh_id ∧ ∀ l ∈ b.m.c2e, ∀ e ∈ l, e < b.fresh_id))
    (fun s h => h) (fun a b c h1 h2 h => h2 (h1 h)) ?_ ?_ ?_ l s r h ⟨h1, h2⟩
  · intro s cid nbr s' h
    rw [link_cells_frame h]
    exact fun h => h
  · intro s eid cid c2e e2c hf h1 h2 ⟨p1, p2⟩
    refine ⟨p1, ?_⟩
    obtain ⟨_, rfl⟩ := push_back_at_eq_ok h1
    exact all_lt_push_row p2 (show eid < s.fresh_id by omega)
  · intro s it a1 a2 b1 b2 _ _ _ _ ⟨p1, p2⟩
    refine ⟨by simp [p1]; omega, ?_⟩
    intro l hl e he
    exact Nat.lt_succ_of_lt (p2 l hl e he)

/-- The interior adjacency leaves the raw arrays and the surface data alone, and
hands the surface extraction the rows of `c2e` it needs. -/
theorem update_interior_adjacency_frame (T : HexaTables) (hT : T.edges_in_range)
    (m m1 : Hexmesh) (h : update_interior_adjacency T m = Except.ok m1) :
    m1.verts = m.verts ∧ m1.cells = m.cells ∧ m1.v_on_srf = m.v_on_srf ∧
      m1.e_on_srf = m.e_on_srf ∧ m1.c2c.length = num_cells m ∧ edges_ready m1 := by
  obtain ⟨v2c, s, hs, rfl⟩ := update_interior_adjacency_ok T hT m m1 h
  have fr := interior_second_loop_frame T _ _ _ hs
  obtain ⟨e1, e2⟩ := interior_second_loop_edges T _ _ _ hs rfl (by
    intro l hl e he
    have : l = [] := List.eq_of_mem_replicate hl
    subst this
    cases he)
  refine ⟨fr.verts, fr.cells, fr.v_on_srf, fr.e_on_srf, ?_, ?_, ?_⟩
  · rw [fr.c2c_len]; simp [interior_start]
  · rw [fr.c2e_len]
    simp [interior_start, num_cells, fr.cells]
  · intro l hl e he
    have := e2 l hl e he
    simp only [num_edges]
    omega

/-! ## The derived faces -/

theorem surface_second_pure_faces (T : HexaTables) (s : FaceLoop) (it : List Nat × (Nat × Nat)) :
    (surface_second_pure T s it).m.faces = s.m.faces ++ local_face_ids T s.m it.2.1 it.2.2 ∧
      (surface_second_pure T s it).m.cells = s.m.cells ∧
      (surface_second_pure T s it).m.verts = s.m.verts := by
  unfold surface_second_pure
  dsimp only
  obtain ⟨a, b, e1, _⟩ := face_edge_fold_frame
    (cell_vid s.m it.2.1 (T.HEXA_FACES it.2.2 0)) (cell_vid s.m it.2.1 (T.HEXA_FACES it.2.2 1))
    (cell_vid s.m it.2.1 (T.HEXA_FACES it.2.2 2)) (cell_vid s.m it.2.1 (T.HEXA_FACES it.2.2 3))
    (row s.m.c2e it.2.1) (surface_second_start T s it)
  rw [e1]
  exact ⟨rfl, rfl, rfl⟩

theorem surface_second_fold_faces (T : HexaTables) (m : Hexmesh)
    (l : List (List Nat × (Nat × Nat))) :
    ∀ s : FaceLoop, s.m.cells = m.cells →
      (l.foldl (surface_second_pure T) s).m.faces =
        s.m.faces ++ l.flatMap (fun it => local_face_ids T m it.2.1 it.2.2) ∧
      (l.foldl (surface_second_pure T) s).m.cells = m.cells ∧
      (l.foldl (surface_second_pure T) s).m.verts = s.m.verts := by
  induction l with
  | nil => intro s hs; simp [hs]
  | cons it l ih =>
    intro s hs
    obtain ⟨h1, h2, h3⟩ := surface_second_pure_faces T s it
    obtain ⟨q1, q2, q3⟩ := ih (surface_second_pure T s it) (h2.trans hs)
    refine ⟨?_, q2, q3.trans h3⟩
    rw [List.foldl_cons, q1, h1, List.flatMap_cons, List.append_assoc]
    simp [local_face_ids, cell_vid, hs]

theorem surface_third_fold_faces (l : List Nat) :
    ∀ m : Hexmesh, (l.foldl surface_third_pure m).faces = m.faces ∧
      (l.foldl surface_third_pure m).cells = m.cells ∧
      (l.foldl surface_third_pure m).verts = m.verts := by
  induction l with
  | nil => intro m; exact ⟨rfl, rfl, rfl⟩
  | cons e l ih =>
    intro m
    obtain ⟨h1, h2, h3⟩ := ih (surface_third_pure m e)
    exact ⟨h1, h2, h3⟩

/-- The derived `faces` array lists, entry by entry of the surviving map, the 4
vertex ids of the owning cell's local face. -/
theorem surface_pure_faces (T : HexaTables) (m : Hexmesh) :
    (surface_pure T m).faces =
      (f2c_map_of T m).flatMap (fun it => local_face_ids T m it.2.1 it.2.2) ∧
    (surface_pure T m).cells = m.cells ∧ (surface_pure T m).verts = m.verts := by
  unfold surface_pure
  dsimp only
  obtain ⟨h1, h2, h3⟩ := surface_third_fold_faces
    (List.range (num_edges
      { surface_faces T m with f2f := List.replicate (num_faces (surface_faces T m)) [] }))
    { surface_faces T m with f2f := List.replicate (num_faces (surface_faces T m)) [] }
  rw [h1, h2, h3]
  obtain ⟨q1, q2, q3⟩ := surface_second_fold_faces T m (f2c_map_of T m)
    { m := surface_start T m, fresh_id := 0 } rfl
  refine ⟨?_, q2, ?_⟩
  · show (surface_faces T m).faces = _
    unfold surface_faces
    rw [q1]
    simp [surface_start]
  · show (surface_faces T m).verts = _
    exact q3

theorem length_flatMap_four {β : Type} (g : β → List Nat) (l : List β)
    (hg : ∀ x ∈ l, (g x).length = 4) : (l.flatMap g).length = 4 * l.length := by
  induction l with
  | nil => rfl
  | cons x xs ih =>
    rw [List.flatMap_cons, List.length_append, hg x (List.mem_cons_self _ _),
      ih (fun y hy => hg y (List.mem_cons_of_mem _ hy)), List.length_cons]
    omega

theorem getD_flatMap_four {β : Type} (g : β → List Nat) (l : List β)
    (hg : ∀ x ∈ l, (g x).length = 4) :
    ∀ (i j : Nat) (hi : i < l.length), j < 4 →
      (l.flatMap g).getD (i * 4 + j) 0 = (g (l.get ⟨i, hi⟩)).getD j 0 := by
  induction l with
  | nil => intro i j hi; cases hi
  | cons x xs ih =>
    intro i j hi hj
    have hx := hg x (List.mem_cons_self _ _)
    rw [List.flatMap_cons]
    cases i with
    | zero =>
      rw [List.getD_append _ _ _ _ (by omega)]
      simp
    | succ i =>
      rw [List.getD_append_right _ _ _ _ (by omega)]
      have : (i + 1) * 4 + j - (g x).length = i * 4 + j := by omega
      rw [this, ih (fun y hy => hg y (List.mem_cons_of_mem _ hy)) i j
        (by simpa using hi) hj]
      rfl

theorem length_local_face_ids (T : HexaTables) (m : Hexmesh) (cid f : Nat) :
    (local_face_ids T m cid f).length = 4 := rfl

/-- The sorted keys of the derived faces, in face-id order, are the keys of the
surviving map. -/
theorem derived_face_keys (T : HexaTables) (m m2 : Hexmesh)
    (hf : m2.faces = (f2c_map_of T m).flatMap (fun it => local_face_ids T m it.2.1 it.2.2)) :
    num_faces m2 = (f2c_map_of T m).length ∧
    (List.range (num_faces m2)).map (derived_face_key m2) = (f2c_map_of T m).map Prod.fst := by
  have hlen : num_faces m2 = (f2c_map_of T m).length := by
    rw [num_faces, hf, length_flatMap_four _ _ (fun x _ => length_local_face_ids T m _ _)]
    simp [verts_per_face]
  refine ⟨hlen, ?_⟩
  apply List.ext_getElem
  · simp [hlen]
  · intro i h1 h2
    have hi : i < (f2c_map_of T m).length := by simpa using h2
    rw [List.getElem_map, List.getElem_map, List.getElem_range]
    have hmem : (f2c_map_of T m)[i] ∈ f2c_map_of T m := List.getElem_mem _
    obtain ⟨_, _, hk⟩ := (mem_face_cands T m _).1 (mem_f2c_map T m _ hmem)
    rw [hk]
    unfold derived_face_key face_key
    have g := getD_flatMap_four (fun it => local_face_ids T m it.2.1 it.2.2) (f2c_map_of T m)
      (fun x _ => length_local_face_ids T m _ _) i
    have g0 := g 0 hi (by decide)
    have g1 := g 1 hi (by decide)
    have g2 := g 2 hi (by decide)
    have g3 := g 3 hi (by decide)
    simp only [Nat.add_zero] at g0
    rw [hf, verts_per_face, g0, g1, g2, g3]
    rfl

/-! ## Distinct faces of a cell have distinct keys -/

theorem sort_perm (l : List Nat) : (sort l).Perm l := List.perm_insertionSort _ l

theorem sort_eq_of_perm {l₁ l₂ : List Nat} (h : l₁.Perm l₂) : sort l₁ = sort l₂ := by
  refine List.eq_of_perm_of_sorted (r := fun a b : Nat => a ≤ b)
    (((sort_perm l₁).trans h).trans (sort_perm l₂).symm) ?_ ?_
  · exact List.sorted_insertionSort _ l₁
  · exact List.sorted_insertionSort _ l₂

theorem perm_of_sort_eq {l₁ l₂ : List Nat} (h : sort l₁ = sort l₂) : l₁.Perm l₂ :=
  ((sort_perm l₁).symm.trans (h ▸ List.Perm.refl _)).trans (sort_perm l₂)

/-- A function that is injective on `0..7` agrees there with an injective one. -/
theorem exists_injective_ext (c : Nat → Nat)
    (hc : ∀ i < 8, ∀ j < 8, i ≠ j → c i ≠ c j) :
    ∃ c' : Nat → Nat, Function.Injective c' ∧ ∀ i < 8, c' i = c i := by
  refine ⟨fun i => if i < 8 then c i
    else c 0 + c 1 + c 2 + c 3 + c 4 + c 5 + c 6 + c 7 + 1 + i, ?_, ?_⟩
  · intro i j h
    have hb : ∀ k < 8, c k < c 0 + c 1 + c 2 + c 3 + c 4 + c 5 + c 6 + c 7 + 1 := by
      intro k hk
      interval_cases k <;> omega
    dsimp only at h
    by_cases hi : i < 8 <;> by_cases hj : j < 8
    · rw [if_pos hi, if_pos hj] at h
      by_contra hne
      exact hc i hi j hj hne h
    · rw [if_pos hi, if_neg hj] at h
      have := hb i hi
      omega
    · rw [if_neg hi, if_pos hj] at h
      have := hb j hj
      omega
    · rw [if_neg hi, if_neg hj] at h
      omega
  · intro i hi
    simp [hi]

theorem perm_of_map_injective {f : Nat → Nat} (hf : Function.Injective f) {l₁ l₂ : List Nat}
    (h : (l₁.map f).Perm (l₂.map f)) : l₁.Perm l₂ := by
  have h1 : Multiset.map f (l₁ : Multiset Nat) = Multiset.map f (l₂ : Multiset Nat) := by
    rw [Multiset.map_coe, Multiset.map_coe]
    exact Multiset.coe_eq_coe.2 h
  exact Multiset.coe_eq_coe.1 ((Multiset.map_eq_map hf).1 h1)

theorem local_face_ids_eq_map (T : HexaTables) (m : Hexmesh) (cid f : Nat) :
    local_face_ids T m cid f = (T.face f).map (cell_vid m cid) := rfl

theorem mem_face_lt (T : HexaTables) (hT : T.faces_in_range) (f : Nat)
    (hf : f < faces_per_cell) : ∀ i ∈ T.face f, i < 8 := by
  intro i hi
  simp only [HexaTables.face, List.mem_cons, List.mem_singleton, List.not_mem_nil,
    or_false] at hi
  rcases hi with rfl | rfl | rfl | rfl
  · exact hT f hf 0 (by decide)
  · exact hT f hf 1 (by decide)
  · exact hT f hf 2 (by decide)
  · exact hT f hf 3 (by decide)

theorem face_key_inj (T : HexaTables) (hT : T.faces_in_range) (hd : T.faces_distinct)
    (m : Hexmesh) (hm : cells_distinct m) (cid : Nat) (hc : cid < num_cells m)
    (f g : Nat) (hf : f < faces_per_cell) (hg : g < faces_per_cell)
    (h : face_key T m cid f = face_key T m cid g) : f = g := by
  by_contra hne
  obtain ⟨c', hinj, hext⟩ := exists_injective_ext (cell_vid m cid) (hm cid hc)
  have e1 : local_face_ids T m cid f = (T.face f).map c' := by
    rw [local_face_ids_eq_map]
    exact List.map_congr_left (fun i hi => (hext i (mem_face_lt T hT f hf i hi)).symm)
  have e2 : local_face_ids T m cid g = (T.face g).map c' := by
    rw [local_face_ids_eq_map]
    exact List.map_congr_left (fun i hi => (hext i (mem_face_lt T hT g hg i hi)).symm)
  have hp := perm_of_sort_eq h
  rw [e1, e2] at hp
  exact hd f hf g hg hne (sort_eq_of_perm (perm_of_map_injective hinj hp))

theorem face_keys_nodup (T : HexaTables) (hT : T.faces_in_range) (hd : T.faces_distinct)
    (m : Hexmesh) (hm : cells_distinct m) (cid : Nat) (hc : cid < num_cells m) :
    ((List.range faces_per_cell).map (face_key T m cid)).Nodup := by
  refine List.Nodup.map_on ?_ (List.nodup_range _)
  intro f hf g hg h
  exact face_key_inj T hT hd m hm cid hc f g (List.mem_range.1 hf) (List.mem_range.1 hg) h

theorem filter_eq_length_of_nodup {K : Type} [DecidableEq K] (l : List K) (h : l.Nodup) (k : K) :
    (l.filter (fun x => decide (x = k))).length = if k ∈ l then 1 else 0 := by
  rw [← count_eq_length_filter]
  split
  · rename_i hk; exact List.count_eq_one_of_mem h hk
  · rename_i hk; exact List.count_eq_zero.2 hk

/-- Candidate faces with key `k` are counted once per cell that has one. -/
theorem face_cands_count (T : HexaTables) (hT : T.faces_in_range) (hd : T.faces_distinct)
    (m : Hexmesh) (hm : cells_distinct m) (k : List Nat) :
    (((face_cands T m).map Prod.fst).filter (fun x => decide (x = k))).length =
      cells_with_face_key T m k := by
  unfold face_cands cells_with_face_key
  have key : ∀ l : List Nat, (∀ cid ∈ l, cid < num_cells m) →
      (((l.flatMap (fun cid => (List.range faces_per_cell).map
        (fun fid => (face_key T m cid fid, (cid, fid))))).map Prod.fst).filter
        (fun x => decide (x = k))).length =
      (l.filter (fun cid => (List.range faces_per_cell).any
        (fun f => decide (face_key T m cid f = k)))).length := by
    intro l
    induction l with
    | nil => intro _; rfl
    | cons cid l ih =>
      intro hl
      have hc := hl cid (List.mem_cons_self _ _)
      rw [List.flatMap_cons, List.map_append, List.filter_append, List.length_append,
        ih (fun c h => hl c (List.mem_cons_of_mem _ h)), List.map_map]
      have e : (Prod.fst ∘ fun fid => (face_key T m cid fid, (cid, fid))) = face_key T m cid := rfl
      rw [e, filter_eq_length_of_nodup _ (face_keys_nodup T hT hd m hm cid hc) k,
        List.filter_cons]
      by_cases hk : k ∈ (List.range faces_per_cell).map (face_key T m cid)
      · have : (List.range faces_per_cell).any (fun f => decide (face_key T m cid f = k)) = true := by
          obtain ⟨f, hf, rfl⟩ := List.mem_map.1 hk
          exact List.any_eq_true.2 ⟨f, hf, by simp⟩
        rw [if_pos hk, if_pos this, List.length_cons]
        omega
      · have : ¬ (List.range faces_per_cell).any (fun f => decide (face_key T m cid f = k)) = true := by
          intro h
          obtain ⟨f, hf, h⟩ := List.any_eq_true.1 h
          exact hk (List.mem_map.2 ⟨f, hf, by simpa using h⟩)
        rw [if_neg hk, if_neg this]
        omega
  exact key _ (fun cid h => List.mem_range.1 h)

theorem ids_in_range_congr {m m1 : Hexmesh} (hc : m1.cells = m.cells) (hv : m1.verts = m.verts)
    (h : ids_in_range m) : ids_in_range m1 := by
  intro cid hcid off ho
  have := h cid (by simpa [num_cells, hc] using hcid) off ho
  simpa [cell_vid, num_verts, hc, hv] using this

theorem cells_with_face_key_congr (T : HexaTables) {m m1 : Hexmesh} (hc : m1.cells = m.cells)
    (k : List Nat) : cells_with_face_key T m1 k = cells_with_face_key T m k := by
  simp [cells_with_face_key, face_key, local_face_ids, cell_vid, num_cells, hc]

theorem cells_distinct_congr {m m1 : Hexmesh} (hc : m1.cells = m.cells)
    (h : cells_distinct m) : cells_distinct m1 := by
  intro cid hcid i hi j hj hne
  have := h cid (by simpa [num_cells, hc] using hcid) i hi j hj hne
  simpa [cell_vid, hc] using this

/-! ## Facts on `map_push_back` -/

/-- An invariant of a pure loop that relates the state to the elements visited
so far. -/
theorem foldl_inv_pre {σ α : Type} (P : List α → σ → Prop) (g : σ → α → σ) (l : List α)
    (hstep : ∀ pre x post s, l = pre ++ x :: post → P pre s → P (pre ++ [x]) (g s x)) :
    ∀ s, P [] s → P l (l.foldl g s) := by
  suffices H : ∀ (post pre : List α) (s : σ), l = pre ++ post → P pre s →
      P l (post.foldl g s) from fun s hs => H l [] s rfl hs
  intro post
  induction post with
  | nil => intro pre s hl hs; simpa [hl] using hs
  | cons x xs ih =>
    intro pre s hl hs
    exact ih (pre ++ [x]) _ (by simp [hl]) (hstep pre x xs s hl hs)

section PushBack
variable {K : Type} [DecidableEq K] (lt : K → K → Bool)

theorem keys_push_back_of_contains (mp : List (K × List Nat)) (k : K) (x : Nat)
    (h : map_contains mp k = true) :
    (map_push_back lt mp k x).map Prod.fst = mp.map Prod.fst := by
  unfold map_push_back
  rw [if_pos h, List.map_map]
  apply List.map_congr_left
  intro kv _
  by_cases hk : kv.1 = k <;> simp [hk]

theorem keys_push_back_of_not_contains (mp : List (K × List Nat)) (k : K) (x : Nat)
    (h : ¬ map_contains mp k = true) :
    ((map_push_back lt mp k x).map Prod.fst).Perm (k :: mp.map Prod.fst) := by
  unfold map_push_back
  rw [if_neg h]
  exact keys_map_insert lt k [x] mp

theorem mem_keys_push_back (mp : List (K × List Nat)) (k k' : K) (x : Nat) :
    k' ∈ (map_push_back lt mp k x).map Prod.fst ↔ k' = k ∨ k' ∈ mp.map Prod.fst := by
  by_cases h : map_contains mp k = true
  · rw [keys_push_back_of_contains lt mp k x h]
    constructor
    · exact Or.inr
    · rintro (rfl | h')
      · exact (map_contains_iff mp k').1 h
      · exact h'
  · rw [(keys_push_back_of_not_contains lt mp k x h).mem_iff]
    simp

theorem keys_push_back_nodup (mp : List (K × List Nat)) (k : K) (x : Nat)
    (hn : (mp.map Prod.fst).Nodup) : ((map_push_back lt mp k x).map Prod.fst).Nodup := by
  by_cases h : map_contains mp k = true
  · rw [keys_push_back_of_contains lt mp k x h]; exact hn
  · rw [(keys_push_back_of_not_contains lt mp k x h).nodup_iff, List.nodup_cons]
    exact ⟨fun hin => h ((map_contains_iff mp k).2 hin), hn⟩

theorem mem_push_back (mp : List (K × List Nat)) (k : K) (x : Nat) (kv : K × List Nat)
    (h : kv ∈ map_push_back lt mp k x) :
    (kv ∈ mp ∧ kv.1 ≠ k) ∨ (kv.1 = k ∧ ∃ v, (k, v) ∈ mp ∧ kv.2 = v ++ [x]) ∨
      (kv = (k, [x]) ∧ k ∉ mp.map Prod.fst) := by
  unfold map_push_back at h
  split at h
  · obtain ⟨kv0, h0, rfl⟩ := List.mem_map.1 h
    by_cases hk : kv0.1 = k
    · rw [if_pos hk]
      exact Or.inr (Or.inl ⟨hk, kv0.2, by rw [← hk]; exact h0, rfl⟩)
    · rw [if_neg hk]
      exact Or.inl ⟨h0, hk⟩
  · rename_i hc
    have hnin : k ∉ mp.map Prod.fst := fun hin => hc ((map_contains_iff mp k).2 hin)
    rcases (mem_map_insert lt k [x] mp kv).1 h with h | h
    · exact Or.inr (Or.inr ⟨h, hnin⟩)
    · refine Or.inl ⟨h, ?_⟩
      intro hk
      exact hnin (List.mem_map.2 ⟨kv, h, hk⟩)

/-- The map built by a run of `map[k].push_back(x)` from the empty map: its keys
are pairwise distinct, they are the keys pushed, and the vector of a key lists
what was pushed for it, in order. -/
theorem push_back_run (l : List (K × Nat)) :
    (((l.foldl (fun mp c => map_push_back lt mp c.1 c.2) []).map Prod.fst).Nodup) ∧
    (∀ k, k ∈ (l.foldl (fun mp c => map_push_back lt mp c.1 c.2) []).map Prod.fst ↔
      k ∈ l.map Prod.fst) ∧
    (∀ kv ∈ l.foldl (fun mp c => map_push_back lt mp c.1 c.2) [],
      kv.2 = (l.filter (fun c => decide (c.1 = kv.1))).map Prod.snd) := by
  refine foldl_inv_pre
    (fun pre (mp : List (K × List Nat)) => (mp.map Prod.fst).Nodup ∧
      (∀ k, k ∈ mp.map Prod.fst ↔ k ∈ pre.map Prod.fst) ∧
      (∀ kv ∈ mp, kv.2 = (pre.filter (fun c => decide (c.1 = kv.1))).map Prod.snd))
    _ l ?_ [] ⟨by simp, by simp, by simp⟩
  intro pre c post mp _ ⟨h1, h2, h3⟩
  refine ⟨keys_push_back_nodup lt mp c.1 c.2 h1, ?_, ?_⟩
  · intro k
    rw [mem_keys_push_back, h2 k]
    simp only [List.map_append, List.mem_append, List.map_cons, List.map_nil,
      List.mem_singleton]
    tauto
  · intro kv hkv
    rw [List.filter_append, List.map_append]
    rcases mem_push_back lt mp c.1 c.2 kv hkv with ⟨h, hne⟩ | ⟨hk, v, hv, e⟩ | ⟨rfl, hnin⟩
    · rw [h3 kv h]
      have : ¬ c.1 = kv.1 := fun e => hne e.symm
      simp [List.filter_cons, this]
    · have e3 := h3 _ hv
      simp only at e3
      rw [e, hk, ← e3]
      simp [List.filter_cons]
    · have hnin' : c.1 ∉ pre.map Prod.fst := fun hin => hnin ((h2 c.1).2 hin)
      have : pre.filter (fun c' => decide (c'.1 = c.1)) = [] := by
        rw [List.filter_eq_nil_iff]
        intro c' hc' hk
        exact hnin' (List.mem_map.2 ⟨c', hc', by simpa using hk⟩)
      simp [this, List.filter_cons]

end PushBack

theorem e2c_map_keys_nodup (T : HexaTables) (m : Hexmesh) :
    ((e2c_map_of T m).map Prod.fst).Nodup :=
  (push_back_run ipair_lt (edge_cands T m)).1

theorem mem_e2c_map_keys (T : HexaTables) (m : Hexmesh) (k : ipair) :
    k ∈ (e2c_map_of T m).map Prod.fst ↔ k ∈ candidate_edges T m :=
  (push_back_run ipair_lt (edge_cands T m)).2.1 k

theorem e2c_map_cids (T : HexaTables) (m : Hexmesh) (kv : ipair × List Nat)
    (h : kv ∈ e2c_map_of T m) :
    kv.2 = ((edge_cands T m).filter (fun c => decide (c.1 = kv.1))).map Prod.snd :=
  (push_back_run ipair_lt (edge_cands T m)).2.2 kv h

/-! ## The derived edges -/

theorem interior_second_body_edges (T : HexaTables) {s r : EdgeLoop} {it : ipair × List Nat}
    (h : interior_second_body T s it = Except.ok r) :
    r.m.edges = s.m.edges ++ [it.1.1, it.1.2] ∧ r.fresh_id = s.fresh_id + 1 := by
  obtain ⟨a1, a2, b1, b2, _, _, _, _, e5⟩ := interior_second_body_ok h
  refine edge_cells_from_rel T
    (fun a b => b.m.edges = a.m.edges ∧ b.fresh_id = a.fresh_id)
    (fun s => ⟨rfl, rfl⟩) (fun a b c h1 h2 => ⟨h2.1.trans h1.1, h2.2.trans h1.2⟩)
    ?_ ?_ _ _ _ r rfl e5
  · intro s cid nbr s' h
    rw [link_cells_frame h]
    exact ⟨rfl, rfl⟩
  · intro s eid cid c2e e2c _ _ _
    exact ⟨rfl, rfl⟩

/-- The derived `edges` array lists the two ends of every key of `e2c_map`, in
map order. -/
theorem interior_second_loop_edges_eq (T : HexaTables) (l : List (ipair × List Nat))
    (s r : EdgeLoop) (h : l.foldlM (interior_second_body T) s = Except.ok r) :
    r.m.edges = s.m.edges ++ l.flatMap (fun kv => [kv.1.1, kv.1.2]) ∧
      r.fresh_id = s.fresh_id + l.length := by
  refine foldlM_inv_pre
    (fun pre (s' : EdgeLoop) =>
      s'.m.edges = s.m.edges ++ pre.flatMap (fun kv => [kv.1.1, kv.1.2]) ∧
      s'.fresh_id = s.fresh_id + pre.length)
    _ l ?_ s r ⟨by simp, by simp⟩ h
  intro pre x post a b _ ⟨p1, p2⟩ hb
  obtain ⟨q1, q2⟩ := interior_second_body_edges T hb
  refine ⟨?_, ?_⟩
  · rw [q1, p1, List.flatMap_append]
    simp
  · rw [q2, p2]
    simp
    omega

theorem length_flatMap_two {β : Type} (g : β → List Nat) (l : List β)
    (hg : ∀ x ∈ l, (g x).length = 2) : (l.flatMap g).length = 2 * l.length := by
  induction l with
  | nil => rfl
  | cons x xs ih =>
    rw [List.flatMap_cons, List.length_append, hg x (List.mem_cons_self _ _),
      ih (fun y hy => hg y (List.mem_cons_of_mem _ hy)), List.length_cons]
    omega

theorem getD_flatMap_two {β : Type} (g : β → List Nat) (l : List β)
    (hg : ∀ x ∈ l, (g x).length = 2) :
    ∀ (i j : Nat) (hi : i < l.length), j < 2 →
      (l.flatMap g).getD (2 * i + j) 0 = (g (l.get ⟨i, hi⟩)).getD j 0 := by
  induction l with
  | nil => intro i j hi; cases hi
  | cons x xs ih =>
    intro i j hi hj
    have hx := hg x (List.mem_cons_self _ _)
    rw [List.flatMap_cons]
    cases i with
    | zero =>
      rw [List.getD_append _ _ _ _ (by omega)]
      simp
    | succ i =>
      rw [List.getD_append_right _ _ _ _ (by omega)]
      have : 2 * (i + 1) + j - (g x).length = 2 * i + j := by omega
      rw [this, ih (fun y hy => hg y (List.mem_cons_of_mem _ hy)) i j
        (by simpa using hi) hj]
      rfl

/-- The derived edges, in edge-id order, are the keys of `e2c_map`. -/
theorem derived_edge_pairs (T : HexaTables) (hE : T.edges_in_range) (m m1 : Hexmesh)
    (h : update_interior_adjacency T m = Except.ok m1) :
    num_edges m1 = (e2c_map_of T m).length ∧
    (List.range (num_edges m1)).map (edge_pair m1) = (e2c_map_of T m).map Prod.fst := by
  obtain ⟨v2c, s, hs, rfl⟩ := update_interior_adjacency_ok T hE m m1 h
  obtain ⟨he, _⟩ := interior_second_loop_edges_eq T _ _ _ hs
  have he' : s.m.edges = (e2c_map_of T m).flatMap (fun kv => [kv.1.1, kv.1.2]) := by
    rw [he]; rfl
  have hlen : num_edges s.m = (e2c_map_of T m).length := by
    rw [num_edges, he', length_flatMap_two (fun kv : ipair × List Nat => [kv.1.1, kv.1.2]) _
      (fun x _ => rfl)]
    simp
  refine ⟨hlen, ?_⟩
  apply List.ext_getElem
  · simp [hlen]
  · intro i h1 h2
    have hi : i < (e2c_map_of T m).length := by simpa using h2
    rw [List.getElem_map, List.getElem_map, List.getElem_range]
    have g := getD_flatMap_two (fun kv : ipair × List Nat => [kv.1.1, kv.1.2]) (e2c_map_of T m)
      (fun x _ => rfl) i
    have g0 := g 0 hi (by decide)
    have g1 := g 1 hi (by decide)
    unfold edge_pair edge_vid
    rw [he', g0, g1]
    rfl

/-! ## The rows of `c2e` -/

section Flat
variable {K : Type} [DecidableEq K] (lt : K → K → Bool)

theorem flat_push_back_contains (x : Nat) (k : K) (mp : List (K × List Nat))
    (hn : (mp.map Prod.fst).Nodup) (hk : k ∈ mp.map Prod.fst) :
    ((mp.map (fun kv => if kv.1 = k then (kv.1, kv.2 ++ [x]) else kv)).flatMap Prod.snd).Perm
      (x :: mp.flatMap Prod.snd) := by
  induction mp with
  | nil => cases hk
  | cons kv rest ih =>
    rw [List.map_cons, List.nodup_cons] at hn
    by_cases h : kv.1 = k
    · have hid : rest.map (fun kv => if kv.1 = k then (kv.1, kv.2 ++ [x]) else kv) = rest := by
        conv_rhs => rw [← List.map_id rest]
        apply List.map_congr_left
        intro kv' hkv'
        have : kv'.1 ≠ k := by
          intro e
          exact hn.1 (List.mem_map.2 ⟨kv', hkv', e.trans h.symm⟩)
        simp [this]
      rw [List.map_cons, hid, if_pos h, List.flatMap_cons, List.flatMap_cons]
      simp only [List.append_assoc, List.singleton_append]
      exact List.perm_middle
    · have hk' : k ∈ rest.map Prod.fst := by
        rcases List.mem_cons.1 hk with e | e
        · exact absurd e.symm h
        · exact e
      rw [List.map_cons, if_neg h, List.flatMap_cons, List.flatMap_cons]
      exact ((ih hn.2 hk').append_left kv.2).trans List.perm_middle

theorem flat_push_back (x : Nat) (k : K) (mp : List (K × List Nat))
    (hn : (mp.map Prod.fst).Nodup) :
    ((map_push_back lt mp k x).flatMap Prod.snd).Perm (x :: mp.flatMap Prod.snd) := by
  unfold map_push_back
  split
  · rename_i hc
    exact flat_push_back_contains x k mp hn ((map_contains_iff mp k).1 hc)
  · exact (List.Perm.flatMap_right Prod.snd (perm_map_insert lt k [x] mp)).trans
      (by simp [List.flatMap_cons])

/-- All the vectors of the map together hold exactly what was pushed. -/
theorem flat_push_back_run (l : List (K × Nat)) :
    ((l.foldl (fun mp c => map_push_back lt mp c.1 c.2) []).flatMap Prod.snd).Perm
      (l.map Prod.snd) := by
  refine (foldl_inv_pre
    (fun pre (mp : List (K × List Nat)) => (mp.map Prod.fst).Nodup ∧
      (mp.flatMap Prod.snd).Perm (pre.map Prod.snd))
    _ l ?_ [] ⟨by simp, by simp⟩).2
  intro pre c post mp _ ⟨h1, h2⟩
  refine ⟨keys_push_back_nodup lt mp c.1 c.2 h1, ?_⟩
  rw [List.map_append]
  exact ((flat_push_back lt c.2 c.1 mp h1).trans (List.Perm.cons _ h2)).trans
    (List.perm_append_singleton _ _).symm

end Flat

theorem count_edge_cands (T : HexaTables) (m : Hexmesh) (c : Nat) (hc : c < num_cells m) :
    ((edge_cands T m).map Prod.snd).count c = edges_per_cell := by
  unfold edge_cands
  have key : ∀ l : List Nat,
      ((l.flatMap (fun cid => (List.range edges_per_cell).map
        (fun eid => (edge_key T m cid eid, cid)))).map Prod.snd).count c =
      edges_per_cell * l.count c := by
    intro l
    induction l with
    | nil => rfl
    | cons cid l ih =>
      rw [List.flatMap_cons, List.map_append, List.count_append, ih, List.map_map]
      have e : (Prod.snd ∘ fun eid => (edge_key T m cid eid, cid)) = fun _ => cid := rfl
      rw [e, List.map_const', List.length_range, List.count_replicate, List.count_cons]
      by_cases h : cid = c
      · simp [h, Nat.mul_add]; omega
      · simp [h]
  rw [key, List.count_eq_one_of_mem (List.nodup_range _) (List.mem_range.2 hc)]
  simp

theorem link_fold_frame (T : HexaTables) (cid : Nat) (rest : List Nat) :
    ∀ (s r : EdgeLoop), rest.foldlM (fun s nbr => link_cells T s cid nbr) s = Except.ok r →
      r = { s with m := { s.m with c2c := r.m.c2c }, cell_pairs := r.cell_pairs } := by
  induction rest with
  | nil => intro s r h; simp at h; cases h; rfl
  | cons nbr rest ih =>
    intro s r h
    rw [List.foldlM_cons, bind_eq_ok] at h
    obtain ⟨s1, h1, h2⟩ := h
    rw [ih s1 r h2, link_cells_frame h1]

theorem edge_cells_from_c2e (T : HexaTables) (eid : Nat) (cids : List Nat) :
    ∀ (s r : EdgeLoop), edge_cells_from T eid s cids = Except.ok r →
      ∀ c, row r.m.c2e c = row s.m.c2e c ++ List.replicate (cids.count c) eid := by
  induction cids with
  | nil => intro s r h c; simp [edge_cells_from] at h; cases h; simp
  | cons cid rest ih =>
    intro s r h c
    obtain ⟨c2e, e2c, s2, h1, h2, h3, h4⟩ := edge_cells_from_cons_ok h
    have hf := link_fold_frame T cid rest _ s2 h3
    have e2 : s2.m.c2e = c2e := by rw [hf]
    rw [ih s2 r h4 c, e2, row_push h1 c, List.count_cons]
    by_cases hc : c = cid
    · subst hc
      simp [List.replicate_succ, List.append_assoc]
    · have : ¬ (cid == c) = true := by simpa using fun e : cid = c => hc e.symm
      simp [hc, this]

theorem interior_second_loop_c2e_length (T : HexaTables) (l : List (ipair × List Nat))
    (s r : EdgeLoop) (h : l.foldlM (interior_second_body T) s = Except.ok r) (c : Nat) :
    (row r.m.c2e c).length = (row s.m.c2e c).length + (l.flatMap Prod.snd).count c := by
  refine foldlM_inv_pre
    (fun pre (s' : EdgeLoop) =>
      (row s'.m.c2e c).length = (row s.m.c2e c).length + (pre.flatMap Prod.snd).count c)
    _ l ?_ s r (by simp) h
  intro pre x post a b _ p hb
  obtain ⟨a1, a2, b1, b2, _, _, _, _, e5⟩ := interior_second_body_ok hb
  have := edge_cells_from_c2e T _ _ _ _ e5 c
  rw [this, List.length_append, List.length_replicate, List.flatMap_append, List.count_append]
  simp only [List.flatMap_cons, List.flatMap_nil, List.append_nil]
  show (row a.m.c2e c).length + _ = _
  rw [p]
  omega

theorem row_push_two {c0 c1 c2 : List (List Nat)} {cid nbr : Nat}
    (h1 : push_back_at c0 cid nbr = Except.ok c1) (h2 : push_back_at c1 nbr cid = Except.ok c2)
    (x : Nat) (hx1 : x ≠ cid) (hx2 : x ≠ nbr) : row c2 x = row c0 x := by
  rw [row_push h2 x, if_neg hx2, row_push h1 x, if_neg hx1]

/-! ## What a link in `c2c` means -/

theorem face_inside_congr (T : HexaTables) {m m1 : Hexmesh} (hc : m1.cells = m.cells)
    (a b : Nat) : face_inside T m1 a b ↔ face_inside T m a b := by
  simp [face_inside, cell_vid, hc]

/-- Every link recorded in `c2c` is recorded in both directions, and comes from a
successful membership test in one of them. -/
theorem links_are_sound (T : HexaTables) (hE : T.edges_in_range) (m m1 : Hexmesh)
    (h1 : update_interior_adjacency T m = Except.ok m1) :
    ∀ a b, b ∈ row m1.c2c a →
      a ∈ row m1.c2c b ∧ (face_inside T m a b ∨ face_inside T m b a) := by
  obtain ⟨v2c, s, hs, rfl⟩ := update_interior_adjacency_ok T hE m m1 h1
  refine interior_second_loop_rel T
    (fun x y => (x.m.cells = m.cells ∧ ∀ a b, b ∈ row x.m.c2c a →
        a ∈ row x.m.c2c b ∧ (face_inside T m a b ∨ face_inside T m b a)) →
      (y.m.cells = m.cells ∧ ∀ a b, b ∈ row y.m.c2c a →
        a ∈ row y.m.c2c b ∧ (face_inside T m a b ∨ face_inside T m b a)))
    (fun s h => h) (fun a b c h1 h2 h => h2 (h1 h)) ?_ ?_ ?_ _ _ s hs ?_ |>.2
  · intro s cid nbr s' h ⟨hc, hs⟩
    rcases link_cells_ok h with ⟨rfl, _⟩ | ⟨hin, _, c1, c2, p1, p2, _, _, rfl⟩
    · exact ⟨hc, hs⟩
    · refine ⟨hc, ?_⟩
      have hin' : face_inside T m cid nbr := (face_inside_congr T hc cid nbr).1 hin
      have r2 : ∀ x, row c2 x = if x = nbr then row c1 x ++ [cid] else row c1 x := row_push p2
      have r1 : ∀ x, row c1 x = if x = cid then row s.m.c2c x ++ [nbr] else row s.m.c2c x :=
        row_push p1
      have hmono : ∀ x y, y ∈ row s.m.c2c x → y ∈ row c2 x := by
        intro x y hy
        rw [r2 x, r1 x]
        split <;> split <;> simp [hy]
      have hcn : nbr ∈ row c2 cid := by
        rw [r2 cid, r1 cid]
        split <;> simp
      have hnc : cid ∈ row c2 nbr := by
        rw [r2 nbr]
        simp
      intro a b hb
      show a ∈ row c2 b ∧ _
      change b ∈ row c2 a at hb
      rw [r2 a, r1 a] at hb
      by_cases e2 : a = nbr
      · rw [if_pos e2] at hb
        rcases List.mem_append.1 hb with hb | hb
        · by_cases e1 : a = cid
          · rw [if_pos e1] at hb
            rcases List.mem_append.1 hb with hb | hb
            · exact ⟨hmono _ _ (hs a b hb).1, (hs a b hb).2⟩
            · have : b = nbr := by simpa using hb
              rw [this, e1]
              exact ⟨hnc, Or.inl hin'⟩
          · rw [if_neg e1] at hb
            exact ⟨hmono _ _ (hs a b hb).1, (hs a b hb).2⟩
        · have : b = cid := by simpa using hb
          rw [this, e2]
          exact ⟨hcn, Or.inr hin'⟩
      · rw [if_neg e2] at hb
        by_cases e1 : a = cid
        · rw [if_pos e1] at hb
          rcases List.mem_append.1 hb with hb | hb
          · exact ⟨hmono _ _ (hs a b hb).1, (hs a b hb).2⟩
          · have : b = nbr := by simpa using hb
            rw [this, e1]
            exact ⟨hnc, Or.inl hin'⟩
        · rw [if_neg e1] at hb
          exact ⟨hmono _ _ (hs a b hb).1, (hs a b hb).2⟩
  · intro s eid cid c2e e2c _ _ _ h
    exact h
  · intro s it a1 a2 b1 b2 _ _ _ _ h
    exact h
  · refine ⟨rfl, ?_⟩
    intro a b hb
    change b ∈ row (List.replicate (num_cells m) []) a at hb
    rw [row_replicate] at hb
    cases hb

theorem lt_of_mem_row {xs : List (List Nat)} {i x : Nat} (h : x ∈ row xs i) : i < xs.length := by
  by_contra hn
  rw [row_of_le xs i (Nat.le_of_not_lt hn)] at h
  cases h

/-! ## Common vertex ids -/

theorem local_face_ids_nodup (T : HexaTables) (hF : T.faces_in_range) (hN : T.faces_nodup)
    (m : Hexmesh) (hd : cells_distinct m) (cid f : Nat) (hc : cid < num_cells m)
    (hf : f < faces_per_cell) : (local_face_ids T m cid f).Nodup := by
  rw [local_face_ids_eq_map]
  refine List.Nodup.map_on ?_ (hN f hf)
  intro i hi j hj h
  by_contra hne
  exact hd cid hc i (mem_face_lt T hF f hf i hi) j (mem_face_lt T hF f hf j hj) hne h

/-- Pairwise distinct ids that are vertex ids of both cells are counted by
`common_vids`. -/
theorem length_le_common_vids (m : Hexmesh) (a b : Nat) (L : List Nat) (hL : L.Nodup)
    (ha : ∀ x ∈ L, ∃ j < verts_per_cell, cell_vid m a j = x)
    (hb : ∀ x ∈ L, ∃ j < verts_per_cell, cell_vid m b j = x) :
    L.length ≤ common_vids m a b := by
  unfold common_vids
  have hsub : L ⊆ ((List.range verts_per_cell).filter (fun i =>
      cell_contains_vert_pure m b (cell_vid m a i) (List.range verts_per_cell))).map
      (cell_vid m a) := by
    intro x hx
    obtain ⟨j, hj, rfl⟩ := ha x hx
    refine List.mem_map.2 ⟨j, List.mem_filter.2 ⟨List.mem_range.2 hj, ?_⟩, rfl⟩
    exact (cell_contains_vert_pure_iff m b _).2 (hb _ hx)
  have := (List.subperm_of_subset hL hsub).length_le
  rwa [List.length_map] at this

theorem mem_local_face_ids (T : HexaTables) (m : Hexmesh) (cid f x : Nat)
    (h : x ∈ local_face_ids T m cid f) :
    ∃ k < verts_per_face, x = cell_vid m cid (T.HEXA_FACES f k) := by
  simp only [local_face_ids, List.mem_cons, List.mem_singleton, List.not_mem_nil,
    or_false] at h
  rcases h with rfl | rfl | rfl | rfl
  · exact ⟨0, by decide, rfl⟩
  · exact ⟨1, by decide, rfl⟩
  · exact ⟨2, by decide, rfl⟩
  · exact ⟨3, by decide, rfl⟩

theorem common_vids_of_face_inside (T : HexaTables) (hF : T.faces_in_range)
    (hN : T.faces_nodup) (m : Hexmesh) (hd : cells_distinct m) (a b : Nat)
    (ha : a < num_cells m) (hb : b < num_cells m)
    (h : face_inside T m a b ∨ face_inside T m b a) : 4 ≤ common_vids m a b := by
  rcases h with ⟨f, hf, h⟩ | ⟨f, hf, h⟩
  · refine le_trans (le_of_eq (length_local_face_ids T m a f).symm)
      (length_le_common_vids m a b _ (local_face_ids_nodup T hF hN m hd a f ha hf) ?_ ?_)
    · intro x hx
      obtain ⟨k, hk, rfl⟩ := mem_local_face_ids T m a f x hx
      exact ⟨_, hF f hf k hk, rfl⟩
    · intro x hx
      obtain ⟨k, hk, rfl⟩ := mem_local_face_ids T m a f x hx
      exact h k hk
  · refine le_trans (le_of_eq (length_local_face_ids T m b f).symm)
      (length_le_common_vids m a b _ (local_face_ids_nodup T hF hN m hd b f hb hf) ?_ ?_)
    · intro x hx
      obtain ⟨k, hk, rfl⟩ := mem_local_face_ids T m b f x hx
      exact h k hk
    · intro x hx
      obtain ⟨k, hk, rfl⟩ := mem_local_face_ids T m b f x hx
      exact ⟨_, hF f hf k hk, rfl⟩

/-! ## Progress of the linking loop -/

theorem link_cells_mono {T : HexaTables} {s s' : EdgeLoop} {cid nbr : Nat}
    (h : link_cells T s cid nbr = Except.ok s') : ∀ p ∈ s.cell_pairs, p ∈ s'.cell_pairs := by
  intro p hp
  rcases link_cells_ok h with ⟨rfl, _⟩ | ⟨_, _, c1, c2, _, _, _, _, rfl⟩
  · exact hp
  · exact List.mem_cons_of_mem _ hp

theorem link_cells_progress {T : HexaTables} {s s' : EdgeLoop} {cid nbr : Nat}
    (h : link_cells T s cid nbr = Except.ok s') (hi : face_inside T s.m cid nbr) :
    unique_pair cid nbr ∈ s'.cell_pairs := by
  rcases link_cells_ok h with ⟨rfl, hn | hp⟩ | ⟨_, _, c1, c2, _, _, _, _, rfl⟩
  · exact absurd hi hn
  · exact hp
  · exact List.mem_cons_self _ _

theorem link_fold_progress (T : HexaTables) (cid : Nat) (rest : List Nat) :
    ∀ (s r : EdgeLoop), rest.foldlM (fun s nbr => link_cells T s cid nbr) s = Except.ok r →
      (∀ p ∈ s.cell_pairs, p ∈ r.cell_pairs) ∧
      (∀ nbr ∈ rest, face_inside T s.m cid nbr → unique_pair cid nbr ∈ r.cell_pairs) := by
  induction rest with
  | nil => intro s r h; simp at h; cases h; exact ⟨fun p hp => hp, fun _ h => by cases h⟩
  | cons n rest ih =>
    intro s r h
    rw [List.foldlM_cons, bind_eq_ok] at h
    obtain ⟨s1, h1, h2⟩ := h
    obtain ⟨q1, q2⟩ := ih s1 r h2
    have hc : s1.m.cells = s.m.cells := by rw [link_cells_frame h1]
    refine ⟨fun p hp => q1 p (link_cells_mono h1 p hp), ?_⟩
    intro nbr hn hi
    rcases List.mem_cons.1 hn with rfl | hn
    · exact q1 _ (link_cells_progress h1 hi)
    · exact q2 nbr hn ((face_inside_congr T hc cid nbr).2 hi)

theorem edge_cells_from_progress (T : HexaTables) (eid : Nat) (cids : List Nat) :
    ∀ (s r : EdgeLoop), edge_cells_from T eid s cids = Except.ok r →
      r.m.cells = s.m.cells ∧ (∀ p ∈ s.cell_pairs, p ∈ r.cell_pairs) ∧
      (∀ a b, [a, b].Sublist cids → face_inside T s.m a b →
        unique_pair a b ∈ r.cell_pairs) := by
  induction cids with
  | nil =>
    intro s r h
    simp [edge_cells_from] at h
    cases h
    exact ⟨rfl, fun p hp => hp, fun a b hs => by cases hs⟩
  | cons cid rest ih =>
    intro s r h
    obtain ⟨c2e, e2c, s2, h1, h2, h3, h4⟩ := edge_cells_from_cons_ok h
    have hf := link_fold_frame T cid rest _ s2 h3
    have hc : s2.m.cells = s.m.cells := by rw [hf]
    obtain ⟨q1, q2⟩ := link_fold_progress T cid rest _ s2 h3
    obtain ⟨r0, r1, r2⟩ := ih s2 r h4
    refine ⟨r0.trans hc, fun p hp => r1 p (q1 p hp), ?_⟩
    intro a b hs hi
    rcases List.sublist_cons_iff.1 hs with hs | ⟨t, e, hs⟩
    · exact r2 a b hs ((face_inside_congr T hc a b).2 hi)
    · cases e
      exact r1 _ (q2 b (List.singleton_sublist.1 hs) hi)

/-! ## Two quads on the same 4 vertices have a common side -/

theorem unique_pair_comm (a b : Nat) : unique_pair a b = unique_pair b a := by
  simp [unique_pair, Nat.min_comm, Nat.max_comm]

theorem quad_common_side (p0 p1 p2 p3 q0 q1 q2 q3 : Nat)
    (hq : [q0, q1, q2, q3].Nodup) (h : ∀ x ∈ [q0, q1, q2, q3], x ∈ [p0, p1, p2, p3]) :
    ∃ i < 4, ∃ j < 4,
      unique_pair ([p0, p1, p2, p3].getD i 0) ([p0, p1, p2, p3].getD ((i + 1) % 4) 0) =
        unique_pair ([q0, q1, q2, q3].getD j 0) ([q0, q1, q2, q3].getD ((j + 1) % 4) 0) := by
  have h0 := h q0 (by simp)
  have h1 := h q1 (by simp)
  have h2 := h q2 (by simp)
  simp only [List.mem_cons, List.mem_singleton, List.not_mem_nil, or_false] at h0 h1 h2
  simp only [List.nodup_cons, List.mem_cons, List.mem_singleton, List.not_mem_nil, not_or,
    or_false, List.nodup_nil, and_true, not_false_eq_true] at hq
  obtain ⟨⟨n01, n02, n03⟩, ⟨n12, n13⟩, n23⟩ := hq
  rcases h0 with rfl | rfl | rfl | rfl <;> rcases h1 with rfl | rfl | rfl | rfl <;>
    first
    | exact absurd rfl n01
    | exact ⟨0, by omega, 0, by omega, rfl⟩
    | exact ⟨1, by omega, 0, by omega, rfl⟩
    | exact ⟨2, by omega, 0, by omega, rfl⟩
    | exact ⟨3, by omega, 0, by omega, rfl⟩
    | exact ⟨0, by omega, 0, by omega, unique_pair_comm _ _⟩
    | exact ⟨1, by omega, 0, by omega, unique_pair_comm _ _⟩
    | exact ⟨2, by omega, 0, by omega, unique_pair_comm _ _⟩
    | exact ⟨3, by omega, 0, by omega, unique_pair_comm _ _⟩
    | (rcases h2 with rfl | rfl | rfl | rfl <;>
        first
        | exact absurd rfl n02
        | exact absurd rfl n12
        | exact ⟨0, by omega, 1, by omega, rfl⟩
        | exact ⟨1, by omega, 1, by omega, rfl⟩
        | exact ⟨2, by omega, 1, by omega, rfl⟩
        | exact ⟨3, by omega, 1, by omega, rfl⟩
        | exact ⟨0, by omega, 1, by omega, unique_pair_comm _ _⟩
        | exact ⟨1, by omega, 1, by omega, unique_pair_comm _ _⟩
        | exact ⟨2, by omega, 1, by omega, unique_pair_comm _ _⟩
        | exact ⟨3, by omega, 1, by omega, unique_pair_comm _ _⟩)

theorem unique_pair_eq {a b c d : Nat} (h : unique_pair a b = unique_pair c d) :
    (a = c ∧ b = d) ∨ (a = d ∧ b = c) := by
  simp only [unique_pair, Prod.mk.injEq] at h
  omega

/-- Every side of a local face of a cell is the key of a local edge of the
cell. -/
theorem side_is_edge_key (T : HexaTables) (hB : T.faces_bounded_by_edges) (m : Hexmesh)
    (cid f i : Nat) (hf : f < faces_per_cell) (hi : i < 4) :
    ∃ e < edges_per_cell, edge_key T m cid e =
      unique_pair ((local_face_ids T m cid f).getD i 0)
        ((local_face_ids T m cid f).getD ((i + 1) % 4) 0) := by
  obtain ⟨e, he, h⟩ := hB f hf i hi
  refine ⟨e, he, ?_⟩
  have e1 : (local_face_ids T m cid f).getD i 0 = cell_vid m cid (T.HEXA_FACES f i) := by
    interval_cases i <;> rfl
  have e2 : (local_face_ids T m cid f).getD ((i + 1) % 4) 0 =
      cell_vid m cid (T.HEXA_FACES f ((i + 1) % verts_per_face)) := by
    interval_cases i <;> rfl
  rw [e1, e2]
  unfold edge_key
  rcases unique_pair_eq h with ⟨h1, h2⟩ | ⟨h1, h2⟩
  · rw [h1, h2]
  · rw [h1, h2, unique_pair_comm]

/-- Two cells with a local face each on the same 4 vertex ids have a local edge
each with the same canonical key. -/
theorem common_edge_key (T : HexaTables) (hF : T.faces_in_range) (hN : T.faces_nodup)
    (hB : T.faces_bounded_by_edges) (m : Hexmesh) (hd : cells_distinct m) (a b : Nat)
    (hb : b < num_cells m) (h : shares_quad_face T m a b) :
    ∃ e < edges_per_cell, ∃ e' < edges_per_cell, edge_key T m a e = edge_key T m b e' := by
  obtain ⟨f, hf, g, hg, hk⟩ := h
  have hp := perm_of_sort_eq hk
  have hq := local_face_ids_nodup T hF hN m hd b g hb hg
  obtain ⟨i, hi, j, hj, hs⟩ := quad_common_side
    (cell_vid m a (T.HEXA_FACES f 0)) (cell_vid m a (T.HEXA_FACES f 1))
    (cell_vid m a (T.HEXA_FACES f 2)) (cell_vid m a (T.HEXA_FACES f 3))
    (cell_vid m b (T.HEXA_FACES g 0)) (cell_vid m b (T.HEXA_FACES g 1))
    (cell_vid m b (T.HEXA_FACES g 2)) (cell_vid m b (T.HEXA_FACES g 3))
    hq (fun x hx => hp.symm.subset hx)
  obtain ⟨e, he, h1⟩ := side_is_edge_key T hB m a f i hf hi
  obtain ⟨e', he', h2⟩ := side_is_edge_key T hB m b g j hg hj
  exact ⟨e, he, e', he', h1.trans (hs.trans h2.symm)⟩

/-- A shared quad face passes the membership test of the code. -/
theorem face_inside_of_shares (T : HexaTables) (hF : T.faces_in_range) (m : Hexmesh)
    (a b : Nat) (h : shares_quad_face T m a b) : face_inside T m a b := by
  obtain ⟨f, hf, g, hg, hk⟩ := h
  have hp := perm_of_sort_eq hk
  refine ⟨f, hf, ?_⟩
  intro k hk'
  have hmem : cell_vid m a (T.HEXA_FACES f k) ∈ local_face_ids T m a f := by
    simp only [verts_per_face] at hk'
    interval_cases k <;> simp [local_face_ids]
  obtain ⟨k', hk'', e⟩ := mem_local_face_ids T m b g _ (hp.subset hmem)
  exact ⟨_, hF g hg k' hk'', e.symm⟩

theorem pair_sublist_range (a b n : Nat) (hab : a < b) (hb : b < n) :
    [a, b].Sublist (List.range n) := by
  induction n with
  | zero => omega
  | succ n ih =>
    rw [List.range_succ]
    by_cases h : b = n
    · subst h
      have h1 : [a].Sublist (List.range b) := List.singleton_sublist.2 (List.mem_range.2 hab)
      exact List.Sublist.append h1 (List.Sublist.refl [b])
    · exact (ih (by omega)).trans (List.sublist_append_left _ _)

theorem pair_sublist_flatMap (h : Nat → List Nat) (a b n : Nat) (hab : a < b) (hb : b < n)
    (ha' : a ∈ h a) (hb' : b ∈ h b) : [a, b].Sublist ((List.range n).flatMap h) := by
  induction n with
  | zero => omega
  | succ n ih =>
    rw [List.range_succ, List.flatMap_append]
    by_cases e : b = n
    · subst e
      have h1 : [a].Sublist ((List.range b).flatMap h) :=
        List.singleton_sublist.2 (List.mem_flatMap.2 ⟨a, List.mem_range.2 hab, ha'⟩)
      have h2 : [b].Sublist ([b].flatMap h) :=
        List.singleton_sublist.2 (by simpa using hb')
      exact List.Sublist.append h1 h2
    · exact (ih (by omega)).trans (List.sublist_append_left _ _)

/-- Two cells `a < b` that both have a local edge with key `k` appear, in this
order, in the vector of `k` in `e2c_map`. -/
theorem e2c_map_pair (T : HexaTables) (m : Hexmesh) (a b e e' : Nat) (hab : a < b)
    (hb : b < num_cells m) (he : e < edges_per_cell) (he' : e' < edges_per_cell)
    (hk : edge_key T m a e = edge_key T m b e') :
    ∃ kv ∈ e2c_map_of T m, [a, b].Sublist kv.2 := by
  have hin : edge_key T m a e ∈ (e2c_map_of T m).map Prod.fst := by
    rw [mem_e2c_map_keys]
    unfold candidate_edges edge_cands
    simp only [List.map_flatMap, List.map_map, List.mem_flatMap, List.mem_range, List.mem_map]
    exact ⟨a, by omega, e, he, rfl⟩
  obtain ⟨kv, hkv, hfst⟩ := List.mem_map.1 hin
  refine ⟨kv, hkv, ?_⟩
  rw [e2c_map_cids T m kv hkv, hfst]
  unfold edge_cands
  rw [List.filter_flatMap, List.map_flatMap]
  refine pair_sublist_flatMap _ a b _ hab hb ?_ ?_
  · simp only [List.mem_map, List.mem_filter, List.mem_range, decide_eq_true_eq]
    exact ⟨(edge_key T m a e, a), ⟨⟨e, he, rfl⟩, rfl⟩, rfl⟩
  · simp only [List.mem_map, List.mem_filter, List.mem_range, decide_eq_true_eq]
    exact ⟨(edge_key T m b e', b), ⟨⟨e', he', rfl⟩, hk.symm⟩, rfl⟩

/-! ## Recorded pairs are linked -/

theorem link_push_rows {c0 c1 c2 : List (List Nat)} {cid nbr : Nat}
    (p1 : push_back_at c0 cid nbr = Except.ok c1) (p2 : push_back_at c1 nbr cid = Except.ok c2) :
    (∀ x y, y ∈ row c0 x → y ∈ row c2 x) ∧ nbr ∈ row c2 cid ∧ cid ∈ row c2 nbr := by
  have r2 : ∀ x, row c2 x = if x = nbr then row c1 x ++ [cid] else row c1 x := row_push p2
  have r1 : ∀ x, row c1 x = if x = cid then row c0 x ++ [nbr] else row c0 x := row_push p1
  refine ⟨?_, ?_, ?_⟩
  · intro x y hy
    rw [r2 x, r1 x]
    split <;> split <;> simp [hy]
  · rw [r2 cid, r1 cid]
    split <;> simp
  · rw [r2 nbr]
    simp

theorem unique_pair_cases (a b : Nat) :
    unique_pair a b = (a, b) ∨ unique_pair a b = (b, a) := by
  unfold unique_pair
  rcases Nat.le_total a b with h | h
  · left; simp [Nat.min_eq_left h, Nat.max_eq_right h]
  · right; simp [Nat.min_eq_right h, Nat.max_eq_left h]

/-- Every pair recorded in `cell_pairs` is linked in `c2c` in both directions. -/
theorem interior_pairs_linked (T : HexaTables) (l : List (ipair × List Nat)) (s r : EdgeLoop)
    (h : l.foldlM (interior_second_body T) s = Except.ok r)
    (hs : ∀ p ∈ s.cell_pairs, p.2 ∈ row s.m.c2c p.1 ∧ p.1 ∈ row s.m.c2c p.2) :
    ∀ p ∈ r.cell_pairs, p.2 ∈ row r.m.c2c p.1 ∧ p.1 ∈ row r.m.c2c p.2 := by
  refine interior_second_loop_rel T
    (fun x y => (∀ p ∈ x.cell_pairs, p.2 ∈ row x.m.c2c p.1 ∧ p.1 ∈ row x.m.c2c p.2) →
      (∀ p ∈ y.cell_pairs, p.2 ∈ row y.m.c2c p.1 ∧ p.1 ∈ row y.m.c2c p.2))
    (fun s h => h) (fun a b c h1 h2 h => h2 (h1 h)) ?_ ?_ ?_ l s r h hs
  · intro s cid nbr s' h hs
    rcases link_cells_ok h with ⟨rfl, _⟩ | ⟨_, _, c1, c2, p1, p2, _, _, rfl⟩
    · exact hs
    · obtain ⟨hmono, hcn, hnc⟩ := link_push_rows p1 p2
      intro p hp
      show p.2 ∈ row c2 p.1 ∧ p.1 ∈ row c2 p.2
      rcases List.mem_cons.1 hp with rfl | hp
      · rcases unique_pair_cases cid nbr with e | e <;> rw [e]
        · exact ⟨hcn, hnc⟩
        · exact ⟨hnc, hcn⟩
      · exact ⟨hmono _ _ (hs p hp).1, hmono _ _ (hs p hp).2⟩
  · intro s eid cid c2e e2c _ _ _ h
    exact h
  · intro s it a1 a2 b1 b2 _ _ _ _ h
    exact h

theorem interior_pairs_mono (T : HexaTables) (l : List (ipair × List Nat)) (s r : EdgeLoop)
    (h : l.foldlM (interior_second_body T) s = Except.ok r) :
    ∀ p ∈ s.cell_pairs, p ∈ r.cell_pairs := by
  refine interior_second_loop_rel T (fun x y => ∀ p ∈ x.cell_pairs, p ∈ y.cell_pairs)
    (fun s p hp => hp) (fun a b c h1 h2 p hp => h2 p (h1 p hp)) ?_ ?_ ?_ l s r h
  · intro s cid nbr s' h
    exact link_cells_mono h
  · intro s eid cid c2e e2c _ _ _ p hp
    exact hp
  · intro s it a1 a2 b1 b2 _ _ _ _ p hp
    exact hp

/-- Two cells that appear in this order in the vector of some key and pass the
membership test end up recorded in `cell_pairs`. -/
theorem interior_pairs_progress (T : HexaTables) (m : Hexmesh) (a b : Nat)
    (hi : face_inside T m a b) (l : List (ipair × List Nat)) :
    ∀ (s r : EdgeLoop), l.foldlM (interior_second_body T) s = Except.ok r →
      s.m.cells = m.cells → (∃ kv ∈ l, [a, b].Sublist kv.2) →
      unique_pair a b ∈ r.cell_pairs := by
  induction l with
  | nil => intro s r _ _ ⟨kv, hkv, _⟩; cases hkv
  | cons it l ih =>
    intro s r h hc ⟨kv, hkv, hsub⟩
    rw [List.foldlM_cons, bind_eq_ok] at h
    obtain ⟨s1, h1, h2⟩ := h
    obtain ⟨a1, a2, b1, b2, _, _, _, _, e5⟩ := interior_second_body_ok h1
    obtain ⟨q0, _, q2⟩ := edge_cells_from_progress T _ _ _ _ e5
    have hc1 : s1.m.cells = m.cells := q0.trans hc
    rcases List.mem_cons.1 hkv with rfl | hkv
    · refine interior_pairs_mono T l s1 r h2 _ (q2 a b hsub ?_)
      exact (face_inside_congr T (show _ = m.cells from hc) a b).2 hi
    · exact ih s1 r h2 hc1 ⟨kv, hkv, hsub⟩

theorem shares_quad_face_symm (T : HexaTables) (m : Hexmesh) (a b : Nat)
    (h : shares_quad_face T m a b) : shares_quad_face T m b a := by
  obtain ⟨f, hf, g, hg, hk⟩ := h
  exact ⟨g, hg, f, hf, hk.symm⟩

theorem linked_of_shares_lt (T : HexaTables) (hE : T.edges_in_range) (hF : T.faces_in_range)
    (hN : T.faces_nodup) (hB : T.faces_bounded_by_edges) (m m1 : Hexmesh)
    (hd : cells_distinct m) (h1 : update_interior_adjacency T m = Except.ok m1)
    (a b : Nat) (hab : a < b) (hb : b < num_cells m) (h : shares_quad_face T m a b) :
    b ∈ row m1.c2c a ∧ a ∈ row m1.c2c b := by
  obtain ⟨v2c, s, hs, rfl⟩ := update_interior_adjacency_ok T hE m m1 h1
  obtain ⟨e, he, e', he', hk⟩ := common_edge_key T hF hN hB m hd a b hb h
  have hp := interior_pairs_progress T m a b (face_inside_of_shares T hF m a b h) _ _ s hs rfl
    (e2c_map_pair T m a b e e' hab hb he he' hk)
  have hl := interior_pairs_linked T _ _ s hs (fun p hp => by cases hp) _ hp
  have e : unique_pair a b = (a, b) := by
    simp [unique_pair, Nat.min_eq_left (Nat.le_of_lt hab), Nat.max_eq_right (Nat.le_of_lt hab)]
  rw [e] at hl
  exact hl

/-! ## The boundary flags -/

theorem getD_set_bool (xs : List Bool) (i j : Nat) (v : Bool) :
    (xs.set i v).getD j false = if i = j ∧ i < xs.length then v else xs.getD j false := by
  rw [List.getD_eq_getElem?_getD, List.getD_eq_getElem?_getD, List.getElem?_set]
  by_cases hij : i = j
  · subst hij
    by_cases hi : i < xs.length
    · simp [hi]
    · simp [hi, List.getElem?_eq_none (Nat.le_of_not_lt hi)]
  · simp [hij]

/-- One pass of the second surface loop: the face is registered as in
`surface_second_start`, then only `e2f` and `f2e` change. -/
theorem surface_second_pure_shape (T : HexaTables) (s : FaceLoop) (it : List Nat × (Nat × Nat)) :
    ∃ e2f f2e, surface_second_pure T s it =
      { m := { (surface_second_start T s it).m with e2f := e2f, f2e := f2e },
        fresh_id := s.fresh_id + 1 } := by
  unfold surface_second_pure
  dsimp only
  obtain ⟨a, b, e1, _⟩ := face_edge_fold_frame
    (cell_vid s.m it.2.1 (T.HEXA_FACES it.2.2 0)) (cell_vid s.m it.2.1 (T.HEXA_FACES it.2.2 1))
    (cell_vid s.m it.2.1 (T.HEXA_FACES it.2.2 2)) (cell_vid s.m it.2.1 (T.HEXA_FACES it.2.2 3))
    (row s.m.c2e it.2.1) (surface_second_start T s it)
  rw [e1]
  exact ⟨a, b, rfl⟩

theorem surface_second_fold_flags (T : HexaTables) (hF : T.faces_in_range) (m : Hexmesh)
    (hin : ids_in_range m) (l : List (List Nat × (Nat × Nat)))
    (hl : ∀ it ∈ l, it.2.1 < num_cells m ∧ it.2.2 < faces_per_cell) :
    ∀ s : FaceLoop, s.m.cells = m.cells → s.m.v_on_srf.length = num_verts m →
      (∀ vid, s.m.v_on_srf.getD vid false = true ↔ vid ∈ s.m.faces) →
      (l.foldl (surface_second_pure T) s).m.v_on_srf.length = num_verts m ∧
      (∀ vid, (l.foldl (surface_second_pure T) s).m.v_on_srf.getD vid false = true ↔
        vid ∈ (l.foldl (surface_second_pure T) s).m.faces) ∧
      (l.foldl (surface_second_pure T) s).m.e_on_srf = s.m.e_on_srf ∧
      (l.foldl (surface_second_pure T) s).m.edges = s.m.edges := by
  induction l with
  | nil => intro s _ h1 h2; exact ⟨h1, h2, rfl, rfl⟩
  | cons it l ih =>
    intro s hc h1 h2
    obtain ⟨a, b, e⟩ := surface_second_pure_shape T s it
    obtain ⟨hcid, hf⟩ := hl it (List.mem_cons_self _ _)
    have hv : ∀ k < verts_per_face, cell_vid s.m it.2.1 (T.HEXA_FACES it.2.2 k) <
        s.m.v_on_srf.length := by
      intro k hk
      rw [h1]
      have := hin it.2.1 hcid _ (hF it.2.2 hf k hk)
      simpa [cell_vid, hc] using this
    have v0 := hv 0 (by decide)
    have v1 := hv 1 (by decide)
    have v2 := hv 2 (by decide)
    have v3 := hv 3 (by decide)
    have := ih (fun x hx => hl x (List.mem_cons_of_mem _ hx)) (surface_second_pure T s it)
      (by rw [e]; exact hc)
      (by rw [e]; simp [surface_second_start, h1])
      (by
        intro vid
        rw [e]
        simp only [surface_second_start, getD_set_bool, List.length_set, List.mem_append,
          List.mem_cons, List.mem_singleton, List.not_mem_nil, or_false, v0, v1, v2, v3,
          and_true, ← h2 vid]
        by_cases c3 : cell_vid s.m it.2.1 (T.HEXA_FACES it.2.2 3) = vid
        · simp [c3]
        · by_cases c2 : cell_vid s.m it.2.1 (T.HEXA_FACES it.2.2 2) = vid
          · simp [c2]
          · by_cases c1 : cell_vid s.m it.2.1 (T.HEXA_FACES it.2.2 1) = vid
            · simp [c1]
            · by_cases c0 : cell_vid s.m it.2.1 (T.HEXA_FACES it.2.2 0) = vid
              · simp [c0]
              · have d0 : ¬ vid = cell_vid s.m it.2.1 (T.HEXA_FACES it.2.2 0) := fun h => c0 h.symm
                have d1 : ¬ vid = cell_vid s.m it.2.1 (T.HEXA_FACES it.2.2 1) := fun h => c1 h.symm
                have d2 : ¬ vid = cell_vid s.m it.2.1 (T.HEXA_FACES it.2.2 2) := fun h => c2 h.symm
                have d3 : ¬ vid = cell_vid s.m it.2.1 (T.HEXA_FACES it.2.2 3) := fun h => c3 h.symm
                simp [c0, c1, c2, c3, d0, d1, d2, d3])
    obtain ⟨q1, q2, q3, q4⟩ := this
    refine ⟨q1, q2, ?_, ?_⟩
    · rw [List.foldl_cons, q3, e]; rfl
    · rw [List.foldl_cons, q4, e]; rfl

theorem surface_third_pure_frame (m : Hexmesh) (eid : Nat) :
    (surface_third_pure m eid).faces = m.faces ∧ (surface_third_pure m eid).v_on_srf = m.v_on_srf ∧
      (surface_third_pure m eid).e2f = m.e2f ∧ (surface_third_pure m eid).edges = m.edges ∧
      (surface_third_pure m eid).verts = m.verts :=
  ⟨rfl, rfl, rfl, rfl, rfl⟩

theorem surface_third_fold_flags (l : List Nat) :
    ∀ m : Hexmesh, (∀ e ∈ l, e < m.e_on_srf.length) →
      (l.foldl surface_third_pure m).faces = m.faces ∧
      (l.foldl surface_third_pure m).v_on_srf = m.v_on_srf ∧
      (l.foldl surface_third_pure m).e2f = m.e2f ∧
      (l.foldl surface_third_pure m).edges = m.edges ∧
      (l.foldl surface_third_pure m).verts = m.verts ∧
      (l.foldl surface_third_pure m).e_on_srf.length = m.e_on_srf.length ∧
      ∀ eid, (l.foldl surface_third_pure m).e_on_srf.getD eid false = true ↔
        (m.e_on_srf.getD eid false = true ∨ (eid ∈ l ∧ row m.e2f eid ≠ [])) := by
  induction l with
  | nil => intro m _; simp
  | cons e l ih =>
    intro m hl
    have he := hl e (List.mem_cons_self _ _)
    have hlen : (surface_third_pure m e).e_on_srf.length = m.e_on_srf.length := by
      unfold surface_third_pure
      dsimp only
      split <;> simp
    obtain ⟨q1, q2, q3, q4, q5, q6, q7⟩ := ih (surface_third_pure m e)
      (fun x hx => by rw [hlen]; exact hl x (List.mem_cons_of_mem _ hx))
    refine ⟨q1, q2, q3, q4, q5, q6.trans hlen, ?_⟩
    intro eid
    rw [List.foldl_cons, q7 eid]
    have e2 : (surface_third_pure m e).e2f = m.e2f := rfl
    rw [e2]
    have e3 : (surface_third_pure m e).e_on_srf.getD eid false = true ↔
        (m.e_on_srf.getD eid false = true ∨ (eid = e ∧ row m.e2f eid ≠ [])) := by
      unfold surface_third_pure
      dsimp only
      by_cases hemp : row m.e2f e = []
      · simp only [hemp, List.isEmpty_nil, Bool.not_true, Bool.false_eq_true, if_false]
        constructor
        · exact Or.inl
        · rintro (h | ⟨rfl, h⟩)
          · exact h
          · exact absurd hemp h
      · have : (!(row m.e2f e).isEmpty) = true := by
          cases hr : row m.e2f e with
          | nil => exact absurd hr hemp
          | cons _ _ => rfl
        simp only [this, if_true, getD_set_bool, he, and_true]
        by_cases hee : e = eid
        · subst hee
          simp [hemp]
        · have : ¬ eid = e := fun h => hee h.symm
          simp [hee, this]
    rw [e3, List.mem_cons]
    tauto

theorem getD_replicate_false (n i : Nat) : (List.replicate n false).getD i false = false := by
  rw [List.getD_eq_getElem?_getD, List.getElem?_replicate]
  split <;> rfl

/-- The flags computed by the surface extraction on a mesh whose flag arrays are
still empty. -/
theorem surface_pure_flags (T : HexaTables) (hF : T.faces_in_range) (m : Hexmesh)
    (hin : ids_in_range m) (hv : m.v_on_srf = []) (he : m.e_on_srf = []) :
    num_verts (surface_pure T m) = num_verts m ∧ num_edges (surface_pure T m) = num_edges m ∧
    (surface_pure T m).v_on_srf.length = num_verts m ∧
    (surface_pure T m).e_on_srf.length = num_edges m ∧
    (∀ vid, (surface_pure T m).v_on_srf.getD vid false = true ↔ vid ∈ (surface_pure T m).faces) ∧
    (∀ eid < num_edges m, (surface_pure T m).e_on_srf.getD eid false = true ↔
      row (surface_pure T m).e2f eid ≠ []) := by
  obtain ⟨p1, p2, p3, p4⟩ := surface_second_fold_flags T hF m hin (f2c_map_of T m)
    (fun it hit => by
      obtain ⟨h1, h2, _⟩ := (mem_face_cands T m it).1 (mem_f2c_map T m it hit)
      exact ⟨h1, h2⟩)
    { m := surface_start T m, fresh_id := 0 } rfl
    (by simp [surface_start, length_resize])
    (by
      intro vid
      simp [surface_start, resize, hv, getD_replicate_false])
  have hes : (surface_faces T m).e_on_srf = List.replicate (num_edges m) false := by
    show ((f2c_map_of T m).foldl (surface_second_pure T)
      { m := surface_start T m, fresh_id := 0 }).m.e_on_srf = _
    rw [p3]
    simp [surface_start, resize, he]
  have hed : (surface_faces T m).edges = m.edges := p4
  have hne : num_edges { surface_faces T m with
      f2f := List.replicate (num_faces (surface_faces T m)) [] } = num_edges m := by
    simp [num_edges, hed]
  obtain ⟨q1, q2, q3, q4, q5, q6, q7⟩ := surface_third_fold_flags
    (List.range (num_edges { surface_faces T m with
      f2f := List.replicate (num_faces (surface_faces T m)) [] }))
    { surface_faces T m with f2f := List.replicate (num_faces (surface_faces T m)) [] }
    (by
      intro e hmem
      have := List.mem_range.1 hmem
      rw [hne] at this
      show e < (surface_faces T m).e_on_srf.length
      rw [hes, List.length_replicate]
      exact this)
  have hfold : surface_pure T m = (List.range (num_edges { surface_faces T m with
      f2f := List.replicate (num_faces (surface_faces T m)) [] })).foldl surface_third_pure
      { surface_faces T m with f2f := List.replicate (num_faces (surface_faces T m)) [] } := rfl
  rw [← hfold] at q1 q2 q3 q4 q5 q6 q7
  refine ⟨?_, ?_, ?_, ?_, ?_, ?_⟩
  · simp only [num_verts]
    rw [(surface_pure_faces T m).2.2]
  · rw [num_edges, q4]
    exact hne
  · rw [q2]; exact p1
  · rw [q6]
    show (surface_faces T m).e_on_srf.length = _
    rw [hes, List.length_replicate]
  · intro vid
    rw [q2, q1]
    exact p2 vid
  · intro eid heid
    rw [q7 eid, q3]
    have e0 : ({ surface_faces T m with
        f2f := List.replicate (num_faces (surface_faces T m)) [] } : Hexmesh).e_on_srf.getD
        eid false = false := by
      show (surface_faces T m).e_on_srf.getD eid false = false
      rw [hes, getD_replicate_false]
    rw [e0, hne]
    simp [heid]

theorem init_eq (T : HexaTables) (m m1 : Hexmesh)
    (h1 : update_interior_adjacency T m = Except.ok m1) :
    init T m = update_surface_adjacency T m1 := by
  unfold init
  rw [h1]
  rfl

/-! ## The rows of `c2f` -/

theorem modify_of_le {α : Type} (f : α → α) (xs : List α) (i : Nat) (h : xs.length ≤ i) :
    xs.modify f i = xs := by
  apply List.ext_getElem?
  intro j
  rw [List.getElem?_modify]
  by_cases hij : i = j
  · subst hij
    simp [List.getElem?_eq_none h]
  · simp [hij]

theorem length_row_push_row_le (xs : List (List Nat)) (i x j : Nat) :
    (row (push_row xs i x) j).length ≤ (row xs j).length + if j = i then 1 else 0 := by
  by_cases hi : i < xs.length
  · rw [push_row, row_modify xs _ i j hi]
    split <;> simp
  · rw [push_row, modify_of_le _ xs i (Nat.le_of_not_lt hi)]
    omega

theorem surface_second_fold_c2f (T : HexaTables) (c : Nat) (l : List (List Nat × (Nat × Nat))) :
    ∀ s : FaceLoop, (row (l.foldl (surface_second_pure T) s).m.c2f c).length ≤
      (row s.m.c2f c).length + (l.filter (fun it => decide (it.2.1 = c))).length := by
  induction l with
  | nil => intro s; simp
  | cons it l ih =>
    intro s
    obtain ⟨a, b, e⟩ := surface_second_pure_shape T s it
    have h1 := ih (surface_second_pure T s it)
    have h2 : (row (surface_second_pure T s it).m.c2f c).length ≤
        (row s.m.c2f c).length + if c = it.2.1 then 1 else 0 := by
      rw [e]
      exact length_row_push_row_le s.m.c2f it.2.1 s.fresh_id c
    rw [List.foldl_cons]
    refine le_trans h1 ?_
    rw [List.filter_cons]
    by_cases hc : it.2.1 = c
    · have hc' : c = it.2.1 := hc.symm
      rw [if_pos hc'] at h2
      simp only [hc, decide_True, if_true, List.length_cons]
      omega
    · have hc' : ¬ c = it.2.1 := fun h => hc h.symm
      rw [if_neg hc'] at h2
      simp only [hc, decide_False, Bool.false_eq_true, if_false]
      omega

theorem surface_third_fold_c2f (l : List Nat) :
    ∀ m : Hexmesh, (l.foldl surface_third_pure m).c2f = m.c2f := by
  induction l with
  | nil => intro m; rfl
  | cons e l ih => intro m; rw [List.foldl_cons, ih]; rfl

/-- A cell owns at most 6 entries of the surviving map: they have pairwise
distinct local face indices. -/
theorem f2c_map_owned_le (T : HexaTables) (m : Hexmesh) (c : Nat) :
    ((f2c_map_of T m).filter (fun it => decide (it.2.1 = c))).length ≤ faces_per_cell := by
  have hn : (f2c_map_of T m).Nodup := List.Nodup.of_map _ (f2c_map_keys_nodup T m)
  have hn2 : (((f2c_map_of T m).filter (fun it => decide (it.2.1 = c))).map
      (fun it => it.2.2)).Nodup := by
    refine List.Nodup.map_on ?_ (hn.filter _)
    intro x hx y hy hxy
    obtain ⟨hx1, hx2⟩ := List.mem_filter.1 hx
    obtain ⟨hy1, hy2⟩ := List.mem_filter.1 hy
    have hx2' : x.2.1 = c := by simpa using hx2
    have hy2' : y.2.1 = c := by simpa using hy2
    obtain ⟨_, _, kx⟩ := (mem_face_cands T m x).1 (mem_f2c_map T m x hx1)
    obtain ⟨_, _, ky⟩ := (mem_face_cands T m y).1 (mem_f2c_map T m y hy1)
    have h2 : x.2 = y.2 := Prod.ext (hx2'.trans hy2'.symm) hxy
    exact Prod.ext (by rw [kx, ky, h2]) h2
  have hsub : ((f2c_map_of T m).filter (fun it => decide (it.2.1 = c))).map (fun it => it.2.2) ⊆
      List.range faces_per_cell := by
    intro f hf
    obtain ⟨x, hx, rfl⟩ := List.mem_map.1 hf
    obtain ⟨_, h2, _⟩ := (mem_face_cands T m x).1 (mem_f2c_map T m x (List.mem_filter.1 hx).1)
    exact List.mem_range.2 h2
  have := (List.subperm_of_subset hn2 hsub).length_le
  simpa using this

theorem surface_pure_c2f_le (T : HexaTables) (m : Hexmesh) (c : Nat) :
    (row (surface_pure T m).c2f c).length ≤ faces_per_cell := by
  have h1 : (surface_pure T m).c2f = (surface_faces T m).c2f := by
    unfold surface_pure
    dsimp only
    rw [surface_third_fold_c2f]
  rw [h1]
  have h2 := surface_second_fold_c2f T c (f2c_map_of T m) { m := surface_start T m, fresh_id := 0 }
  have h3 : row (surface_start T m).c2f c = [] := row_replicate _ _
  have h4 := f2c_map_owned_le T m c
  simp only [h3, List.length_nil, Nat.zero_add] at h2
  exact le_trans h2 h4

/-! ## With in-range vertex ids only the assertion can stop the interior loops -/

/-- A loop whose steps all succeed, under an invariant, succeeds. -/
theorem foldlM_ok {σ α : Type} (P : σ → Prop) (f : σ → α → Except Fault σ) (l : List α)
    (hstep : ∀ s x, x ∈ l → P s → ∃ s', f s x = Except.ok s' ∧ P s') :
    ∀ s, P s → ∃ r, l.foldlM f s = Except.ok r ∧ P r := by
  induction l with
  | nil => intro s hs; exact ⟨s, rfl, hs⟩
  | cons x xs ih =>
    intro s hs
    obtain ⟨s1, h1, h2⟩ := hstep s x (List.mem_cons_self _ _) hs
    obtain ⟨r, h3, h4⟩ := ih (fun s x' hx => hstep s x' (List.mem_cons_of_mem _ hx)) s1 h2
    exact ⟨r, by rw [List.foldlM_cons, h1, ok_bind, h3], h4⟩

/-- A loop whose steps, under an invariant, either succeed or fail an assertion
either succeeds or fails an assertion. -/
theorem foldlM_ok_or_assert {σ α : Type} (P : List α → σ → Prop)
    (f : σ → α → Except Fault σ) (l : List α)
    (hstep : ∀ pre x post s, l = pre ++ x :: post → P pre s →
      f s x = Except.error Fault.assertion_failed ∨ ∃ s', f s x = Except.ok s' ∧ P (pre ++ [x]) s') :
    ∀ s, P [] s →
      l.foldlM f s = Except.error Fault.assertion_failed ∨ ∃ r, l.foldlM f s = Except.ok r ∧ P l r := by
  suffices H : ∀ (post pre : List α) (s : σ), l = pre ++ post → P pre s →
      post.foldlM f s = Except.error Fault.assertion_failed ∨
        ∃ r, post.foldlM f s = Except.ok r ∧ P l r from fun s hs => H l [] s rfl hs
  intro post
  induction post with
  | nil => intro pre s hl hs; exact Or.inr ⟨s, rfl, by simpa [hl] using hs⟩
  | cons x xs ih =>
    intro pre s hl hs
    rcases hstep pre x xs s hl hs with h | ⟨s1, h1, h2⟩
    · left
      rw [List.foldlM_cons, h, error_bind]
    · rw [List.foldlM_cons, h1, ok_bind]
      exact ih (pre ++ [x]) s1 (by simp [hl]) h2

theorem cell_contains_vert_total (m : Hexmesh) (cid vid : Nat) (hc : cid < num_cells m) :
    cell_contains_vert m cid vid =
      Except.ok (cell_contains_vert_pure m cid vid (List.range verts_per_cell)) := by
  have key : ∀ l : List Nat, (∀ i ∈ l, i < verts_per_cell) →
      cell_contains_vert_from m cid vid l = Except.ok (cell_contains_vert_pure m cid vid l) := by
    intro l
    induction l with
    | nil => intro _; rfl
    | cons i is ih =>
      intro hl
      rw [cell_contains_vert_from, cell_vert_id_eq m cid i hc (hl i (List.mem_cons_self _ _)),
        ok_bind]
      by_cases h : cell_vid m cid i = vid
      · simp [h, cell_contains_vert_pure]
      · rw [if_neg h, ih (fun j hj => hl j (List.mem_cons_of_mem _ hj))]
        simp [h, cell_contains_vert_pure]
  exact key _ (fun i hi => List.mem_range.1 hi)

theorem face_in_cell_total (T : HexaTables) (hF : T.faces_in_range) (m : Hexmesh)
    (cid0 cid1 f : Nat) (h0 : cid0 < num_cells m) (h1 : cid1 < num_cells m)
    (hf : f < faces_per_cell) :
    face_in_cell T m cid0 cid1 f = Except.ok (face_in_cell_pure T m cid0 cid1 f) := by
  unfold face_in_cell face_in_cell_pure
  simp only [cell_vert_id_eq m cid0 _ h0 (hF f hf 0 (by decide)),
    cell_vert_id_eq m cid0 _ h0 (hF f hf 1 (by decide)),
    cell_vert_id_eq m cid0 _ h0 (hF f hf 2 (by decide)),
    cell_vert_id_eq m cid0 _ h0 (hF f hf 3 (by decide)), ok_bind,
    cell_contains_vert_total m cid1 _ h1]
  cases cell_contains_vert_pure m cid1 (cell_vid m cid0 (T.HEXA_FACES f 0))
      (List.range verts_per_cell) <;>
    cases cell_contains_vert_pure m cid1 (cell_vid m cid0 (T.HEXA_FACES f 1))
      (List.range verts_per_cell) <;>
    cases cell_contains_vert_pure m cid1 (cell_vid m cid0 (T.HEXA_FACES f 2))
      (List.range verts_per_cell) <;> rfl

theorem cell_shared_face_total (T : HexaTables) (hF : T.faces_in_range) (m : Hexmesh)
    (cid0 cid1 : Nat) (h0 : cid0 < num_cells m) (h1 : cid1 < num_cells m) :
    cell_shared_face T m cid0 cid1 =
      Except.ok (cell_shared_face_pure T m cid0 cid1 (List.range faces_per_cell)) := by
  have key : ∀ l : List Nat, (∀ f ∈ l, f < faces_per_cell) →
      cell_shared_face_from T m cid0 cid1 l = Except.ok (cell_shared_face_pure T m cid0 cid1 l) := by
    intro l
    induction l with
    | nil => intro _; rfl
    | cons f fs ih =>
      intro hl
      rw [cell_shared_face_from,
        face_in_cell_total T hF m cid0 cid1 f h0 h1 (hl f (List.mem_cons_self _ _)), ok_bind,
        cell_shared_face_pure]
      split
      · rfl
      · exact ih (fun g hg => hl g (List.mem_cons_of_mem _ hg))
  exact key _ (fun f hf => List.mem_range.1 hf)

theorem link_cells_total (T : HexaTables) (hF : T.faces_in_range) (s : EdgeLoop)
    (cid nbr : Nat) (hc : cid < num_cells s.m) (hn : nbr < num_cells s.m)
    (hl : s.m.c2c.length = num_cells s.m) :
    link_cells T s cid nbr = Except.error Fault.assertion_failed ∨
      ∃ s', link_cells T s cid nbr = Except.ok s' := by
  unfold link_cells
  rw [cell_shared_face_total T hF s.m cid nbr hc hn, ok_bind]
  by_cases hsf : cell_shared_face_pure T s.m cid nbr (List.range faces_per_cell) ≠ -1
  · rw [if_pos hsf]
    dsimp only
    by_cases hp : (!s.cell_pairs.contains (unique_pair cid nbr)) = true
    · have p1 := push_back_at_of_lt s.m.c2c cid nbr (by rw [hl]; exact hc)
      have p2 := push_back_at_of_lt (push_row s.m.c2c cid nbr) nbr cid
        (by rw [length_push_row, hl]; exact hn)
      have v1 := vec_at_of_lt (push_row (push_row s.m.c2c cid nbr) nbr cid) cid []
        (by rw [length_push_row, length_push_row, hl]; exact hc)
      have v2 := vec_at_of_lt (push_row (push_row s.m.c2c cid nbr) nbr cid) nbr []
        (by rw [length_push_row, length_push_row, hl]; exact hn)
      rw [if_pos hp, p1, ok_bind]
      erw [p2]
      rw [ok_bind]
      erw [v1]
      rw [ok_bind]
      by_cases a1 : ((push_row (push_row s.m.c2c cid nbr) nbr cid).getD cid []).length ≤
          faces_per_cell
      · simp only [assert, a1, decide_True, if_true, ok_bind]
        erw [v2]
        rw [ok_bind]
        by_cases a2 : ((push_row (push_row s.m.c2c cid nbr) nbr cid).getD nbr []).length ≤
            faces_per_cell
        · simp only [a2, decide_True, if_true, ok_bind, pure_eq_ok]
          exact Or.inr ⟨_, rfl⟩
        · simp only [a2, decide_False, Bool.false_eq_true, if_false, error_bind]
          exact Or.inl trivial
      · simp only [assert, a1, decide_False, Bool.false_eq_true, if_false, error_bind]
        exact Or.inl trivial
    · rw [if_neg hp]
      exact Or.inr ⟨_, rfl⟩
  · rw [if_neg hsf]
    exact Or.inr ⟨_, rfl⟩

theorem link_cells_c2c_length {T : HexaTables} {s s' : EdgeLoop} {cid nbr : Nat}
    (h : link_cells T s cid nbr = Except.ok s') : s'.m.c2c.length = s.m.c2c.length := by
  rcases link_cells_ok h with ⟨rfl, _⟩ | ⟨_, _, c1, c2, p1, p2, _, _, rfl⟩
  · rfl
  · show c2.length = _
    rw [length_push p2, length_push p1]

theorem link_fold_total (T : HexaTables) (hF : T.faces_in_range) (cid : Nat)
    (rest : List Nat) :
    ∀ s : EdgeLoop, cid < num_cells s.m → (∀ n ∈ rest, n < num_cells s.m) →
      s.m.c2c.length = num_cells s.m →
      rest.foldlM (fun s nbr => link_cells T s cid nbr) s = Except.error Fault.assertion_failed ∨
        ∃ r, rest.foldlM (fun s nbr => link_cells T s cid nbr) s = Except.ok r ∧
          r.m.c2c.length = s.m.c2c.length := by
  induction rest with
  | nil => intro s _ _ _; exact Or.inr ⟨s, rfl, rfl⟩
  | cons nbr rest ih =>
    intro s hc hr hl
    rcases link_cells_total T hF s cid nbr hc (hr nbr (List.mem_cons_self _ _)) hl with
      h | ⟨s1, h1⟩
    · left; rw [List.foldlM_cons, h, error_bind]
    · have hfr := link_cells_frame h1
      have hcells : num_cells s1.m = num_cells s.m := by rw [hfr]; rfl
      have hlen := link_cells_c2c_length h1
      rw [List.foldlM_cons, h1, ok_bind]
      rcases ih s1 (by rw [hcells]; exact hc)
        (fun n hn => by rw [hcells]; exact hr n (List.mem_cons_of_mem _ hn))
        (by rw [hlen, hcells]; exact hl) with h | ⟨r, h2, h3⟩
      · exact Or.inl h
      · exact Or.inr ⟨r, h2, h3.trans hlen⟩

theorem edge_cells_from_total (T : HexaTables) (hF : T.faces_in_range) (eid : Nat)
    (cids : List Nat) :
    ∀ s : EdgeLoop, (∀ c ∈ cids, c < num_cells s.m) → eid < s.m.e2c.length →
      s.m.c2e.length = num_cells s.m → s.m.c2c.length = num_cells s.m →
      edge_cells_from T eid s cids = Except.error Fault.assertion_failed ∨
        ∃ r, edge_cells_from T eid s cids = Except.ok r := by
  induction cids with
  | nil => intro s _ _ _ _; exact Or.inr ⟨s, rfl⟩
  | cons cid rest ih =>
    intro s hc he h1 h2
    have hcid := hc cid (List.mem_cons_self _ _)
    have p1 := push_back_at_of_lt s.m.c2e cid eid (by rw [h1]; exact hcid)
    have p2 := push_back_at_of_lt s.m.e2c eid cid he
    rw [edge_cells_from, p1, ok_bind, p2, ok_bind]
    dsimp only
    rcases link_fold_total T hF cid rest
      { s with m := { s.m with c2e := s.m.c2e.modify (fun l => l ++ [eid]) cid,
                               e2c := s.m.e2c.modify (fun l => l ++ [cid]) eid } }
      hcid (fun n hn => hc n (List.mem_cons_of_mem _ hn)) h2 with h | ⟨s2, h3, hc2⟩
    · left; rw [h, error_bind]
    · have hfr := link_fold_frame T cid rest _ s2 h3
      rw [h3, ok_bind]
      refine ih s2 ?_ ?_ ?_ ?_
      · intro c hcm
        rw [hfr]
        exact hc c (List.mem_cons_of_mem _ hcm)
      · rw [hfr]
        simpa using he
      · rw [hfr]
        simpa using h1
      · rw [hc2]
        rw [hfr]
        exact h2

theorem mem_edge_cands (T : HexaTables) (m : Hexmesh) (x : ipair × Nat) :
    x ∈ edge_cands T m ↔
      x.2 < num_cells m ∧ ∃ e < edges_per_cell, x.1 = edge_key T m x.2 e := by
  unfold edge_cands
  simp only [List.mem_flatMap, List.mem_range, List.mem_map]
  constructor
  · rintro ⟨cid, hc, e, he, rfl⟩; exact ⟨hc, e, he, rfl⟩
  · rintro ⟨hc, e, he, hk⟩
    exact ⟨x.2, hc, e, he, by rw [← hk]⟩

theorem edge_key_lt (T : HexaTables) (hE : T.edges_in_range) (m : Hexmesh)
    (hin : ids_in_range m) (cid e : Nat) (hc : cid < num_cells m) (he : e < edges_per_cell) :
    (edge_key T m cid e).1 < num_verts m ∧ (edge_key T m cid e).2 < num_verts m := by
  have h0 := hin cid hc _ (hE e he 0 (by decide))
  have h1 := hin cid hc _ (hE e he 1 (by decide))
  unfold edge_key unique_pair
  simp only
  omega

/-- The entries of `e2c_map`: keys made of vertex ids, vectors made of cell
ids. -/
theorem e2c_map_entry (T : HexaTables) (hE : T.edges_in_range) (m : Hexmesh)
    (hin : ids_in_range m) (it : ipair × List Nat) (hit : it ∈ e2c_map_of T m) :
    it.1.1 < num_verts m ∧ it.1.2 < num_verts m ∧ ∀ c ∈ it.2, c < num_cells m := by
  have hk : it.1 ∈ candidate_edges T m :=
    (mem_e2c_map_keys T m it.1).1 (List.mem_map.2 ⟨it, hit, rfl⟩)
  obtain ⟨x, hx, hxk⟩ := List.mem_map.1 hk
  obtain ⟨hc, e, he, hke⟩ := (mem_edge_cands T m x).1 hx
  have := edge_key_lt T hE m hin x.2 e hc he
  rw [← hke, hxk] at this
  refine ⟨this.1, this.2, ?_⟩
  intro c hcm
  rw [e2c_map_cids T m it hit] at hcm
  obtain ⟨y, hy, rfl⟩ := List.mem_map.1 hcm
  exact ((mem_edge_cands T m y).1 (List.mem_filter.1 hy).1).1

theorem foldlM_singleton {σ α : Type} (f : σ → α → Except Fault σ) (s : σ) (x : α) :
    [x].foldlM f s = f s x := by
  rw [List.foldlM_cons]
  cases f s x <;> rfl

theorem interior_second_body_total (T : HexaTables) (hF : T.faces_in_range) (m : Hexmesh)
    (N n : Nat) (s : EdgeLoop) (it : ipair × List Nat) (hn : n < N)
    (h1 : it.1.1 < num_verts m) (h2 : it.1.2 < num_verts m) (h3 : ∀ c ∈ it.2, c < num_cells m)
    (inv : InteriorInv m N n s) :
    interior_second_body T s it = Except.error Fault.assertion_failed ∨
      ∃ s', interior_second_body T s it = Except.ok s' ∧ InteriorInv m N (n + 1) s' := by
  have hres : interior_second_body T s it = Except.error Fault.assertion_failed ∨
      ∃ s', interior_second_body T s it = Except.ok s' := by
    unfold interior_second_body
    dsimp only
    have p1 := push_back_at_of_lt s.m.v2v it.1.1 it.1.2 (by rw [inv.v2v]; exact h1)
    have p2 := push_back_at_of_lt (push_row s.m.v2v it.1.1 it.1.2) it.1.2 it.1.1
      (by rw [length_push_row, inv.v2v]; exact h2)
    have p3 := push_back_at_of_lt s.m.v2e it.1.1 s.fresh_id (by rw [inv.v2e]; exact h1)
    have p4 := push_back_at_of_lt (push_row s.m.v2e it.1.1 s.fresh_id) it.1.2 s.fresh_id
      (by rw [length_push_row, inv.v2e]; exact h2)
    rw [p1, ok_bind]
    erw [p2]
    rw [ok_bind, p3, ok_bind]
    erw [p4]
    rw [ok_bind]
    have hnc : ∀ x : Hexmesh, x.cells = m.cells → num_cells x = num_cells m := by
      intro x hx; simp [num_cells, hx]
    refine edge_cells_from_total T hF s.fresh_id it.2 _ ?_ ?_ ?_ ?_
    · intro c hc
      show c < num_cells s.m
      rw [hnc _ inv.cells]
      exact h3 c hc
    · show s.fresh_id < s.m.e2c.length
      rw [inv.fresh, inv.e2c]; exact hn
    · show s.m.c2e.length = num_cells s.m
      rw [hnc _ inv.cells]; exact inv.c2e
    · show s.m.c2c.length = num_cells s.m
      rw [hnc _ inv.cells]; exact inv.c2c
  rcases hres with h | ⟨s', h⟩
  · exact Or.inl h
  · refine Or.inr ⟨s', h, ?_⟩
    have fr := interior_second_loop_frame T [it] s s' (by rw [foldlM_singleton]; exact h)
    obtain ⟨_, hf⟩ := interior_second_body_edges T h
    exact ⟨by rw [hf, inv.fresh], fr.cells.trans inv.cells, fr.v2v_len.trans inv.v2v,
      fr.v2e_len.trans inv.v2e, fr.c2e_len.trans inv.c2e, fr.c2c_len.trans inv.c2c,
      fr.e2c_len.trans inv.e2c⟩

theorem vec_at_all_total (xs : List Nat) (l : List Nat) (h : ∀ i ∈ l, i < xs.length) :
    vec_at_all xs l = Except.ok (l.map (fun i => xs.getD i 0)) := by
  induction l with
  | nil => rfl
  | cons i is ih =>
    rw [vec_at_all, vec_at_of_lt xs i 0 (h i (List.mem_cons_self _ _)), ok_bind,
      ih (fun j hj => h j (List.mem_cons_of_mem _ hj)), ok_bind]
    rfl

theorem interior_first_body_total (T : HexaTables) (m : Hexmesh) (hin : ids_in_range m)
    (st : Hexmesh × List (ipair × List Nat)) (cid : Nat) (hc : cid < num_cells m)
    (h1 : st.1.cells = m.cells) (h2 : st.1.v2c.length = num_verts m) :
    ∃ st', interior_first_body T st cid = Except.ok st' ∧ st'.1.cells = m.cells ∧
      st'.1.v2c.length = num_verts m := by
  unfold interior_first_body
  dsimp only
  rw [vec_at_all_total]
  · rw [ok_bind]
    obtain ⟨v2c, e1, e2⟩ := foldlM_ok (fun v2c : List (List Nat) => v2c.length = num_verts m)
      (fun v2c vid => push_back_at v2c
        ((((List.range 8).map (fun k => cid * verts_per_cell + k)).map
          (fun i => st.1.cells.getD i 0)).getD vid 0) cid)
      (List.range verts_per_cell)
      (by
        intro v2c vid hv hl
        have hv' : vid < verts_per_cell := List.mem_range.1 hv
        have hlt : (((List.range 8).map (fun k => cid * verts_per_cell + k)).map
            (fun i => st.1.cells.getD i 0)).getD vid 0 < v2c.length := by
          rw [getD_cell_vids st.1 cid vid hv', hl]
          have := hin cid hc vid hv'
          simpa [cell_vid, h1] using this
        exact ⟨_, push_back_at_of_lt _ _ _ hlt, (List.length_modify _ _ _).trans hl⟩)
      st.1.v2c h2
    rw [e1, ok_bind]
    exact ⟨_, rfl, h1, e2⟩
  · intro i hi
    obtain ⟨k, hk, rfl⟩ := List.mem_map.1 hi
    have hk' : k < 8 := List.mem_range.1 hk
    have := cell_index_lt m cid k hc hk'
    rw [h1]
    exact this

/-- With in-range vertex ids no checked access of `update_interior_adjacency` is
out of range: the derivation completes unless the assertion on `c2c` fails. -/
theorem update_interior_adjacency_total (T : HexaTables) (hE : T.edges_in_range)
    (hF : T.faces_in_range) (m : Hexmesh) (hin : ids_in_range m) :
    update_interior_adjacency T m = Except.error Fault.assertion_failed ∨
      ∃ m1, update_interior_adjacency T m = Except.ok m1 := by
  obtain ⟨st, e1, _, _⟩ := foldlM_ok
    (fun st : Hexmesh × List (ipair × List Nat) =>
      st.1.cells = m.cells ∧ st.1.v2c.length = num_verts m)
    (interior_first_body T) (List.range (num_cells m))
    (fun st cid hc ⟨h1, h2⟩ =>
      interior_first_body_total T m hin st cid (List.mem_range.1 hc) h1 h2)
    ({ m with v2v := List.replicate (num_verts m) [], v2e := List.replicate (num_verts m) [],
              v2c := List.replicate (num_verts m) [], c2c := List.replicate (num_cells m) [],
              c2e := List.replicate (num_cells m) [] }, [])
    ⟨rfl, by simp⟩
  obtain ⟨q1, q2⟩ := interior_first_loop_ok T hE _ st e1
  have q2' : st.2 = e2c_map_of T m := q2
  unfold update_interior_adjacency
  dsimp only
  erw [e1]
  rw [ok_bind, q2']
  rcases foldlM_ok_or_assert
    (fun pre s => InteriorInv m (e2c_map_of T m).length pre.length s)
    (interior_second_body T) (e2c_map_of T m)
    (by
      intro pre x post s hl inv
      have hx : x ∈ e2c_map_of T m := by rw [hl]; simp
      obtain ⟨h1, h2, h3⟩ := e2c_map_entry T hE m hin x hx
      have hn : pre.length < (e2c_map_of T m).length := by rw [hl]; simp
      have := interior_second_body_total T hF m _ _ s x hn h1 h2 h3 inv
      simpa using this)
    { m := { st.1 with edges := [], e2c := List.replicate (e2c_map_of T m).length [] },
      cell_pairs := [], fresh_id := 0 }
    (by
      rw [q1]
      constructor <;> simp [num_cells, num_verts]) with h | ⟨r, h, _⟩
  · left; rw [h, error_bind]
  · right; rw [h, ok_bind]; exact ⟨_, rfl⟩

/-! ## The pipeline as a whole -/

/-- With in-range vertex ids `init` either stops on the assertion of the interior
step or completes, and then its result is the surface extraction of the result
of the interior step. -/
theorem init_cases (T : HexaTables) (hE : T.edges_in_range) (hF : T.faces_in_range)
    (m : Hexmesh) (hin : ids_in_range m) :
    init T m = Except.error Fault.assertion_failed ∨
      ∃ m1, update_interior_adjacency T m = Except.ok m1 ∧
        init T m = Except.ok (surface_pure T m1) := by
  rcases update_interior_adjacency_total T hE hF m hin with h | ⟨m1, h1⟩
  · left
    unfold init
    rw [h]
    rfl
  · right
    obtain ⟨hv, hc, _, _, _, hr⟩ := update_interior_adjacency_frame T hE m m1 h1
    refine ⟨m1, h1, ?_⟩
    rw [init_eq T m m1 h1]
    exact update_surface_adjacency_eq T hF m1 (ids_in_range_congr hc hv hin) hr

/-! ## Out-of-range vertex ids -/

/-- A loop stops with the fault of the first element whose body fails, when the
bodies of the elements before it succeed and keep the invariant. -/
theorem foldlM_error {σ α : Type} (P : σ → Prop) (bad : α → Prop) (e : Fault)
    (f : σ → α → Except Fault σ) (l : List α)
    (hgood : ∀ s x, x ∈ l → P s → ¬ bad x → ∃ s', f s x = Except.ok s' ∧ P s')
    (hbad : ∀ s x, x ∈ l → P s → bad x → f s x = Except.error e)
    (hex : ∃ x ∈ l, bad x) :
    ∀ s, P s → l.foldlM f s = Except.error e := by
  induction l with
  | nil => obtain ⟨x, hx, _⟩ := hex; cases hx
  | cons x xs ih =>
    intro s hs
    rw [List.foldlM_cons]
    by_cases hb : bad x
    · rw [hbad s x (List.mem_cons_self _ _) hs hb]
      rfl
    · obtain ⟨s', e1, hs'⟩ := hgood s x (List.mem_cons_self _ _) hs hb
      rw [e1, ok_bind]
      refine ih (fun s y hy => hgood s y (List.mem_cons_of_mem _ hy))
        (fun s y hy => hbad s y (List.mem_cons_of_mem _ hy)) ?_ s' hs'
      obtain ⟨y, hy, hyb⟩ := hex
      rcases List.mem_cons.1 hy with rfl | hy
      · exact absurd hyb hb
      · exact ⟨y, hy, hyb⟩

/-- The first interior loop completes on a cell whose 8 vertex ids are ids of
vertices. -/
theorem interior_first_body_good (T : HexaTables) (m : Hexmesh)
    (st : Hexmesh × List (ipair × List Nat)) (cid : Nat) (hc : cid < num_cells m)
    (hin : ∀ off < verts_per_cell, cell_vid m cid off < num_verts m)
    (h1 : st.1.cells = m.cells) (h2 : st.1.v2c.length = num_verts m) :
    ∃ st', interior_first_body T st cid = Except.ok st' ∧ st'.1.cells = m.cells ∧
      st'.1.v2c.length = num_verts m := by
  unfold interior_first_body
  dsimp only
  rw [vec_at_all_total]
  · rw [ok_bind]
    obtain ⟨v2c, e1, e2⟩ := foldlM_ok (fun v2c : List (List Nat) => v2c.length = num_verts m)
      (fun v2c vid => push_back_at v2c
        ((((List.range 8).map (fun k => cid * verts_per_cell + k)).map
          (fun i => st.1.cells.getD i 0)).getD vid 0) cid)
      (List.range verts_per_cell)
      (by
        intro v2c vid hv hl
        have hv' : vid < verts_per_cell := List.mem_range.1 hv
        have hlt : (((List.range 8).map (fun k => cid * verts_per_cell + k)).map
            (fun i => st.1.cells.getD i 0)).getD vid 0 < v2c.length := by
          rw [getD_cell_vids st.1 cid vid hv', hl]
          have := hin vid hv'
          simpa [cell_vid, h1] using this
        exact ⟨_, push_back_at_of_lt _ _ _ hlt, (List.length_modify _ _ _).trans hl⟩)
      st.1.v2c h2
    rw [e1, ok_bind]
    exact ⟨_, rfl, h1, e2⟩
  · intro i hi
    obtain ⟨k, hk, rfl⟩ := List.mem_map.1 hi
    have hk' : k < 8 := List.mem_range.1 hk
    have := cell_index_lt m cid k hc hk'
    rw [h1]
    exact this

/-- The first interior loop stops with an out-of-range access on a cell one of
whose 8 vertex ids is not the id of a vertex: the push into `v2c` fails. -/
theorem interior_first_body_bad (T : HexaTables) (m : Hexmesh)
    (st : Hexmesh × List (ipair × List Nat)) (cid : Nat) (hc : cid < num_cells m)
    (hbad : ¬ ∀ off < verts_per_cell, cell_vid m cid off < num_verts m)
    (h1 : st.1.cells = m.cells) (h2 : st.1.v2c.length = num_verts m) :
    interior_first_body T st cid = Except.error Fault.out_of_range := by
  unfold interior_first_body
  dsimp only
  rw [vec_at_all_total]
  · rw [ok_bind]
    have e1 := foldlM_error (fun v2c : List (List Nat) => v2c.length = num_verts m)
      (fun vid => ¬ cell_vid m cid vid < num_verts m) Fault.out_of_range
      (fun v2c vid => push_back_at v2c
        ((((List.range 8).map (fun k => cid * verts_per_cell + k)).map
          (fun i => st.1.cells.getD i 0)).getD vid 0) cid)
      (List.range verts_per_cell)
      (by
        intro v2c vid hv hl hg
        have hv' : vid < verts_per_cell := List.mem_range.1 hv
        have hlt : (((List.range 8).map (fun k => cid * verts_per_cell + k)).map
            (fun i => st.1.cells.getD i 0)).getD vid 0 < v2c.length := by
          rw [getD_cell_vids st.1 cid vid hv', hl]
          have := not_not.1 hg
          simpa [cell_vid, h1] using this
        exact ⟨_, push_back_at_of_lt _ _ _ hlt, (List.length_modify _ _ _).trans hl⟩)
      (by
        intro v2c vid hv hl hb
        have hv' : vid < verts_per_cell := List.mem_range.1 hv
        have hge : ¬ (((List.range 8).map (fun k => cid * verts_per_cell + k)).map
            (fun i => st.1.cells.getD i 0)).getD vid 0 < v2c.length := by
          rw [getD_cell_vids st.1 cid vid hv', hl]
          simpa [cell_vid, h1] using hb
        show push_back_at v2c _ cid = _
        unfold push_back_at
        rw [if_neg hge])
      (by
        by_contra hne
        apply hbad
        intro off ho
        by_contra hlt
        exact hne ⟨off, List.mem_range.2 ho, hlt⟩)
      st.1.v2c h2
    rw [e1]
    rfl
  · intro i hi
    obtain ⟨k, hk, rfl⟩ := List.mem_map.1 hi
    have hk' : k < 8 := List.mem_range.1 hk
    have := cell_index_lt m cid k hc hk'
    rw [h1]
    exact this

/-- When some cell references a vertex id that is not the id of a vertex,
`update_interior_adjacency` stops with an out-of-range access. -/
theorem update_interior_adjacency_out_of_range (T : HexaTables) (m : Hexmesh)
    (hbad : ¬ ids_in_range m) :
    update_interior_adjacency T m = Except.error Fault.out_of_range := by
  have e1 := foldlM_error
    (fun st : Hexmesh × List (ipair × List Nat) =>
      st.1.cells = m.cells ∧ st.1.v2c.length = num_verts m)
    (fun cid => ¬ ∀ off < verts_per_cell, cell_vid m cid off < num_verts m)
    Fault.out_of_range (interior_first_body T) (List.range (num_cells m))
    (fun st cid hc ⟨h1, h2⟩ hg =>
      interior_first_body_good T m st cid (List.mem_range.1 hc) (not_not.1 hg) h1 h2)
    (fun st cid hc ⟨h1, h2⟩ hb =>
      interior_first_body_bad T m st cid (List.mem_range.1 hc) hb h1 h2)
    (by
      by_contra hne
      apply hbad
      intro cid hc
      by_contra hlt
      exact hne ⟨cid, List.mem_range.2 hc, hlt⟩)
    ({ m with v2v := List.replicate (num_verts m) [], v2e := List.replicate (num_verts m) [],
              v2c := List.replicate (num_verts m) [], c2c := List.replicate (num_cells m) [],
              c2e := List.replicate (num_cells m) [] }, [])
    ⟨rfl, by simp⟩
  unfold update_interior_adjacency
  dsimp only
  erw [e1]
  rfl

/-! ## Counting the boundary faces -/

section counting

variable {K : Type} [DecidableEq K]

omit [DecidableEq K] in
theorem sum_map_one_two (c : K → Nat) (D : List K) (h : ∀ k ∈ D, c k = 1 ∨ c k = 2) :
    (D.map c).sum = (D.filter (fun k => decide (c k = 1))).length +
      2 * (D.filter (fun k => decide (c k = 2))).length := by
  induction D with
  | nil => rfl
  | cons x xs ih =>
    have ih' := ih (fun k hk => h k (List.mem_cons_of_mem _ hk))
    rw [List.map_cons, List.sum_cons, ih', List.filter_cons, List.filter_cons]
    rcases h x (List.mem_cons_self _ _) with e | e
    · simp [e]; omega
    · simp [e]; omega

/-- A list in which nothing occurs more than twice has as many entries as it
has values occurring once, plus twice the values occurring twice. -/
theorem length_by_multiplicity (l : List K)
    (h : ∀ k ∈ l, (l.filter (fun x => decide (x = k))).length ≤ 2) :
    l.length =
      (l.dedup.filter (fun k => decide ((l.filter (fun x => decide (x = k))).length = 1))).length +
      2 * (l.dedup.filter
        (fun k => decide ((l.filter (fun x => decide (x = k))).length = 2))).length := by
  have e := sum_map_one_two (fun k => (l.filter (fun x => decide (x = k))).length) l.dedup
    (by
      intro k hk
      have hk' : k ∈ l := List.mem_dedup.1 hk
      have h1 := h k hk'
      have h2 : 0 < (l.filter (fun x => decide (x = k))).length := by
        rw [← count_eq_length_filter]
        exact List.count_pos_iff.2 hk'
      show (l.filter (fun x => decide (x = k))).length = 1 ∨
        (l.filter (fun x => decide (x = k))).length = 2
      omega)
  rw [← e, ← List.sum_map_count_dedup_eq_length l]
  congr 1
  apply List.map_congr_left
  intro k _
  exact count_eq_length_filter k l

/-- The keys that survive the toggling are the values at an odd number of
places. -/
theorem odd_keys_perm (keys l : List K) (hn : keys.Nodup)
    (hc : ∀ k, (keys.filter (fun x => decide (x = k))).length =
      (l.filter (fun x => decide (x = k))).length % 2) :
    keys.Perm (l.dedup.filter
      (fun k => decide ((l.filter (fun x => decide (x = k))).length % 2 = 1))) := by
  refine (List.perm_ext_iff_of_nodup hn ((List.nodup_dedup l).filter _)).2 ?_
  intro k
  have h1 := filter_eq_length_of_nodup keys hn k
  have h2 := hc k
  rw [List.mem_filter, List.mem_dedup, decide_eq_true_eq]
  constructor
  · intro hk
    rw [if_pos hk] at h1
    refine ⟨?_, by omega⟩
    by_contra hnl
    have : (l.filter (fun x => decide (x = k))).length = 0 := by
      rw [← count_eq_length_filter]
      exact List.count_eq_zero.2 hnl
    omega
  · rintro ⟨_, ho⟩
    by_contra hk
    rw [if_neg hk] at h1
    omega

end counting

theorem face_cands_congr (T : HexaTables) {m m1 : Hexmesh} (hc : m1.cells = m.cells) :
    face_cands T m1 = face_cands T m := by
  unfold face_cands face_key local_face_ids cell_vid num_cells
  rw [hc]

theorem f2c_map_of_congr (T : HexaTables) {m m1 : Hexmesh} (hc : m1.cells = m.cells) :
    f2c_map_of T m1 = f2c_map_of T m := by
  unfold f2c_map_of
  rw [face_cands_congr T hc]

theorem length_face_cands (T : HexaTables) (m : Hexmesh) :
    (candidate_face_keys T m).length = 6 * num_cells m := by
  unfold candidate_face_keys face_cands
  rw [List.length_map]
  generalize num_cells m = n
  induction n with
  | zero => rfl
  | succ n ih =>
    rw [List.range_succ, List.flatMap_append, List.length_append, ih]
    simp [faces_per_cell]
    omega

/-- The number of derived faces is the number of candidate keys that occur at an
odd number of places among the candidates. -/
theorem num_faces_surface_pure (T : HexaTables) (m : Hexmesh) :
    num_faces (surface_pure T m) =
      ((candidate_face_keys T m).dedup.filter (fun k => decide
        (((candidate_face_keys T m).filter (fun x => decide (x = k))).length % 2 = 1))).length := by
  obtain ⟨hn, _⟩ := derived_face_keys T m (surface_pure T m) (surface_pure_faces T m).1
  rw [hn, ← List.length_map (f2c_map_of T m) Prod.fst]
  exact (odd_keys_perm _ _ (f2c_map_keys_nodup T m) (f2c_map_keys_count T m)).length_eq

/-- The count of the boundary faces of a mesh in which no key is produced by
more than two cells. -/
theorem num_faces_of_manifold (T : HexaTables) (hF : T.faces_in_range) (hD : T.faces_distinct)
    (m : Hexmesh) (hd : cells_distinct m) (hman : manifold_keys T m) :
    num_faces (surface_pure T m) = (keys_of_cells T m 1).length ∧
      num_faces (surface_pure T m) + 2 * (keys_of_cells T m 2).length = 6 * num_cells m := by
  have hcnt : ∀ k, ((candidate_face_keys T m).filter (fun x => decide (x = k))).length =
      cells_with_face_key T m k := face_cands_count T hF hD m hd
  have e1 : num_faces (surface_pure T m) = (keys_of_cells T m 1).length := by
    rw [num_faces_surface_pure]
    unfold keys_of_cells
    congr 1
    apply List.filter_congr
    intro k hk
    have := hman k (List.mem_dedup.1 hk)
    rw [hcnt k]
    by_cases h : cells_with_face_key T m k = 1
    · simp [h]
    · have : ¬ cells_with_face_key T m k % 2 = 1 := by omega
      simp [h, this]
  refine ⟨e1, ?_⟩
  have e2 := length_by_multiplicity (candidate_face_keys T m)
    (fun k hk => by rw [hcnt k]; exact hman k hk)
  rw [length_face_cands] at e2
  rw [e1, e2]
  unfold keys_of_cells
  simp only [hcnt]

theorem manifold_keys_congr (T : HexaTables) {m m1 : Hexmesh} (hc : m1.cells = m.cells)
    (h : manifold_keys T m) : manifold_keys T m1 := by
  intro k hk
  unfold candidate_face_keys at hk
  rw [face_cands_congr T hc] at hk
  rw [cells_with_face_key_congr T hc]
  exact h k hk

theorem keys_of_cells_congr (T : HexaTables) {m m1 : Hexmesh} (hc : m1.cells = m.cells)
    (n : Nat) : keys_of_cells T m1 n = keys_of_cells T m n := by
  unfold keys_of_cells candidate_face_keys
  rw [face_cands_congr T hc]
  simp only [cells_with_face_key_congr T hc]

theorem num_cells_congr {m m1 : Hexmesh} (hc : m1.cells = m.cells) :
    num_cells m1 = num_cells m := by
  unfold num_cells
  rw [hc]

/-! ## The bounding box -/

/-- A loop over the indices of a vector that reads the entry and folds it in. -/
theorem foldlM_range_vec_at {α σ : Type} (xs : List α) (f : σ → α → σ) (s : σ) :
    ∀ n, n ≤ xs.length →
      (List.range n).foldlM (fun s i => do let v ← vec_at xs i; pure (f s v)) s =
        Except.ok ((xs.take n).foldl f s) := by
  intro n
  induction n with
  | zero => intro _; rfl
  | succ n ih =>
    intro h
    have hn : n < xs.length := h
    rw [List.range_succ, List.foldlM_append, ih (Nat.le_of_lt hn), ok_bind, foldlM_singleton]
    have e : vec_at xs n = Except.ok (xs.get ⟨n, hn⟩) := by
      unfold vec_at
      rw [List.getElem?_eq_getElem hn]
      rfl
    rw [e, ok_bind]
    show Except.ok _ = Except.ok _
    congr 1
    rw [List.take_succ, List.getElem?_eq_getElem hn, List.foldl_append]
    rfl

theorem update_bbox_eq (m : Hexmesh) : update_bbox m = Except.ok (bbox_of m.verts Bbox.reset) := by
  unfold update_bbox bbox_of num_verts vert
  have := foldlM_range_vec_at m.verts
    (fun (bb : Bbox) v => { min := bb.min.min (corner.of v), max := bb.max.max (corner.of v) })
    Bbox.reset m.verts.length (le_refl _)
  rw [List.take_length] at this
  exact this

theorem coord_min_fin (a b : ℚ) : coord.min (.fin a) (.fin b) = .fin (min a b) := by
  unfold coord.min coord.le
  by_cases h : a ≤ b
  · simp [h]
  · simp [h, min_eq_right (le_of_not_le h)]

theorem coord_max_fin (a b : ℚ) : coord.max (.fin a) (.fin b) = .fin (max a b) := by
  unfold coord.max coord.le
  by_cases h : a ≤ b
  · simp [h]
  · simp [h, max_eq_left (le_of_not_le h)]

theorem coord_min_pos_inf (b : ℚ) : coord.min .pos_inf (.fin b) = .fin b := rfl

theorem coord_max_neg_inf (b : ℚ) : coord.max .neg_inf (.fin b) = .fin b := rfl

/-- Folding one more point into a box that spans the points so far. -/
theorem spans_snoc (f : vec3d → ℚ) (vs : List vec3d) (lo hi : ℚ) (v : vec3d)
    (h : spans f vs lo hi) : spans f (vs ++ [v]) (min lo (f v)) (max hi (f v)) := by
  obtain ⟨h1, ⟨a, ha, ea⟩, ⟨b, hb, eb⟩⟩ := h
  refine ⟨?_, ?_, ?_⟩
  · intro w hw
    rcases List.mem_append.1 hw with hw | hw
    · exact ⟨le_trans (min_le_left _ _) (h1 w hw).1, le_trans (h1 w hw).2 (le_max_left _ _)⟩
    · rw [List.mem_singleton.1 hw]
      exact ⟨min_le_right _ _, le_max_right _ _⟩
  · rcases min_choice lo (f v) with e | e
    · exact ⟨a, List.mem_append_left _ ha, by rw [e, ea]⟩
    · exact ⟨v, by simp, by rw [e]⟩
  · rcases max_choice hi (f v) with e | e
    · exact ⟨b, List.mem_append_left _ hb, by rw [e, eb]⟩
    · exact ⟨v, by simp, by rw [e]⟩

theorem spans_singleton (f : vec3d → ℚ) (v : vec3d) : spans f [v] (f v) (f v) :=
  ⟨fun w hw => by rw [List.mem_singleton.1 hw]; exact ⟨le_refl _, le_refl _⟩,
    ⟨v, by simp, rfl⟩, ⟨v, by simp, rfl⟩⟩

/-- The fold of `update_bbox` from a finite box that spans the points `pre`. -/
theorem bbox_of_spans (vs : List vec3d) :
    ∀ (pre : List vec3d) (lo hi : vec3d),
      spans vec3d.x pre lo.x hi.x → spans vec3d.y pre lo.y hi.y → spans vec3d.z pre lo.z hi.z →
      ∃ lo' hi' : vec3d, bbox_of vs ⟨corner.of lo, corner.of hi⟩ =
          ⟨corner.of lo', corner.of hi'⟩ ∧
        spans vec3d.x (pre ++ vs) lo'.x hi'.x ∧ spans vec3d.y (pre ++ vs) lo'.y hi'.y ∧
        spans vec3d.z (pre ++ vs) lo'.z hi'.z := by
  induction vs with
  | nil =>
    intro pre lo hi hx hy hz
    exact ⟨lo, hi, rfl, by simpa using hx, by simpa using hy, by simpa using hz⟩
  | cons v vs ih =>
    intro pre lo hi hx hy hz
    have e : bbox_of (v :: vs) ⟨corner.of lo, corner.of hi⟩ =
        bbox_of vs ⟨corner.of ⟨min lo.x v.x, min lo.y v.y, min lo.z v.z⟩,
          corner.of ⟨max hi.x v.x, max hi.y v.y, max hi.z v.z⟩⟩ := by
      unfold bbox_of
      rw [List.foldl_cons]
      simp only [corner.min, corner.max, corner.of, coord_min_fin, coord_max_fin]
    obtain ⟨lo', hi', e', hx', hy', hz'⟩ :=
      ih (pre ++ [v]) ⟨min lo.x v.x, min lo.y v.y, min lo.z v.z⟩
        ⟨max hi.x v.x, max hi.y v.y, max hi.z v.z⟩
        (spans_snoc vec3d.x pre _ _ v hx) (spans_snoc vec3d.y pre _ _ v hy)
        (spans_snoc vec3d.z pre _ _ v hz)
    refine ⟨lo', hi', by rw [e, e'], ?_, ?_, ?_⟩
    · simpa using hx'
    · simpa using hy'
    · simpa using hz'

/-! ## The maps are iterated in increasing key order -/

theorem ipair_lt_order : key_order ipair_lt := by
  refine ⟨?_, ?_, ?_⟩
  · intro a
    simp [ipair_lt]
  · intro a b c h1 h2
    simp only [ipair_lt, Bool.or_eq_true, Bool.and_eq_true, decide_eq_true_eq] at h1 h2 ⊢
    omega
  · intro a b h1 h2
    have h3 : ¬ (a.1 = b.1 ∧ a.2 = b.2) := fun h => h2 (Prod.ext h.1 h.2)
    simp only [ipair_lt, Bool.or_eq_false_iff, Bool.and_eq_false_iff, decide_eq_false_iff_not,
      Bool.or_eq_true, Bool.and_eq_true, decide_eq_true_eq] at h1 ⊢
    omega

theorem face_lt_irrefl : ∀ a : List Nat, face_lt a a = false
  | [] => rfl
  | x :: xs => by simp [face_lt, face_lt_irrefl xs]

theorem face_lt_trans : ∀ a b c : List Nat,
    face_lt a b = true → face_lt b c = true → face_lt a c = true
  | [], [], _, h, _ => by simp [face_lt] at h
  | [], _ :: _, [], _, h => by simp [face_lt] at h
  | [], _ :: _, _ :: _, _, _ => rfl
  | _ :: _, [], _, h, _ => by simp [face_lt] at h
  | _ :: _, _ :: _, [], _, h => by simp [face_lt] at h
  | x :: xs, y :: ys, z :: zs, h1, h2 => by
    simp only [face_lt, Bool.or_eq_true, Bool.and_eq_true, decide_eq_true_eq] at h1 h2 ⊢
    rcases h1 with h1 | ⟨e1, h1⟩
    · rcases h2 with h2 | ⟨e2, _⟩
      · exact Or.inl (by omega)
      · exact Or.inl (by omega)
    · rcases h2 with h2 | ⟨e2, h2⟩
      · exact Or.inl (by omega)
      · exact Or.inr ⟨by omega, face_lt_trans xs ys zs h1 h2⟩

theorem face_lt_total : ∀ a b : List Nat, face_lt a b = false → a ≠ b → face_lt b a = true
  | [], [], _, h => absurd rfl h
  | [], _ :: _, h, _ => by simp [face_lt] at h
  | _ :: _, [], _, _ => rfl
  | x :: xs, y :: ys, h1, h2 => by
    simp only [face_lt, Bool.or_eq_false_iff, Bool.and_eq_false_iff, decide_eq_false_iff_not,
      Bool.or_eq_true, Bool.and_eq_true, decide_eq_true_eq] at h1 ⊢
    obtain ⟨h3, h4⟩ := h1
    by_cases e : x = y
    · subst e
      rcases h4 with h4 | h4
      · exact absurd rfl h4
      · exact Or.inr ⟨rfl, face_lt_total xs ys h4 (fun e => h2 (by rw [e]))⟩
    · exact Or.inl (by omega)

theorem face_lt_order : key_order face_lt :=
  ⟨face_lt_irrefl, face_lt_trans, face_lt_total⟩

section Sorted
variable {K V : Type} [DecidableEq K] (lt : K → K → Bool)

omit [DecidableEq K] in
/-- Inserting a new key at its place keeps the keys in increasing order. -/
theorem sorted_map_insert (ho : key_order lt) (k : K) (v : V) (mp : List (K × V))
    (hs : (mp.map Prod.fst).Pairwise (fun a b => lt a b = true)) (hk : k ∉ mp.map Prod.fst) :
    ((map_insert lt k v mp).map Prod.fst).Pairwise (fun a b => lt a b = true) := by
  induction mp with
  | nil => simp [map_insert]
  | cons kv rest ih =>
    rw [List.map_cons, List.pairwise_cons] at hs
    obtain ⟨h1, h2⟩ := hs
    have hk1 : k ≠ kv.1 := fun e => hk (by simp [e])
    have hk2 : k ∉ rest.map Prod.fst := fun h => hk (by simp at h ⊢; exact Or.inr h)
    unfold map_insert
    by_cases hlt : lt k kv.1 = true
    · rw [if_pos hlt]
      simp only [List.map_cons, List.pairwise_cons]
      refine ⟨?_, h1, h2⟩
      intro a ha
      rcases List.mem_cons.1 ha with rfl | ha
      · exact hlt
      · exact ho.trans _ _ _ hlt (h1 a ha)
    · rw [if_neg hlt]
      simp only [List.map_cons, List.pairwise_cons]
      refine ⟨?_, ih h2 hk2⟩
      intro a ha
      obtain ⟨x, hx, rfl⟩ := List.mem_map.1 ha
      rcases (mem_map_insert lt k v rest x).1 hx with rfl | hx
      · exact ho.total _ _ (by simpa using hlt) hk1
      · exact h1 _ (List.mem_map_of_mem _ hx)

theorem sorted_toggle (ho : key_order lt) (mp : List (K × V)) (c : K × V)
    (hs : (mp.map Prod.fst).Pairwise (fun a b => lt a b = true)) :
    ((toggle lt mp c).map Prod.fst).Pairwise (fun a b => lt a b = true) := by
  unfold toggle
  split
  · rw [keys_map_erase]
    exact hs.filter _
  · rename_i hc
    exact sorted_map_insert lt ho c.1 c.2 mp hs
      (fun hin => hc ((map_contains_iff mp c.1).2 hin))

theorem sorted_map_push_back (ho : key_order lt) (mp : List (K × List Nat)) (k : K) (x : Nat)
    (hs : (mp.map Prod.fst).Pairwise (fun a b => lt a b = true)) :
    ((map_push_back lt mp k x).map Prod.fst).Pairwise (fun a b => lt a b = true) := by
  by_cases hc : map_contains mp k = true
  · rw [keys_push_back_of_contains lt mp k x hc]
    exact hs
  · unfold map_push_back
    rw [if_neg hc]
    exact sorted_map_insert lt ho k [x] mp hs (fun hin => hc ((map_contains_iff mp k).2 hin))

omit [DecidableEq K] in
/-- A list in strictly increasing order is determined by its entries. -/
theorem sorted_unique (ho : key_order lt) (l₁ l₂ : List K)
    (h1 : l₁.Pairwise (fun a b => lt a b = true)) (h2 : l₂.Pairwise (fun a b => lt a b = true))
    (h : ∀ k, k ∈ l₁ ↔ k ∈ l₂) : l₁ = l₂ := by
  have hne : ∀ a b, lt a b = true → a ≠ b := by
    intro a b hab e
    rw [e, ho.irrefl] at hab
    cases hab
  have n1 : l₁.Nodup := h1.imp (fun {a b} hab => hne a b hab)
  have n2 : l₂.Nodup := h2.imp (fun {a b} hab => hne a b hab)
  haveI : IsAntisymm K (fun a b => lt a b = true) :=
    ⟨fun a b hab hba => by
      have := ho.trans a b a hab hba
      rw [ho.irrefl] at this
      cases this⟩
  exact List.eq_of_perm_of_sorted ((List.perm_ext_iff_of_nodup n1 n2).2 h) h1 h2

end Sorted

theorem e2c_map_sorted (T : HexaTables) (m : Hexmesh) :
    ((e2c_map_of T m).map Prod.fst).Pairwise (fun a b => ipair_lt a b = true) := by
  unfold e2c_map_of
  refine foldl_inv_pre
    (fun _ (mp : List (ipair × List Nat)) =>
      (mp.map Prod.fst).Pairwise (fun a b => ipair_lt a b = true))
    _ (edge_cands T m) ?_ [] (by simp)
  intro pre c post mp _ hs
  exact sorted_map_push_back ipair_lt ipair_lt_order mp c.1 c.2 hs

theorem f2c_map_sorted (T : HexaTables) (m : Hexmesh) :
    ((f2c_map_of T m).map Prod.fst).Pairwise (fun a b => face_lt a b = true) := by
  unfold f2c_map_of
  refine foldl_inv_pre
    (fun _ (mp : List (List Nat × (Nat × Nat))) =>
      (mp.map Prod.fst).Pairwise (fun a b => face_lt a b = true))
    _ (face_cands T m) ?_ [] (by simp)
  intro pre c post mp _ hs
  exact sorted_toggle face_lt face_lt_order mp c hs

theorem pairwise_map_range {α : Type} (R : α → α → Prop) (f : Nat → α) (n : Nat)
    (h : ((List.range n).map f).Pairwise R) : ∀ i j, i < j → j < n → R (f i) (f j) := by
  intro i j hij hj
  have := (List.pairwise_iff_getElem.1 h) i j (by simp; omega) (by simp; omega) hij
  simpa using this

/-! ## What the surface extraction leaves alone -/

theorem surface_frame_refl (a : Hexmesh) : SurfaceFrame a a :=
  ⟨rfl, rfl, rfl, rfl, rfl, rfl, rfl, rfl, rfl⟩

theorem surface_frame_trans {a b c : Hexmesh} (h1 : SurfaceFrame a b) (h2 : SurfaceFrame b c) :
    SurfaceFrame a c :=
  ⟨h2.verts.trans h1.verts, h2.cells.trans h1.cells, h2.edges.trans h1.edges,
    h2.v2v.trans h1.v2v, h2.v2e.trans h1.v2e, h2.v2c.trans h1.v2c, h2.e2c.trans h1.e2c,
    h2.c2e.trans h1.c2e, h2.c2c.trans h1.c2c⟩

theorem surface_second_pure_frame (T : HexaTables) (s : FaceLoop)
    (it : List Nat × (Nat × Nat)) : SurfaceFrame s.m (surface_second_pure T s it).m := by
  obtain ⟨e2f, f2e, h⟩ := surface_second_pure_shape T s it
  rw [h]
  exact ⟨rfl, rfl, rfl, rfl, rfl, rfl, rfl, rfl, rfl⟩

theorem surface_second_fold_frame (T : HexaTables) (l : List (List Nat × (Nat × Nat))) :
    ∀ s : FaceLoop, SurfaceFrame s.m (l.foldl (surface_second_pure T) s).m := by
  induction l with
  | nil => intro s; exact surface_frame_refl _
  | cons it l ih =>
    intro s
    rw [List.foldl_cons]
    exact surface_frame_trans (surface_second_pure_frame T s it) (ih _)

theorem surface_third_fold_frame (l : List Nat) :
    ∀ m : Hexmesh, SurfaceFrame m (l.foldl surface_third_pure m) := by
  induction l with
  | nil => intro m; exact surface_frame_refl _
  | cons e l ih =>
    intro m
    rw [List.foldl_cons]
    have h0 : SurfaceFrame m (surface_third_pure m e) :=
      ⟨rfl, rfl, rfl, rfl, rfl, rfl, rfl, rfl, rfl⟩
    exact surface_frame_trans h0 (ih (surface_third_pure m e))

theorem surface_pure_frame (T : HexaTables) (m : Hexmesh) : SurfaceFrame m (surface_pure T m) := by
  unfold surface_pure
  refine surface_frame_trans ?_ (surface_third_fold_frame _ _)
  have h := surface_second_fold_frame T (f2c_map_of T m) { m := surface_start T m, fresh_id := 0 }
  have h0 : SurfaceFrame m (surface_start T m) := ⟨rfl, rfl, rfl, rfl, rfl, rfl, rfl, rfl, rfl⟩
  have h1 := surface_frame_trans h0 h
  exact ⟨h1.verts, h1.cells, h1.edges, h1.v2v, h1.v2e, h1.v2c, h1.e2c, h1.c2e, h1.c2c⟩

/-! ## What a completed run went through -/

/-- A run of `init` that completes had in-range vertex ids, and its result is the
surface extraction of the result of the interior step. -/
theorem init_ok_cases (T : HexaTables) (hE : T.edges_in_range) (hF : T.faces_in_range)
    (m m2 : Hexmesh) (h : init T m = Except.ok m2) :
    ids_in_range m ∧ ∃ m1, update_interior_adjacency T m = Except.ok m1 ∧
      m2 = surface_pure T m1 := by
  have hin : ids_in_range m := by
    by_contra hbad
    unfold init at h
    rw [update_interior_adjacency_out_of_range T m hbad] at h
    cases h
  refine ⟨hin, ?_⟩
  rcases init_cases T hE hF m hin with h' | ⟨m1, h1, h2⟩
  · rw [h] at h'; cases h'
  · rw [h] at h2
    exact ⟨m1, h1, by injection h2⟩

theorem edge_cands_congr (T : HexaTables) {m m1 : Hexmesh} (hc : m1.cells = m.cells) :
    edge_cands T m1 = edge_cands T m := by
  unfold edge_cands edge_key cell_vid num_cells
  rw [hc]

/-- The edge array lists the keys of `e2c_map`, in order. -/
theorem derived_edges_eq (T : HexaTables) (hE : T.edges_in_range) (m m1 : Hexmesh)
    (h : update_interior_adjacency T m = Except.ok m1) :
    m1.edges = (e2c_map_of T m).flatMap (fun kv => [kv.1.1, kv.1.2]) := by
  obtain ⟨v2c, s, hs, rfl⟩ := update_interior_adjacency_ok T hE m m1 h
  have := (interior_second_loop_edges_eq T _ _ _ hs).1
  rw [this]
  rfl

/-- The derived face keys are the keys of `f2c_map`, in order. -/
theorem derived_face_keys_list_eq (T : HexaTables) (m : Hexmesh) :
    derived_face_keys_list (surface_pure T m) = (f2c_map_of T m).map Prod.fst :=
  (derived_face_keys T m (surface_pure T m) (surface_pure_faces T m).1).2

/-! ## The rows of `e2c` -/

theorem edge_cells_from_e2c (T : HexaTables) (eid : Nat) (cids : List Nat) :
    ∀ (s r : EdgeLoop), edge_cells_from T eid s cids = Except.ok r →
      ∀ e, row r.m.e2c e = row s.m.e2c e ++ (if e = eid then cids else []) := by
  induction cids with
  | nil => intro s r h e; simp [edge_cells_from] at h; cases h; simp
  | cons cid rest ih =>
    intro s r h e
    obtain ⟨c2e, e2c, s2, h1, h2, h3, h4⟩ := edge_cells_from_cons_ok h
    have hf := link_fold_frame T cid rest _ s2 h3
    have e2 : s2.m.e2c = e2c := by rw [hf]
    rw [ih s2 r h4 e, e2, row_push h2 e]
    by_cases he : e = eid
    · simp [he]
    · simp [he]

/-- What the loop over the cells of an edge leaves alone. -/
theorem edge_cells_from_frame (T : HexaTables) (eid : Nat) (cids : List Nat) :
    ∀ (s r : EdgeLoop), edge_cells_from T eid s cids = Except.ok r →
      r.m.v2v = s.m.v2v ∧ r.m.v2e = s.m.v2e ∧ r.m.edges = s.m.edges ∧
        r.fresh_id = s.fresh_id ∧ r.m.cells = s.m.cells := by
  induction cids with
  | nil => intro s r h; simp [edge_cells_from] at h; cases h; simp
  | cons cid rest ih =>
    intro s r h
    obtain ⟨c2e, e2c, s2, h1, h2, h3, h4⟩ := edge_cells_from_cons_ok h
    have hf := link_fold_frame T cid rest _ s2 h3
    obtain ⟨q1, q2, q3, q4, q5⟩ := ih s2 r h4
    rw [q1, q2, q3, q4, q5, hf]
    exact ⟨rfl, rfl, rfl, rfl, rfl⟩

/-- After the second interior loop the row of `e2c` of an edge is the vector of
its entry of `e2c_map`. -/
theorem interior_second_loop_e2c (T : HexaTables) (l : List (ipair × List Nat))
    (s r : EdgeLoop) (h : l.foldlM (interior_second_body T) s = Except.ok r)
    (h0 : s.fresh_id = 0) (h1 : ∀ e, row s.m.e2c e = []) :
    ∀ e, row r.m.e2c e = (l.map Prod.snd).getD e [] := by
  refine (foldlM_inv_pre
    (fun pre (s' : EdgeLoop) => s'.fresh_id = pre.length ∧
      ∀ e, row s'.m.e2c e = (pre.map Prod.snd).getD e [])
    _ l ?_ s r ⟨h0, by simpa using h1⟩ h).2
  intro pre x post a b _ ⟨p1, p2⟩ hb
  obtain ⟨a1, a2, b1, b2, _, _, _, _, e5⟩ := interior_second_body_ok hb
  obtain ⟨_, _, _, q4, _⟩ := edge_cells_from_frame T _ _ _ _ e5
  refine ⟨by rw [q4]; simp [p1], ?_⟩
  intro e
  rw [edge_cells_from_e2c T _ _ _ _ e5 e]
  show row a.m.e2c e ++ _ = _
  rw [p2 e, p1, List.map_append, List.map_cons, List.map_nil]
  by_cases he : e = pre.length
  · subst he
    rw [if_pos rfl, List.getD_eq_default _ _ (by simp), List.nil_append,
      List.getD_append_right _ _ _ _ (by simp)]
    simp
  · rw [if_neg he, List.append_nil]
    by_cases hlt : e < pre.length
    · rw [List.getD_append _ _ _ _ (by simpa using hlt)]
    · rw [List.getD_eq_default _ _ (by simp; omega), List.getD_eq_default _ _ (by simp; omega)]

/-- Every occurrence of a cell in the row of an edge is matched by an occurrence
of the edge in the row of the cell. -/
theorem interior_second_loop_counts (T : HexaTables) (l : List (ipair × List Nat))
    (s r : EdgeLoop) (h : l.foldlM (interior_second_body T) s = Except.ok r)
    (h0 : ∀ e c, (row s.m.e2c e).count c = (row s.m.c2e c).count e) :
    ∀ e c, (row r.m.e2c e).count c = (row r.m.c2e c).count e := by
  refine interior_second_loop_rel T
    (fun a b => (∀ e c, (row a.m.e2c e).count c = (row a.m.c2e c).count e) →
      (∀ e c, (row b.m.e2c e).count c = (row b.m.c2e c).count e))
    (fun s h => h) (fun a b c h1 h2 h => h2 (h1 h)) ?_ ?_ ?_ l s r h h0
  · intro s cid nbr s' h hs
    rw [link_cells_frame h]
    exact hs
  · intro s eid cid c2e e2c _ p1 p2 hs e c
    show (row e2c e).count c = (row c2e c).count e
    rw [row_push p2 e, row_push p1 c]
    have := hs e c
    by_cases he : e = eid <;> by_cases hc : c = cid
    · subst he; subst hc
      simp [List.count_append, this]
    · subst he
      have hne : ¬ (cid == c) = true := by simpa using fun e : cid = c => hc e.symm
      simp [hc, List.count_append, List.count_cons, this, hne]
    · subst hc
      have hne : ¬ (eid == e) = true := by simpa using fun h : eid = e => he h.symm
      simp [he, List.count_append, List.count_cons, this, hne]
    · simp [he, hc, this]
  · intro s it a1 a2 b1 b2 _ _ _ _ hs
    exact hs

theorem edge_key_congr (T : HexaTables) {m m1 : Hexmesh} (hc : m1.cells = m.cells)
    (cid e : Nat) : edge_key T m1 cid e = edge_key T m cid e := by
  unfold edge_key cell_vid
  rw [hc]

/-- The rows of `e2c` and `c2e` after `update_interior_adjacency`. -/
theorem interior_e2c_c2e (T : HexaTables) (hE : T.edges_in_range) (m m1 : Hexmesh)
    (h : update_interior_adjacency T m = Except.ok m1) :
    (∀ e c, (row m1.e2c e).count c = (row m1.c2e c).count e) ∧
    (∀ e, row m1.e2c e = ((e2c_map_of T m).map Prod.snd).getD e []) := by
  obtain ⟨v2c, s, hs, rfl⟩ := update_interior_adjacency_ok T hE m m1 h
  constructor
  · refine interior_second_loop_counts T _ _ _ hs ?_
    intro e c
    show (row (List.replicate _ []) e).count c = (row (List.replicate _ []) c).count e
    rw [row_replicate, row_replicate]
    simp
  · refine interior_second_loop_e2c T _ _ _ hs rfl ?_
    intro e
    show row (List.replicate _ []) e = []
    exact row_replicate _ _

/-! ## The rows of `v2v` and `v2e` -/

theorem unique_pair_of_le {a b : Nat} (h : a ≤ b) : unique_pair a b = (a, b) := by
  unfold unique_pair
  rw [min_eq_left h, max_eq_right h]

theorem forall₂_mem_right {α β : Type} {R : α → β → Prop} {l₁ : List α} {l₂ : List β}
    (h : List.Forall₂ R l₁ l₂) : ∀ b ∈ l₂, ∃ a ∈ l₁, R a b := by
  induction h with
  | nil => intro b hb; cases hb
  | cons hab _ ih =>
    intro b hb
    rcases List.mem_cons.1 hb with rfl | hb
    · exact ⟨_, List.mem_cons_self _ _, hab⟩
    · obtain ⟨a, ha, hr⟩ := ih b hb
      exact ⟨a, List.mem_cons_of_mem _ ha, hr⟩

theorem row_push_twice {x0 x1 x2 : List (List Nat)} {i j a b : Nat}
    (h1 : push_back_at x0 i a = Except.ok x1) (h2 : push_back_at x1 j b = Except.ok x2)
    (v : Nat) :
    row x2 v = row x0 v ++ ((if v = i then [a] else []) ++ (if v = j then [b] else [])) := by
  rw [row_push h2 v, row_push h1 v]
  split_ifs <;> simp

/-- One entry of `e2c_map` keeps the invariant on `v2v` and `v2e`. -/
theorem vertex_inv_step (T : HexaTables) (pre : List (ipair × List Nat))
    (x : ipair × List Nat) (hx : x.1.1 ≤ x.1.2) (s r : EdgeLoop)
    (inv : VertexInv pre s) (h : interior_second_body T s x = Except.ok r) :
    VertexInv (pre ++ [x]) r ∧
      ∀ v, row r.m.v2v v = row s.m.v2v v ++
        ((if v = x.1.1 then [x.1.2] else []) ++ (if v = x.1.2 then [x.1.1] else [])) := by
  obtain ⟨a1, a2, b1, b2, p1, p2, p3, p4, e5⟩ := interior_second_body_ok h
  obtain ⟨q1, q2, _, q4, _⟩ := edge_cells_from_frame T _ _ _ _ e5
  have hv : ∀ v, row r.m.v2v v = row s.m.v2v v ++
      ((if v = x.1.1 then [x.1.2] else []) ++ (if v = x.1.2 then [x.1.1] else [])) := by
    intro v; rw [q1]; exact row_push_twice p1 p2 v
  have he : ∀ v, row r.m.v2e v = row s.m.v2e v ++
      ((if v = x.1.1 then [pre.length] else []) ++ (if v = x.1.2 then [pre.length] else [])) := by
    intro v; rw [q2, ← inv.fresh]; exact row_push_twice p3 p4 v
  have hkey : ((pre ++ [x]).map Prod.fst).getD pre.length (0, 0) = x.1 := by
    rw [List.map_append, List.getD_append_right _ _ _ _ (by simp)]
    simp
  refine ⟨⟨?_, ?_, ?_⟩, hv⟩
  · rw [q4]
    simp [inv.fresh]
  · intro v
    rw [hv v, he v]
    refine List.rel_append ?_ (List.rel_append ?_ ?_)
    · refine (inv.paired v).imp ?_
      intro e w ⟨h1, h2⟩
      refine ⟨?_, by simp; omega⟩
      rw [List.map_append, List.getD_append _ _ _ _ (by simpa using h2)]
      exact h1
    · by_cases e1 : v = x.1.1
      · rw [if_pos e1, if_pos e1]
        refine List.Forall₂.cons ⟨?_, by simp⟩ List.Forall₂.nil
        rw [hkey, e1, unique_pair_of_le hx]
      · rw [if_neg e1, if_neg e1]
        exact List.Forall₂.nil
    · by_cases e2 : v = x.1.2
      · rw [if_pos e2, if_pos e2]
        refine List.Forall₂.cons ⟨?_, by simp⟩ List.Forall₂.nil
        rw [hkey, e2, unique_pair_comm, unique_pair_of_le hx]
      · rw [if_neg e2, if_neg e2]
        exact List.Forall₂.nil
  · intro kv hkv
    rcases List.mem_append.1 hkv with hkv | hkv
    · obtain ⟨h1, h2⟩ := inv.linked kv hkv
      rw [hv, hv]
      exact ⟨List.mem_append_left _ h1, List.mem_append_left _ h2⟩
    · rw [List.mem_singleton.1 hkv, hv, hv]
      exact ⟨List.mem_append_right _ (by simp), List.mem_append_right _ (by simp)⟩

/-- The second interior loop, on `v2v` and `v2e`. -/
theorem interior_second_loop_v2v (T : HexaTables) (l : List (ipair × List Nat))
    (hl : ∀ kv ∈ l, kv.1.1 ≤ kv.1.2) (s r : EdgeLoop)
    (h : l.foldlM (interior_second_body T) s = Except.ok r)
    (h0 : s.fresh_id = 0) (h1 : ∀ v, row s.m.v2v v = []) (h2 : ∀ v, row s.m.v2e v = []) :
    VertexInv l r := by
  refine foldlM_inv_pre (fun pre s' => VertexInv pre s') _ l ?_ s r ?_ h
  · intro pre x post a b hpre inv hb
    exact (vertex_inv_step T pre x (hl x (by rw [hpre]; simp)) a b inv hb).1
  · refine ⟨h0, ?_, ?_⟩
    · intro v
      rw [h1 v, h2 v]
      exact List.Forall₂.nil
    · intro kv hkv
      cases hkv

/-- With keys that join two different vertices, no row of `v2v` repeats an id. -/
theorem interior_second_loop_v2v_nodup (T : HexaTables) (l : List (ipair × List Nat))
    (hl : ∀ kv ∈ l, kv.1.1 < kv.1.2) (hn : (l.map Prod.fst).Nodup) (s r : EdgeLoop)
    (h : l.foldlM (interior_second_body T) s = Except.ok r)
    (h0 : s.fresh_id = 0) (h1 : ∀ v, row s.m.v2v v = []) (h2 : ∀ v, row s.m.v2e v = []) :
    ∀ v, (row r.m.v2v v).Nodup := by
  refine (foldlM_inv_pre
    (fun pre s' => VertexInv pre s' ∧ ∀ v, (row s'.m.v2v v).Nodup) _ l ?_ s r ?_ h).2
  · intro pre x post a b hpre ⟨inv, nd⟩ hb
    have hx := hl x (by rw [hpre]; simp)
    obtain ⟨inv', hv⟩ := vertex_inv_step T pre x (Nat.le_of_lt hx) a b inv hb
    refine ⟨inv', ?_⟩
    have hnew : x.1 ∉ pre.map Prod.fst := by
      rw [hpre, List.map_append, List.map_cons] at hn
      have := (List.nodup_append.1 hn).2.2
      intro hmem
      exact this hmem (List.mem_cons_self _ _)
    have hfresh : ∀ v w, unique_pair v w = x.1 → w ∉ row a.m.v2v v := by
      intro v w hk hw
      obtain ⟨e, _, he1, he2⟩ := forall₂_mem_right (inv.paired v) w hw
      apply hnew
      rw [← hk, ← he1, List.getD_eq_getElem _ _ (by simpa using he2)]
      exact List.getElem_mem _
    intro v
    rw [hv v]
    by_cases e1 : v = x.1.1 <;> by_cases e2 : v = x.1.2
    · omega
    · rw [if_pos e1, if_neg e2, List.append_nil]
      refine List.Nodup.append (nd v) (List.nodup_singleton _) ?_
      rw [List.disjoint_singleton]
      exact hfresh v x.1.2 (by rw [e1, unique_pair_of_le (Nat.le_of_lt hx)])
    · rw [if_neg e1, if_pos e2, List.nil_append]
      refine List.Nodup.append (nd v) (List.nodup_singleton _) ?_
      rw [List.disjoint_singleton]
      exact hfresh v x.1.1
        (by rw [e2, unique_pair_comm, unique_pair_of_le (Nat.le_of_lt hx)])
    · rw [if_neg e1, if_neg e2]
      simpa using nd v
  · refine ⟨⟨h0, ?_, ?_⟩, ?_⟩
    · intro v
      rw [h1 v, h2 v]
      exact List.Forall₂.nil
    · intro kv hkv
      cases hkv
    · intro v
      rw [h1 v]
      exact List.nodup_nil

/-- Every key of `e2c_map` is a canonical pair. -/
theorem e2c_map_key_le (T : HexaTables) (m : Hexmesh) (kv : ipair × List Nat)
    (h : kv ∈ e2c_map_of T m) : kv.1.1 ≤ kv.1.2 := by
  have hmem : kv.1 ∈ (e2c_map_of T m).map Prod.fst := List.mem_map_of_mem _ h
  rw [mem_e2c_map_keys] at hmem
  obtain ⟨c, hc, e1⟩ := List.mem_map.1 hmem
  obtain ⟨_, e, _, e2⟩ := (mem_edge_cands T m c).1 hc
  rw [← e1, e2]
  unfold edge_key unique_pair
  exact le_trans (min_le_left _ _) (le_max_left _ _)

/-- The two ends of every key of `e2c_map` differ when the cells have pairwise
distinct vertex ids. -/
theorem e2c_map_key_lt (T : HexaTables) (hE : T.edges_in_range) (hP : T.edges_proper)
    (m : Hexmesh) (hd : cells_distinct m) (kv : ipair × List Nat)
    (h : kv ∈ e2c_map_of T m) : kv.1.1 < kv.1.2 := by
  have hmem : kv.1 ∈ (e2c_map_of T m).map Prod.fst := List.mem_map_of_mem _ h
  rw [mem_e2c_map_keys] at hmem
  obtain ⟨c, hc, e1⟩ := List.mem_map.1 hmem
  obtain ⟨hc2, e, he, e2⟩ := (mem_edge_cands T m c).1 hc
  have hne := hd c.2 hc2 _ (hE e he 0 (by decide)) _ (hE e he 1 (by decide)) (hP e he)
  rw [← e1, e2]
  unfold edge_key unique_pair
  simp only
  rcases Nat.lt_or_gt_of_ne hne with h | h
  · rw [min_eq_left (Nat.le_of_lt h), max_eq_right (Nat.le_of_lt h)]; exact h
  · rw [min_eq_right (Nat.le_of_lt h), max_eq_left (Nat.le_of_lt h)]; exact h

/-- The key of the derived edge `e`. -/
theorem edge_pair_eq_key (T : HexaTables) (hE : T.edges_in_range) (m m1 : Hexmesh)
    (h : update_interior_adjacency T m = Except.ok m1) (e : Nat) (he : e < num_edges m1) :
    edge_pair m1 e = ((e2c_map_of T m).map Prod.fst).getD e (0, 0) := by
  obtain ⟨hn, hk⟩ := derived_edge_pairs T hE m m1 h
  rw [← hk, List.getD_eq_getElem _ _ (by simpa using he)]
  simp

/-! ## The rows of `f2c`, `f2e` and `e2f` -/

theorem row_push_row (xs : List (List Nat)) (i x j : Nat) (hi : i < xs.length) :
    row (push_row xs i x) j = if j = i then row xs j ++ [x] else row xs j :=
  row_modify xs _ i j hi

theorem face_edge_pure_eq (v0 v1 v2 v3 : Nat) (s : FaceLoop) (eid : Nat) :
    face_edge_pure v0 v1 v2 v3 s eid =
      if edge_touches s.m.edges v0 v1 v2 v3 eid = true then
        { s with m := { s.m with e2f := push_row s.m.e2f eid s.fresh_id,
                                 f2e := push_row s.m.f2e s.fresh_id eid } }
      else s := rfl

/-- The loop over the edges of the owning cell appends to the row of `f2e` of the
new face the edges that pass the test, and the new face to their rows of
`e2f`. -/
theorem face_edge_fold_rows (v0 v1 v2 v3 : Nat) (es : List Nat) :
    ∀ s : FaceLoop, (∀ e ∈ es, e < s.m.e2f.length) → s.fresh_id < s.m.f2e.length →
      (∀ fid, row (es.foldl (face_edge_pure v0 v1 v2 v3) s).m.f2e fid =
        row s.m.f2e fid ++
          (if fid = s.fresh_id then es.filter (edge_touches s.m.edges v0 v1 v2 v3) else [])) ∧
      (∀ eid, row (es.foldl (face_edge_pure v0 v1 v2 v3) s).m.e2f eid =
        row s.m.e2f eid ++ List.replicate
          ((es.filter (edge_touches s.m.edges v0 v1 v2 v3)).count eid) s.fresh_id) := by
  induction es with
  | nil => intro s _ _; simp
  | cons e es ih =>
    intro s he hf
    rw [List.foldl_cons]
    have he0 : e < s.m.e2f.length := he e (List.mem_cons_self _ _)
    have he1 : ∀ x ∈ es, x < s.m.e2f.length := fun x hx => he x (List.mem_cons_of_mem _ hx)
    by_cases ht : edge_touches s.m.edges v0 v1 v2 v3 e = true
    · have hs' : face_edge_pure v0 v1 v2 v3 s e =
          { s with m := { s.m with e2f := push_row s.m.e2f e s.fresh_id,
                                   f2e := push_row s.m.f2e s.fresh_id e } } := by
        rw [face_edge_pure_eq, if_pos ht]
      rw [hs']
      obtain ⟨g1, g2⟩ := ih
        { s with m := { s.m with e2f := push_row s.m.e2f e s.fresh_id,
                                 f2e := push_row s.m.f2e s.fresh_id e } }
        (by simpa [length_push_row] using he1) (by simpa [length_push_row] using hf)
      constructor
      · intro fid
        rw [g1 fid]
        show row (push_row s.m.f2e s.fresh_id e) fid ++ _ = _
        rw [row_push_row _ _ _ _ hf, List.filter_cons, if_pos ht]
        show _ ++ (if fid = s.fresh_id then
          es.filter (edge_touches s.m.edges v0 v1 v2 v3) else []) = _
        split_ifs <;> simp
      · intro eid
        rw [g2 eid]
        show row (push_row s.m.e2f e s.fresh_id) eid ++
          List.replicate ((es.filter (edge_touches s.m.edges v0 v1 v2 v3)).count eid)
            s.fresh_id = _
        rw [row_push_row _ _ _ _ he0, List.filter_cons, if_pos ht, List.count_cons]
        by_cases hee : eid = e
        · subst hee
          simp [List.replicate_succ]
        · have hne : ¬ (e == eid) = true := by simpa using fun h : e = eid => hee h.symm
          simp [hee, hne]
    · have hs' : face_edge_pure v0 v1 v2 v3 s e = s := by
        rw [face_edge_pure_eq, if_neg ht]
      rw [hs']
      obtain ⟨g1, g2⟩ := ih s he1 hf
      constructor
      · intro fid
        rw [g1 fid, List.filter_cons, if_neg ht]
      · intro eid
        rw [g2 eid, List.filter_cons, if_neg ht]

/-- One entry of `f2c_map` keeps the invariant on `f2c`, `f2e` and `e2f`. -/
theorem face_rows_step (T : HexaTables) (m : Hexmesh) (hr : edges_ready m) (N : Nat)
    (pre : List (List Nat × (Nat × Nat))) (s : FaceLoop) (it : List Nat × (Nat × Nat))
    (hc : it.2.1 < num_cells m) (hn : pre.length < N)
    (inv : SurfaceInv m N pre.length s) (rows : FaceRows T m pre s) :
    FaceRows T m (pre ++ [it]) (surface_second_pure T s it) := by
  have hvid : ∀ off, cell_vid s.m it.2.1 off = cell_vid m it.2.1 off := by
    intro off; simp [cell_vid, inv.cells]
  have hcl : it.2.1 < s.m.c2e.length := by rw [inv.c2e, hr.1]; exact hc
  have hrow : ∀ e ∈ row s.m.c2e it.2.1, e < s.m.e2f.length := by
    intro e he
    rw [inv.e2f]
    exact hr.2 _ (inv.c2e ▸ row_mem s.m.c2e it.2.1 hcl) e he
  have hfl : s.fresh_id < s.m.f2e.length := by rw [inv.f2e, inv.fresh]; exact hn
  obtain ⟨g1, g2⟩ := face_edge_fold_rows
    (cell_vid s.m it.2.1 (T.HEXA_FACES it.2.2 0)) (cell_vid s.m it.2.1 (T.HEXA_FACES it.2.2 1))
    (cell_vid s.m it.2.1 (T.HEXA_FACES it.2.2 2)) (cell_vid s.m it.2.1 (T.HEXA_FACES it.2.2 3))
    (row s.m.c2e it.2.1) (surface_second_start T s it) hrow hfl
  have hfe : (row s.m.c2e it.2.1).filter (edge_touches (surface_second_start T s it).m.edges
      (cell_vid s.m it.2.1 (T.HEXA_FACES it.2.2 0)) (cell_vid s.m it.2.1 (T.HEXA_FACES it.2.2 1))
      (cell_vid s.m it.2.1 (T.HEXA_FACES it.2.2 2))
      (cell_vid s.m it.2.1 (T.HEXA_FACES it.2.2 3))) = face_edges_of T m it := by
    unfold face_edges_of
    rw [hvid, hvid, hvid, hvid, inv.c2e]
    show List.filter (edge_touches s.m.edges _ _ _ _) _ = _
    rw [inv.edges]
  rw [hfe] at g1 g2
  have hf2e : ∀ fid, row (surface_second_pure T s it).m.f2e fid =
      row s.m.f2e fid ++ (if fid = pre.length then face_edges_of T m it else []) := by
    intro fid
    rw [← inv.fresh]
    exact g1 fid
  have he2f : ∀ eid, row (surface_second_pure T s it).m.e2f eid =
      row s.m.e2f eid ++ List.replicate ((face_edges_of T m it).count eid) pre.length := by
    intro eid
    rw [← inv.fresh]
    exact g2 eid
  obtain ⟨a, b, hshape⟩ := surface_second_pure_shape T s it
  have hf2c : (surface_second_pure T s it).m.f2c = s.m.f2c.set pre.length it.2.1 := by
    rw [hshape, ← inv.fresh]
    rfl
  refine ⟨?_, ?_, ?_⟩
  · intro i hi
    rw [hf2c, List.map_append]
    have hlen : pre.length < s.m.f2c.length := by rw [inv.f2c]; exact hn
    by_cases hip : i = pre.length
    · subst hip
      rw [List.getD_eq_getElem _ _ (by simpa using hlen), List.getElem_set_self,
        List.getD_append_right _ _ _ _ (by simp)]
      simp
    · have hi' : i < pre.length := by
        rw [List.length_append, List.length_singleton] at hi; omega
      rw [List.getD_append _ _ _ _ (by simpa using hi'), ← rows.f2c i hi',
        List.getD_eq_getElem?_getD, List.getD_eq_getElem?_getD,
        List.getElem?_set_ne (fun h => hip h.symm)]
  · intro fid
    rw [hf2e fid, rows.f2e fid, List.map_append]
    by_cases hip : fid = pre.length
    · subst hip
      rw [if_pos rfl, List.getD_eq_default _ _ (by simp), List.nil_append,
        List.getD_append_right _ _ _ _ (by simp)]
      simp
    · rw [if_neg hip, List.append_nil]
      by_cases hlt : fid < pre.length
      · rw [List.getD_append _ _ _ _ (by simpa using hlt)]
      · rw [List.getD_eq_default _ _ (by simp; omega), List.getD_eq_default _ _ (by simp; omega)]
  · intro eid fid
    rw [he2f eid, hf2e fid, List.count_append, List.count_append, rows.e2f eid fid,
      List.count_replicate]
    by_cases hip : fid = pre.length
    · subst hip
      simp
    · have hne : ¬ (pre.length == fid) = true := by simpa using fun h : pre.length = fid => hip h.symm
      simp [hip, hne]

/-- The rows of `f2c`, `f2e` and `e2f` after the second surface loop. -/
theorem surface_faces_rows (T : HexaTables) (hT : T.faces_in_range) (m : Hexmesh)
    (hin : ids_in_range m) (hr : edges_ready m) :
    SurfaceInv m (f2c_map_of T m).length (f2c_map_of T m).length
        { m := surface_faces T m, fresh_id := (f2c_map_of T m).length } ∧
      FaceRows T m (f2c_map_of T m)
        { m := surface_faces T m, fresh_id := (f2c_map_of T m).length } := by
  have h0 : FaceRows T m [] { m := surface_start T m, fresh_id := 0 } := by
    refine ⟨?_, ?_, ?_⟩
    · intro i hi
      cases hi
    · intro fid
      show row (List.replicate _ []) fid = _
      rw [row_replicate]
      rfl
    · intro eid fid
      show (row (List.replicate _ []) eid).count fid = (row (List.replicate _ []) fid).count eid
      rw [row_replicate, row_replicate]
      rfl
  have key := foldl_inv_pre
    (fun pre s => SurfaceInv m (f2c_map_of T m).length pre.length s ∧ FaceRows T m pre s)
    (surface_second_pure T) (f2c_map_of T m)
    (by
      intro pre x post s hl ⟨inv, rows⟩
      have hx : x ∈ f2c_map_of T m := by rw [hl]; simp
      obtain ⟨hc, hf, _⟩ := (mem_face_cands T m x).1 (mem_f2c_map T m x hx)
      have hn : pre.length < (f2c_map_of T m).length := by rw [hl]; simp
      refine ⟨?_, face_rows_step T m hr _ pre s x hc hn inv rows⟩
      have := (surface_second_step T hT m hin hr _ _ s x hc hf hn inv).2
      simpa using this)
    { m := surface_start T m, fresh_id := 0 } ⟨surface_start_inv T m, h0⟩
  obtain ⟨k1, k2⟩ := key
  have hfr : ((f2c_map_of T m).foldl (surface_second_pure T)
      { m := surface_start T m, fresh_id := 0 }) =
      { m := surface_faces T m, fresh_id := (f2c_map_of T m).length } := by
    have := k1.fresh
    generalize hs : (f2c_map_of T m).foldl (surface_second_pure T)
      { m := surface_start T m, fresh_id := 0 } = s at this
    have hm : surface_faces T m = s.m := by unfold surface_faces; rw [hs]
    rw [hm, ← this]
  rw [hfr] at k1 k2
  exact ⟨k1, k2⟩

/-- What the third surface loop leaves alone. -/
theorem surface_third_fold_rows (l : List Nat) :
    ∀ m : Hexmesh, (l.foldl surface_third_pure m).f2c = m.f2c ∧
      (l.foldl surface_third_pure m).f2e = m.f2e ∧ (l.foldl surface_third_pure m).e2f = m.e2f ∧
      (l.foldl surface_third_pure m).faces = m.faces := by
  induction l with
  | nil => intro m; exact ⟨rfl, rfl, rfl, rfl⟩
  | cons e l ih =>
    intro m
    rw [List.foldl_cons]
    obtain ⟨h1, h2, h3, h4⟩ := ih (surface_third_pure m e)
    exact ⟨h1, h2, h3, h4⟩

/-- The arrays `f2c`, `f2e`, `e2f` and `faces` after `update_surface_adjacency`,
in terms of the surviving entries of `f2c_map`. -/
theorem surface_pure_rows (T : HexaTables) (hT : T.faces_in_range) (m : Hexmesh)
    (hin : ids_in_range m) (hr : edges_ready m) :
    num_faces (surface_pure T m) = (f2c_map_of T m).length ∧
    (surface_pure T m).f2c.length = (f2c_map_of T m).length ∧
    (∀ i < (f2c_map_of T m).length,
      (surface_pure T m).f2c.getD i 0 = ((f2c_map_of T m).map (fun it => it.2.1)).getD i 0) ∧
    (∀ fid, row (surface_pure T m).f2e fid =
      ((f2c_map_of T m).map (face_edges_of T m)).getD fid []) ∧
    (∀ eid fid, (row (surface_pure T m).e2f eid).count fid =
      (row (surface_pure T m).f2e fid).count eid) ∧
    (∀ l ∈ (surface_pure T m).e2f, ∀ f ∈ l, f < (f2c_map_of T m).length) ∧
    (surface_pure T m).e2f.length = num_edges m := by
  obtain ⟨inv, rows⟩ := surface_faces_rows T hT m hin hr
  obtain ⟨q1, q2, q3, q4⟩ := surface_third_fold_rows
    (List.range (num_edges { surface_faces T m with
      f2f := List.replicate (num_faces (surface_faces T m)) [] }))
    { surface_faces T m with f2f := List.replicate (num_faces (surface_faces T m)) [] }
  have hfold : surface_pure T m = (List.range (num_edges { surface_faces T m with
      f2f := List.replicate (num_faces (surface_faces T m)) [] })).foldl surface_third_pure
      { surface_faces T m with f2f := List.replicate (num_faces (surface_faces T m)) [] } := rfl
  rw [← hfold] at q1 q2 q3 q4
  refine ⟨(derived_face_keys T m _ (surface_pure_faces T m).1).1, ?_, ?_, ?_, ?_, ?_, ?_⟩
  · rw [q1]; exact inv.f2c
  · intro i hi; rw [q1]; exact rows.f2c i hi
  · intro fid; rw [q2]; exact rows.f2e fid
  · intro eid fid; rw [q2, q3]; exact rows.e2f eid fid
  · rw [q3]; exact inv.e2f_lt
  · rw [q3]; exact inv.e2f

/-- The entry `fid` of the surviving faces: its owner is a cell, its local face
index is below 6. -/
theorem f2c_map_entry (T : HexaTables) (m : Hexmesh) (fid : Nat)
    (h : fid < (f2c_map_of T m).length) :
    ((f2c_map_of T m)[fid]).2.1 < num_cells m ∧ ((f2c_map_of T m)[fid]).2.2 < faces_per_cell := by
  obtain ⟨h1, h2, _⟩ := (mem_face_cands T m _).1 (mem_f2c_map T m _ (List.getElem_mem h))
  exact ⟨h1, h2⟩

/-- The corners of the derived face `fid`, read from its entry of `f2c_map`. -/
theorem face_vid_surface_pure (T : HexaTables) (m : Hexmesh) (fid k : Nat)
    (h : fid < (f2c_map_of T m).length) (hk : k < 4) :
    face_vid (surface_pure T m) fid k =
      cell_vid m ((f2c_map_of T m)[fid]).2.1 (T.HEXA_FACES ((f2c_map_of T m)[fid]).2.2 k) := by
  unfold face_vid verts_per_face
  rw [(surface_pure_faces T m).1,
    getD_flatMap_four (fun it : List Nat × (Nat × Nat) => local_face_ids T m it.2.1 it.2.2)
      (f2c_map_of T m) (fun x _ => rfl) fid k h hk]
  unfold local_face_ids
  have : k = 0 ∨ k = 1 ∨ k = 2 ∨ k = 3 := by omega
  rcases this with rfl | rfl | rfl | rfl <;> rfl

theorem edge_touches_iff (edges : List Nat) (v0 v1 v2 v3 eid : Nat) :
    edge_touches edges v0 v1 v2 v3 eid = true ↔
      edges.getD (2 * eid + 0) 0 ∈ [v0, v1, v2, v3] ∧
      edges.getD (2 * eid + 1) 0 ∈ [v0, v1, v2, v3] := by
  simp only [edge_touches, Bool.and_eq_true, Bool.or_eq_true, decide_eq_true_eq, List.mem_cons,
    List.mem_singleton, List.not_mem_nil, or_false, or_assoc]

/-- The 4 stored vertex ids of the derived face `fid`, read from its entry of
`f2c_map`. -/
theorem face_vids_surface_pure (T : HexaTables) (m : Hexmesh) (fid : Nat)
    (h : fid < (f2c_map_of T m).length) :
    face_vids (surface_pure T m) fid =
      local_face_ids T m ((f2c_map_of T m)[fid]).2.1 ((f2c_map_of T m)[fid]).2.2 := by
  unfold face_vids local_face_ids
  rw [face_vid_surface_pure T m fid 0 h (by decide), face_vid_surface_pure T m fid 1 h (by decide),
    face_vid_surface_pure T m fid 2 h (by decide), face_vid_surface_pure T m fid 3 h (by decide)]

/-! ## The rows of `f2f` -/

theorem f2f_inner_rows (gs : List Nat) (fid1 : Nat) :
    ∀ f2f : List (List Nat), fid1 < f2f.length →
      ∀ x y, y ∈ row (gs.foldl
          (fun f2f fid2 => if fid1 ≠ fid2 then push_row f2f fid1 fid2 else f2f) f2f) x ↔
        y ∈ row f2f x ∨ (x = fid1 ∧ y ∈ gs ∧ fid1 ≠ y) := by
  induction gs with
  | nil => intro f2f _ x y; simp
  | cons g gs ih =>
    intro f2f h x y
    rw [List.foldl_cons]
    by_cases hne : fid1 ≠ g
    · rw [if_pos hne, ih _ (by rw [length_push_row]; exact h) x y, row_push_row _ _ _ _ h]
      by_cases hx : x = fid1
      · subst hx
        simp only [if_true, List.mem_append, List.mem_cons, List.not_mem_nil, or_false, true_and]
        constructor
        · rintro ((h1 | rfl) | ⟨h1, h2⟩)
          · exact Or.inl h1
          · exact Or.inr ⟨Or.inl rfl, hne⟩
          · exact Or.inr ⟨Or.inr h1, h2⟩
        · rintro (h1 | ⟨rfl | h1, h2⟩)
          · exact Or.inl (Or.inl h1)
          · exact Or.inl (Or.inr rfl)
          · exact Or.inr ⟨h1, h2⟩
      · simp [hx]
    · rw [if_neg hne, ih _ h x y]
      have hg : fid1 = g := not_not.1 hne
      subst hg
      constructor
      · rintro (h1 | ⟨h1, h2, h3⟩)
        · exact Or.inl h1
        · exact Or.inr ⟨h1, List.mem_cons_of_mem _ h2, h3⟩
      · rintro (h1 | ⟨h1, h2, h3⟩)
        · exact Or.inl h1
        · rcases List.mem_cons.1 h2 with rfl | h2
          · exact absurd rfl h3
          · exact Or.inr ⟨h1, h2, h3⟩

theorem f2f_inner_length (gs : List Nat) (fid1 : Nat) :
    ∀ f2f : List (List Nat), (gs.foldl
      (fun f2f fid2 => if fid1 ≠ fid2 then push_row f2f fid1 fid2 else f2f) f2f).length =
        f2f.length := by
  induction gs with
  | nil => intro f2f; rfl
  | cons g gs ih =>
    intro f2f
    rw [List.foldl_cons, ih]
    split_ifs
    · exact length_push_row _ _ _
    · rfl

theorem f2f_outer_rows (gs hs : List Nat) :
    ∀ f2f : List (List Nat), (∀ f ∈ hs, f < f2f.length) →
      (hs.foldl (fun f2f fid1 => gs.foldl
        (fun f2f fid2 => if fid1 ≠ fid2 then push_row f2f fid1 fid2 else f2f) f2f) f2f).length =
          f2f.length ∧
      ∀ x y, y ∈ row (hs.foldl (fun f2f fid1 => gs.foldl
          (fun f2f fid2 => if fid1 ≠ fid2 then push_row f2f fid1 fid2 else f2f) f2f) f2f) x ↔
        y ∈ row f2f x ∨ (x ∈ hs ∧ y ∈ gs ∧ x ≠ y) := by
  induction hs with
  | nil => intro f2f _; exact ⟨rfl, fun x y => by simp⟩
  | cons h hs ih =>
    intro f2f hlt
    rw [List.foldl_cons]
    have h0 : h < f2f.length := hlt h (List.mem_cons_self _ _)
    obtain ⟨i1, i2⟩ := ih (gs.foldl
      (fun f2f fid2 => if h ≠ fid2 then push_row f2f h fid2 else f2f) f2f)
      (by
        intro f hf
        rw [f2f_inner_length]
        exact hlt f (List.mem_cons_of_mem _ hf))
    refine ⟨by rw [i1, f2f_inner_length], ?_⟩
    intro x y
    rw [i2 x y, f2f_inner_rows gs h f2f h0 x y]
    constructor
    · rintro ((h1 | ⟨rfl, h2, h3⟩) | ⟨h1, h2, h3⟩)
      · exact Or.inl h1
      · exact Or.inr ⟨List.mem_cons_self _ _, h2, h3⟩
      · exact Or.inr ⟨List.mem_cons_of_mem _ h1, h2, h3⟩
    · rintro (h1 | ⟨h1, h2, h3⟩)
      · exact Or.inl (Or.inl h1)
      · rcases List.mem_cons.1 h1 with rfl | h1
        · exact Or.inl (Or.inr ⟨rfl, h2, h3⟩)
        · exact Or.inr ⟨h1, h2, h3⟩

theorem mem_row_lt {xs : List (List Nat)} {n : Nat} (h : ∀ l ∈ xs, ∀ f ∈ l, f < n) (i : Nat) :
    ∀ f ∈ row xs i, f < n := by
  intro f hf
  have hi : i < xs.length := lt_of_mem_row hf
  exact h _ (row_mem xs i hi) f hf

/-- The third surface loop: two faces become neighbours when they are different
and linked to one of the edges visited. -/
theorem surface_third_fold_f2f (l : List Nat) :
    ∀ m : Hexmesh, (∀ l' ∈ m.e2f, ∀ f ∈ l', f < m.f2f.length) →
      (l.foldl surface_third_pure m).e2f = m.e2f ∧
      (l.foldl surface_third_pure m).f2f.length = m.f2f.length ∧
      ∀ x y, y ∈ row (l.foldl surface_third_pure m).f2f x ↔
        y ∈ row m.f2f x ∨ ∃ eid ∈ l, x ∈ row m.e2f eid ∧ y ∈ row m.e2f eid ∧ x ≠ y := by
  induction l with
  | nil => intro m _; exact ⟨rfl, rfl, fun x y => by simp⟩
  | cons e l ih =>
    intro m hlt
    rw [List.foldl_cons]
    obtain ⟨o1, o2⟩ := f2f_outer_rows (row m.e2f e) (row m.e2f e) m.f2f (mem_row_lt hlt e)
    have h1 : (surface_third_pure m e).e2f = m.e2f := rfl
    have h2 : (surface_third_pure m e).f2f = (row m.e2f e).foldl (fun f2f fid1 =>
        (row m.e2f e).foldl
          (fun f2f fid2 => if fid1 ≠ fid2 then push_row f2f fid1 fid2 else f2f) f2f) m.f2f := rfl
    obtain ⟨i1, i2, i3⟩ := ih (surface_third_pure m e) (by rw [h1, h2, o1]; exact hlt)
    refine ⟨i1.trans h1, by rw [i2, h2, o1], ?_⟩
    intro x y
    rw [i3 x y, h1, h2, o2 x y]
    constructor
    · rintro ((g | ⟨g1, g2, g3⟩) | ⟨eid, g0, g1, g2, g3⟩)
      · exact Or.inl g
      · exact Or.inr ⟨e, List.mem_cons_self _ _, g1, g2, g3⟩
      · exact Or.inr ⟨eid, List.mem_cons_of_mem _ g0, g1, g2, g3⟩
    · rintro (g | ⟨eid, g0, g1, g2, g3⟩)
      · exact Or.inl (Or.inl g)
      · rcases List.mem_cons.1 g0 with rfl | g0
        · exact Or.inl (Or.inr ⟨g1, g2, g3⟩)
        · exact Or.inr ⟨eid, g0, g1, g2, g3⟩

/-- The rows of `f2f` after `update_surface_adjacency`. -/
theorem surface_pure_f2f (T : HexaTables) (hT : T.faces_in_range) (m : Hexmesh)
    (hin : ids_in_range m) (hr : edges_ready m) :
    ∀ x y, y ∈ row (surface_pure T m).f2f x ↔
      x ≠ y ∧ ∃ eid < num_edges (surface_pure T m),
        x ∈ row (surface_pure T m).e2f eid ∧ y ∈ row (surface_pure T m).e2f eid := by
  obtain ⟨inv, _⟩ := surface_faces_rows T hT m hin hr
  have hnf : num_faces (surface_faces T m) = (f2c_map_of T m).length := by
    unfold num_faces verts_per_face
    have := inv.faces
    simp only at this
    rw [this]
    omega
  have hed : (surface_faces T m).edges = m.edges := inv.edges
  obtain ⟨q1, _, q3⟩ := surface_third_fold_f2f
    (List.range (num_edges { surface_faces T m with
      f2f := List.replicate (num_faces (surface_faces T m)) [] }))
    { surface_faces T m with f2f := List.replicate (num_faces (surface_faces T m)) [] }
    (by
      intro l' hl' f hf
      show f < (List.replicate (num_faces (surface_faces T m)) ([] : List Nat)).length
      rw [List.length_replicate, hnf]
      exact inv.e2f_lt l' hl' f hf)
  have hfold : surface_pure T m = (List.range (num_edges { surface_faces T m with
      f2f := List.replicate (num_faces (surface_faces T m)) [] })).foldl surface_third_pure
      { surface_faces T m with f2f := List.replicate (num_faces (surface_faces T m)) [] } := rfl
  rw [← hfold] at q1 q3
  have hne : num_edges { surface_faces T m with
      f2f := List.replicate (num_faces (surface_faces T m)) [] } =
      num_edges (surface_pure T m) := by
    unfold num_edges
    rw [(surface_pure_frame T m).edges]
    show (surface_faces T m).edges.length / 2 = _
    rw [hed]
  intro x y
  rw [q3 x y, q1, hne]
  have h0 : row ({ surface_faces T m with
      f2f := List.replicate (num_faces (surface_faces T m)) [] } : Hexmesh).f2f x = [] :=
    row_replicate _ _
  rw [h0]
  constructor
  · rintro (g | ⟨eid, g0, g1, g2, g3⟩)
    · cases g
    · exact ⟨g3, eid, List.mem_range.1 g0, g1, g2⟩
  · rintro ⟨g3, eid, g0, g1, g2⟩
    exact Or.inr ⟨eid, List.mem_range.2 g0, g1, g2, g3⟩

/-! ## Meshes of at most two cells never fail the assertion -/

/-- A loop whose steps all succeed, under an invariant of the entries done,
succeeds. -/
theorem foldlM_ok_pre {σ α : Type} (P : List α → σ → Prop)
    (f : σ → α → Except Fault σ) (l : List α)
    (hstep : ∀ pre x post s, l = pre ++ x :: post → P pre s →
      ∃ s', f s x = Except.ok s' ∧ P (pre ++ [x]) s') :
    ∀ s, P [] s → ∃ r, l.foldlM f s = Except.ok r ∧ P l r := by
  suffices H : ∀ (post pre : List α) (s : σ), l = pre ++ post → P pre s →
      ∃ r, post.foldlM f s = Except.ok r ∧ P l r from fun s hs => H l [] s rfl hs
  intro post
  induction post with
  | nil => intro pre s hl hs; exact ⟨s, rfl, by simpa [hl] using hs⟩
  | cons x xs ih =>
    intro pre s hl hs
    obtain ⟨s1, h1, h2⟩ := hstep pre x xs s hl hs
    rw [List.foldlM_cons, h1, ok_bind]
    exact ih (pre ++ [x]) s1 (by simp [hl]) h2

theorem pairs_length_le (n : Nat) (hn2 : n ≤ 2) (ps : List ipair) (hn : ps.Nodup)
    (hp : ∀ p ∈ ps, p.1 ≤ p.2 ∧ p.2 < n) : ps.length ≤ 3 := by
  have hsub : ps ⊆ [(0, 0), (0, 1), (1, 1)] := by
    intro p hp'
    obtain ⟨h1, h2⟩ := hp p hp'
    obtain ⟨a, b⟩ := p
    simp only at h1 h2
    have : (a = 0 ∧ b = 0) ∨ (a = 0 ∧ b = 1) ∨ (a = 1 ∧ b = 1) := by omega
    rcases this with ⟨rfl, rfl⟩ | ⟨rfl, rfl⟩ | ⟨rfl, rfl⟩ <;> simp
  exact (List.subperm_of_subset hn hsub).length_le

theorem link_cells_small (T : HexaTables) (hF : T.faces_in_range) (n : Nat) (hn2 : n ≤ 2)
    (s : EdgeLoop) (cid nbr : Nat) (hc : cid < n) (hnb : nbr < n) (inv : LinkInv n s) :
    ∃ s', link_cells T s cid nbr = Except.ok s' ∧ LinkInv n s' := by
  have hc' : cid < num_cells s.m := by rw [inv.cells]; exact hc
  have hnb' : nbr < num_cells s.m := by rw [inv.cells]; exact hnb
  unfold link_cells
  rw [cell_shared_face_total T hF s.m cid nbr hc' hnb', ok_bind]
  by_cases hsf : cell_shared_face_pure T s.m cid nbr (List.range faces_per_cell) ≠ -1
  · rw [if_pos hsf]
    dsimp only
    by_cases hp : (!s.cell_pairs.contains (unique_pair cid nbr)) = true
    · have hnew : unique_pair cid nbr ∉ s.cell_pairs := by simpa using hp
      have hbound : (unique_pair cid nbr).1 ≤ (unique_pair cid nbr).2 ∧
          (unique_pair cid nbr).2 < n := by
        unfold unique_pair
        exact ⟨le_trans (min_le_left _ _) (le_max_left _ _), max_lt hc hnb⟩
      have hpairs : ∀ p ∈ unique_pair cid nbr :: s.cell_pairs, p.1 ≤ p.2 ∧ p.2 < n := by
        intro p hp'
        rcases List.mem_cons.1 hp' with rfl | hp'
        · exact hbound
        · exact inv.pairs p hp'
      have hlen : s.cell_pairs.length ≤ 2 := by
        have := pairs_length_le n hn2 (unique_pair cid nbr :: s.cell_pairs)
          (List.nodup_cons.2 ⟨hnew, inv.nodup⟩) hpairs
        simpa using this
      have hrow : ∀ x, (row (push_row (push_row s.m.c2c cid nbr) nbr cid) x).length ≤
          (row s.m.c2c x).length + 2 := by
        intro x
        have h1 := length_row_push_row_le (push_row s.m.c2c cid nbr) nbr cid x
        have h2 := length_row_push_row_le s.m.c2c cid nbr x
        split_ifs at h1 h2 <;> omega
      have p1 := push_back_at_of_lt s.m.c2c cid nbr (by rw [inv.c2c]; exact hc)
      have p2 := push_back_at_of_lt (push_row s.m.c2c cid nbr) nbr cid
        (by rw [length_push_row, inv.c2c]; exact hnb)
      have v1 := vec_at_of_lt (push_row (push_row s.m.c2c cid nbr) nbr cid) cid []
        (by rw [length_push_row, length_push_row, inv.c2c]; exact hc)
      have v2 := vec_at_of_lt (push_row (push_row s.m.c2c cid nbr) nbr cid) nbr []
        (by rw [length_push_row, length_push_row, inv.c2c]; exact hnb)
      have a1 : ((push_row (push_row s.m.c2c cid nbr) nbr cid).getD cid []).length ≤
          faces_per_cell := by
        have := hrow cid
        have := inv.rows cid
        show (row _ cid).length ≤ 6
        omega
      have a2 : ((push_row (push_row s.m.c2c cid nbr) nbr cid).getD nbr []).length ≤
          faces_per_cell := by
        have := hrow nbr
        have := inv.rows nbr
        show (row _ nbr).length ≤ 6
        omega
      rw [if_pos hp, p1, ok_bind]
      erw [p2]
      rw [ok_bind]
      erw [v1]
      rw [ok_bind]
      simp only [assert, a1, decide_True, if_true, ok_bind]
      erw [v2]
      rw [ok_bind]
      simp only [a2, decide_True, if_true, ok_bind, pure_eq_ok]
      refine ⟨_, rfl, ?_⟩
      refine ⟨inv.cells, ?_, List.nodup_cons.2 ⟨hnew, inv.nodup⟩, hpairs, ?_⟩
      · show (push_row (push_row s.m.c2c cid nbr) nbr cid).length = n
        rw [length_push_row, length_push_row]
        exact inv.c2c
      · intro x
        show (row (push_row (push_row s.m.c2c cid nbr) nbr cid) x).length ≤
          2 * (unique_pair cid nbr :: s.cell_pairs).length
        have := hrow x
        have := inv.rows x
        rw [List.length_cons]
        omega
    · rw [if_neg hp]
      exact ⟨_, rfl, inv⟩
  · rw [if_neg hsf]
    exact ⟨_, rfl, inv⟩

theorem edge_cells_from_small (T : HexaTables) (hF : T.faces_in_range) (n : Nat) (hn2 : n ≤ 2)
    (eid : Nat) (cids : List Nat) :
    ∀ s : EdgeLoop, (∀ c ∈ cids, c < n) → eid < s.m.e2c.length → s.m.c2e.length = n →
      LinkInv n s → ∃ r, edge_cells_from T eid s cids = Except.ok r ∧ LinkInv n r := by
  induction cids with
  | nil => intro s _ _ _ inv; exact ⟨s, rfl, inv⟩
  | cons cid rest ih =>
    intro s hc he h1 inv
    have hcid := hc cid (List.mem_cons_self _ _)
    have p1 := push_back_at_of_lt s.m.c2e cid eid (by rw [h1]; exact hcid)
    have p2 := push_back_at_of_lt s.m.e2c eid cid he
    rw [edge_cells_from, p1, ok_bind, p2, ok_bind]
    dsimp only
    have inv1 : LinkInv n
        { s with m := { s.m with c2e := s.m.c2e.modify (fun l => l ++ [eid]) cid,
                                 e2c := s.m.e2c.modify (fun l => l ++ [cid]) eid } } :=
      ⟨inv.cells, inv.c2c, inv.nodup, inv.pairs, inv.rows⟩
    obtain ⟨s2, h3, inv2⟩ := foldlM_ok (LinkInv n) (fun s nbr => link_cells T s cid nbr) rest
      (fun s' nbr hnbr inv' =>
        link_cells_small T hF n hn2 s' cid nbr hcid (hc nbr (List.mem_cons_of_mem _ hnbr)) inv')
      _ inv1
    have hfr := link_fold_frame T cid rest _ s2 h3
    rw [h3, ok_bind]
    refine ih s2 (fun c hcm => hc c (List.mem_cons_of_mem _ hcm)) ?_ ?_ inv2
    · rw [hfr]
      simpa using he
    · rw [hfr]
      simpa using h1

theorem interior_second_body_small (T : HexaTables) (hF : T.faces_in_range) (m : Hexmesh)
    (hn2 : num_cells m ≤ 2) (N n : Nat) (s : EdgeLoop) (it : ipair × List Nat) (hn : n < N)
    (h1 : it.1.1 < num_verts m) (h2 : it.1.2 < num_verts m) (h3 : ∀ c ∈ it.2, c < num_cells m)
    (inv : InteriorInv m N n s) (li : LinkInv (num_cells m) s) :
    ∃ s', interior_second_body T s it = Except.ok s' ∧ InteriorInv m N (n + 1) s' ∧
      LinkInv (num_cells m) s' := by
  have hres : ∃ s', interior_second_body T s it = Except.ok s' ∧ LinkInv (num_cells m) s' := by
    unfold interior_second_body
    dsimp only
    have p1 := push_back_at_of_lt s.m.v2v it.1.1 it.1.2 (by rw [inv.v2v]; exact h1)
    have p2 := push_back_at_of_lt (push_row s.m.v2v it.1.1 it.1.2) it.1.2 it.1.1
      (by rw [length_push_row, inv.v2v]; exact h2)
    have p3 := push_back_at_of_lt s.m.v2e it.1.1 s.fresh_id (by rw [inv.v2e]; exact h1)
    have p4 := push_back_at_of_lt (push_row s.m.v2e it.1.1 s.fresh_id) it.1.2 s.fresh_id
      (by rw [length_push_row, inv.v2e]; exact h2)
    rw [p1, ok_bind]
    erw [p2]
    rw [ok_bind, p3, ok_bind]
    erw [p4]
    rw [ok_bind]
    refine edge_cells_from_small T hF _ hn2 s.fresh_id it.2 _ h3 ?_ ?_ ?_
    · show s.fresh_id < s.m.e2c.length
      rw [inv.fresh, inv.e2c]; exact hn
    · exact inv.c2e
    · exact ⟨li.cells, li.c2c, li.nodup, li.pairs, li.rows⟩
  obtain ⟨s', h, li'⟩ := hres
  rcases interior_second_body_total T hF m N n s it hn h1 h2 h3 inv with h' | ⟨s'', h', inv'⟩
  · rw [h] at h'; cases h'
  · rw [h] at h'
    injection h' with e
    subst e
    exact ⟨s', h, inv', li'⟩

/-- On a mesh of at most two cells with in-range vertex ids
`update_interior_adjacency` completes. -/
theorem update_interior_adjacency_small (T : HexaTables) (hE : T.edges_in_range)
    (hF : T.faces_in_range) (m : Hexmesh) (hin : ids_in_range m) (hn2 : num_cells m ≤ 2) :
    ∃ m1, update_interior_adjacency T m = Except.ok m1 := by
  obtain ⟨st, e1, _, _⟩ := foldlM_ok
    (fun st : Hexmesh × List (ipair × List Nat) =>
      st.1.cells = m.cells ∧ st.1.v2c.length = num_verts m)
    (interior_first_body T) (List.range (num_cells m))
    (fun st cid hc ⟨h1, h2⟩ =>
      interior_first_body_total T m hin st cid (List.mem_range.1 hc) h1 h2)
    ({ m with v2v := List.replicate (num_verts m) [], v2e := List.replicate (num_verts m) [],
              v2c := List.replicate (num_verts m) [], c2c := List.replicate (num_cells m) [],
              c2e := List.replicate (num_cells m) [] }, [])
    ⟨rfl, by simp⟩
  obtain ⟨q1, q2⟩ := interior_first_loop_ok T hE _ st e1
  have q2' : st.2 = e2c_map_of T m := q2
  unfold update_interior_adjacency
  dsimp only
  erw [e1]
  rw [ok_bind, q2']
  obtain ⟨r, h, _⟩ := foldlM_ok_pre
    (fun pre s => InteriorInv m (e2c_map_of T m).length pre.length s ∧
      LinkInv (num_cells m) s)
    (interior_second_body T) (e2c_map_of T m)
    (by
      intro pre x post s hl ⟨inv, li⟩
      have hx : x ∈ e2c_map_of T m := by rw [hl]; simp
      obtain ⟨h1, h2, h3⟩ := e2c_map_entry T hE m hin x hx
      have hn : pre.length < (e2c_map_of T m).length := by rw [hl]; simp
      have := interior_second_body_small T hF m hn2 _ _ s x hn h1 h2 h3 inv li
      simpa using this)
    { m := { st.1 with edges := [], e2c := List.replicate (e2c_map_of T m).length [] },
      cell_pairs := [], fresh_id := 0 }
    (by
      rw [q1]
      refine ⟨by constructor <;> simp [num_cells, num_verts], ?_⟩
      refine ⟨by simp [num_cells], by simp [num_cells], List.nodup_nil, ?_, ?_⟩
      · intro p hp; cases hp
      · intro c
        show (row (List.replicate _ []) c).length ≤ _
        rw [row_replicate]
        exact Nat.zero_le _)
  rw [h, ok_bind]
  exact ⟨_, rfl⟩

theorem cells_with_face_key_le (T : HexaTables) (m : Hexmesh) (k : List Nat) :
    cells_with_face_key T m k ≤ num_cells m := by
  unfold cells_with_face_key
  exact (List.length_filter_le _ _).trans (by simp)

/-! ## Concrete runs -/

set_option maxRecDepth 100000 in
/-- The run of `update_interior_adjacency` on the two stacked cubes. -/
theorem two_cubes_interior_eq :
    update_interior_adjacency standard_tables two_cubes = Except.ok two_cubes_interior := rfl

set_option maxRecDepth 100000 in
/-- The run of `init` on the two stacked cubes. -/
theorem two_cubes_derived_eq :
    init standard_tables two_cubes = Except.ok two_cubes_derived := rfl

/-- When the interior step completes on in-range vertex ids, so does `init`, and
the number of derived faces is the number of surviving entries of `f2c_map`. -/
theorem init_ok_of_interior_ok (T : HexaTables) (hE : T.edges_in_range) (hF : T.faces_in_range)
    (m m1 : Hexmesh) (hin : ids_in_range m) (h1 : update_interior_adjacency T m = Except.ok m1) :
    init T m = Except.ok (surface_pure T m1) ∧
      num_faces (surface_pure T m1) = (f2c_map_of T m).length := by
  obtain ⟨hv, hc, _, _, _, hr⟩ := update_interior_adjacency_frame T hE m m1 h1
  refine ⟨?_, ?_⟩
  · rw [init_eq T m m1 h1]
    exact update_surface_adjacency_eq T hF m1 (ids_in_range_congr hc hv hin) hr
  · rw [(derived_face_keys T m1 (surface_pure T m1) (surface_pure_faces T m1).1).1,
      f2c_map_of_congr T hc]

/-! ## The first interior loop and `v2c` -/

theorem sum_length_modify (xs : List (List Nat)) (x i : Nat) (h : i < xs.length) :
    ((xs.modify (fun l => l ++ [x]) i).map List.length).sum = (xs.map List.length).sum + 1 := by
  induction xs generalizing i with
  | nil => simp at h
  | cons a xs ih =>
    cases i with
    | zero => simp; omega
    | succ i =>
      have h2 : i < xs.length := by simpa using h
      simp [ih i h2]; omega

theorem sum_length_replicate_nil (n : Nat) :
    ((List.replicate n ([] : List Nat)).map List.length).sum = 0 := by
  induction n with
  | zero => rfl
  | succ n ih => simp [List.replicate_succ]

theorem count_map_eq_filter {α : Type} (f : α → Nat) (v : Nat) (l : List α) :
    (l.map f).count v = (l.filter (fun a => decide (f a = v))).length := by
  induction l with
  | nil => rfl
  | cons a l ih =>
    by_cases h : f a = v
    · simp [h, ih]
    · rw [List.map_cons, List.count_cons_of_ne (fun e => h e.symm), ih,
        List.filter_cons_of_neg (by simpa using h)]

/-- A run of `push_back` of the same value `x` at the rows `g a`, `a` in `l`:
each row gets one copy of `x` per time it was addressed. -/
theorem push_fold_rows {α : Type} (g : α → Nat) (x : Nat) (l : List α) :
    ∀ (xs ys : List (List Nat)),
      l.foldlM (fun acc a => push_back_at acc (g a) x) xs = Except.ok ys →
      (∀ v, row ys v = row xs v ++ List.replicate ((l.map g).count v) x) ∧
      (ys.map List.length).sum = (xs.map List.length).sum + l.length ∧
      ys.length = xs.length := by
  induction l with
  | nil => intro xs ys h; simp at h; cases h; simp
  | cons a l ih =>
    intro xs ys h
    rw [List.foldlM_cons, bind_eq_ok] at h
    obtain ⟨x1, h1, h2⟩ := h
    obtain ⟨hlt, rfl⟩ := push_back_at_eq_ok h1
    obtain ⟨q1, q2, q3⟩ := ih _ ys h2
    refine ⟨?_, ?_, ?_⟩
    · intro v
      rw [q1 v, row_modify _ _ _ _ hlt, List.map_cons, List.count_cons]
      by_cases hv : v = g a
      · subst hv
        simp [List.replicate_succ]
      · have hv2 : ¬ g a = v := fun e => hv e.symm
        simp [hv, hv2]
    · rw [q2, sum_length_modify _ _ _ hlt, List.length_cons]; omega
    · rw [q3]; simp

/-- The first loop body registers the cell once per local position in `v2c`. -/
theorem interior_first_body_v2c (T : HexaTables)
    {st st2 : Hexmesh × List (ipair × List Nat)} {cid : Nat}
    (h : interior_first_body T st cid = Except.ok st2) :
    (∀ v, row st2.1.v2c v = row st.1.v2c v ++
      List.replicate (((List.range verts_per_cell).map (cell_vid st.1 cid)).count v) cid) ∧
    (st2.1.v2c.map List.length).sum = (st.1.v2c.map List.length).sum + verts_per_cell ∧
    st2.1.v2c.length = st.1.v2c.length := by
  unfold interior_first_body at h
  dsimp only at h
  rw [bind_eq_ok] at h
  obtain ⟨vids, hv, h⟩ := h
  rw [bind_eq_ok] at h
  obtain ⟨v2c, hp, h⟩ := h
  simp only [pure_eq_ok] at h
  cases h
  have hvids := vec_at_all_ok _ _ _ hv
  obtain ⟨q1, q2, q3⟩ := push_fold_rows (fun vid => vids.getD vid 0) cid _ _ _ hp
  have hmap : (List.range verts_per_cell).map (fun vid => vids.getD vid 0) =
      (List.range verts_per_cell).map (cell_vid st.1 cid) := by
    refine List.map_congr_left ?_
    intro off ho
    rw [hvids]
    exact getD_cell_vids st.1 cid off (List.mem_range.1 ho)
  rw [hmap] at q1
  refine ⟨q1, ?_, q3⟩
  rw [q2]; simp

/-- The relation `v2c` after the first interior loop, row by row. -/
theorem interior_first_loop_v2c (T : HexaTables) (m : Hexmesh) (n : Nat)
    (st : Hexmesh × List (ipair × List Nat))
    (h : (List.range n).foldlM (interior_first_body T)
      ({ m with v2c := List.replicate (num_verts m) [] }, []) = Except.ok st) :
    (∀ v, row st.1.v2c v = (List.range n).flatMap (fun cid =>
      List.replicate (((List.range verts_per_cell).map (cell_vid m cid)).count v) cid)) ∧
    (st.1.v2c.map List.length).sum = verts_per_cell * n ∧
    st.1.v2c.length = num_verts m := by
  have key := foldlM_inv_pre
    (fun pre (st : Hexmesh × List (ipair × List Nat)) =>
      st.1.cells = m.cells ∧
      (∀ v, row st.1.v2c v = pre.flatMap (fun cid =>
        List.replicate (((List.range verts_per_cell).map (cell_vid m cid)).count v) cid)) ∧
      (st.1.v2c.map List.length).sum = verts_per_cell * pre.length ∧
      st.1.v2c.length = num_verts m)
    (interior_first_body T) (List.range n) ?_ _ st ?_ h
  · obtain ⟨_, k1, k2, k3⟩ := key
    exact ⟨k1, by simpa using k2, k3⟩
  · intro pre x post s s2 _ ⟨p0, p1, p2, p3⟩ hs
    obtain ⟨q1, q2, q3⟩ := interior_first_body_v2c T hs
    have hc : s2.1.cells = s.1.cells := by
      unfold interior_first_body at hs
      dsimp only at hs
      rw [bind_eq_ok] at hs
      obtain ⟨vids, hv, hs⟩ := hs
      rw [bind_eq_ok] at hs
      obtain ⟨v2c, hp, hs⟩ := hs
      simp only [pure_eq_ok] at hs
      cases hs
      rfl
    have hcv : cell_vid s.1 x = cell_vid m x := by
      funext off; simp [cell_vid, p0]
    refine ⟨hc.trans p0, ?_, ?_, q3.trans p3⟩
    · intro v
      rw [q1 v, p1 v, hcv]
      simp
    · rw [q2, p2, List.length_append]; simp; ring
  · refine ⟨rfl, ?_, ?_, ?_⟩
    · intro v; simp [row_replicate]
    · simp [sum_length_replicate_nil]
    · simp

/-- The relation `v2c` built by `update_interior_adjacency`. -/
theorem update_interior_adjacency_v2c (T : HexaTables) (m m1 : Hexmesh)
    (h : update_interior_adjacency T m = Except.ok m1) :
    (∀ v, row m1.v2c v = (List.range (num_cells m)).flatMap (fun cid =>
      List.replicate (((List.range verts_per_cell).map (cell_vid m cid)).count v) cid)) ∧
    (m1.v2c.map List.length).sum = verts_per_cell * num_cells m ∧
    m1.v2c.length = num_verts m := by
  unfold update_interior_adjacency at h
  dsimp only at h
  rw [bind_eq_ok] at h
  obtain ⟨st, h1, h⟩ := h
  rw [bind_eq_ok] at h
  obtain ⟨s, h2, h⟩ := h
  simp only [pure_eq_ok] at h
  cases h
  have hf := (interior_second_loop_frame T _ _ s h2).v2c
  have hv : s.m.v2c = st.1.v2c := hf
  have key := interior_first_loop_v2c T
    { m with v2v := List.replicate (num_verts m) [], v2e := List.replicate (num_verts m) [],
             c2c := List.replicate (num_cells m) [], c2e := List.replicate (num_cells m) [] }
    (num_cells m) st h1
  rw [hv]
  exact key

theorem count_flatMap_replicate (k : Nat → Nat) (n c : Nat) :
    ((List.range n).flatMap (fun i => List.replicate (k i) i)).count c =
      if c < n then k c else 0 := by
  induction n with
  | zero => simp
  | succ n ih =>
    rw [List.range_succ, List.flatMap_append, List.count_append, ih]
    simp only [List.flatMap_cons, List.flatMap_nil, List.append_nil, List.count_replicate]
    by_cases h1 : c < n
    · have h2 : ¬ n = c := by omega
      have h3 : c < n + 1 := by omega
      simp [h1, h2, h3]
    · by_cases h2 : n = c
      · subst h2; simp
      · have h3 : ¬ c < n + 1 := by omega
        simp [h1, h2, h3]

theorem sorted_flatMap_replicate (k : Nat → Nat) (n : Nat) :
    ((List.range n).flatMap (fun i => List.replicate (k i) i)).Sorted (fun a b => a ≤ b) := by
  induction n with
  | zero => simp
  | succ n ih =>
    rw [List.range_succ, List.flatMap_append]
    refine List.pairwise_append.2 ⟨ih, ?_, ?_⟩
    · simp only [List.flatMap_cons, List.flatMap_nil, List.append_nil]
      refine List.pairwise_replicate.2 ?_
      exact Or.inr (Nat.le_refl n)
    · intro a ha b hb
      simp only [List.flatMap_cons, List.flatMap_nil, List.append_nil] at hb
      obtain ⟨i, hi, hai⟩ := List.mem_flatMap.1 ha
      rw [List.eq_of_mem_replicate hai, List.eq_of_mem_replicate hb]
      exact Nat.le_of_lt (List.mem_range.1 hi)

/-! ## The second surface loop, `v2f` and `c2f` -/

theorem row_push_row_fold (x v : Nat) (l : List Nat) :
    ∀ xs : List (List Nat), (∀ i ∈ l, i < xs.length) →
      row (l.foldl (fun acc i => push_row acc i x) xs) v =
        row xs v ++ List.replicate (l.count v) x := by
  induction l with
  | nil => intro xs _; simp
  | cons a l ih =>
    intro xs h
    rw [List.foldl_cons, ih _ (by
      intro i hi
      rw [length_push_row]
      exact h i (List.mem_cons_of_mem _ hi)),
      row_push_row _ _ _ _ (h a (List.mem_cons_self _ _)), List.count_cons]
    by_cases hv : v = a
    · subst hv
      simp [List.replicate_succ]
    · have hne : ¬ (a == v) = true := by simpa using fun e : a = v => hv e.symm
      simp [hv, hne]

theorem row_push_row_four (xs : List (List Nat)) (a b c d x v : Nat) (ha : a < xs.length)
    (hb : b < xs.length) (hc : c < xs.length) (hd : d < xs.length) :
    row (push_row (push_row (push_row (push_row xs a x) b x) c x) d x) v =
      row xs v ++ List.replicate ([a, b, c, d].count v) x := by
  refine row_push_row_fold x v [a, b, c, d] xs ?_
  intro i hi
  simp only [List.mem_cons, List.mem_singleton, List.not_mem_nil, or_false] at hi
  rcases hi with rfl | rfl | rfl | rfl <;> assumption

theorem getD_map_append_singleton {α β : Type} (f : α → β) (pre : List α) (x : α) (i : Nat)
    (d : β) :
    ((pre ++ [x]).map f).getD i d =
      if i < pre.length then (pre.map f).getD i d else if i = pre.length then f x else d := by
  rw [List.map_append]
  by_cases h1 : i < pre.length
  · rw [if_pos h1, List.getD_append _ _ _ _ (by simpa using h1)]
  · rw [if_neg h1]
    by_cases h2 : i = pre.length
    · subst h2
      rw [if_pos rfl, List.getD_append_right _ _ _ _ (by simp)]
      simp
    · rw [if_neg h2, List.getD_eq_default _ _ (by simp; omega)]

/-- One entry of `f2c_map` keeps the invariant on `v2f` and `c2f`. -/
theorem face_incidence_step (T : HexaTables) (hT : T.faces_in_range) (m : Hexmesh)
    (hin : ids_in_range m) (N : Nat)
    (pre : List (List Nat × (Nat × Nat))) (s : FaceLoop) (it : List Nat × (Nat × Nat))
    (hc : it.2.1 < num_cells m) (hf : it.2.2 < faces_per_cell)
    (inv : SurfaceInv m N pre.length s) (rows : FaceIncidence T m pre s) :
    FaceIncidence T m (pre ++ [it]) (surface_second_pure T s it) := by
  have hvid : ∀ off, cell_vid s.m it.2.1 off = cell_vid m it.2.1 off := by
    intro off; simp [cell_vid, inv.cells]
  have hlt : ∀ k < verts_per_face, cell_vid s.m it.2.1 (T.HEXA_FACES it.2.2 k) <
      s.m.v2f.length := by
    intro k hk
    rw [inv.v2f, hvid]
    exact hin _ hc _ (hT _ hf k hk)
  obtain ⟨a, b, hshape⟩ := surface_second_pure_shape T s it
  have hv2f : ∀ v, row (surface_second_pure T s it).m.v2f v =
      row s.m.v2f v ++ List.replicate ((local_face_ids T m it.2.1 it.2.2).count v)
        pre.length := by
    intro v
    rw [hshape, ← inv.fresh]
    show row (push_row (push_row (push_row (push_row s.m.v2f _ _) _ _) _ _) _ _) v = _
    rw [row_push_row_four _ _ _ _ _ _ _ (hlt 0 (by decide)) (hlt 1 (by decide))
      (hlt 2 (by decide)) (hlt 3 (by decide)), hvid, hvid, hvid, hvid]
    rfl
  have hc2f : (surface_second_pure T s it).m.c2f = push_row s.m.c2f it.2.1 pre.length := by
    rw [hshape, ← inv.fresh]
    rfl
  have hcl : it.2.1 < s.m.c2f.length := by rw [inv.c2f]; exact hc
  have hmem : ∀ v, ∀ fid ∈ row s.m.v2f v, fid < pre.length := by
    intro v fid hfid
    by_contra hge
    have h0 := rows.v2f v fid
    rw [List.getD_eq_default _ _ (by simp; omega)] at h0
    have := List.count_pos_iff.2 hfid
    simp only [List.count_nil] at h0
    omega
  refine ⟨?_, ?_, ?_, ?_⟩
  · intro v fid
    rw [hv2f v, List.count_append, rows.v2f v fid, List.count_replicate,
      getD_map_append_singleton]
    by_cases h1 : fid < pre.length
    · have h2 : ¬ (pre.length == fid) = true := by simp; omega
      simp [h1, h2]
    · rw [if_neg h1, List.getD_eq_default _ _ (by simp; omega)]
      by_cases h2 : fid = pre.length
      · subst h2; simp
      · have h3 : ¬ (pre.length == fid) = true := by simpa using fun h => h2 (Eq.symm h)
        simp [h2, h3]
  · intro v
    rw [hv2f v]
    refine List.pairwise_append.2 ⟨rows.v2f_sorted v, ?_, ?_⟩
    · exact List.pairwise_replicate.2 (Or.inr (Nat.le_refl _))
    · intro x hx y hy
      rw [List.eq_of_mem_replicate hy]
      exact Nat.le_of_lt (hmem v x hx)
  · intro c fid
    rw [hc2f, row_push_row _ _ _ _ hcl, getD_map_append_singleton, List.length_append,
      List.length_singleton]
    have h0 := rows.c2f c fid
    have hs : (row s.m.c2f c ++ [pre.length]).count fid =
        (row s.m.c2f c).count fid + if pre.length = fid then 1 else 0 := by
      rw [List.count_append, List.count_cons]; simp
    have hrow : (if c = it.2.1 then row s.m.c2f c ++ [pre.length] else row s.m.c2f c).count fid =
        (row s.m.c2f c).count fid + if c = it.2.1 ∧ pre.length = fid then 1 else 0 := by
      by_cases h4 : c = it.2.1
      · rw [if_pos h4, hs]; simp [h4]
      · rw [if_neg h4]; simp [h4]
    rw [hrow, h0]
    by_cases h1 : fid < pre.length
    · have h2 : fid < pre.length + 1 := by omega
      have h3 : ¬ pre.length = fid := by omega
      simp [h1, h2, h3]
    · by_cases h2 : fid = pre.length
      · subst h2
        by_cases h4 : c = it.2.1
        · simp [h4]
        · have h5 : ¬ it.2.1 = c := fun e => h4 e.symm
          simp [h4, h5]
      · have h3 : ¬ fid < pre.length + 1 := by omega
        have h5 : ¬ pre.length = fid := fun e => h2 e.symm
        simp [h1, h3, h5]
  · rw [hc2f, push_row, sum_length_modify _ _ _ hcl, rows.c2f_sum]
    simp

theorem surface_third_fold_v2f (l : List Nat) :
    ∀ m : Hexmesh, (l.foldl surface_third_pure m).v2f = m.v2f := by
  induction l with
  | nil => intro m; rfl
  | cons e l ih => intro m; rw [List.foldl_cons, ih]; rfl

/-- The rows of `v2f` and `c2f` after `update_surface_adjacency`. -/
theorem surface_pure_incidence (T : HexaTables) (hT : T.faces_in_range) (m : Hexmesh)
    (hin : ids_in_range m) (hr : edges_ready m) :
    FaceIncidence T m (f2c_map_of T m)
        { m := surface_pure T m, fresh_id := (f2c_map_of T m).length } ∧
      (surface_pure T m).v2f.length = num_verts m ∧
      (surface_pure T m).c2f.length = num_cells m := by
  have h0 : FaceIncidence T m [] { m := surface_start T m, fresh_id := 0 } := by
    refine ⟨?_, ?_, ?_, ?_⟩
    · intro v fid
      show (row (List.replicate _ []) v).count fid = _
      rw [row_replicate]
      rfl
    · intro v
      show (row (List.replicate _ []) v).Sorted _
      rw [row_replicate]
      exact List.sorted_nil
    · intro c fid
      show (row (List.replicate _ []) c).count fid = _
      rw [row_replicate]
      simp
    · show ((List.replicate _ ([] : List Nat)).map List.length).sum = _
      rw [sum_length_replicate_nil]
      rfl
  have key := foldl_inv_pre
    (fun pre s => SurfaceInv m (f2c_map_of T m).length pre.length s ∧ FaceIncidence T m pre s)
    (surface_second_pure T) (f2c_map_of T m)
    (by
      intro pre x post s hl ⟨inv, rows⟩
      have hx : x ∈ f2c_map_of T m := by rw [hl]; simp
      obtain ⟨hc, hf, _⟩ := (mem_face_cands T m x).1 (mem_f2c_map T m x hx)
      have hn : pre.length < (f2c_map_of T m).length := by rw [hl]; simp
      refine ⟨?_, face_incidence_step T hT m hin _ pre s x hc hf inv rows⟩
      have := (surface_second_step T hT m hin hr _ _ s x hc hf hn inv).2
      simpa using this)
    { m := surface_start T m, fresh_id := 0 } ⟨surface_start_inv T m, h0⟩
  obtain ⟨k1, k2⟩ := key
  have hv : (surface_pure T m).v2f = ((f2c_map_of T m).foldl (surface_second_pure T)
      { m := surface_start T m, fresh_id := 0 }).m.v2f := by
    unfold surface_pure
    dsimp only
    rw [surface_third_fold_v2f]
    rfl
  have hc : (surface_pure T m).c2f = ((f2c_map_of T m).foldl (surface_second_pure T)
      { m := surface_start T m, fresh_id := 0 }).m.c2f := by
    unfold surface_pure
    dsimp only
    rw [surface_third_fold_c2f]
    rfl
  refine ⟨⟨?_, ?_, ?_, ?_⟩, ?_, ?_⟩
  · intro v fid
    show (row (surface_pure T m).v2f v).count fid = _
    rw [hv]
    exact k2.v2f v fid
  · intro v
    show (row (surface_pure T m).v2f v).Sorted _
    rw [hv]
    exact k2.v2f_sorted v
  · intro c fid
    show (row (surface_pure T m).c2f c).count fid = _
    rw [hc]
    exact k2.c2f c fid
  · show ((surface_pure T m).c2f.map List.length).sum = _
    rw [hc]
    exact k2.c2f_sum
  · rw [hv]; exact k1.v2f
  · rw [hc]; exact k1.c2f

/-! ## The linking loop never records a pair twice -/

theorem cell_vid_inj (m : Hexmesh) (hd : cells_distinct m) (cid : Nat) (hc : cid < num_cells m)
    (i j : Nat) (hi : i < verts_per_cell) (hj : j < verts_per_cell)
    (h : cell_vid m cid i = cell_vid m cid j) : i = j := by
  by_contra hne
  exact hd cid hc i hi j hj hne h

/-- In a cell with pairwise distinct vertex ids, different local edges have
different canonical keys. -/
theorem edge_key_inj (T : HexaTables) (hE : T.edges_in_range) (hD : T.edges_distinct)
    (m : Hexmesh) (hd : cells_distinct m) (cid : Nat) (hc : cid < num_cells m)
    (e1 e2 : Nat) (h1 : e1 < edges_per_cell) (h2 : e2 < edges_per_cell)
    (h : edge_key T m cid e1 = edge_key T m cid e2) : e1 = e2 := by
  by_contra hne
  apply hD e1 h1 e2 h2 hne
  have inj := cell_vid_inj m hd cid hc
  have b10 := hE e1 h1 0 (by decide)
  have b11 := hE e1 h1 1 (by decide)
  have b20 := hE e2 h2 0 (by decide)
  have b21 := hE e2 h2 1 (by decide)
  rcases unique_pair_eq h with ⟨q1, q2⟩ | ⟨q1, q2⟩
  · rw [inj _ _ b10 b20 q1, inj _ _ b11 b21 q2]
  · rw [inj _ _ b10 b21 q1, inj _ _ b11 b20 q2, unique_pair_comm]

theorem edge_cands_nodup (T : HexaTables) (hE : T.edges_in_range) (hD : T.edges_distinct)
    (m : Hexmesh) (hd : cells_distinct m) : (edge_cands T m).Nodup := by
  unfold edge_cands
  rw [List.nodup_flatMap]
  constructor
  · intro cid hcid
    refine List.Nodup.map_on ?_ (List.nodup_range _)
    intro a ha b hb hab
    have hk : edge_key T m cid a = edge_key T m cid b := congrArg Prod.fst hab
    exact edge_key_inj T hE hD m hd cid (List.mem_range.1 hcid) a b (List.mem_range.1 ha)
      (List.mem_range.1 hb) hk
  · refine (List.nodup_range _).pairwise_of_forall_ne ?_
    intro a _ b _ hab x hxa hxb
    obtain ⟨_, _, rfl⟩ := List.mem_map.1 hxa
    obtain ⟨_, _, hx⟩ := List.mem_map.1 hxb
    exact hab (congrArg Prod.snd hx).symm

/-- With pairwise distinct vertex ids in every cell, no entry of `e2c_map` lists
a cell twice. -/
theorem e2c_map_cids_nodup (T : HexaTables) (hE : T.edges_in_range) (hD : T.edges_distinct)
    (m : Hexmesh) (hd : cells_distinct m) (kv : ipair × List Nat) (h : kv ∈ e2c_map_of T m) :
    kv.2.Nodup := by
  rw [e2c_map_cids T m kv h]
  refine List.Nodup.map_on ?_ ((edge_cands_nodup T hE hD m hd).filter _)
  intro x hx y hy hxy
  have hx1 : x.1 = kv.1 := by simpa using (List.mem_filter.1 hx).2
  have hy1 : y.1 = kv.1 := by simpa using (List.mem_filter.1 hy).2
  exact Prod.ext (hx1.trans hy1.symm) hxy

theorem unique_pair_ne_of_ne {a b : Nat} (h : a ≠ b) :
    (unique_pair a b).1 ≠ (unique_pair a b).2 := by
  unfold unique_pair
  simp only
  omega

theorem count_append_singleton (l : List Nat) (x b : Nat) :
    (l ++ [x]).count b = l.count b + if b = x then 1 else 0 := by
  rw [List.count_append, List.count_cons]
  by_cases h : b = x
  · subst h; simp
  · have h2 : ¬ (x == b) = true := by simpa using fun e : x = b => h e.symm
    simp [h, h2]

theorem link_cells_pairs {T : HexaTables} {s s2 : EdgeLoop} {cid nbr : Nat}
    (h : link_cells T s cid nbr = Except.ok s2) (hne : cid ≠ nbr) (inv : PairRows s) :
    PairRows s2 := by
  rcases link_cells_ok h with ⟨rfl, _⟩ | ⟨_, hfresh, c1, c2, h1, h2, _, _, rfl⟩
  · exact inv
  · obtain ⟨l1, rfl⟩ := push_back_at_eq_ok h1
    obtain ⟨l2, rfl⟩ := push_back_at_eq_ok h2
    refine ⟨?_, ?_⟩
    · intro p hp
      rcases List.mem_cons.1 hp with rfl | hp
      · exact unique_pair_ne_of_ne hne
      · exact inv.irrefl p hp
    · intro a b
      show (row ((s.m.c2c.modify _ cid).modify _ nbr) a).count b =
        if unique_pair a b ∈ unique_pair cid nbr :: s.cell_pairs then 1 else 0
      rw [row_modify _ _ _ _ l2, row_modify _ _ _ _ l1]
      have hrow : (if a = nbr then (if a = cid then row s.m.c2c a ++ [nbr] else row s.m.c2c a) ++
            [cid] else if a = cid then row s.m.c2c a ++ [nbr] else row s.m.c2c a).count b =
          (row s.m.c2c a).count b + (if a = cid ∧ b = nbr then 1 else 0) +
            (if a = nbr ∧ b = cid then 1 else 0) := by
        by_cases e1 : a = nbr
        · subst e1
          have e3 : ¬ a = cid := fun e => hne e.symm
          rw [if_pos rfl, if_neg e3, count_append_singleton]
          simp [e3]
        · by_cases e3 : a = cid
          · subst e3
            rw [if_neg e1, if_pos rfl, count_append_singleton]
            simp [e1]
          · rw [if_neg e1, if_neg e3]
            simp [e1, e3]
      rw [hrow, inv.rows a b]
      by_cases hk : unique_pair a b = unique_pair cid nbr
      · have g1 : (if unique_pair a b ∈ s.cell_pairs then 1 else 0) = 0 :=
          if_neg (by rw [hk]; exact hfresh)
        have g2 : (if unique_pair a b ∈ unique_pair cid nbr :: s.cell_pairs then 1 else 0) = 1 :=
          if_pos (by rw [hk]; exact List.mem_cons_self _ _)
        rw [g1, g2]
        rcases unique_pair_eq hk with ⟨e1, e2⟩ | ⟨e1, e2⟩
        · subst e1 e2
          have e3 : ¬ a = b := hne
          simp [e3]
        · subst e1 e2
          have e3 : ¬ a = b := fun e => hne e.symm
          simp [e3]
      · have hmem : unique_pair a b ∈ unique_pair cid nbr :: s.cell_pairs ↔
            unique_pair a b ∈ s.cell_pairs := by
          rw [List.mem_cons]
          exact ⟨fun h => h.resolve_left hk, Or.inr⟩
        have e1 : ¬ (a = cid ∧ b = nbr) := by
          rintro ⟨rfl, rfl⟩; exact hk rfl
        have e2 : ¬ (a = nbr ∧ b = cid) := by
          rintro ⟨rfl, rfl⟩; exact hk (unique_pair_comm _ _)
        rw [if_congr hmem rfl rfl, if_neg e1, if_neg e2]
        rfl

theorem edge_cells_from_pairs (T : HexaTables) (eid : Nat) (cids : List Nat) :
    cids.Nodup → ∀ (s r : EdgeLoop), edge_cells_from T eid s cids = Except.ok r →
      PairRows s → PairRows r := by
  induction cids with
  | nil => intro _ s r h inv; simp [edge_cells_from] at h; cases h; exact inv
  | cons cid rest ih =>
    intro hn s r h inv
    obtain ⟨c2e, e2c, s2, _, _, h3, h4⟩ := edge_cells_from_cons_ok h
    obtain ⟨hnot, hrest⟩ := List.nodup_cons.1 hn
    have inv1 : PairRows { s with m := { s.m with c2e := c2e, e2c := e2c } } :=
      ⟨inv.irrefl, inv.rows⟩
    have inv2 : PairRows s2 := by
      refine foldlM_inv PairRows (fun s nbr => link_cells T s cid nbr) rest ?_ _ s2 inv1 h3
      intro a x b hx ha hb
      exact link_cells_pairs hb (fun e => hnot (e ▸ hx)) ha
    exact ih hrest s2 r h4 inv2

/-- Over entries of `e2c_map` that list no cell twice, the second interior loop
keeps the invariant on `c2c` and `cell_pairs`. -/
theorem interior_second_loop_pairs (T : HexaTables) (l : List (ipair × List Nat))
    (hl : ∀ kv ∈ l, kv.2.Nodup) (s r : EdgeLoop)
    (h : l.foldlM (interior_second_body T) s = Except.ok r) (inv : PairRows s) :
    PairRows r := by
  refine foldlM_inv PairRows (interior_second_body T) l ?_ s r inv h
  intro a x b hx ha hb
  obtain ⟨a1, a2, b1, b2, _, _, _, _, h5⟩ := interior_second_body_ok hb
  exact edge_cells_from_pairs T _ _ (hl x hx) _ b h5 ⟨ha.irrefl, ha.rows⟩

/-- With pairwise distinct vertex ids in every cell, no row of `c2c` repeats a
cell and no cell is in its own row. -/
theorem interior_c2c_rows (T : HexaTables) (hE : T.edges_in_range) (hD : T.edges_distinct)
    (m m1 : Hexmesh) (hd : cells_distinct m)
    (h : update_interior_adjacency T m = Except.ok m1) :
    (∀ a, (row m1.c2c a).Nodup) ∧ ∀ a, a ∉ row m1.c2c a := by
  obtain ⟨v2c, s, hs, rfl⟩ := update_interior_adjacency_ok T hE m m1 h
  have h0 : PairRows { m := interior_start T m v2c, cell_pairs := [], fresh_id := 0 } := by
    refine ⟨fun p hp => absurd hp (List.not_mem_nil _), ?_⟩
    intro a b
    show (row (List.replicate _ []) a).count b = _
    rw [row_replicate]
    simp
  have inv := interior_second_loop_pairs T _ (e2c_map_cids_nodup T hE hD m hd) _ s hs h0
  constructor
  · intro a
    refine List.nodup_iff_count_le_one.2 ?_
    intro b
    rw [inv.rows a b]
    split <;> omega
  · intro a ha
    have h1 := inv.rows a a
    have h2 := List.count_pos_iff.2 ha
    by_cases hm : unique_pair a a ∈ s.cell_pairs
    · have := inv.irrefl _ hm
      simp [unique_pair] at this
    · rw [if_neg hm] at h1
      omega

/-! ## The edges of a cell and the sides of a boundary face -/

/-- With pairwise distinct vertex ids in every cell, the row of `c2e` of a cell
holds each of its edges once: the derived edges whose two ends are the ends of
one of its 12 local edges, and every local edge is there. -/
theorem interior_c2e_rows (T : HexaTables) (hE : T.edges_in_range) (hD : T.edges_distinct)
    (m m1 : Hexmesh) (hd : cells_distinct m)
    (h1 : update_interior_adjacency T m = Except.ok m1) (cid : Nat) (hc : cid < num_cells m1) :
    (row m1.c2e cid).Nodup ∧
    (∀ eid, eid ∈ row m1.c2e cid ↔
      eid < num_edges m1 ∧ ∃ e < edges_per_cell, edge_key T m1 cid e = edge_pair m1 eid) ∧
    (∀ e < edges_per_cell, ∃ eid < num_edges m1, edge_pair m1 eid = edge_key T m1 cid e) := by
  obtain ⟨hcnt, hrow⟩ := interior_e2c_c2e T hE m m1 h1
  obtain ⟨hn, _⟩ := derived_edge_pairs T hE m m1 h1
  obtain ⟨_, hcells, _, _, _, hr⟩ := update_interior_adjacency_frame T hE m m1 h1
  have hkey := edge_pair_eq_key T hE m m1 h1
  have hcm : cid < num_cells m := by rw [← num_cells_congr hcells]; exact hc
  have hget : ∀ eid (hlt : eid < (e2c_map_of T m).length),
      ((e2c_map_of T m).map Prod.snd).getD eid [] = ((e2c_map_of T m)[eid]).2 ∧
      ((e2c_map_of T m).map Prod.fst).getD eid (0, 0) = ((e2c_map_of T m)[eid]).1 := by
    intro eid hlt
    rw [List.getD_eq_getElem _ _ (by simpa using hlt),
      List.getD_eq_getElem _ _ (by simpa using hlt)]
    simp
  refine ⟨?_, ?_, ?_⟩
  · refine List.nodup_iff_count_le_one.2 ?_
    intro eid
    rw [← hcnt eid cid, hrow eid]
    by_cases hlt : eid < (e2c_map_of T m).length
    · rw [(hget eid hlt).1]
      exact List.nodup_iff_count_le_one.1
        (e2c_map_cids_nodup T hE hD m hd _ (List.getElem_mem _)) cid
    · rw [List.getD_eq_default _ _ (by simp; omega)]
      simp
  · intro eid
    by_cases he : eid < num_edges m1
    · have hlt : eid < (e2c_map_of T m).length := by rw [← hn]; exact he
      rw [← List.count_pos_iff, ← hcnt eid cid, List.count_pos_iff, hrow eid, (hget eid hlt).1,
        e2c_map_cids T m _ (List.getElem_mem _), ← (hget eid hlt).2, ← hkey eid he]
      simp only [List.mem_map, List.mem_filter, decide_eq_true_eq]
      constructor
      · rintro ⟨c, ⟨hc1, hc2⟩, rfl⟩
        obtain ⟨_, e, he', e1⟩ := (mem_edge_cands T m c).1 hc1
        exact ⟨he, e, he', by rw [edge_key_congr T hcells, ← e1, hc2]⟩
      · rintro ⟨_, e, he', e1⟩
        refine ⟨(edge_pair m1 eid, cid), ⟨?_, rfl⟩, rfl⟩
        rw [mem_edge_cands]
        exact ⟨hcm, e, he', by rw [← edge_key_congr T hcells, e1]⟩
    · constructor
      · intro hmem
        exact absurd (hr.2 _ (row_mem m1.c2e cid (lt_of_mem_row hmem)) eid hmem) he
      · intro h
        exact absurd h.1 he
  · intro e he
    have hin : edge_key T m cid e ∈ (e2c_map_of T m).map Prod.fst := by
      rw [mem_e2c_map_keys]
      unfold candidate_edges edge_cands
      simp only [List.map_flatMap, List.map_map, List.mem_flatMap, List.mem_range, List.mem_map]
      exact ⟨cid, hcm, e, he, rfl⟩
    obtain ⟨i, hi, hie⟩ := List.mem_iff_getElem.1 hin
    have hi2 : i < (e2c_map_of T m).length := by simpa using hi
    refine ⟨i, by rw [hn]; exact hi2, ?_⟩
    rw [hkey i (by rw [hn]; exact hi2), List.getD_eq_getElem _ _ hi, hie, edge_key_congr T hcells]

theorem edge_pair_inj (T : HexaTables) (hE : T.edges_in_range) (m m1 : Hexmesh)
    (h1 : update_interior_adjacency T m = Except.ok m1) (x y : Nat) (hx : x < num_edges m1)
    (hy : y < num_edges m1) (h : edge_pair m1 x = edge_pair m1 y) : x = y := by
  obtain ⟨_, hk⟩ := derived_edge_pairs T hE m m1 h1
  have hnd : ((List.range (num_edges m1)).map (edge_pair m1)).Nodup := by
    rw [hk]; exact e2c_map_keys_nodup T m
  exact List.inj_on_of_nodup_map hnd (List.mem_range.2 hx) (List.mem_range.2 hy) h

theorem unique_pair_map (g : Nat → Nat) {a b c d : Nat}
    (h : unique_pair a b = unique_pair c d) :
    unique_pair (g a) (g b) = unique_pair (g c) (g d) := by
  rcases unique_pair_eq h with ⟨rfl, rfl⟩ | ⟨rfl, rfl⟩
  · rfl
  · exact unique_pair_comm _ _

/-- The four sides of a quad with pairwise distinct corners are pairwise
distinct, and none of them is a diagonal of the quad. -/
theorem quad_sides_nodup (v0 v1 v2 v3 : Nat) (h : [v0, v1, v2, v3].Nodup) :
    [unique_pair v0 v1, unique_pair v1 v2, unique_pair v2 v3, unique_pair v3 v0].Nodup ∧
    ∀ p ∈ [unique_pair v0 v1, unique_pair v1 v2, unique_pair v2 v3, unique_pair v3 v0],
      p ≠ unique_pair v0 v2 ∧ p ≠ unique_pair v1 v3 := by
  simp only [List.nodup_cons, List.mem_cons, List.mem_singleton, List.not_mem_nil, or_false,
    not_or, List.nodup_nil, and_true, not_false_iff] at h
  obtain ⟨⟨h01, h02, h03⟩, ⟨h12, h13⟩, h23⟩ := h
  have key : ∀ a b c d : Nat, a ≠ c ∨ b ≠ d → a ≠ d ∨ b ≠ c →
      unique_pair a b ≠ unique_pair c d := by
    intro a b c d k1 k2 e
    rcases unique_pair_eq e with ⟨q1, q2⟩ | ⟨q1, q2⟩
    · rcases k1 with k | k
      · exact k q1
      · exact k q2
    · rcases k2 with k | k
      · exact k q1
      · exact k q2
  constructor
  · simp only [List.nodup_cons, List.mem_cons, List.mem_singleton, List.not_mem_nil, or_false,
      not_or, List.nodup_nil, and_true, not_false_iff]
    refine ⟨⟨?_, ?_, ?_⟩, ⟨?_, ?_⟩, ?_⟩
    · exact key _ _ _ _ (Or.inl h01) (Or.inl h02)
    · exact key _ _ _ _ (Or.inl h02) (Or.inl h03)
    · exact key _ _ _ _ (Or.inl h03) (Or.inr h13)
    · exact key _ _ _ _ (Or.inl h12) (Or.inl h13)
    · exact key _ _ _ _ (Or.inl h13) (Or.inl (Ne.symm h01))
    · exact key _ _ _ _ (Or.inl h23) (Or.inl (Ne.symm h02))
  · intro p hp
    simp only [List.mem_cons, List.mem_singleton, List.not_mem_nil, or_false] at hp
    rcases hp with rfl | rfl | rfl | rfl
    · exact ⟨key _ _ _ _ (Or.inr h12) (Or.inl h02), key _ _ _ _ (Or.inl h01) (Or.inl h03)⟩
    · exact ⟨key _ _ _ _ (Or.inl (Ne.symm h01)) (Or.inl h12),
        key _ _ _ _ (Or.inr h23) (Or.inl h13)⟩
    · exact ⟨key _ _ _ _ (Or.inl (Ne.symm h02)) (Or.inr (Ne.symm h03)),
        key _ _ _ _ (Or.inl (Ne.symm h12)) (Or.inl h23)⟩
    · exact ⟨key _ _ _ _ (Or.inl (Ne.symm h03)) (Or.inl (Ne.symm h23)),
        key _ _ _ _ (Or.inl (Ne.symm h13)) (Or.inr h01)⟩

theorem mem_face_of_vid (T : HexaTables) (hF : T.faces_in_range) (m : Hexmesh)
    (hd : cells_distinct m) (cid f j : Nat) (hc : cid < num_cells m) (hf : f < faces_per_cell)
    (hj : j < verts_per_cell) (h : cell_vid m cid j ∈ local_face_ids T m cid f) :
    j ∈ T.face f := by
  rw [local_face_ids_eq_map] at h
  obtain ⟨i, hi, e⟩ := List.mem_map.1 h
  rw [← cell_vid_inj m hd cid hc i j (mem_face_lt T hF f hf i hi) hj e]
  exact hi

theorem corner_mem_local_face_ids (T : HexaTables) (m : Hexmesh) (cid f k : Nat) (hk : k < 4) :
    cell_vid m cid (T.HEXA_FACES f k) ∈ local_face_ids T m cid f := by
  unfold local_face_ids
  interval_cases k <;> simp

/-- The edges registered with a boundary face of a cell with pairwise distinct
vertex ids are its four sides, each once. -/
theorem face_edges_of_sides (T : HexaTables) (hE : T.edges_in_range) (hF : T.faces_in_range)
    (hN : T.faces_nodup) (hB : T.faces_bounded_by_edges) (hD : T.edges_distinct)
    (hS : T.edges_on_sides) (m m1 : Hexmesh) (hd : cells_distinct m)
    (h1 : update_interior_adjacency T m = Except.ok m1) (it : List Nat × (Nat × Nat))
    (hc : it.2.1 < num_cells m1) (hf : it.2.2 < faces_per_cell) :
    (face_edges_of T m1 it).Nodup ∧
    (∀ eid, eid ∈ face_edges_of T m1 it ↔ eid < num_edges m1 ∧ ∃ k < 4,
      edge_pair m1 eid = unique_pair (cell_vid m1 it.2.1 (T.HEXA_FACES it.2.2 k))
        (cell_vid m1 it.2.1 (T.HEXA_FACES it.2.2 ((k + 1) % 4)))) ∧
    (∀ k < 4, ∃ eid ∈ face_edges_of T m1 it,
      edge_pair m1 eid = unique_pair (cell_vid m1 it.2.1 (T.HEXA_FACES it.2.2 k))
        (cell_vid m1 it.2.1 (T.HEXA_FACES it.2.2 ((k + 1) % 4)))) ∧
    (face_edges_of T m1 it).length = 4 := by
  obtain ⟨_, hcells, _⟩ := update_interior_adjacency_frame T hE m m1 h1
  have hd1 : cells_distinct m1 := cells_distinct_congr hcells hd
  obtain ⟨nd, hiff, hex⟩ := interior_c2e_rows T hE hD m m1 hd h1 it.2.1 hc
  have hnd : (face_edges_of T m1 it).Nodup := nd.filter _
  have hmem : ∀ eid, eid ∈ face_edges_of T m1 it ↔ eid < num_edges m1 ∧ ∃ k < 4,
      edge_pair m1 eid = unique_pair (cell_vid m1 it.2.1 (T.HEXA_FACES it.2.2 k))
        (cell_vid m1 it.2.1 (T.HEXA_FACES it.2.2 ((k + 1) % 4))) := by
    intro eid
    unfold face_edges_of
    rw [List.mem_filter, edge_touches_iff, hiff eid]
    constructor
    · rintro ⟨⟨he, e, he', hk⟩, p0, p1⟩
      refine ⟨he, ?_⟩
      have q0 : (edge_pair m1 eid).1 ∈ local_face_ids T m1 it.2.1 it.2.2 := p0
      have q1 : (edge_pair m1 eid).2 ∈ local_face_ids T m1 it.2.1 it.2.2 := p1
      rw [← hk] at q0 q1
      have b0 := hE e he' 0 (by decide)
      have b1 := hE e he' 1 (by decide)
      have hboth : T.HEXA_EDGES e 0 ∈ T.face it.2.2 ∧ T.HEXA_EDGES e 1 ∈ T.face it.2.2 := by
        rcases unique_pair_cases (cell_vid m1 it.2.1 (T.HEXA_EDGES e 0))
          (cell_vid m1 it.2.1 (T.HEXA_EDGES e 1)) with q | q
        · rw [edge_key, q] at q0 q1
          exact ⟨mem_face_of_vid T hF m1 hd1 _ _ _ hc hf b0 q0,
            mem_face_of_vid T hF m1 hd1 _ _ _ hc hf b1 q1⟩
        · rw [edge_key, q] at q0 q1
          exact ⟨mem_face_of_vid T hF m1 hd1 _ _ _ hc hf b0 q1,
            mem_face_of_vid T hF m1 hd1 _ _ _ hc hf b1 q0⟩
      obtain ⟨k, hk4, hup⟩ := hS _ hf e he' hboth
      refine ⟨k, hk4, ?_⟩
      rw [← hk]
      exact unique_pair_map (cell_vid m1 it.2.1) hup
    · rintro ⟨he, k, hk4, hp⟩
      obtain ⟨e, he', hek⟩ := hB _ hf k hk4
      have hkey : edge_key T m1 it.2.1 e = edge_pair m1 eid := by
        rw [hp]
        exact unique_pair_map (cell_vid m1 it.2.1) hek
      refine ⟨⟨he, e, he', hkey⟩, ?_⟩
      have hk' : (k + 1) % 4 < 4 := Nat.mod_lt _ (by decide)
      have c0 := corner_mem_local_face_ids T m1 it.2.1 it.2.2 k hk4
      have c1 := corner_mem_local_face_ids T m1 it.2.1 it.2.2 ((k + 1) % 4) hk'
      show (edge_pair m1 eid).1 ∈ local_face_ids T m1 it.2.1 it.2.2 ∧
        (edge_pair m1 eid).2 ∈ local_face_ids T m1 it.2.1 it.2.2
      rw [hp]
      rcases unique_pair_cases (cell_vid m1 it.2.1 (T.HEXA_FACES it.2.2 k))
        (cell_vid m1 it.2.1 (T.HEXA_FACES it.2.2 ((k + 1) % 4))) with q | q
      · rw [q]; exact ⟨c0, c1⟩
      · rw [q]; exact ⟨c1, c0⟩
  have hside : ∀ k < 4, ∃ eid ∈ face_edges_of T m1 it,
      edge_pair m1 eid = unique_pair (cell_vid m1 it.2.1 (T.HEXA_FACES it.2.2 k))
        (cell_vid m1 it.2.1 (T.HEXA_FACES it.2.2 ((k + 1) % 4))) := by
    intro k hk4
    obtain ⟨e, he', hek⟩ := hB _ hf k hk4
    obtain ⟨eid, he, hp⟩ := hex e he'
    have hp2 : edge_pair m1 eid = unique_pair (cell_vid m1 it.2.1 (T.HEXA_FACES it.2.2 k))
        (cell_vid m1 it.2.1 (T.HEXA_FACES it.2.2 ((k + 1) % 4))) := by
      rw [hp]
      exact unique_pair_map (cell_vid m1 it.2.1) hek
    exact ⟨eid, (hmem eid).2 ⟨he, k, hk4, hp2⟩, hp2⟩
  refine ⟨hnd, hmem, hside, ?_⟩
  have hq := quad_sides_nodup _ _ _ _ (local_face_ids_nodup T hF hN m1 hd1 it.2.1 it.2.2 hc hf)
  have hmapnd : ((face_edges_of T m1 it).map (edge_pair m1)).Nodup := by
    refine List.Nodup.map_on ?_ hnd
    intro x hx y hy hxy
    exact edge_pair_inj T hE m m1 h1 x y ((hmem x).1 hx).1 ((hmem y).1 hy).1 hxy
  have hperm := (List.perm_ext_iff_of_nodup hmapnd hq.1).2 (by
    intro p
    simp only [List.mem_map, List.mem_cons, List.mem_singleton, List.not_mem_nil, or_false]
    constructor
    · rintro ⟨eid, heid, rfl⟩
      obtain ⟨_, k, hk4, hp⟩ := (hmem eid).1 heid
      rw [hp]
      interval_cases k
      · exact Or.inl rfl
      · exact Or.inr (Or.inl rfl)
      · exact Or.inr (Or.inr (Or.inl rfl))
      · exact Or.inr (Or.inr (Or.inr rfl))
    · rintro (rfl | rfl | rfl | rfl)
      · obtain ⟨eid, h1, h2⟩ := hside 0 (by decide); exact ⟨eid, h1, h2⟩
      · obtain ⟨eid, h1, h2⟩ := hside 1 (by decide); exact ⟨eid, h1, h2⟩
      · obtain ⟨eid, h1, h2⟩ := hside 2 (by decide); exact ⟨eid, h1, h2⟩
      · obtain ⟨eid, h1, h2⟩ := hside 3 (by decide); exact ⟨eid, h1, h2⟩)
  have := hperm.length_eq
  simpa using this

/-! ## Which probe owns a surviving key -/

section ToggleOwner
variable {K V : Type} [DecidableEq K] (lt : K → K → Bool)

/-- A probe with another key leaves the entries of a key alone. -/
theorem toggle_other (mp : List (K × V)) (c z : K × V) (h : c.1 ≠ z.1) :
    z ∈ toggle lt mp c ↔ z ∈ mp := by
  unfold toggle
  split
  · unfold map_erase
    rw [List.mem_filter]
    constructor
    · exact fun hz => hz.1
    · intro hz
      refine ⟨hz, ?_⟩
      have : ¬ z.1 = c.1 := fun e => h e.symm
      simp [this]
  · rw [mem_map_insert]
    constructor
    · rintro (hz | hz)
      · exact absurd (by rw [hz]) h
      · exact hz
    · exact Or.inr

theorem toggle_fold_other (z : K × V) (B : List (K × V)) :
    ∀ mp : List (K × V), (∀ c ∈ B, c.1 ≠ z.1) →
      (z ∈ B.foldl (toggle lt) mp ↔ z ∈ mp) := by
  induction B with
  | nil => intro mp _; rfl
  | cons c B ih =>
    intro mp h
    rw [List.foldl_cons, ih _ (fun c hc => h c (List.mem_cons_of_mem _ hc)),
      toggle_other lt mp c z (h c (List.mem_cons_self _ _))]

/-- Right after a probe, the only entry with the key of the probe is the probe. -/
theorem toggle_same (mp : List (K × V)) (y z : K × V) (h : z ∈ toggle lt mp y)
    (hk : z.1 = y.1) : z = y := by
  unfold toggle at h
  split at h
  · unfold map_erase at h
    have := (List.mem_filter.1 h).2
    simp [hk] at this
  · rename_i hc
    rcases (mem_map_insert lt y.1 y.2 mp z).1 h with hz | hz
    · exact hz
    · exfalso
      apply hc
      rw [map_contains_iff, ← hk]
      exact List.mem_map_of_mem _ hz

theorem exists_last_of_mem {α : Type} (p : α → Prop) (l : List α) (h : ∃ c ∈ l, p c) :
    ∃ A y B, l = A ++ y :: B ∧ p y ∧ ∀ c ∈ B, ¬ p c := by
  induction l with
  | nil => obtain ⟨c, hc, _⟩ := h; cases hc
  | cons a l ih =>
    by_cases hl : ∃ c ∈ l, p c
    · obtain ⟨A, y, B, e, hy, hB⟩ := ih hl
      exact ⟨a :: A, y, B, by rw [e]; rfl, hy, hB⟩
    · obtain ⟨c, hc, hpc⟩ := h
      rcases List.mem_cons.1 hc with rfl | hc
      · exact ⟨[], c, l, rfl, hpc, fun d hd hpd => hl ⟨d, hd, hpd⟩⟩
      · exact absurd ⟨c, hc, hpc⟩ hl

/-- An entry of the map at the end of a run of probes is the last probe of its
key. -/
theorem toggle_run_last (l : List (K × V)) (x : K × V) (hx : x ∈ l.foldl (toggle lt) []) :
    ∃ A B, l = A ++ x :: B ∧ ∀ c ∈ B, c.1 ≠ x.1 := by
  have hxl := (toggle_run lt l).2.2 x hx
  obtain ⟨A, y, B, e, hy, hB⟩ := exists_last_of_mem (fun c => c.1 = x.1) l ⟨x, hxl, rfl⟩
  rw [e, List.foldl_append, List.foldl_cons, toggle_fold_other lt x B _ hB] at hx
  have hxy := toggle_same lt _ y x hx hy.symm
  exact ⟨A, B, by rw [e, hxy], hB⟩

/-- The last probe of a key that is probed an odd number of times is an entry of
the map at the end of the run. -/
theorem toggle_run_mem (A B : List (K × V)) (x : K × V) (hB : ∀ c ∈ B, c.1 ≠ x.1)
    (hodd : (((A ++ x :: B).map Prod.fst).filter (fun k => decide (k = x.1))).length % 2 = 1) :
    x ∈ (A ++ x :: B).foldl (toggle lt) [] := by
  rw [List.foldl_append, List.foldl_cons, toggle_fold_other lt x B _ hB]
  have hBk : (B.map Prod.fst).filter (fun k => decide (k = x.1)) = [] := by
    rw [List.filter_eq_nil_iff]
    intro k hk
    obtain ⟨c, hc, rfl⟩ := List.mem_map.1 hk
    simpa using hB c hc
  rw [List.map_append, List.map_cons, List.filter_append, List.filter_cons, hBk] at hodd
  simp only [decide_True, if_true, List.length_append, List.length_cons, List.length_nil] at hodd
  have hA := (toggle_run lt A).2.1 x.1
  have hnot : ¬ map_contains (A.foldl (toggle lt) []) x.1 = true := by
    rw [map_contains_iff]
    intro hin
    have hpos : 0 < (((A.foldl (toggle lt) []).map Prod.fst).filter
        (fun k => decide (k = x.1))).length := by
      rw [List.length_pos_iff_exists_mem]
      exact ⟨x.1, List.mem_filter.2 ⟨hin, by simp⟩⟩
    omega
  have ht : ∀ mp : List (K × V), ¬ map_contains mp x.1 = true →
      toggle lt mp x = map_insert lt x.1 x.2 mp := by
    intro mp h
    unfold toggle
    rw [if_neg h]
  rw [ht _ hnot, mem_map_insert]
  exact Or.inl rfl

end ToggleOwner

/-- The candidate faces are visited cell by cell, and face by face in a cell. -/
theorem face_cands_sorted (T : HexaTables) (m : Hexmesh) :
    (face_cands T m).Pairwise
      (fun a b => a.2.1 < b.2.1 ∨ (a.2.1 = b.2.1 ∧ a.2.2 < b.2.2)) := by
  unfold face_cands
  rw [List.pairwise_flatMap]
  constructor
  · intro cid _
    rw [List.pairwise_map]
    exact (List.pairwise_lt_range _).imp (fun h => Or.inr ⟨rfl, h⟩)
  · refine (List.pairwise_lt_range _).imp ?_
    intro a b hab x hx y hy
    obtain ⟨_, _, rfl⟩ := List.mem_map.1 hx
    obtain ⟨_, _, rfl⟩ := List.mem_map.1 hy
    exact Or.inl hab

/-- The entry of the local face `f` of the cell `cid` survives the first surface
loop iff an odd number of cells have a face with its key and no later cell has
one. -/
theorem mem_f2c_map_iff (T : HexaTables) (hF : T.faces_in_range) (hD : T.faces_distinct)
    (m : Hexmesh) (hd : cells_distinct m) (cid f : Nat) (hc : cid < num_cells m)
    (hf : f < faces_per_cell) :
    (face_key T m cid f, (cid, f)) ∈ f2c_map_of T m ↔
      cells_with_face_key T m (face_key T m cid f) % 2 = 1 ∧
      ∀ c < num_cells m, cid < c → ∀ g < faces_per_cell,
        face_key T m c g ≠ face_key T m cid f := by
  have hsorted := face_cands_sorted T m
  have hcand : (face_key T m cid f, (cid, f)) ∈ face_cands T m :=
    (mem_face_cands T m _).2 ⟨hc, hf, rfl⟩
  constructor
  · intro hx
    constructor
    · have h1 := f2c_map_keys_count T m (face_key T m cid f)
      rw [face_cands_count T hF hD m hd] at h1
      have hpos : 0 < (((f2c_map_of T m).map Prod.fst).filter
          (fun x => decide (x = face_key T m cid f))).length := by
        rw [List.length_pos_iff_exists_mem]
        exact ⟨_, List.mem_filter.2 ⟨List.mem_map_of_mem _ hx, by simp⟩⟩
      omega
    · obtain ⟨A, B, e, hB⟩ := toggle_run_last face_lt (face_cands T m) _ hx
      intro c hcn hlt g hg hkey
      have hy : (face_key T m c g, (c, g)) ∈ face_cands T m :=
        (mem_face_cands T m _).2 ⟨hcn, hg, rfl⟩
      rw [e] at hy hsorted
      obtain ⟨_, _, hAB⟩ := List.pairwise_append.1 hsorted
      rcases List.mem_append.1 hy with hy | hy
      · rcases hAB _ hy _ (List.mem_cons_self _ _) with h | ⟨h, _⟩
        · exact absurd h (by simp only; omega)
        · exact absurd h (by simp only; omega)
      · rcases List.mem_cons.1 hy with hy | hy
        · have : c = cid := congrArg (fun z => z.2.1) hy
          omega
        · exact hB _ hy hkey
  · rintro ⟨hodd, hlast⟩
    obtain ⟨A, B, e⟩ := List.append_of_mem hcand
    have hB : ∀ c ∈ B, c.1 ≠ (face_key T m cid f, (cid, f)).1 := by
      intro c hcB
      have hcm : c ∈ face_cands T m := by
        rw [e]; exact List.mem_append_right _ (List.mem_cons_of_mem _ hcB)
      obtain ⟨c1, c2, c3⟩ := (mem_face_cands T m c).1 hcm
      rw [e] at hsorted
      have hx := List.rel_of_pairwise_cons (List.pairwise_append.1 hsorted).2.1 hcB
      rw [c3]
      rcases hx with h | ⟨h1, h2⟩
      · exact hlast _ c1 h _ c2
      · intro hk
        have h1' : cid = c.2.1 := h1
        rw [← h1'] at hk
        have := face_key_inj T hF hD m hd cid hc _ _ c2 hf hk
        have h2' : f < c.2.2 := h2
        omega
    unfold f2c_map_of
    rw [e]
    refine toggle_run_mem face_lt A B _ hB ?_
    rw [← e, face_cands_count T hF hD m hd]
    exact hodd

/-- After the second surface loop the row of `c2f` of a cell has one entry per
entry of `f2c_map` of this cell. -/
theorem surface_pure_c2f_length (T : HexaTables) (hT : T.faces_in_range) (m : Hexmesh)
    (hin : ids_in_range m) (hr : edges_ready m) (c : Nat) :
    (row (surface_pure T m).c2f c).length =
      ((f2c_map_of T m).filter (fun it => decide (it.2.1 = c))).length := by
  have key := foldl_inv_pre
    (fun pre s => SurfaceInv m (f2c_map_of T m).length pre.length s ∧
      (row s.m.c2f c).length = (pre.filter (fun it => decide (it.2.1 = c))).length)
    (surface_second_pure T) (f2c_map_of T m)
    (by
      intro pre x post s hl ⟨inv, rows⟩
      have hx : x ∈ f2c_map_of T m := by rw [hl]; simp
      obtain ⟨hc, hf, _⟩ := (mem_face_cands T m x).1 (mem_f2c_map T m x hx)
      have hn : pre.length < (f2c_map_of T m).length := by rw [hl]; simp
      refine ⟨?_, ?_⟩
      · have := (surface_second_step T hT m hin hr _ _ s x hc hf hn inv).2
        simpa using this
      · obtain ⟨a, b, hshape⟩ := surface_second_pure_shape T s x
        have hc2f : (surface_second_pure T s x).m.c2f = push_row s.m.c2f x.2.1 s.fresh_id := by
          rw [hshape]; rfl
        have hcl : x.2.1 < s.m.c2f.length := by rw [inv.c2f]; exact hc
        rw [hc2f, row_push_row _ _ _ _ hcl, List.filter_append, List.length_append, ← rows]
        by_cases hcx : c = x.2.1
        · have : x.2.1 = c := hcx.symm
          simp [hcx]
        · have : ¬ x.2.1 = c := fun e => hcx e.symm
          simp [hcx, this])
    { m := surface_start T m, fresh_id := 0 }
    ⟨surface_start_inv T m, by
      show (row (List.replicate _ []) c).length = _
      rw [row_replicate]; rfl⟩
  have hc : (surface_pure T m).c2f = ((f2c_map_of T m).foldl (surface_second_pure T)
      { m := surface_start T m, fresh_id := 0 }).m.c2f := by
    unfold surface_pure
    dsimp only
    rw [surface_third_fold_c2f]
    rfl
  rw [hc]
  exact key.2

/-- The entries of `f2c_map` of a cell, counted by local face. -/
theorem f2c_map_owned_length (T : HexaTables) (m : Hexmesh) (c : Nat) :
    ((f2c_map_of T m).filter (fun it => decide (it.2.1 = c))).length =
      ((List.range faces_per_cell).filter
        (fun f => decide ((face_key T m c f, (c, f)) ∈ f2c_map_of T m))).length := by
  have hn : (f2c_map_of T m).Nodup := List.Nodup.of_map _ (f2c_map_keys_nodup T m)
  have hn2 : (((f2c_map_of T m).filter (fun it => decide (it.2.1 = c))).map
      (fun it => it.2.2)).Nodup := by
    refine List.Nodup.map_on ?_ (hn.filter _)
    intro x hx y hy hxy
    obtain ⟨hx1, hx2⟩ := List.mem_filter.1 hx
    obtain ⟨hy1, hy2⟩ := List.mem_filter.1 hy
    have hx2' : x.2.1 = c := by simpa using hx2
    have hy2' : y.2.1 = c := by simpa using hy2
    obtain ⟨_, _, kx⟩ := (mem_face_cands T m x).1 (mem_f2c_map T m x hx1)
    obtain ⟨_, _, ky⟩ := (mem_face_cands T m y).1 (mem_f2c_map T m y hy1)
    have h2 : x.2 = y.2 := Prod.ext (hx2'.trans hy2'.symm) hxy
    exact Prod.ext (by rw [kx, ky, h2]) h2
  have hn3 : ((List.range faces_per_cell).filter
      (fun f => decide ((face_key T m c f, (c, f)) ∈ f2c_map_of T m))).Nodup :=
    (List.nodup_range _).filter _
  have hperm := (List.perm_ext_iff_of_nodup hn2 hn3).2 (by
    intro g
    rw [List.mem_map, List.mem_filter, List.mem_range]
    constructor
    · rintro ⟨x, hx, rfl⟩
      obtain ⟨hx1, hx2⟩ := List.mem_filter.1 hx
      have hx2' : x.2.1 = c := by simpa using hx2
      obtain ⟨_, k2, k3⟩ := (mem_face_cands T m x).1 (mem_f2c_map T m x hx1)
      refine ⟨k2, ?_⟩
      rw [decide_eq_true_eq]
      have hxe : x = (face_key T m c x.2.2, (c, x.2.2)) :=
        Prod.ext (by rw [k3, hx2']) (Prod.ext hx2' rfl)
      rw [← hxe]
      exact hx1
    · rintro ⟨_, hg⟩
      rw [decide_eq_true_eq] at hg
      exact ⟨_, List.mem_filter.2 ⟨hg, by simp⟩, rfl⟩)
  have := hperm.length_eq
  rwa [List.length_map] at this

/-- Two different cells that have a face with the key `k` are counted by
`cells_with_face_key`. -/
theorem two_le_cells_with_face_key (T : HexaTables) (m : Hexmesh) (k : List Nat) (a b : Nat)
    (hab : a ≠ b) (ha : a < num_cells m) (hb : b < num_cells m) (f g : Nat)
    (hf : f < faces_per_cell) (hg : g < faces_per_cell)
    (hka : face_key T m a f = k) (hkb : face_key T m b g = k) :
    2 ≤ cells_with_face_key T m k := by
  unfold cells_with_face_key
  have hn : [a, b].Nodup := by simp [hab]
  have hsub : [a, b] ⊆ (List.range (num_cells m)).filter (fun cid =>
      (List.range faces_per_cell).any (fun f => decide (face_key T m cid f = k))) := by
    intro x hx
    simp only [List.mem_cons, List.mem_singleton, List.not_mem_nil, or_false] at hx
    rw [List.mem_filter, List.mem_range, List.any_eq_true]
    rcases hx with rfl | rfl
    · exact ⟨ha, f, List.mem_range.2 hf, by simpa using hka⟩
    · exact ⟨hb, g, List.mem_range.2 hg, by simpa using hkb⟩
  exact (List.subperm_of_subset hn hsub).length_le

/-! ## A run that stops in the interior step -/

theorem init_error_of_interior_error (T : HexaTables) (m : Hexmesh) (e : Fault)
    (h : update_interior_adjacency T m = Except.error e) : init T m = Except.error e := by
  unfold init
  rw [h]
  rfl

set_option maxRecDepth 100000 in
/-- The run of `update_interior_adjacency` on `fan_of_cells`, evaluated. -/
theorem fan_of_cells_interior_eq :
    update_interior_adjacency standard_tables fan_of_cells =
      Except.error Fault.assertion_failed := rfl

/-! ## C1: boundary parity -/

/-- C1. Boundary parity: when every cell has 8 pairwise distinct in-range vertex
ids (and the 6 local faces of the tables are pairwise distinct sets of local
vertices in `0..7`), `init` can only stop on the `c2c` assertion, and when it
completes, for every key `k` the number of derived faces whose sorted key is `k`
is 1 if the number of cells having a local face with sorted key `k` is odd, and
0 otherwise. -/
theorem boundary_parity (T : HexaTables) (hE : T.edges_in_range) (hF : T.faces_in_range)
    (hD : T.faces_distinct) (m : Hexmesh) (hin : ids_in_range m) (hdist : cells_distinct m) :
    init T m = Except.error Fault.assertion_failed ∨
      ∃ m2, init T m = Except.ok m2 ∧
        ∀ k : List Nat,
          faces_with_key m2 k = if cells_with_face_key T m k % 2 = 1 then 1 else 0 := by
  rcases init_cases T hE hF m hin with h | ⟨m1, h1, h2⟩
  · exact Or.inl h
  · refine Or.inr ⟨surface_pure T m1, h2, ?_⟩
    obtain ⟨_, hc, _⟩ := update_interior_adjacency_frame T hE m m1 h1
    intro k
    obtain ⟨_, hk⟩ := derived_face_keys T m1 (surface_pure T m1) (surface_pure_faces T m1).1
    have e : faces_with_key (surface_pure T m1) k =
        (((f2c_map_of T m1).map Prod.fst).filter (fun x => decide (x = k))).length := by
      rw [← hk, List.filter_map, List.length_map]
      rfl
    rw [e, f2c_map_keys_count, face_cands_count T hF hD m1 (cells_distinct_congr hc hdist) k,
      cells_with_face_key_congr T hc k]
    split <;> omega

set_option maxRecDepth 100000 in
theorem boundary_parity_witness :
    standard_tables.edges_in_range ∧ standard_tables.faces_in_range ∧
    standard_tables.faces_distinct ∧ ids_in_range two_cubes ∧ cells_distinct two_cubes ∧
    (∃ m2, init standard_tables two_cubes = Except.ok m2) ∧
    (init standard_tables two_cubes = Except.error Fault.assertion_failed ∨
      ∃ m2, init standard_tables two_cubes = Except.ok m2 ∧
        ∀ k : List Nat, faces_with_key m2 k =
          if cells_with_face_key standard_tables two_cubes k % 2 = 1 then 1 else 0) :=
  ⟨by decide, by decide, by decide, by decide, by decide, ⟨_, two_cubes_derived_eq⟩,
    boundary_parity standard_tables (by decide) (by decide) (by decide) two_cubes
      (by decide) (by decide)⟩

/-! ## C2: edge uniqueness -/

/-- C2. Edge uniqueness: on an input with in-range vertex ids
`update_interior_adjacency` can only stop on the `c2c` assertion, and when it
completes the number of derived edges is the number of distinct canonical
(min,max) pairs among the `12 * num_cells` candidate local edges, and every such
pair is `(edges[2e], edges[2e+1])` for exactly one edge `e`. -/
theorem edge_uniqueness (T : HexaTables) (hE : T.edges_in_range) (hF : T.faces_in_range)
    (m : Hexmesh) (hin : ids_in_range m) :
    update_interior_adjacency T m = Except.error Fault.assertion_failed ∨
      ∃ m1, update_interior_adjacency T m = Except.ok m1 ∧
        num_edges m1 = (candidate_edges T m).dedup.length ∧
        ∀ p ∈ candidate_edges T m,
          ((List.range (num_edges m1)).filter
            (fun e => decide (edge_pair m1 e = p))).length = 1 := by
  rcases update_interior_adjacency_total T hE hF m hin with h | ⟨m1, h1⟩
  · exact Or.inl h
  · refine Or.inr ⟨m1, h1, ?_, ?_⟩
    · obtain ⟨hn, _⟩ := derived_edge_pairs T hE m m1 h1
      rw [hn, ← List.length_map (e2c_map_of T m) Prod.fst]
      refine List.Perm.length_eq
        ((List.perm_ext_iff_of_nodup (e2c_map_keys_nodup T m) (List.nodup_dedup _)).2 ?_)
      intro k
      rw [mem_e2c_map_keys, List.mem_dedup]
    · intro p hp
      obtain ⟨_, hk⟩ := derived_edge_pairs T hE m m1 h1
      have e : ((List.range (num_edges m1)).filter
          (fun e => decide (edge_pair m1 e = p))).length =
          (((e2c_map_of T m).map Prod.fst).filter (fun x => decide (x = p))).length := by
        rw [← hk, List.filter_map, List.length_map]
        rfl
      rw [e, filter_eq_length_of_nodup _ (e2c_map_keys_nodup T m) p,
        if_pos ((mem_e2c_map_keys T m p).2 hp)]

set_option maxRecDepth 100000 in
theorem edge_uniqueness_witness :
    standard_tables.edges_in_range ∧ standard_tables.faces_in_range ∧ ids_in_range two_cubes ∧
    (∃ m1, update_interior_adjacency standard_tables two_cubes = Except.ok m1) ∧
    (update_interior_adjacency standard_tables two_cubes = Except.error Fault.assertion_failed ∨
      ∃ m1, update_interior_adjacency standard_tables two_cubes = Except.ok m1 ∧
        num_edges m1 = (candidate_edges standard_tables two_cubes).dedup.length ∧
        ∀ p ∈ candidate_edges standard_tables two_cubes,
          ((List.range (num_edges m1)).filter
            (fun e => decide (edge_pair m1 e = p))).length = 1) :=
  ⟨by decide, by decide, by decide, ⟨_, two_cubes_interior_eq⟩,
    edge_uniqueness standard_tables (by decide) (by decide) two_cubes (by decide)⟩

/-! ## C3: what membership in `c2c` guarantees -/

/-- C3, as the code has it: whenever `update_interior_adjacency` completes (in
particular on every input whose cells have 8 pairwise distinct in-range vertex
ids on which it completes), if `nbr` is in `c2c(cid)` then some local face of
one of the two cells has its 4 vertex ids among the 8 vertex ids of the other
cell. -/
theorem c2c_sound (T : HexaTables) (hE : T.edges_in_range) (m m1 : Hexmesh)
    (h1 : update_interior_adjacency T m = Except.ok m1) :
    ∀ cid nbr, nbr ∈ row m1.c2c cid → face_inside T m cid nbr ∨ face_inside T m nbr cid :=
  fun cid nbr h => (links_are_sound T hE m m1 h1 cid nbr h).2

set_option maxRecDepth 100000 in
theorem c2c_sound_witness :
    standard_tables.edges_in_range ∧ ids_in_range skewed_pair ∧ cells_distinct skewed_pair ∧
    update_interior_adjacency standard_tables skewed_pair =
      Except.ok (interior_of standard_tables skewed_pair) ∧
    ∀ cid nbr, nbr ∈ row (interior_of standard_tables skewed_pair).c2c cid →
      face_inside standard_tables skewed_pair cid nbr ∨
        face_inside standard_tables skewed_pair nbr cid :=
  ⟨by decide, by decide, by decide, rfl,
    c2c_sound standard_tables (by decide) skewed_pair
      (interior_of standard_tables skewed_pair) rfl⟩

set_option maxRecDepth 100000 in
/-- C3 as stated fails: in `skewed_pair` both cells have 8 pairwise distinct
in-range vertex ids, the derivation completes and cell `1` is in `c2c(0)`, yet no
local face of cell `0` and local face of cell `1` have the same 4 vertex ids. -/
theorem c2c_link_without_shared_face :
    ids_in_range skewed_pair ∧ cells_distinct skewed_pair ∧
    update_interior_adjacency standard_tables skewed_pair =
      Except.ok (interior_of standard_tables skewed_pair) ∧
    1 ∈ row (interior_of standard_tables skewed_pair).c2c 0 ∧
    ¬ shares_quad_face standard_tables skewed_pair 0 1 :=
  ⟨by decide, by decide, rfl, by decide, by decide⟩

/-! ## C4: completeness of `c2c` -/

/-- C4. Completeness of the cell-to-cell adjacency: when every cell has 8
pairwise distinct vertex ids (and, in the tables, every local face has 4
distinct local vertices in `0..7` and each of its 4 sides is a local edge) and
`update_interior_adjacency` completes, which needs the ids to be in range, two distinct cells `a`, `b` that have a
local face each on the same 4 vertex ids are in each other's `c2c`. -/
theorem c2c_complete (T : HexaTables) (hE : T.edges_in_range) (hF : T.faces_in_range)
    (hN : T.faces_nodup) (hB : T.faces_bounded_by_edges) (m m1 : Hexmesh)
    (hd : cells_distinct m)
    (h1 : update_interior_adjacency T m = Except.ok m1) :
    ∀ a < num_cells m, ∀ b < num_cells m, a ≠ b → shares_quad_face T m a b →
      b ∈ row m1.c2c a ∧ a ∈ row m1.c2c b := by
  intro a ha b hb hne h
  rcases Nat.lt_or_gt_of_ne hne with hab | hab
  · exact linked_of_shares_lt T hE hF hN hB m m1 hd h1 a b hab hb h
  · exact (linked_of_shares_lt T hE hF hN hB m m1 hd h1 b a hab ha
      (shares_quad_face_symm T m a b h)).symm

set_option maxRecDepth 100000 in
theorem c2c_complete_witness :
    standard_tables.edges_in_range ∧ standard_tables.faces_in_range ∧
    standard_tables.faces_nodup ∧ standard_tables.faces_bounded_by_edges ∧
    ids_in_range two_cubes ∧ cells_distinct two_cubes ∧
    update_interior_adjacency standard_tables two_cubes =
      Except.ok (interior_of standard_tables two_cubes) ∧
    shares_quad_face standard_tables two_cubes 0 1 ∧
    (interior_of standard_tables two_cubes).c2c = [[1], [0]] ∧
    ∀ a < num_cells two_cubes, ∀ b < num_cells two_cubes, a ≠ b →
      shares_quad_face standard_tables two_cubes a b →
      b ∈ row (interior_of standard_tables two_cubes).c2c a ∧
        a ∈ row (interior_of standard_tables two_cubes).c2c b :=
  ⟨by decide, by decide, by decide, by decide, by decide, by decide, rfl, by decide, by decide,
    c2c_complete standard_tables (by decide) (by decide) (by decide) (by decide) two_cubes
      (interior_of standard_tables two_cubes) (by decide) rfl⟩

/-! ## C5: symmetry of `c2c` -/

/-- C5. Symmetry of the cell-to-cell adjacency: when every cell has 8 pairwise
distinct vertex ids (and every local face of the tables has 4 distinct local
vertices in `0..7`) and `update_interior_adjacency` completes, which needs the
ids to be in range, every `nbr`
in `c2c(cid)` has `cid` in `c2c(nbr)`, and the two cells have at least 4 vertex
ids in common. -/
theorem c2c_symmetric (T : HexaTables) (hE : T.edges_in_range) (hF : T.faces_in_range)
    (hN : T.faces_nodup) (m m1 : Hexmesh) (hd : cells_distinct m)
    (h1 : update_interior_adjacency T m = Except.ok m1) :
    ∀ cid nbr, nbr ∈ row m1.c2c cid →
      cid ∈ row m1.c2c nbr ∧ 4 ≤ common_vids m cid nbr := by
  intro cid nbr h
  obtain ⟨hs, hi⟩ := links_are_sound T hE m m1 h1 cid nbr h
  obtain ⟨_, _, _, _, hl, _⟩ := update_interior_adjacency_frame T hE m m1 h1
  refine ⟨hs, common_vids_of_face_inside T hF hN m hd cid nbr ?_ ?_ hi⟩
  · rw [← hl]; exact lt_of_mem_row h
  · rw [← hl]; exact lt_of_mem_row hs

set_option maxRecDepth 100000 in
theorem c2c_symmetric_witness :
    standard_tables.edges_in_range ∧ standard_tables.faces_in_range ∧
    standard_tables.faces_nodup ∧ ids_in_range two_cubes ∧ cells_distinct two_cubes ∧
    update_interior_adjacency standard_tables two_cubes =
      Except.ok (interior_of standard_tables two_cubes) ∧
    1 ∈ row (interior_of standard_tables two_cubes).c2c 0 ∧
    ∀ cid nbr, nbr ∈ row (interior_of standard_tables two_cubes).c2c cid →
      cid ∈ row (interior_of standard_tables two_cubes).c2c nbr ∧
        4 ≤ common_vids two_cubes cid nbr :=
  ⟨by decide, by decide, by decide, by decide, by decide, rfl, by decide,
    c2c_symmetric standard_tables (by decide) (by decide) (by decide) two_cubes
      (interior_of standard_tables two_cubes) (by decide) rfl⟩

/-! ## C6: boundary membership consistency -/

/-- C6. Boundary membership consistency: on a freshly built mesh with in-range
vertex ids `init` can only stop on the `c2c` assertion, and when it completes
both flag arrays have one entry per vertex / per edge, `v_on_srf(vid)` is true
iff `vid` occurs in the derived `faces` array, and `e_on_srf(eid)` is true iff
`e2f(eid)` is non-empty. -/
theorem boundary_flags (T : HexaTables) (hE : T.edges_in_range) (hF : T.faces_in_range)
    (verts : List vec3d) (cells : List Nat) (hin : ids_in_range (Hexmesh.raw verts cells)) :
    init T (Hexmesh.raw verts cells) = Except.error Fault.assertion_failed ∨
      ∃ m2, init T (Hexmesh.raw verts cells) = Except.ok m2 ∧
        m2.v_on_srf.length = num_verts m2 ∧ m2.e_on_srf.length = num_edges m2 ∧
        (∀ vid < num_verts m2, m2.v_on_srf.getD vid false = true ↔ vid ∈ m2.faces) ∧
        (∀ eid < num_edges m2, m2.e_on_srf.getD eid false = true ↔ row m2.e2f eid ≠ []) := by
  rcases init_cases T hE hF _ hin with h | ⟨m1, h1, h2⟩
  · exact Or.inl h
  · obtain ⟨hv, hc, hvs, hes, _, _⟩ := update_interior_adjacency_frame T hE _ m1 h1
    obtain ⟨q1, q2, q3, q4, q5, q6⟩ :=
      surface_pure_flags T hF m1 (ids_in_range_congr hc hv hin) hvs hes
    refine Or.inr ⟨surface_pure T m1, h2, ?_, ?_, ?_, ?_⟩
    · rw [q3, q1]
    · rw [q4, q2]
    · intro vid _
      exact q5 vid
    · intro eid heid
      rw [q2] at heid
      exact q6 eid heid

set_option maxRecDepth 100000 in
theorem boundary_flags_witness :
    standard_tables.edges_in_range ∧ standard_tables.faces_in_range ∧
    ids_in_range (Hexmesh.raw two_cubes.verts two_cubes.cells) ∧
    (∃ m2, init standard_tables (Hexmesh.raw two_cubes.verts two_cubes.cells) = Except.ok m2) ∧
    (init standard_tables (Hexmesh.raw two_cubes.verts two_cubes.cells) =
        Except.error Fault.assertion_failed ∨
      ∃ m2, init standard_tables (Hexmesh.raw two_cubes.verts two_cubes.cells) = Except.ok m2 ∧
        m2.v_on_srf.length = num_verts m2 ∧ m2.e_on_srf.length = num_edges m2 ∧
        (∀ vid < num_verts m2, m2.v_on_srf.getD vid false = true ↔ vid ∈ m2.faces) ∧
        (∀ eid < num_edges m2, m2.e_on_srf.getD eid false = true ↔ row m2.e2f eid ≠ [])) :=
  ⟨by decide, by decide, by decide, ⟨_, two_cubes_derived_eq⟩,
    boundary_flags standard_tables (by decide) (by decide) two_cubes.verts two_cubes.cells
      (by decide)⟩

/-! ## C7: twelve edges per cell -/

/-- C7. Degree of the cell-to-edge incidence: on an input with in-range vertex
ids `update_interior_adjacency` can only stop on the `c2c` assertion, and when it
completes `c2e(cid)` has exactly 12 entries for every cell `cid`. -/
theorem c2e_degree (T : HexaTables) (hE : T.edges_in_range) (hF : T.faces_in_range)
    (m : Hexmesh) (hin : ids_in_range m) :
    update_interior_adjacency T m = Except.error Fault.assertion_failed ∨
      ∃ m1, update_interior_adjacency T m = Except.ok m1 ∧
        ∀ cid < num_cells m1, (row m1.c2e cid).length = 12 := by
  rcases update_interior_adjacency_total T hE hF m hin with h | ⟨m1, h1⟩
  · exact Or.inl h
  · refine Or.inr ⟨m1, h1, ?_⟩
    intro cid hcid
    obtain ⟨_, hc, _⟩ := update_interior_adjacency_frame T hE m m1 h1
    have hcid' : cid < num_cells m := by simpa [num_cells, hc] using hcid
    obtain ⟨v2c, s, hs, rfl⟩ := update_interior_adjacency_ok T hE m m1 h1
    rw [interior_second_loop_c2e_length T _ _ _ hs cid]
    have e0 : row (interior_start T m v2c).c2e cid = [] := row_replicate _ _
    have e1 : ((e2c_map_of T m).flatMap Prod.snd).count cid = edges_per_cell :=
      ((flat_push_back_run ipair_lt (edge_cands T m)).count_eq cid).trans
        (count_edge_cands T m cid hcid')
    rw [e0, e1]
    rfl

set_option maxRecDepth 100000 in
theorem c2e_degree_witness :
    standard_tables.edges_in_range ∧ standard_tables.faces_in_range ∧ ids_in_range two_cubes ∧
    (∃ m1, update_interior_adjacency standard_tables two_cubes = Except.ok m1) ∧
    (update_interior_adjacency standard_tables two_cubes = Except.error Fault.assertion_failed ∨
      ∃ m1, update_interior_adjacency standard_tables two_cubes = Except.ok m1 ∧
        ∀ cid < num_cells m1, (row m1.c2e cid).length = 12) :=
  ⟨by decide, by decide, by decide, ⟨_, two_cubes_interior_eq⟩,
    c2e_degree standard_tables (by decide) (by decide) two_cubes (by decide)⟩

/-! ## C8: faces per cell -/

/-- C8, as the code has it: when every cell has 8 pairwise distinct in-range vertex
ids (and the 6 local faces of the tables are pairwise distinct sets of local
vertices in `0..7`), `init` can only stop on the `c2c` assertion, and when it
completes, for every cell `cid` the length of `c2f(cid)` is the number of local
faces of `cid` that are boundary faces registered with `cid`: those whose sorted
key is the key of a face of an odd number of cells, none of them after `cid`. So
`c2f(cid)` has at most 6 entries, and exactly 6 when no other cell has a face with
the vertices of a face of `cid`. -/
theorem c2f_degree (T : HexaTables) (hE : T.edges_in_range) (hF : T.faces_in_range)
    (hD : T.faces_distinct) (m : Hexmesh) (hin : ids_in_range m) (hd : cells_distinct m) :
    init T m = Except.error Fault.assertion_failed ∨
      ∃ m2, init T m = Except.ok m2 ∧ ∀ cid < num_cells m2,
        (row m2.c2f cid).length =
          ((List.range faces_per_cell).filter (fun f => decide
            (cells_with_face_key T m (face_key T m cid f) % 2 = 1 ∧
              ∀ c < num_cells m, cid < c → ∀ g < faces_per_cell,
                face_key T m c g ≠ face_key T m cid f))).length ∧
        (row m2.c2f cid).length ≤ 6 ∧
        ((∀ f < faces_per_cell, cells_with_face_key T m (face_key T m cid f) = 1) →
          (row m2.c2f cid).length = 6) := by
  rcases init_cases T hE hF m hin with h | ⟨m1, h1, h2⟩
  · exact Or.inl h
  · refine Or.inr ⟨surface_pure T m1, h2, ?_⟩
    obtain ⟨hv, hc, _, _, _, hr⟩ := update_interior_adjacency_frame T hE m m1 h1
    have hin1 : ids_in_range m1 := ids_in_range_congr hc hv hin
    have hcells : (surface_pure T m1).cells = m.cells := (surface_pure_frame T m1).cells.trans hc
    intro cid hcid
    have hcm : cid < num_cells m := by rw [← num_cells_congr hcells]; exact hcid
    have hlen : (row (surface_pure T m1).c2f cid).length =
        ((List.range faces_per_cell).filter (fun f => decide
          (cells_with_face_key T m (face_key T m cid f) % 2 = 1 ∧
            ∀ c < num_cells m, cid < c → ∀ g < faces_per_cell,
              face_key T m c g ≠ face_key T m cid f))).length := by
      rw [surface_pure_c2f_length T hF m1 hin1 hr cid, f2c_map_of_congr T hc,
        f2c_map_owned_length T m cid]
      congr 1
      refine List.filter_congr ?_
      intro f hf
      rw [decide_eq_decide]
      exact mem_f2c_map_iff T hF hD m hd cid f hcm (List.mem_range.1 hf)
    refine ⟨hlen, surface_pure_c2f_le T m1 cid, ?_⟩
    intro hall
    rw [hlen, List.filter_eq_self.2, List.length_range]
    · rfl
    · intro f hf
      have hf' := List.mem_range.1 hf
      rw [decide_eq_true_eq]
      refine ⟨by rw [hall f hf'], ?_⟩
      intro c hcn hlt g hg hk
      have := two_le_cells_with_face_key T m (face_key T m cid f) cid c (by omega) hcm hcn f g
        hf' hg rfl hk
      rw [hall f hf'] at this
      omega

set_option maxRecDepth 100000 in
theorem c2f_degree_witness :
    standard_tables.edges_in_range ∧ standard_tables.faces_in_range ∧
    standard_tables.faces_distinct ∧ ids_in_range two_cubes ∧ cells_distinct two_cubes ∧
    (∃ m2, init standard_tables two_cubes = Except.ok m2 ∧
      row m2.c2f 0 = [0, 1, 2, 3, 4] ∧ row m2.c2f 1 = [5, 6, 7, 8, 9]) ∧
    ((List.range faces_per_cell).filter (fun f => decide
      (cells_with_face_key standard_tables two_cubes (face_key standard_tables two_cubes 0 f) % 2
          = 1 ∧
        ∀ c < num_cells two_cubes, 0 < c → ∀ g < faces_per_cell,
          face_key standard_tables two_cubes c g ≠ face_key standard_tables two_cubes 0 f))) =
      [0, 1, 3, 4, 5] ∧
    (init standard_tables two_cubes = Except.error Fault.assertion_failed ∨
      ∃ m2, init standard_tables two_cubes = Except.ok m2 ∧ ∀ cid < num_cells m2,
        (row m2.c2f cid).length =
          ((List.range faces_per_cell).filter (fun f => decide
            (cells_with_face_key standard_tables two_cubes
                (face_key standard_tables two_cubes cid f) % 2 = 1 ∧
              ∀ c < num_cells two_cubes, cid < c → ∀ g < faces_per_cell,
                face_key standard_tables two_cubes c g ≠
                  face_key standard_tables two_cubes cid f))).length ∧
        (row m2.c2f cid).length ≤ 6 ∧
        ((∀ f < faces_per_cell, cells_with_face_key standard_tables two_cubes
            (face_key standard_tables two_cubes cid f) = 1) →
          (row m2.c2f cid).length = 6)) :=
  ⟨by decide, by decide, by decide, by decide, by decide,
    ⟨_, two_cubes_derived_eq, by decide, by decide⟩, by decide,
    c2f_degree standard_tables (by decide) (by decide) (by decide) two_cubes
      (by decide) (by decide)⟩

set_option maxRecDepth 100000 in
/-- C8 as stated fails: in the mesh of two stacked cubes, whose cells have 8
pairwise distinct in-range vertex ids, `c2f(0)` has 5 entries, not 6: the face
shared with the other cube is not a derived face. -/
theorem c2f_of_stacked_cube :
    ids_in_range two_cubes ∧ cells_distinct two_cubes ∧
    ∃ m2, init standard_tables two_cubes = Except.ok m2 ∧ (row m2.c2f 0).length = 5 :=
  ⟨by decide, by decide, _, two_cubes_derived_eq, by decide⟩

/-! ## C9: at most six neighbours, by assertion -/

/-- What the assertion guards: whenever `update_interior_adjacency` completes,
every row of `c2c` has at most 6 entries. -/
theorem c2c_degree_on_completion (T : HexaTables) (hE : T.edges_in_range) (m m1 : Hexmesh)
    (h1 : update_interior_adjacency T m = Except.ok m1) :
    ∀ cid, (row m1.c2c cid).length ≤ 6 := by
  obtain ⟨v2c, s, hs, rfl⟩ := update_interior_adjacency_ok T hE m m1 h1
  refine interior_second_loop_rel T
    (fun a b => (∀ c, (row a.m.c2c c).length ≤ 6) → (∀ c, (row b.m.c2c c).length ≤ 6))
    (fun s h => h) (fun a b c h1 h2 h => h2 (h1 h)) ?_ ?_ ?_ _ _ s hs ?_
  · intro s cid nbr s' h hs c
    rcases link_cells_ok h with ⟨rfl, _⟩ | ⟨_, _, c1, c2, p1, p2, q1, q2, rfl⟩
    · exact hs c
    · show (row c2 c).length ≤ 6
      by_cases e1 : c = cid
      · rw [e1]; exact q1
      · by_cases e2 : c = nbr
        · rw [e2]; exact q2
        · rw [row_push_two p1 p2 c e1 e2]; exact hs c
  · intro s eid cid c2e e2c _ _ _ h
    exact h
  · intro s it a1 a2 b1 b2 _ _ _ _ h
    exact h
  · intro c
    show (row (List.replicate (num_cells m) []) c).length ≤ 6
    rw [row_replicate]
    exact Nat.zero_le _

set_option maxRecDepth 100000 in
/-- C9. The code breaks the bound its own assertion states: `fan_of_cells` has 8
cells, each with 8 pairwise distinct in-range vertex ids; the first entry of
`e2c_map`, the edge `(0, 1)`, lists all 8 cells, and the test
`cell_shared_face(0, c) != -1` holds for each of the 7 other cells `c`, so the
loop pushes a seventh neighbour into `c2c(0)` and the assertion
`c2c.at(cid).size() <= faces_per_cell()` fails: `update_interior_adjacency`, and
`init` with it, stop there. -/
theorem c2c_assertion_can_fail :
    ids_in_range fan_of_cells ∧ cells_distinct fan_of_cells ∧
    num_cells fan_of_cells = 8 ∧
    (e2c_map_of standard_tables fan_of_cells).head? = some ((0, 1), [0, 1, 2, 3, 4, 5, 6, 7]) ∧
    (∀ c < num_cells fan_of_cells, c ≠ 0 → face_inside standard_tables fan_of_cells 0 c) ∧
    update_interior_adjacency standard_tables fan_of_cells =
      Except.error Fault.assertion_failed ∧
    init standard_tables fan_of_cells = Except.error Fault.assertion_failed :=
  ⟨by decide, by decide, by decide, by decide, by decide, fan_of_cells_interior_eq,
    init_error_of_interior_error _ _ _ fan_of_cells_interior_eq⟩

/-! ## C10: the single cube -/

set_option maxRecDepth 100000 in
/-- C10. Single-cube scenario: for 8 vertices and the one cell `[0,..,7]` in the
local order of the tables, `init` yields exactly 12 edges and 6 boundary faces,
`v_on_srf` is true for all 8 vertices, `e_on_srf` is true for all 12 edges, and
`c2c(0)` is empty. -/
theorem single_cube_scenario :
    ∃ m, init standard_tables single_cube = Except.ok m ∧
      num_edges m = 12 ∧ m.edges.length = 24 ∧ num_faces m = 6 ∧ m.faces.length = 24 ∧
      m.v_on_srf = List.replicate 8 true ∧ m.e_on_srf = List.replicate 12 true ∧
      m.c2c = [[]] ∧ row m.c2c 0 = [] :=
  ⟨_, rfl, by decide, by decide, by decide, by decide, by decide, by decide, by decide,
    by decide⟩

/-! ## C11: the faces of two cells that share a face -/

/-- C11, as the code has it: two cells with 8 pairwise distinct in-range vertex
ids each that share exactly one quad face (one sorted face key is produced by
both cells): `init` completes and yields 10 boundary faces, the 12 candidate
faces less the two copies of the shared one. -/
theorem two_cells_face_count (T : HexaTables) (hE : T.edges_in_range)
    (hF : T.faces_in_range) (hD : T.faces_distinct) (m : Hexmesh) (h2 : num_cells m = 2)
    (hin : ids_in_range m) (hd : cells_distinct m)
    (hshare : (keys_of_cells T m 2).length = 1) :
    ∃ m2, init T m = Except.ok m2 ∧ num_faces m2 = 10 := by
  obtain ⟨m1, h1⟩ := update_interior_adjacency_small T hE hF m hin (by omega)
  obtain ⟨hv, hc, _, _, _, hr⟩ := update_interior_adjacency_frame T hE m m1 h1
  have hman : manifold_keys T m := by
    intro k _
    rw [← h2]
    exact cells_with_face_key_le T m k
  obtain ⟨_, e2⟩ := num_faces_of_manifold T hF hD m1 (cells_distinct_congr hc hd)
    (manifold_keys_congr T hc hman)
  rw [keys_of_cells_congr T hc, num_cells_congr hc, hshare, h2] at e2
  refine ⟨surface_pure T m1, ?_, by omega⟩
  rw [init_eq T m m1 h1]
  exact update_surface_adjacency_eq T hF m1 (ids_in_range_congr hc hv hin) hr

set_option maxRecDepth 100000 in
theorem two_cells_face_count_witness :
    standard_tables.edges_in_range ∧ standard_tables.faces_in_range ∧
    standard_tables.faces_distinct ∧ num_cells two_cubes = 2 ∧ ids_in_range two_cubes ∧
    cells_distinct two_cubes ∧ (keys_of_cells standard_tables two_cubes 2).length = 1 ∧
    ∃ m2, init standard_tables two_cubes = Except.ok m2 ∧ num_faces m2 = 10 :=
  ⟨by decide, by decide, by decide, by decide, by decide, by decide, by decide,
    two_cells_face_count standard_tables (by decide) (by decide) (by decide) two_cubes
      (by decide) (by decide) (by decide) (by decide)⟩

set_option maxRecDepth 100000 in
/-- C11 as stated fails: the two stacked cubes are two cells over 12 distinct
vertices, with 8 pairwise distinct in-range vertex ids each, whose only shared
face is the quad `4 5 6 7` (their 4 common vertex ids), and the derivation
yields 10 boundary faces, not 11. -/
theorem two_cubes_not_eleven_faces :
    num_cells two_cubes = 2 ∧ num_verts two_cubes = 12 ∧ two_cubes.cells.dedup.length = 12 ∧
    ids_in_range two_cubes ∧ cells_distinct two_cubes ∧ common_vids two_cubes 0 1 = 4 ∧
    keys_of_cells standard_tables two_cubes 2 = [[4, 5, 6, 7]] ∧
    ∃ m2, init standard_tables two_cubes = Except.ok m2 ∧ num_faces m2 = 10 ∧
      num_faces m2 ≠ 11 :=
  ⟨by decide, by decide, by decide, by decide, by decide, by decide, by decide,
    _, two_cubes_derived_eq, by decide, by decide⟩

/-! ## C12: the number of boundary faces of a manifold mesh -/

/-- C12. Boundary face count of a manifold mesh: when every cell has 8 pairwise
distinct in-range vertex ids and no sorted face key is produced by more than two
cells, `init` can only stop on the `c2c` assertion, and when it completes the
number of derived faces is the number of face keys produced by exactly one cell,
which is `6 * num_cells` minus twice the number of keys produced by two cells. -/
theorem boundary_face_count (T : HexaTables) (hE : T.edges_in_range) (hF : T.faces_in_range)
    (hD : T.faces_distinct) (m : Hexmesh) (hin : ids_in_range m) (hd : cells_distinct m)
    (hman : manifold_keys T m) :
    init T m = Except.error Fault.assertion_failed ∨
      ∃ m2, init T m = Except.ok m2 ∧
        num_faces m2 = (keys_of_cells T m 1).length ∧
        num_faces m2 = 6 * num_cells m - 2 * (keys_of_cells T m 2).length ∧
        2 * (keys_of_cells T m 2).length ≤ 6 * num_cells m := by
  rcases init_cases T hE hF m hin with h | ⟨m1, h1, h2⟩
  · exact Or.inl h
  · obtain ⟨_, hc, _⟩ := update_interior_adjacency_frame T hE m m1 h1
    obtain ⟨e1, e2⟩ := num_faces_of_manifold T hF hD m1 (cells_distinct_congr hc hd)
      (manifold_keys_congr T hc hman)
    rw [keys_of_cells_congr T hc] at e1 e2
    rw [num_cells_congr hc] at e2
    exact Or.inr ⟨surface_pure T m1, h2, e1, by omega, by omega⟩

set_option maxRecDepth 1000000 in
theorem boundary_face_count_witness :
    standard_tables.edges_in_range ∧ standard_tables.faces_in_range ∧
    standard_tables.faces_distinct ∧
    ids_in_range single_cube ∧ cells_distinct single_cube ∧
    manifold_keys standard_tables single_cube ∧
    (∃ m2, init standard_tables single_cube = Except.ok m2 ∧ num_faces m2 = 6) ∧
    ids_in_range grid_2x2x2 ∧ cells_distinct grid_2x2x2 ∧
    (∃ m2, init standard_tables grid_2x2x2 = Except.ok m2 ∧ num_faces m2 = 24) ∧
    (init standard_tables single_cube = Except.error Fault.assertion_failed ∨
      ∃ m2, init standard_tables single_cube = Except.ok m2 ∧
        num_faces m2 = (keys_of_cells standard_tables single_cube 1).length ∧
        num_faces m2 =
          6 * num_cells single_cube - 2 * (keys_of_cells standard_tables single_cube 2).length ∧
        2 * (keys_of_cells standard_tables single_cube 2).length ≤ 6 * num_cells single_cube) := by
  have hE : standard_tables.edges_in_range := by decide
  have hF : standard_tables.faces_in_range := by decide
  have g1 : ids_in_range grid_2x2x2 := by decide
  have g2 : (f2c_map_of standard_tables grid_2x2x2).length = 24 := by decide
  obtain ⟨m1, h1⟩ : ∃ m1, update_interior_adjacency standard_tables grid_2x2x2 = Except.ok m1 :=
    ⟨_, rfl⟩
  obtain ⟨r1, r2⟩ := init_ok_of_interior_ok standard_tables hE hF grid_2x2x2 m1 g1 h1
  exact ⟨hE, hF, by decide, by decide, by decide, by decide, ⟨_, rfl, by decide⟩, g1, by decide,
    ⟨_, r1, r2.trans g2⟩,
    boundary_face_count standard_tables hE hF (by decide) single_cube (by decide) (by decide)
      (by decide)⟩

/-! ## C13: out-of-range accesses -/

/-- C13. Index-out-of-range is fatal, and only that: with every `.at()` a failing
lookup (and the local tables naming local vertices `0..7`), the pipeline
`update_interior_adjacency`, then `update_surface_adjacency`, stops with an
out-of-range access exactly when some cell references a vertex id that is not
below `num_verts`; with in-range ids every checked access is in bounds, and the
pipeline completes or stops on the `c2c` assertion. -/
theorem out_of_range_iff (T : HexaTables) (hE : T.edges_in_range) (hF : T.faces_in_range)
    (m : Hexmesh) :
    (init T m = Except.error Fault.out_of_range ↔ ¬ ids_in_range m) ∧
    (ids_in_range m → init T m = Except.error Fault.assertion_failed ∨
      ∃ m2, init T m = Except.ok m2) := by
  have hfwd : ids_in_range m → init T m = Except.error Fault.assertion_failed ∨
      ∃ m2, init T m = Except.ok m2 := by
    intro hin
    rcases init_cases T hE hF m hin with h | ⟨m1, _, h2⟩
    · exact Or.inl h
    · exact Or.inr ⟨_, h2⟩
  refine ⟨⟨?_, ?_⟩, hfwd⟩
  · intro h hin
    rcases hfwd hin with h' | ⟨m2, h'⟩
    · rw [h] at h'; cases h'
    · rw [h] at h'; cases h'
  · intro hbad
    unfold init
    rw [update_interior_adjacency_out_of_range T m hbad]
    rfl

set_option maxRecDepth 100000 in
theorem out_of_range_iff_witness :
    standard_tables.edges_in_range ∧ standard_tables.faces_in_range ∧
    ¬ ids_in_range dangling_cell ∧
    init standard_tables dangling_cell = Except.error Fault.out_of_range ∧
    ids_in_range two_cubes ∧ (∃ m2, init standard_tables two_cubes = Except.ok m2) ∧
    ((init standard_tables dangling_cell = Except.error Fault.out_of_range ↔
        ¬ ids_in_range dangling_cell) ∧
      (ids_in_range dangling_cell →
        init standard_tables dangling_cell = Except.error Fault.assertion_failed ∨
        ∃ m2, init standard_tables dangling_cell = Except.ok m2)) :=
  ⟨by decide, by decide, by decide, rfl, by decide, ⟨_, two_cubes_derived_eq⟩,
    out_of_range_iff standard_tables (by decide) (by decide) dangling_cell⟩

/-! ## C14: the bounding box -/

/-- C14. Bounding box: `update_bbox` on a mesh with at least one vertex returns
a box with finite corners `lo`, `hi` such that, in each of the three
coordinates, every vertex of `verts` (referenced by a cell or not) lies between
`lo` and `hi`, some vertex attains `lo` and some vertex attains `hi`: `bb.min`
is the componentwise minimum and `bb.max` the componentwise maximum. -/
theorem bounding_box (m : Hexmesh) (h : 0 < num_verts m) :
    ∃ lo hi : vec3d, update_bbox m = Except.ok ⟨corner.of lo, corner.of hi⟩ ∧
      spans vec3d.x m.verts lo.x hi.x ∧ spans vec3d.y m.verts lo.y hi.y ∧
      spans vec3d.z m.verts lo.z hi.z := by
  rw [update_bbox_eq]
  unfold num_verts at h
  match hm : m.verts, h with
  | v :: vs, _ =>
    have e : bbox_of (v :: vs) Bbox.reset = bbox_of vs ⟨corner.of v, corner.of v⟩ := rfl
    obtain ⟨lo, hi, e', hx, hy, hz⟩ := bbox_of_spans vs [v] v v (spans_singleton _ v)
      (spans_singleton _ v) (spans_singleton _ v)
    exact ⟨lo, hi, by rw [e, e'], hx, hy, hz⟩

theorem bounding_box_witness :
    0 < num_verts single_cube ∧
    update_bbox single_cube =
      Except.ok ⟨corner.of ⟨0, 0, 0⟩, corner.of ⟨1, 1, 1⟩⟩ ∧
    ∃ lo hi : vec3d, update_bbox single_cube = Except.ok ⟨corner.of lo, corner.of hi⟩ ∧
      spans vec3d.x single_cube.verts lo.x hi.x ∧ spans vec3d.y single_cube.verts lo.y hi.y ∧
      spans vec3d.z single_cube.verts lo.z hi.z :=
  ⟨by decide, rfl, bounding_box single_cube (by decide)⟩

/-! ## C15: deterministic numbering by sorted key -/

/-- C15. Deterministic numbering by sorted key: with in-range vertex ids `init`
can only stop on the `c2c` assertion, and when it completes (a) every derived
edge has `edges[2e] <= edges[2e+1]` and the pairs `(edges[2e], edges[2e+1])` are
strictly increasing in lexicographic order with `e`; (b) the sorted keys of the
derived faces are strictly increasing in lexicographic order with the face id.
Hence another completed run with the same set of candidate edge keys has the
same edge array, another completed run with the same set of derived face keys
lists them in the same order, and a rebuild from the same `cells` reproduces the
edge and face arrays. -/
theorem deterministic_numbering (T : HexaTables) (hE : T.edges_in_range)
    (hF : T.faces_in_range) (m : Hexmesh) (hin : ids_in_range m) :
    init T m = Except.error Fault.assertion_failed ∨
      ∃ m2, init T m = Except.ok m2 ∧
        (∀ e < num_edges m2, edge_vid m2 e 0 ≤ edge_vid m2 e 1) ∧
        (∀ e e', e < e' → e' < num_edges m2 →
          ipair_lt (edge_pair m2 e) (edge_pair m2 e') = true) ∧
        (∀ f f', f < f' → f' < num_faces m2 →
          face_lt (derived_face_key m2 f) (derived_face_key m2 f') = true) ∧
        (∀ m' m2', init T m' = Except.ok m2' →
          (∀ p, p ∈ candidate_edges T m' ↔ p ∈ candidate_edges T m) → m2'.edges = m2.edges) ∧
        (∀ m' m2', init T m' = Except.ok m2' →
          (∀ k, k ∈ derived_face_keys_list m2' ↔ k ∈ derived_face_keys_list m2) →
          derived_face_keys_list m2' = derived_face_keys_list m2) ∧
        (∀ m' m2', init T m' = Except.ok m2' → m'.cells = m.cells →
          m2'.edges = m2.edges ∧ m2'.faces = m2.faces) := by
  rcases init_cases T hE hF m hin with h | ⟨m1, h1, h2⟩
  · exact Or.inl h
  · have fr := surface_pure_frame T m1
    obtain ⟨hn, hk⟩ := derived_edge_pairs T hE m m1 h1
    obtain ⟨_, hc, _⟩ := update_interior_adjacency_frame T hE m m1 h1
    have hne : num_edges (surface_pure T m1) = num_edges m1 := by
      unfold num_edges; rw [fr.edges]
    have hep : edge_pair (surface_pure T m1) = edge_pair m1 := by
      funext e; unfold edge_pair edge_vid; rw [fr.edges]
    refine Or.inr ⟨surface_pure T m1, h2, ?_, ?_, ?_, ?_, ?_, ?_⟩
    · intro e he
      rw [hne] at he
      have hmem : edge_pair m1 e ∈ (e2c_map_of T m).map Prod.fst := by
        rw [← hk]
        exact List.mem_map.2 ⟨e, List.mem_range.2 he, rfl⟩
      rw [mem_e2c_map_keys] at hmem
      obtain ⟨c, hc', e1⟩ := List.mem_map.1 hmem
      obtain ⟨_, e', _, e2⟩ := (mem_edge_cands T m c).1 hc'
      have e3 : edge_pair (surface_pure T m1) e = edge_key T m c.2 e' := by
        rw [hep, ← e1, e2]
      have e4 : (edge_pair (surface_pure T m1) e).1 ≤ (edge_pair (surface_pure T m1) e).2 := by
        rw [e3]
        unfold edge_key unique_pair
        exact le_trans (min_le_left _ _) (le_max_left _ _)
      exact e4
    · intro e e' hlt he'
      rw [hne] at he'
      rw [hep]
      have hs := e2c_map_sorted T m
      rw [← hk] at hs
      exact pairwise_map_range _ _ _ hs e e' hlt he'
    · intro f f' hlt hf'
      have hs := f2c_map_sorted T m1
      rw [← derived_face_keys_list_eq] at hs
      exact pairwise_map_range _ _ _ hs f f' hlt hf'
    · intro m' m2' h' hp
      obtain ⟨_, m1', h1', rfl⟩ := init_ok_cases T hE hF m' m2' h'
      rw [(surface_pure_frame T m1').edges, fr.edges, derived_edges_eq T hE m' m1' h1',
        derived_edges_eq T hE m m1 h1]
      have : (e2c_map_of T m').map Prod.fst = (e2c_map_of T m).map Prod.fst :=
        sorted_unique ipair_lt ipair_lt_order _ _ (e2c_map_sorted T m') (e2c_map_sorted T m)
          (fun k => by rw [mem_e2c_map_keys, mem_e2c_map_keys]; exact hp k)
      have e : ∀ l : List (ipair × List Nat),
          l.flatMap (fun kv => [kv.1.1, kv.1.2]) =
            (l.map Prod.fst).flatMap (fun k => [k.1, k.2]) := by
        intro l
        rw [List.flatMap_map]
      rw [e, e, this]
    · intro m' m2' h' hp
      obtain ⟨_, m1', h1', rfl⟩ := init_ok_cases T hE hF m' m2' h'
      have hs := f2c_map_sorted T m1
      have hs' := f2c_map_sorted T m1'
      rw [← derived_face_keys_list_eq] at hs hs'
      exact sorted_unique face_lt face_lt_order _ _ hs' hs hp
    · intro m' m2' h' hcells
      obtain ⟨_, m1', h1', rfl⟩ := init_ok_cases T hE hF m' m2' h'
      obtain ⟨_, hc', _⟩ := update_interior_adjacency_frame T hE m' m1' h1'
      constructor
      · rw [(surface_pure_frame T m1').edges, fr.edges, derived_edges_eq T hE m' m1' h1',
          derived_edges_eq T hE m m1 h1]
        unfold e2c_map_of
        rw [edge_cands_congr T hcells]
      · have hcc : m1'.cells = m1.cells := by rw [hc', hcells, hc]
        rw [(surface_pure_faces T m1').1, (surface_pure_faces T m1).1, f2c_map_of_congr T hcc]
        apply List.flatMap_congr
        intro it _
        unfold local_face_ids cell_vid
        rw [hcc]

set_option maxRecDepth 100000 in
theorem deterministic_numbering_witness :
    standard_tables.edges_in_range ∧ standard_tables.faces_in_range ∧ ids_in_range two_cubes ∧
    (∃ m2, init standard_tables two_cubes = Except.ok m2 ∧
      m2.edges = [0, 1, 0, 3, 0, 4, 1, 2, 1, 5, 2, 3, 2, 6, 3, 7, 4, 5, 4, 7, 4, 8, 5, 6,
        5, 9, 6, 7, 6, 10, 7, 11, 8, 9, 8, 11, 9, 10, 10, 11]) ∧
    (init standard_tables two_cubes = Except.error Fault.assertion_failed ∨
      ∃ m2, init standard_tables two_cubes = Except.ok m2 ∧
        (∀ e < num_edges m2, edge_vid m2 e 0 ≤ edge_vid m2 e 1) ∧
        (∀ e e', e < e' → e' < num_edges m2 →
          ipair_lt (edge_pair m2 e) (edge_pair m2 e') = true) ∧
        (∀ f f', f < f' → f' < num_faces m2 →
          face_lt (derived_face_key m2 f) (derived_face_key m2 f') = true) ∧
        (∀ m' m2', init standard_tables m' = Except.ok m2' →
          (∀ p, p ∈ candidate_edges standard_tables m' ↔
            p ∈ candidate_edges standard_tables two_cubes) → m2'.edges = m2.edges) ∧
        (∀ m' m2', init standard_tables m' = Except.ok m2' →
          (∀ k, k ∈ derived_face_keys_list m2' ↔ k ∈ derived_face_keys_list m2) →
          derived_face_keys_list m2' = derived_face_keys_list m2) ∧
        (∀ m' m2', init standard_tables m' = Except.ok m2' → m'.cells = two_cubes.cells →
          m2'.edges = m2.edges ∧ m2'.faces = m2.faces)) :=
  ⟨by decide, by decide, by decide, ⟨_, two_cubes_derived_eq, by decide⟩,
    deterministic_numbering standard_tables (by decide) (by decide) two_cubes (by decide)⟩

/-! ## C16: vertex order and owner of a derived face -/

/-- C16. Face vertex order and owner: with in-range vertex ids `init` can only
stop on the `c2c` assertion, and when it completes `f2c` has one entry per
derived face and, for every derived face `fid`, `f2c(fid)` is a cell and there
is a local face index `f` in `0..5` with
`faces[4 fid + k] = cells[8 f2c(fid) + HEXA_FACES[f][k]]` for `k = 0..3`: the
face stores the 4 vertex ids of a local face of its owner, in local order. -/
theorem face_order_and_owner (T : HexaTables) (hE : T.edges_in_range)
    (hF : T.faces_in_range) (m : Hexmesh) (hin : ids_in_range m) :
    init T m = Except.error Fault.assertion_failed ∨
      ∃ m2, init T m = Except.ok m2 ∧ m2.f2c.length = num_faces m2 ∧
        ∀ fid < num_faces m2, m2.f2c.getD fid 0 < num_cells m2 ∧
          ∃ f < faces_per_cell, ∀ k < verts_per_face,
            face_vid m2 fid k = cell_vid m2 (m2.f2c.getD fid 0) (T.HEXA_FACES f k) := by
  rcases init_cases T hE hF m hin with h | ⟨m1, h1, h2⟩
  · exact Or.inl h
  · obtain ⟨hv, hc, _, _, _, hr⟩ := update_interior_adjacency_frame T hE m m1 h1
    have hin1 := ids_in_range_congr hc hv hin
    obtain ⟨r1, r2, r3, _⟩ := surface_pure_rows T hF m1 hin1 hr
    have hcells := (surface_pure_faces T m1).2.1
    refine Or.inr ⟨surface_pure T m1, h2, by rw [r1, r2], ?_⟩
    intro fid hfid
    rw [r1] at hfid
    obtain ⟨e1, e2⟩ := f2c_map_entry T m1 fid hfid
    have hown : (surface_pure T m1).f2c.getD fid 0 = ((f2c_map_of T m1)[fid]).2.1 := by
      rw [r3 fid hfid, List.getD_eq_getElem _ _ (by simpa using hfid)]
      simp
    rw [hown]
    refine ⟨by rw [num_cells_congr hcells]; exact e1, _, e2, ?_⟩
    intro k hk
    rw [face_vid_surface_pure T m1 fid k hfid hk]
    unfold cell_vid
    rw [hcells]

set_option maxRecDepth 100000 in
theorem face_order_and_owner_witness :
    standard_tables.edges_in_range ∧ standard_tables.faces_in_range ∧ ids_in_range two_cubes ∧
    (∃ m2, init standard_tables two_cubes = Except.ok m2 ∧
      m2.f2c = [0, 0, 0, 0, 0, 1, 1, 1, 1, 1] ∧ face_vids m2 1 = [0, 1, 5, 4]) ∧
    (init standard_tables two_cubes = Except.error Fault.assertion_failed ∨
      ∃ m2, init standard_tables two_cubes = Except.ok m2 ∧ m2.f2c.length = num_faces m2 ∧
        ∀ fid < num_faces m2, m2.f2c.getD fid 0 < num_cells m2 ∧
          ∃ f < faces_per_cell, ∀ k < verts_per_face,
            face_vid m2 fid k =
              cell_vid m2 (m2.f2c.getD fid 0) (standard_tables.HEXA_FACES f k)) :=
  ⟨by decide, by decide, by decide, ⟨_, two_cubes_derived_eq, by decide, by decide⟩,
    face_order_and_owner standard_tables (by decide) (by decide) two_cubes (by decide)⟩

/-! ## C17: face-face adjacency -/

/-- C17. Face-face adjacency: with in-range vertex ids `init` can only stop on
the `c2c` assertion, and when it completes, for all faces `f1`, `f2`: `f2` is in
`f2f(f1)` iff `f1 != f2` and some edge `eid` has both `f1` and `f2` in
`e2f(eid)`. Consequently `f2f` is symmetric, no face is its own neighbour, and
the faces linked to one edge, however many, are pairwise neighbours. -/
theorem face_face_adjacency (T : HexaTables) (hE : T.edges_in_range)
    (hF : T.faces_in_range) (m : Hexmesh) (hin : ids_in_range m) :
    init T m = Except.error Fault.assertion_failed ∨
      ∃ m2, init T m = Except.ok m2 ∧
        (∀ f1 f2, f2 ∈ row m2.f2f f1 ↔
          f1 ≠ f2 ∧ ∃ eid < num_edges m2, f1 ∈ row m2.e2f eid ∧ f2 ∈ row m2.e2f eid) ∧
        (∀ f1 f2, f2 ∈ row m2.f2f f1 ↔ f1 ∈ row m2.f2f f2) ∧
        (∀ f1, f1 ∉ row m2.f2f f1) ∧
        (∀ eid < num_edges m2, ∀ f1 ∈ row m2.e2f eid, ∀ f2 ∈ row m2.e2f eid,
          f1 ≠ f2 → f2 ∈ row m2.f2f f1) := by
  rcases init_cases T hE hF m hin with h | ⟨m1, h1, h2⟩
  · exact Or.inl h
  · obtain ⟨hv, hc, _, _, _, hr⟩ := update_interior_adjacency_frame T hE m m1 h1
    have hin1 := ids_in_range_congr hc hv hin
    have hiff := surface_pure_f2f T hF m1 hin1 hr
    refine Or.inr ⟨surface_pure T m1, h2, hiff, ?_, ?_, ?_⟩
    · intro f1 f2
      rw [hiff f1 f2, hiff f2 f1]
      constructor
      · rintro ⟨g, eid, g0, g1, g2⟩
        exact ⟨fun e => g e.symm, eid, g0, g2, g1⟩
      · rintro ⟨g, eid, g0, g1, g2⟩
        exact ⟨fun e => g e.symm, eid, g0, g2, g1⟩
    · intro f1 hmem
      exact ((hiff f1 f1).1 hmem).1 rfl
    · intro eid he f1 g1 f2 g2 hne
      exact (hiff f1 f2).2 ⟨hne, eid, he, g1, g2⟩

set_option maxRecDepth 100000 in
theorem face_face_adjacency_witness :
    standard_tables.edges_in_range ∧ standard_tables.faces_in_range ∧ ids_in_range two_cubes ∧
    (∃ m2, init standard_tables two_cubes = Except.ok m2 ∧
      row m2.f2f 0 = [1, 2, 3, 4] ∧ row m2.f2f 1 = [0, 2, 3, 5]) ∧
    (init standard_tables two_cubes = Except.error Fault.assertion_failed ∨
      ∃ m2, init standard_tables two_cubes = Except.ok m2 ∧
        (∀ f1 f2, f2 ∈ row m2.f2f f1 ↔
          f1 ≠ f2 ∧ ∃ eid < num_edges m2, f1 ∈ row m2.e2f eid ∧ f2 ∈ row m2.e2f eid) ∧
        (∀ f1 f2, f2 ∈ row m2.f2f f1 ↔ f1 ∈ row m2.f2f f2) ∧
        (∀ f1, f1 ∉ row m2.f2f f1) ∧
        (∀ eid < num_edges m2, ∀ f1 ∈ row m2.e2f eid, ∀ f2 ∈ row m2.e2f eid,
          f1 ≠ f2 → f2 ∈ row m2.f2f f1)) :=
  ⟨by decide, by decide, by decide, ⟨_, two_cubes_derived_eq, by decide, by decide⟩,
    face_face_adjacency standard_tables (by decide) (by decide) two_cubes (by decide)⟩

/-! ## C18: edge-cell incidence -/

/-- C18. Edge-cell incidence: with in-range vertex ids `update_interior_adjacency`
can only stop on the `c2c` assertion, and when it completes, for every edge
`eid` and every cell `cid`: `cid` is in `e2c(eid)` iff `eid` is in `c2e(cid)`,
iff the cell `cid` has a local edge (one of the 12 of the table) whose canonical
pair is `(edges[2 eid], edges[2 eid + 1])`; and `cid` occurs in `e2c(eid)` as
many times as `eid` occurs in `c2e(cid)`. -/
theorem edge_cell_incidence (T : HexaTables) (hE : T.edges_in_range) (hF : T.faces_in_range)
    (m : Hexmesh) (hin : ids_in_range m) :
    update_interior_adjacency T m = Except.error Fault.assertion_failed ∨
      ∃ m1, update_interior_adjacency T m = Except.ok m1 ∧
        ∀ eid < num_edges m1, ∀ cid < num_cells m1,
          (cid ∈ row m1.e2c eid ↔ eid ∈ row m1.c2e cid) ∧
          (eid ∈ row m1.c2e cid ↔
            ∃ e < edges_per_cell, edge_key T m1 cid e = edge_pair m1 eid) ∧
          (row m1.e2c eid).count cid = (row m1.c2e cid).count eid := by
  rcases update_interior_adjacency_total T hE hF m hin with h | ⟨m1, h1⟩
  · exact Or.inl h
  · refine Or.inr ⟨m1, h1, ?_⟩
    intro eid he cid hc
    obtain ⟨hcnt, hrow⟩ := interior_e2c_c2e T hE m m1 h1
    obtain ⟨hn, hk⟩ := derived_edge_pairs T hE m m1 h1
    obtain ⟨_, hcells, _⟩ := update_interior_adjacency_frame T hE m m1 h1
    have hiff : cid ∈ row m1.e2c eid ↔ eid ∈ row m1.c2e cid := by
      rw [← List.count_pos_iff, ← List.count_pos_iff, hcnt eid cid]
    refine ⟨hiff, ?_, hcnt eid cid⟩
    rw [← hiff, hrow eid]
    have hlt : eid < (e2c_map_of T m).length := by rw [← hn]; exact he
    have hkey : (e2c_map_of T m)[eid].1 = edge_pair m1 eid := by
      have := congrArg (fun l => l.getD eid (0, 0)) hk
      simp only [List.getD_eq_getElem?_getD, List.getElem?_map] at this
      rw [List.getElem?_eq_getElem hlt, List.getElem?_eq_getElem (by simpa using he)] at this
      simpa using this.symm
    rw [List.getD_eq_getElem _ _ (by simpa using hlt), List.getElem_map,
      e2c_map_cids T m _ (List.getElem_mem _), hkey]
    simp only [List.mem_map, List.mem_filter, decide_eq_true_eq]
    constructor
    · rintro ⟨c, ⟨hc1, hc2⟩, rfl⟩
      obtain ⟨_, e, he', e1⟩ := (mem_edge_cands T m c).1 hc1
      exact ⟨e, he', by rw [edge_key_congr T hcells, ← e1, hc2]⟩
    · rintro ⟨e, he', e1⟩
      refine ⟨(edge_pair m1 eid, cid), ⟨?_, rfl⟩, rfl⟩
      rw [mem_edge_cands]
      refine ⟨by rw [← num_cells_congr hcells]; exact hc, e, he', ?_⟩
      rw [← edge_key_congr T hcells, e1]

set_option maxRecDepth 100000 in
theorem edge_cell_incidence_witness :
    standard_tables.edges_in_range ∧ standard_tables.faces_in_range ∧ ids_in_range two_cubes ∧
    (∃ m1, update_interior_adjacency standard_tables two_cubes = Except.ok m1 ∧
      row m1.e2c 8 = [0, 1] ∧ row m1.c2e 1 = [8, 9, 10, 11, 12, 13, 14, 15, 16, 17, 18, 19]) ∧
    (update_interior_adjacency standard_tables two_cubes = Except.error Fault.assertion_failed ∨
      ∃ m1, update_interior_adjacency standard_tables two_cubes = Except.ok m1 ∧
        ∀ eid < num_edges m1, ∀ cid < num_cells m1,
          (cid ∈ row m1.e2c eid ↔ eid ∈ row m1.c2e cid) ∧
          (eid ∈ row m1.c2e cid ↔
            ∃ e < edges_per_cell, edge_key standard_tables m1 cid e = edge_pair m1 eid) ∧
          (row m1.e2c eid).count cid = (row m1.c2e cid).count eid) :=
  ⟨by decide, by decide, by decide, ⟨_, two_cubes_interior_eq, by decide, by decide⟩,
    edge_cell_incidence standard_tables (by decide) (by decide) two_cubes (by decide)⟩

/-! ## C19: vertex-vertex and vertex-edge incidence -/

/-- C19. Vertex-vertex and vertex-edge incidence: when every cell has 8 pairwise
distinct in-range vertex ids (and the two ends of every local edge of the table
differ), `update_interior_adjacency` can only stop on the `c2c` assertion, and
when it completes: `w` is in `v2v(v)` iff the canonical pair of `v` and `w` is a
derived edge; `v2v` is symmetric and no row repeats an id; `v2v(v)` and `v2e(v)`
have the same length; and at every position `k` the entry of `v2e(v)` is an edge
whose two ends are `v` and the entry of `v2v(v)` at `k`. -/
theorem vertex_incidence (T : HexaTables) (hE : T.edges_in_range) (hF : T.faces_in_range)
    (hP : T.edges_proper) (m : Hexmesh) (hin : ids_in_range m) (hd : cells_distinct m) :
    update_interior_adjacency T m = Except.error Fault.assertion_failed ∨
      ∃ m1, update_interior_adjacency T m = Except.ok m1 ∧
        (∀ v w, w ∈ row m1.v2v v ↔ ∃ e < num_edges m1, edge_pair m1 e = unique_pair v w) ∧
        (∀ v w, w ∈ row m1.v2v v ↔ v ∈ row m1.v2v w) ∧
        (∀ v, (row m1.v2v v).Nodup) ∧
        (∀ v, (row m1.v2v v).length = (row m1.v2e v).length) ∧
        (∀ v k, k < (row m1.v2e v).length →
          (row m1.v2e v).getD k 0 < num_edges m1 ∧
          edge_pair m1 ((row m1.v2e v).getD k 0) =
            unique_pair v ((row m1.v2v v).getD k 0)) := by
  rcases update_interior_adjacency_total T hE hF m hin with h | ⟨m1, h1⟩
  · exact Or.inl h
  · refine Or.inr ⟨m1, h1, ?_⟩
    obtain ⟨hn, hk⟩ := derived_edge_pairs T hE m m1 h1
    have hkey := edge_pair_eq_key T hE m m1 h1
    obtain ⟨v2c, s, hs, hm⟩ := update_interior_adjacency_ok T hE m m1 h1
    have inv := interior_second_loop_v2v T _ (e2c_map_key_le T m) _ s hs rfl
      (fun v => row_replicate _ _) (fun v => row_replicate _ _)
    have nd := interior_second_loop_v2v_nodup T _ (e2c_map_key_lt T hE hP m hd)
      (e2c_map_keys_nodup T m) _ s hs rfl
      (fun v => row_replicate _ _) (fun v => row_replicate _ _)
    have hpaired := inv.paired
    have hlinked := inv.linked
    rw [hm] at hpaired hlinked nd
    have hiff : ∀ v w, w ∈ row m1.v2v v ↔
        ∃ e < num_edges m1, edge_pair m1 e = unique_pair v w := by
      intro v w
      constructor
      · intro hw
        obtain ⟨e, _, he1, he2⟩ := forall₂_mem_right (hpaired v) w hw
        rw [← hn] at he2
        exact ⟨e, he2, by rw [hkey e he2, he1]⟩
      · rintro ⟨e, he, hp⟩
        have hlt : e < (e2c_map_of T m).length := by rw [← hn]; exact he
        have hmem : (e2c_map_of T m)[e] ∈ e2c_map_of T m := List.getElem_mem _
        obtain ⟨l1, l2⟩ := hlinked _ hmem
        have hle := e2c_map_key_le T m _ hmem
        have hp' : (e2c_map_of T m)[e].1 = unique_pair v w := by
          rw [← hp, hkey e he, List.getD_eq_getElem _ _ (by simpa using hlt)]
          simp
        have hc : unique_pair ((e2c_map_of T m)[e].1.1) ((e2c_map_of T m)[e].1.2) =
            unique_pair v w := by
          rw [unique_pair_of_le hle]
          exact hp'
        rcases unique_pair_eq hc with ⟨e1, e2⟩ | ⟨e1, e2⟩
        · rw [e1, e2] at l1; exact l1
        · rw [e1, e2] at l2; exact l2
    refine ⟨hiff, ?_, nd, ?_, ?_⟩
    · intro v w
      rw [hiff v w, hiff w v, unique_pair_comm]
    · intro v
      exact (hpaired v).length_eq.symm
    · intro v k hk'
      obtain ⟨hlen, hget⟩ := List.forall₂_iff_get.1 (hpaired v)
      obtain ⟨g1, g2⟩ := hget k hk' (by rw [← hlen]; exact hk')
      rw [List.getD_eq_getElem _ _ hk', List.getD_eq_getElem _ _ (by rw [← hlen]; exact hk')]
      rw [← hn] at g2
      exact ⟨g2, (hkey _ g2).trans g1⟩

set_option maxRecDepth 100000 in
theorem vertex_incidence_witness :
    standard_tables.edges_in_range ∧ standard_tables.faces_in_range ∧
    standard_tables.edges_proper ∧ ids_in_range two_cubes ∧ cells_distinct two_cubes ∧
    (∃ m1, update_interior_adjacency standard_tables two_cubes = Except.ok m1 ∧
      row m1.v2v 4 = [0, 5, 7, 8] ∧ row m1.v2e 4 = [2, 8, 9, 10]) ∧
    (update_interior_adjacency standard_tables two_cubes = Except.error Fault.assertion_failed ∨
      ∃ m1, update_interior_adjacency standard_tables two_cubes = Except.ok m1 ∧
        (∀ v w, w ∈ row m1.v2v v ↔ ∃ e < num_edges m1, edge_pair m1 e = unique_pair v w) ∧
        (∀ v w, w ∈ row m1.v2v v ↔ v ∈ row m1.v2v w) ∧
        (∀ v, (row m1.v2v v).Nodup) ∧
        (∀ v, (row m1.v2v v).length = (row m1.v2e v).length) ∧
        (∀ v k, k < (row m1.v2e v).length →
          (row m1.v2e v).getD k 0 < num_edges m1 ∧
          edge_pair m1 ((row m1.v2e v).getD k 0) =
            unique_pair v ((row m1.v2v v).getD k 0))) :=
  ⟨by decide, by decide, by decide, by decide, by decide,
    ⟨_, two_cubes_interior_eq, by decide, by decide⟩,
    vertex_incidence standard_tables (by decide) (by decide) (by decide) two_cubes
      (by decide) (by decide)⟩

/-! ## C20: face-edge incidence -/

/-- C20. Face-edge incidence: with in-range vertex ids `init` can only stop on
the `c2c` assertion, and when it completes, for every derived face `fid` and
every edge `eid`: `eid` is in `f2e(fid)` iff `fid` is in `e2f(eid)`, iff `eid` is
in `c2e(f2c(fid))` and both ends of `eid` are among the 4 vertex ids of the face
`fid`. -/
theorem face_edge_incidence (T : HexaTables) (hE : T.edges_in_range)
    (hF : T.faces_in_range) (m : Hexmesh) (hin : ids_in_range m) :
    init T m = Except.error Fault.assertion_failed ∨
      ∃ m2, init T m = Except.ok m2 ∧
        ∀ fid < num_faces m2, ∀ eid < num_edges m2,
          (eid ∈ row m2.f2e fid ↔ fid ∈ row m2.e2f eid) ∧
          (eid ∈ row m2.f2e fid ↔
            eid ∈ row m2.c2e (m2.f2c.getD fid 0) ∧ edge_vid m2 eid 0 ∈ face_vids m2 fid ∧
              edge_vid m2 eid 1 ∈ face_vids m2 fid) := by
  rcases init_cases T hE hF m hin with h | ⟨m1, h1, h2⟩
  · exact Or.inl h
  · obtain ⟨hv, hc, _, _, _, hr⟩ := update_interior_adjacency_frame T hE m m1 h1
    have hin1 := ids_in_range_congr hc hv hin
    obtain ⟨r1, r2, r3, r4, r5, _⟩ := surface_pure_rows T hF m1 hin1 hr
    have fr := surface_pure_frame T m1
    refine Or.inr ⟨surface_pure T m1, h2, ?_⟩
    intro fid hfid eid _
    rw [r1] at hfid
    have hiff : eid ∈ row (surface_pure T m1).f2e fid ↔ fid ∈ row (surface_pure T m1).e2f eid := by
      rw [← List.count_pos_iff, ← List.count_pos_iff, r5 eid fid]
    refine ⟨hiff, ?_⟩
    have hown : (surface_pure T m1).f2c.getD fid 0 = ((f2c_map_of T m1)[fid]).2.1 := by
      rw [r3 fid hfid, List.getD_eq_getElem _ _ (by simpa using hfid)]
      simp
    have hrow : row (surface_pure T m1).f2e fid = face_edges_of T m1 ((f2c_map_of T m1)[fid]) := by
      rw [r4 fid, List.getD_eq_getElem _ _ (by simpa using hfid)]
      simp
    rw [hrow, hown, face_vids_surface_pure T m1 fid hfid, fr.c2e]
    unfold face_edges_of
    rw [List.mem_filter, edge_touches_iff]
    unfold edge_vid local_face_ids
    rw [fr.edges]

set_option maxRecDepth 100000 in
theorem face_edge_incidence_witness :
    standard_tables.edges_in_range ∧ standard_tables.faces_in_range ∧ ids_in_range two_cubes ∧
    (∃ m2, init standard_tables two_cubes = Except.ok m2 ∧
      row m2.f2e 1 = [0, 2, 4, 8] ∧ row m2.e2f 8 = [1, 5]) ∧
    (init standard_tables two_cubes = Except.error Fault.assertion_failed ∨
      ∃ m2, init standard_tables two_cubes = Except.ok m2 ∧
        ∀ fid < num_faces m2, ∀ eid < num_edges m2,
          (eid ∈ row m2.f2e fid ↔ fid ∈ row m2.e2f eid) ∧
          (eid ∈ row m2.f2e fid ↔
            eid ∈ row m2.c2e (m2.f2c.getD fid 0) ∧ edge_vid m2 eid 0 ∈ face_vids m2 fid ∧
              edge_vid m2 eid 1 ∈ face_vids m2 fid)) :=
  ⟨by decide, by decide, by decide, ⟨_, two_cubes_derived_eq, by decide, by decide⟩,
    face_edge_incidence standard_tables (by decide) (by decide) two_cubes (by decide)⟩

/-! ## C21: vertex-face incidence -/

/-- C21. Vertex-face incidence: when every cell has 8 pairwise distinct in-range
vertex ids (and no local face of the table names a local vertex twice), `init`
can only stop on the `c2c` assertion, and when it completes `v2f` has one row per
vertex, a face id `fid` is in `v2f(vid)` iff `fid` is a derived face and `vid` is
one of its 4 vertex ids `faces[4*fid .. 4*fid+3]`, every face of `v2f(vid)` occurs
there exactly once, and `v2f(vid)` is in increasing order of face id. -/
theorem vertex_face_incidence (T : HexaTables) (hE : T.edges_in_range)
    (hF : T.faces_in_range) (hN : T.faces_nodup) (m : Hexmesh) (hin : ids_in_range m)
    (hd : cells_distinct m) :
    init T m = Except.error Fault.assertion_failed ∨
      ∃ m2, init T m = Except.ok m2 ∧
        m2.v2f.length = num_verts m2 ∧
        (∀ vid fid, fid ∈ row m2.v2f vid ↔
          fid < num_faces m2 ∧ ∃ k < verts_per_face, m2.faces.getD (4 * fid + k) 0 = vid) ∧
        (∀ vid, ∀ fid ∈ row m2.v2f vid, (row m2.v2f vid).count fid = 1) ∧
        (∀ vid, (row m2.v2f vid).Sorted (fun a b => a < b)) := by
  rcases init_cases T hE hF m hin with h | ⟨m1, h1, h2⟩
  · exact Or.inl h
  · refine Or.inr ⟨_, h2, ?_⟩
    obtain ⟨hv, hc, _, _, _, hr⟩ := update_interior_adjacency_frame T hE m m1 h1
    have hin1 : ids_in_range m1 := ids_in_range_congr hc hv hin
    have hd1 : cells_distinct m1 := cells_distinct_congr hc hd
    obtain ⟨r1, _⟩ := surface_pure_rows T hF m1 hin1 hr
    obtain ⟨inc, hlen, _⟩ := surface_pure_incidence T hF m1 hin1 hr
    have hverts : (surface_pure T m1).verts = m1.verts := (surface_pure_frame T m1).verts
    have hcount : ∀ vid fid, (row (surface_pure T m1).v2f vid).count fid =
        if fid < (f2c_map_of T m1).length then (face_vids (surface_pure T m1) fid).count vid
        else 0 := by
      intro vid fid
      have h0 : (row (surface_pure T m1).v2f vid).count fid = _ := inc.v2f vid fid
      rw [h0]
      by_cases hfid : fid < (f2c_map_of T m1).length
      · rw [if_pos hfid, face_vids_surface_pure T m1 fid hfid,
          List.getD_eq_getElem _ _ (by simpa using hfid)]
        simp
      · rw [if_neg hfid, List.getD_eq_default _ _ (by simp; omega)]
        rfl
    have hnd : ∀ fid < (f2c_map_of T m1).length, (face_vids (surface_pure T m1) fid).Nodup := by
      intro fid hfid
      rw [face_vids_surface_pure T m1 fid hfid]
      obtain ⟨e1, e2⟩ := f2c_map_entry T m1 fid hfid
      exact local_face_ids_nodup T hF hN m1 hd1 _ _ e1 e2
    have hle : ∀ vid fid, (row (surface_pure T m1).v2f vid).count fid ≤ 1 := by
      intro vid fid
      rw [hcount]
      split
      · exact List.nodup_iff_count_le_one.1 (hnd fid (by assumption)) vid
      · exact Nat.zero_le _
    have hmem : ∀ vid fid, vid ∈ face_vids (surface_pure T m1) fid ↔
        ∃ k < verts_per_face, (surface_pure T m1).faces.getD (4 * fid + k) 0 = vid := by
      intro vid fid
      simp only [face_vids, face_vid, verts_per_face, List.mem_cons, List.mem_singleton,
        List.not_mem_nil, or_false, Nat.mul_comm fid 4]
      constructor
      · rintro (h | h | h | h)
        · exact ⟨0, by decide, h.symm⟩
        · exact ⟨1, by decide, h.symm⟩
        · exact ⟨2, by decide, h.symm⟩
        · exact ⟨3, by decide, h.symm⟩
      · rintro ⟨k, hk, h⟩
        interval_cases k
        · exact Or.inl h.symm
        · exact Or.inr (Or.inl h.symm)
        · exact Or.inr (Or.inr (Or.inl h.symm))
        · exact Or.inr (Or.inr (Or.inr h.symm))
    rw [r1]
    refine ⟨?_, ?_, ?_, ?_⟩
    · rw [hlen]; unfold num_verts; rw [hverts]
    · intro vid fid
      rw [← hmem, ← List.count_pos_iff, hcount]
      by_cases hfid : fid < (f2c_map_of T m1).length
      · rw [if_pos hfid, List.count_pos_iff]
        exact ⟨fun h => ⟨hfid, h⟩, fun h => h.2⟩
      · rw [if_neg hfid]
        exact ⟨fun h => absurd h (Nat.lt_irrefl 0), fun h => absurd h.1 hfid⟩
    · intro vid fid hfid
      have h1 := hle vid fid
      have h2 := List.count_pos_iff.2 hfid
      omega
    · intro vid
      exact (inc.v2f_sorted vid).lt_of_le (List.nodup_iff_count_le_one.2 (hle vid))

set_option maxRecDepth 100000 in
theorem vertex_face_incidence_witness :
    standard_tables.edges_in_range ∧ standard_tables.faces_in_range ∧
    standard_tables.faces_nodup ∧ ids_in_range two_cubes ∧ cells_distinct two_cubes ∧
    (∃ m2, init standard_tables two_cubes = Except.ok m2 ∧
      row m2.v2f 4 = [1, 2, 5, 6] ∧ face_vids m2 5 = [4, 5, 9, 8]) ∧
    (init standard_tables two_cubes = Except.error Fault.assertion_failed ∨
      ∃ m2, init standard_tables two_cubes = Except.ok m2 ∧
        m2.v2f.length = num_verts m2 ∧
        (∀ vid fid, fid ∈ row m2.v2f vid ↔
          fid < num_faces m2 ∧ ∃ k < verts_per_face, m2.faces.getD (4 * fid + k) 0 = vid) ∧
        (∀ vid, ∀ fid ∈ row m2.v2f vid, (row m2.v2f vid).count fid = 1) ∧
        (∀ vid, (row m2.v2f vid).Sorted (fun a b => a < b))) :=
  ⟨by decide, by decide, by decide, by decide, by decide,
    ⟨_, two_cubes_derived_eq, by decide, by decide⟩,
    vertex_face_incidence standard_tables (by decide) (by decide) (by decide) two_cubes
      (by decide) (by decide)⟩

/-! ## C22: `c2c` lists a neighbour once -/

/-- C22. Deduplication of `c2c`: when every cell has 8 pairwise distinct in-range
vertex ids (and different local edges of the table join different pairs of local
vertices), `init` can only stop on the `c2c` assertion, and when it completes
every unordered pair of cells is linked at most once, whatever the number of
edges the two cells share: no row `c2c(cid)` holds an id twice, and `cid` is not
in `c2c(cid)`. -/
theorem c2c_deduplicated (T : HexaTables) (hE : T.edges_in_range) (hF : T.faces_in_range)
    (hD : T.edges_distinct) (m : Hexmesh) (hin : ids_in_range m) (hd : cells_distinct m) :
    init T m = Except.error Fault.assertion_failed ∨
      ∃ m2, init T m = Except.ok m2 ∧
        (∀ cid, (row m2.c2c cid).Nodup) ∧ ∀ cid, cid ∉ row m2.c2c cid := by
  rcases init_cases T hE hF m hin with h | ⟨m1, h1, h2⟩
  · exact Or.inl h
  · refine Or.inr ⟨_, h2, ?_⟩
    rw [(surface_pure_frame T m1).c2c]
    exact interior_c2c_rows T hE hD m m1 hd h1

set_option maxRecDepth 100000 in
theorem c2c_deduplicated_witness :
    standard_tables.edges_in_range ∧ standard_tables.faces_in_range ∧
    standard_tables.edges_distinct ∧ ids_in_range two_cubes ∧ cells_distinct two_cubes ∧
    (∃ m2, init standard_tables two_cubes = Except.ok m2 ∧ m2.c2c = [[1], [0]] ∧
      row m2.e2c 8 = [0, 1] ∧ row m2.e2c 9 = [0, 1] ∧ row m2.e2c 11 = [0, 1] ∧
      row m2.e2c 13 = [0, 1]) ∧
    (init standard_tables two_cubes = Except.error Fault.assertion_failed ∨
      ∃ m2, init standard_tables two_cubes = Except.ok m2 ∧
        (∀ cid, (row m2.c2c cid).Nodup) ∧ ∀ cid, cid ∉ row m2.c2c cid) :=
  ⟨by decide, by decide, by decide, by decide, by decide,
    ⟨_, two_cubes_derived_eq, by decide, by decide, by decide, by decide, by decide⟩,
    c2c_deduplicated standard_tables (by decide) (by decide) (by decide) two_cubes
      (by decide) (by decide)⟩

/-! ## C23: `c2f` partitions the boundary faces by owner -/

/-- C23. The relation `c2f` partitions the boundary faces by owner: on an input
with in-range vertex ids (degenerate and non-manifold ones included) `init` can
only stop on the `c2c` assertion, and when it completes every derived face `fid`
occurs exactly once in the row of `c2f` of its owner `f2c(fid)`, which is a cell,
and in no other row; the rows of `c2f` hold face ids only, their lengths sum to
`num_faces`, and no row has more than 6 entries. -/
theorem c2f_partition (T : HexaTables) (hE : T.edges_in_range) (hF : T.faces_in_range)
    (m : Hexmesh) (hin : ids_in_range m) :
    init T m = Except.error Fault.assertion_failed ∨
      ∃ m2, init T m = Except.ok m2 ∧
        m2.c2f.length = num_cells m2 ∧
        (∀ fid < num_faces m2, m2.f2c.getD fid 0 < num_cells m2 ∧
          ∀ cid, (row m2.c2f cid).count fid = if cid = m2.f2c.getD fid 0 then 1 else 0) ∧
        (∀ cid, ∀ fid ∈ row m2.c2f cid, fid < num_faces m2) ∧
        (m2.c2f.map List.length).sum = num_faces m2 ∧
        (∀ cid, (row m2.c2f cid).length ≤ faces_per_cell) := by
  rcases init_cases T hE hF m hin with h | ⟨m1, h1, h2⟩
  · exact Or.inl h
  · refine Or.inr ⟨_, h2, ?_⟩
    obtain ⟨hv, hc, _, _, _, hr⟩ := update_interior_adjacency_frame T hE m m1 h1
    have hin1 : ids_in_range m1 := ids_in_range_congr hc hv hin
    obtain ⟨r1, r2, r3, _⟩ := surface_pure_rows T hF m1 hin1 hr
    obtain ⟨inc, _, hlen⟩ := surface_pure_incidence T hF m1 hin1 hr
    have hcells : (surface_pure T m1).cells = m1.cells := (surface_pure_frame T m1).cells
    have hnc : num_cells (surface_pure T m1) = num_cells m1 := num_cells_congr hcells
    rw [r1, hnc]
    refine ⟨hlen, ?_, ?_, inc.c2f_sum, surface_pure_c2f_le T m1⟩
    · intro fid hfid
      have hown : (surface_pure T m1).f2c.getD fid 0 = ((f2c_map_of T m1)[fid]).2.1 := by
        rw [r3 fid hfid, List.getD_eq_getElem _ _ (by simpa using hfid)]
        simp
      refine ⟨by rw [hown]; exact (f2c_map_entry T m1 fid hfid).1, ?_⟩
      intro cid
      have := inc.c2f cid fid
      rw [r3 fid hfid]
      rw [this]
      by_cases hcid : cid = ((f2c_map_of T m1).map (fun it => it.2.1)).getD fid 0
      · rw [if_pos hcid, if_pos ⟨hfid, hcid.symm⟩]
      · rw [if_neg hcid, if_neg (fun h => hcid h.2.symm)]
    · intro cid fid hfid
      have hcount : (row (surface_pure T m1).c2f cid).count fid = _ := inc.c2f cid fid
      by_contra hge
      rw [if_neg (fun h => hge h.1)] at hcount
      have hpos := List.count_pos_iff.2 hfid
      omega

set_option maxRecDepth 100000 in
theorem c2f_partition_witness :
    standard_tables.edges_in_range ∧ standard_tables.faces_in_range ∧ ids_in_range two_cubes ∧
    (∃ m2, init standard_tables two_cubes = Except.ok m2 ∧
      m2.c2f = [[0, 1, 2, 3, 4], [5, 6, 7, 8, 9]] ∧
      m2.f2c = [0, 0, 0, 0, 0, 1, 1, 1, 1, 1]) ∧
    (init standard_tables two_cubes = Except.error Fault.assertion_failed ∨
      ∃ m2, init standard_tables two_cubes = Except.ok m2 ∧
        m2.c2f.length = num_cells m2 ∧
        (∀ fid < num_faces m2, m2.f2c.getD fid 0 < num_cells m2 ∧
          ∀ cid, (row m2.c2f cid).count fid = if cid = m2.f2c.getD fid 0 then 1 else 0) ∧
        (∀ cid, ∀ fid ∈ row m2.c2f cid, fid < num_faces m2) ∧
        (m2.c2f.map List.length).sum = num_faces m2 ∧
        (∀ cid, (row m2.c2f cid).length ≤ faces_per_cell)) :=
  ⟨by decide, by decide, by decide, ⟨_, two_cubes_derived_eq, by decide, by decide⟩,
    c2f_partition standard_tables (by decide) (by decide) two_cubes (by decide)⟩

/-! ## C24: a boundary quad has exactly its four sides as incident edges -/

/-- C24. Every boundary quad has exactly its four sides as incident edges: when
every cell has 8 pairwise distinct in-range vertex ids (and the tables are those
of a hexahedron: every side of a local face is a local edge, a local edge with
both ends on a local face is a side of it, different local edges join different
pairs, no local face repeats a vertex), `init` can only stop on the `c2c`
assertion, and when it completes, for every derived face `fid`: `f2e(fid)` has 4
entries, pairwise distinct; an edge is in `f2e(fid)` iff it joins two cyclically
consecutive vertices `faces[4*fid+k]`, `faces[4*fid+(k+1) mod 4]` of the face as
stored, and each of the 4 sides is there; neither diagonal of the quad is in
`f2e(fid)`. -/
theorem quad_incident_edges (T : HexaTables) (hE : T.edges_in_range) (hF : T.faces_in_range)
    (hN : T.faces_nodup) (hB : T.faces_bounded_by_edges) (hD : T.edges_distinct)
    (hS : T.edges_on_sides) (m : Hexmesh) (hin : ids_in_range m) (hd : cells_distinct m) :
    init T m = Except.error Fault.assertion_failed ∨
      ∃ m2, init T m = Except.ok m2 ∧
        ∀ fid < num_faces m2,
          (row m2.f2e fid).length = 4 ∧ (row m2.f2e fid).Nodup ∧
          (∀ eid, eid ∈ row m2.f2e fid ↔ eid < num_edges m2 ∧ ∃ k < 4,
            edge_pair m2 eid =
              unique_pair (face_vid m2 fid k) (face_vid m2 fid ((k + 1) % 4))) ∧
          (∀ k < 4, ∃ eid ∈ row m2.f2e fid, edge_pair m2 eid =
            unique_pair (face_vid m2 fid k) (face_vid m2 fid ((k + 1) % 4))) ∧
          (∀ eid ∈ row m2.f2e fid,
            edge_pair m2 eid ≠ unique_pair (face_vid m2 fid 0) (face_vid m2 fid 2) ∧
            edge_pair m2 eid ≠ unique_pair (face_vid m2 fid 1) (face_vid m2 fid 3)) := by
  rcases init_cases T hE hF m hin with h | ⟨m1, h1, h2⟩
  · exact Or.inl h
  · obtain ⟨hv, hc, _, _, _, hr⟩ := update_interior_adjacency_frame T hE m m1 h1
    have hin1 := ids_in_range_congr hc hv hin
    have hd1 : cells_distinct m1 := cells_distinct_congr hc hd
    obtain ⟨r1, _, _, r4, _⟩ := surface_pure_rows T hF m1 hin1 hr
    have fr := surface_pure_frame T m1
    refine Or.inr ⟨surface_pure T m1, h2, ?_⟩
    intro fid hfid
    rw [r1] at hfid
    obtain ⟨e1, e2⟩ := f2c_map_entry T m1 fid hfid
    have hrow : row (surface_pure T m1).f2e fid = face_edges_of T m1 ((f2c_map_of T m1)[fid]) := by
      rw [r4 fid, List.getD_eq_getElem _ _ (by simpa using hfid)]
      simp
    have hne : num_edges (surface_pure T m1) = num_edges m1 := by
      unfold num_edges; rw [fr.edges]
    have hep : ∀ eid, edge_pair (surface_pure T m1) eid = edge_pair m1 eid := by
      intro eid
      unfold edge_pair edge_vid
      rw [fr.edges]
    have hfv : ∀ k < 4, face_vid (surface_pure T m1) fid k =
        cell_vid m1 ((f2c_map_of T m1)[fid]).2.1
          (T.HEXA_FACES ((f2c_map_of T m1)[fid]).2.2 k) :=
      fun k hk => face_vid_surface_pure T m1 fid k hfid hk
    obtain ⟨g1, g2, g3, g4⟩ :=
      face_edges_of_sides T hE hF hN hB hD hS m m1 hd h1 ((f2c_map_of T m1)[fid]) e1 e2
    have hmod : ∀ k, (k + 1) % 4 < 4 := fun k => Nat.mod_lt _ (by decide)
    rw [hrow, hne]
    refine ⟨g4, g1, ?_, ?_, ?_⟩
    · intro eid
      rw [g2 eid]
      constructor
      · rintro ⟨he, k, hk, hp⟩
        exact ⟨he, k, hk, by rw [hep, hfv k hk, hfv _ (hmod k)]; exact hp⟩
      · rintro ⟨he, k, hk, hp⟩
        exact ⟨he, k, hk, by rw [hep, hfv k hk, hfv _ (hmod k)] at hp; exact hp⟩
    · intro k hk
      obtain ⟨eid, q1, q2⟩ := g3 k hk
      exact ⟨eid, q1, by rw [hep, hfv k hk, hfv _ (hmod k)]; exact q2⟩
    · intro eid heid
      obtain ⟨_, k, hk, hp⟩ := (g2 eid).1 heid
      have hq := (quad_sides_nodup _ _ _ _
        (local_face_ids_nodup T hF hN m1 hd1 _ _ e1 e2)).2 (edge_pair m1 eid) (by
          rw [hp]
          simp only [List.mem_cons, List.mem_singleton, List.not_mem_nil, or_false]
          interval_cases k
          · exact Or.inl rfl
          · exact Or.inr (Or.inl rfl)
          · exact Or.inr (Or.inr (Or.inl rfl))
          · exact Or.inr (Or.inr (Or.inr rfl)))
      rw [hep, hfv 0 (by decide), hfv 1 (by decide), hfv 2 (by decide), hfv 3 (by decide)]
      exact hq

set_option maxRecDepth 100000 in
theorem quad_incident_edges_witness :
    standard_tables.edges_in_range ∧ standard_tables.faces_in_range ∧
    standard_tables.faces_nodup ∧ standard_tables.faces_bounded_by_edges ∧
    standard_tables.edges_distinct ∧ standard_tables.edges_on_sides ∧
    ids_in_range two_cubes ∧ cells_distinct two_cubes ∧
    (∃ m2, init standard_tables two_cubes = Except.ok m2 ∧
      row m2.f2e 1 = [0, 2, 4, 8] ∧ face_vids m2 1 = [0, 1, 5, 4] ∧
      [edge_pair m2 0, edge_pair m2 2, edge_pair m2 4, edge_pair m2 8] =
        [(0, 1), (0, 4), (1, 5), (4, 5)]) ∧
    (init standard_tables two_cubes = Except.error Fault.assertion_failed ∨
      ∃ m2, init standard_tables two_cubes = Except.ok m2 ∧
        ∀ fid < num_faces m2,
          (row m2.f2e fid).length = 4 ∧ (row m2.f2e fid).Nodup ∧
          (∀ eid, eid ∈ row m2.f2e fid ↔ eid < num_edges m2 ∧ ∃ k < 4,
            edge_pair m2 eid =
              unique_pair (face_vid m2 fid k) (face_vid m2 fid ((k + 1) % 4))) ∧
          (∀ k < 4, ∃ eid ∈ row m2.f2e fid, edge_pair m2 eid =
            unique_pair (face_vid m2 fid k) (face_vid m2 fid ((k + 1) % 4))) ∧
          (∀ eid ∈ row m2.f2e fid,
            edge_pair m2 eid ≠ unique_pair (face_vid m2 fid 0) (face_vid m2 fid 2) ∧
            edge_pair m2 eid ≠ unique_pair (face_vid m2 fid 1) (face_vid m2 fid 3))) :=
  ⟨by decide, by decide, by decide, by decide, by decide, by decide, by decide, by decide,
    ⟨_, two_cubes_derived_eq, by decide, by decide, by decide⟩,
    quad_incident_edges standard_tables (by decide) (by decide) (by decide) (by decide)
      (by decide) (by decide) two_cubes (by decide) (by decide)⟩

/-! ## C25: vertex-cell incidence -/

/-- C25. Vertex-cell incidence: on an input with in-range vertex ids `init` can
only stop on the `c2c` assertion, and when it completes, for every vertex `vid`
and every cell `cid` the number of occurrences of `cid` in `v2c(vid)` is the
number of local positions `off` in 0..7 with `cells[8*cid+off] = vid`, so that
`cell_contains_vert(cid, vid)` answers whether `cid` is in `v2c(vid)`; every row
`v2c(vid)` is in non-decreasing order of cell id; `v2c` has one row per vertex and
the lengths of its rows sum to `8 * num_cells`. -/
theorem vertex_cell_incidence (T : HexaTables) (hE : T.edges_in_range) (hF : T.faces_in_range)
    (m : Hexmesh) (hin : ids_in_range m) :
    init T m = Except.error Fault.assertion_failed ∨
      ∃ m2, init T m = Except.ok m2 ∧
        (∀ vid, ∀ cid < num_cells m2, (row m2.v2c vid).count cid =
          ((List.range verts_per_cell).filter
            (fun off => decide (m2.cells.getD (verts_per_cell * cid + off) 0 = vid))).length) ∧
        (∀ vid, ∀ cid < num_cells m2,
          cell_contains_vert m2 cid vid = Except.ok (decide (cid ∈ row m2.v2c vid))) ∧
        (∀ vid, (row m2.v2c vid).Sorted (fun a b => a ≤ b)) ∧
        m2.v2c.length = num_verts m2 ∧
        (m2.v2c.map List.length).sum = verts_per_cell * num_cells m2 := by
  rcases init_cases T hE hF m hin with h | ⟨m1, h1, h2⟩
  · exact Or.inl h
  · refine Or.inr ⟨_, h2, ?_⟩
    obtain ⟨hv, hc, _⟩ := update_interior_adjacency_frame T hE m m1 h1
    have fr := surface_pure_frame T m1
    obtain ⟨q1, q2, q3⟩ := update_interior_adjacency_v2c T m m1 h1
    have hcells : (surface_pure T m1).cells = m.cells := fr.cells.trans hc
    have hverts : (surface_pure T m1).verts = m.verts := fr.verts.trans hv
    have hnc : num_cells (surface_pure T m1) = num_cells m := num_cells_congr hcells
    have hcount : ∀ vid, ∀ cid < num_cells m, (row (surface_pure T m1).v2c vid).count cid =
        ((List.range verts_per_cell).filter
          (fun off => decide (m.cells.getD (verts_per_cell * cid + off) 0 = vid))).length := by
      intro vid cid hcid
      rw [fr.v2c, q1 vid, count_flatMap_replicate, if_pos hcid, count_map_eq_filter]
      congr 2
      funext off
      simp [cell_vid, Nat.mul_comm]
    rw [fr.v2c, hnc, hcells]
    rw [fr.v2c] at hcount
    refine ⟨hcount, ?_, ?_, ?_, q2⟩
    · intro vid cid hcid
      have ht := cell_contains_vert_total (surface_pure T m1) cid vid (by rw [hnc]; exact hcid)
      rw [ht]
      congr 1
      rw [Bool.eq_iff_iff, cell_contains_vert_pure_iff, decide_eq_true_iff,
        ← List.count_pos_iff, hcount vid cid hcid, List.length_pos_iff_exists_mem]
      constructor
      · rintro ⟨j, hj, e⟩
        refine ⟨j, List.mem_filter.2 ⟨List.mem_range.2 hj, ?_⟩⟩
        simp only [decide_eq_true_eq]
        rw [← e, cell_vid, hcells, Nat.mul_comm]
      · rintro ⟨j, hj⟩
        obtain ⟨j1, j2⟩ := List.mem_filter.1 hj
        simp only [decide_eq_true_eq] at j2
        refine ⟨j, List.mem_range.1 j1, ?_⟩
        rw [← j2, cell_vid, hcells, Nat.mul_comm]
    · intro vid
      rw [q1 vid]
      exact sorted_flatMap_replicate _ _
    · rw [q3]
      unfold num_verts
      rw [hverts]

set_option maxRecDepth 100000 in
theorem vertex_cell_incidence_witness :
    standard_tables.edges_in_range ∧ standard_tables.faces_in_range ∧ ids_in_range two_cubes ∧
    (∃ m2, init standard_tables two_cubes = Except.ok m2 ∧
      m2.v2c = [[0], [0], [0], [0], [0, 1], [0, 1], [0, 1], [0, 1], [1], [1], [1], [1]]) ∧
    (init standard_tables two_cubes = Except.error Fault.assertion_failed ∨
      ∃ m2, init standard_tables two_cubes = Except.ok m2 ∧
        (∀ vid, ∀ cid < num_cells m2, (row m2.v2c vid).count cid =
          ((List.range verts_per_cell).filter
            (fun off => decide (m2.cells.getD (verts_per_cell * cid + off) 0 = vid))).length) ∧
        (∀ vid, ∀ cid < num_cells m2,
          cell_contains_vert m2 cid vid = Except.ok (decide (cid ∈ row m2.v2c vid))) ∧
        (∀ vid, (row m2.v2c vid).Sorted (fun a b => a ≤ b)) ∧
        m2.v2c.length = num_verts m2 ∧
        (m2.v2c.map List.length).sum = verts_per_cell * num_cells m2) :=
  ⟨by decide, by decide, by decide, ⟨_, two_cubes_derived_eq, by decide⟩,
    vertex_cell_incidence standard_tables (by decide) (by decide) two_cubes (by decide)⟩

end cinolib
